import Mathlib

/-!
# Grammar-constrained decoding core (`llama-grammar.cpp`)

A shallow embedding of the grammar text parser, the pushdown evaluator, the
candidate filter, the incremental UTF-8 decoder and the left-recursion check of
`src/cpp/llama-grammar.cpp`, followed by theorems about them.

Conventions of the embedding:

* `uint32_t` values are `Nat`, reduced modulo `2^32` where the source
  arithmetic can wrap; `int n_remain` is an `Int`.
* A `const llama_grammar_element *` is an `elem_ptr`: the index of the rule
  and the index of the element inside that rule. Two pointers are equal iff
  both indices are equal, as for pointers into distinct vectors.
* A `llama_grammar_stack` is a list stored top-first: the head of the list is
  `stack.back()`, and `stack.begin() .. stack.end() - 1` is its tail.
* Reading an element past the end of a rule is undefined in the source; the
  embedding reads `END` there (`rules_at`). Rules held by a session always end
  with `END` (see `copy_rule`), so the scans never get there.
* `LM_GGML_ABORT` / a failed `LM_GGML_ASSERT` is `Fault.abort`; running out of
  the recursion budget of the embedding is `Fault.fuel`.
* A `const char *` into the grammar text is the list of bytes from that
  position on; `*pos` at the end of the list is the terminating 0 (`peek`).
* A `throw` of the parser is an `Except` error that carries which exception it
  is and, in the methods of the parser object, the object as it is at the
  `throw`; `parse` catches every exception.
* `unsigned long` has 64 bits (`stoul`); the narrowing to `int` is modulo
  `2^32` (`to_int`). Differences of two `int` counts are taken in `Int`: the
  source leaves their overflow undefined. The casts of the symbol-table size
  to `uint32_t` are the identity for a table of fewer than `2^32` entries and
  are left out.
* `llama_grammar_init_impl` is the overload on a rule table and
  `llama_grammar_init_impl_str` the overload on a grammar text; the
  `std::out_of_range` of `symbol_ids.at` and the `std::regex_error` of a
  trigger pattern are outcomes of the latter.
* Cloning needs pointers that say which object they point into. Next to the
  sessions on positions there are session objects in a memory
  (`grammar_object`, `grammar_memory`) whose stack entries are addresses
  (`elem_addr`: owner and position), with the evaluator and
  `llama_grammar_accept_impl` on addresses (the `_obj` definitions) and
  `llama_grammar_clone_impl` with its redirection loops (`clone_redirect`).
  `store_session` lays a session on positions out at an address.
* The regular-expression engine is a parameter: `regex_compiles` says whether
  `std::regex(pattern)` constructs or throws, and `regex_match` gives a match
  as the list of the positions and lengths of its groups, group 0 first. The
  source calls `std::regex_match`, which matches the whole buffer; the
  instances `anchored_begin_match` and `suffix_begin_match` are that call on
  the two patterns of the lazy-trigger example.
* Next to the budgeted evaluator there is a budget-free reading of it as
  relations (`stack_advances`, `stack_steps`, `stack_survives`); the lemmas
  `advance_stack_mem` and `accept_stacks_mem` tie the two together.
* The shape of the rules the parser stores is `table_ok`: alternatives of
  items (`alt_seq`, `item_seq`) closed by one `END`. It is proved of every
  table a successful `parse` leaves and gives `grammar_wf`.
-/

namespace LlamaGrammar

/-! ## Data model -/

/-- The element kinds, `enum llama_gretype`. -/
inductive llama_gretype
  | END
  | ALT
  | RULE_REF
  | CHAR
  | CHAR_NOT
  | CHAR_RNG_UPPER
  | CHAR_ALT
  | CHAR_ANY
  deriving DecidableEq, Repr

/-- A grammar element, `struct llama_grammar_element { type; value; }`. -/
structure llama_grammar_element where
  type : llama_gretype
  value : Nat
  deriving DecidableEq, Repr

abbrev llama_grammar_rule := List llama_grammar_element

abbrev llama_grammar_rules := List llama_grammar_rule

/-- A pointer to an element of the rule table. -/
structure elem_ptr where
  rule : Nat
  idx : Nat
  deriving DecidableEq, Repr

/-- A pushdown stack, stored top-first. -/
abbrev llama_grammar_stack := List elem_ptr

abbrev llama_grammar_stacks := List llama_grammar_stack

/-- The partial UTF-8 state, `struct llama_partial_utf8 { value; n_remain; }`. -/
structure llama_partial_utf8 where
  value : Nat
  n_remain : Int
  deriving DecidableEq, Repr

/-- The ways a run of the embedded code can stop without a result. -/
inductive Fault
  | abort
  | fuel
  deriving DecidableEq, Repr

abbrev Run (α : Type) := Except Fault α

/-- The element at index `i` of a rule; `END` past the end. -/
def rule_at (rule : llama_grammar_rule) (i : Nat) : llama_grammar_element :=
  rule.getD i ⟨llama_gretype.END, 0⟩

/-- The element a pointer designates, `*pos`. -/
def rules_at (rules : llama_grammar_rules) (pos : elem_ptr) : llama_grammar_element :=
  rule_at (rules.getD pos.rule []) pos.idx

/-- The pointer `pos + k`. -/
def elem_ptr.add (pos : elem_ptr) (k : Nat) : elem_ptr :=
  ⟨pos.rule, pos.idx + k⟩

/-! ## Character classes -/

/-- Source: `llama_grammar_is_end_of_sequence`. -/
def llama_grammar_is_end_of_sequence (e : llama_grammar_element) : Bool :=
  match e.type with
  | llama_gretype.END => true
  | llama_gretype.ALT => true
  | _ => false

/-- The `do { ... } while (pos->type == CHAR_ALT)` loop of
`llama_grammar_match_char` over one rule: `pos` is the element index, `found`
the accumulator. Each round moves `pos` forward, so `rule.length` rounds are
enough (the loop leaves as soon as it reads past the end). -/
def match_char_loop (rule : llama_grammar_rule) (chr : Nat) :
    Nat → Nat → Bool → Bool × Nat
  | 0, pos, found => (found, pos)
  | fuel + 1, pos, found =>
    let step : Bool × Nat :=
      if (rule_at rule (pos + 1)).type = llama_gretype.CHAR_RNG_UPPER then
        (found || (decide ((rule_at rule pos).value ≤ chr) &&
          decide (chr ≤ (rule_at rule (pos + 1)).value)), pos + 2)
      else if (rule_at rule pos).type = llama_gretype.CHAR_ANY then
        (true, pos + 1)
      else
        (found || decide ((rule_at rule pos).value = chr), pos + 1)
    if (rule_at rule step.2).type = llama_gretype.CHAR_ALT then
      match_char_loop rule chr fuel step.2 step.1
    else
      step

/-- Source: `llama_grammar_match_char`. Returns whether `chr` satisfies the
class at `pos` and the pointer just after the class; aborts when `pos` is not
a `CHAR`, `CHAR_ANY` or `CHAR_NOT` element. -/
def llama_grammar_match_char (rules : llama_grammar_rules) (pos : elem_ptr) (chr : Nat) :
    Run (Bool × elem_ptr) :=
  let rule := rules.getD pos.rule []
  let is_positive_char : Bool :=
    decide ((rule_at rule pos.idx).type = llama_gretype.CHAR) ||
    decide ((rule_at rule pos.idx).type = llama_gretype.CHAR_ANY)
  if is_positive_char || decide ((rule_at rule pos.idx).type = llama_gretype.CHAR_NOT) then
    let r := match_char_loop rule chr (rule.length + 1) pos.idx false
    .ok (r.1 == is_positive_char, ⟨pos.rule, r.2⟩)
  else
    .error Fault.abort

/-- The scan loop of `llama_grammar_match_partial_char`: `some b` when the loop
returns `b` from inside, `none` when it runs to the end of the class. -/
def match_partial_char_loop (rule : llama_grammar_rule) (low high : Nat)
    (is_positive_char : Bool) : Nat → Nat → Option Bool
  | 0, _ => none
  | fuel + 1, pos =>
    if (rule_at rule (pos + 1)).type = llama_gretype.CHAR_RNG_UPPER then
      if (rule_at rule pos).value ≤ high ∧ low ≤ (rule_at rule (pos + 1)).value then
        some is_positive_char
      else if (rule_at rule (pos + 2)).type = llama_gretype.CHAR_ALT then
        match_partial_char_loop rule low high is_positive_char fuel (pos + 2)
      else none
    else if (rule_at rule pos).type = llama_gretype.CHAR_ANY then
      some true
    else
      if low ≤ (rule_at rule pos).value ∧ (rule_at rule pos).value ≤ high then
        some is_positive_char
      else if (rule_at rule (pos + 1)).type = llama_gretype.CHAR_ALT then
        match_partial_char_loop rule low high is_positive_char fuel (pos + 1)
      else none

/-- The interval `[low, high]` of code points a partial sequence can complete
to, as `llama_grammar_match_partial_char` computes it in `uint32_t`. -/
def partial_range (partial_value : Nat) (n_remain : Int) : Nat × Nat :=
  let sh := n_remain.toNat * 6
  let low := (partial_value <<< sh) % 2 ^ 32
  let high := low ||| (((1 <<< sh) - 1) % 2 ^ 32)
  let low :=
    if low = 0 then
      if n_remain = 2 then 1 <<< 11
      else if n_remain = 3 then 1 <<< 16
      else low
    else low
  (low, high)

/-- Source: `llama_grammar_match_partial_char`. -/
def llama_grammar_match_partial_char (rules : llama_grammar_rules) (pos : elem_ptr)
    (partial_utf8 : llama_partial_utf8) : Run Bool :=
  let rule := rules.getD pos.rule []
  let is_positive_char : Bool :=
    decide ((rule_at rule pos.idx).type = llama_gretype.CHAR) ||
    decide ((rule_at rule pos.idx).type = llama_gretype.CHAR_ANY)
  if is_positive_char || decide ((rule_at rule pos.idx).type = llama_gretype.CHAR_NOT) then
    let partial_value := partial_utf8.value
    let n_remain := partial_utf8.n_remain
    if n_remain < 0 ∨ (n_remain = 1 ∧ partial_value < 2) then
      .ok false
    else
      let lh := partial_range partial_value n_remain
      match match_partial_char_loop rule lh.1 lh.2 is_positive_char (rule.length + 1) pos.idx with
      | some b => .ok b
      | none => .ok (!is_positive_char)
  else
    .error Fault.abort

/-! ## Incremental UTF-8 decoder -/

/-- The table `lookup` of the incremental `decode_utf8`: bytes of the sequence
a first byte with the given high nibble starts (0 for a continuation byte). -/
def decode_utf8_lookup : List Int := [1, 1, 1, 1, 1, 1, 1, 1, 0, 0, 0, 0, 2, 2, 3, 4]

/-- First loop of `decode_utf8`: continue the carried-in sequence while bytes
remain (a zero byte ends the C string) and `n_remain > 0`. `none` is the
`invalid sequence, abort` return; otherwise the unread bytes, `value` and
`n_remain`. -/
def decode_utf8_continue : List Nat → Nat → Int → Option (List Nat × Nat × Int)
  | [], value, n_remain => some ([], value, n_remain)
  | b :: bs, value, n_remain =>
    if b ≠ 0 ∧ n_remain > 0 then
      if b >>> 6 ≠ 2 then none
      else decode_utf8_continue bs (((value <<< 6) + (b &&& 0x3F)) % 2 ^ 32) (n_remain - 1)
    else some (b :: bs, value, n_remain)

/-- Second loop of `decode_utf8` with its inner loop, read one byte at a time:
with `n_remain > 0` the byte is taken by the inner `while` (no validity test
there), otherwise it is the first byte of a new sequence. The result is the
code points (terminating 0 appended) and the partial state. -/
def decode_utf8_main : List Nat → Nat → Int → List Nat → List Nat × llama_partial_utf8
  | [], value, n_remain, code_points => (code_points ++ [0], ⟨value, n_remain⟩)
  | b :: bs, value, n_remain, code_points =>
    if b = 0 then (code_points ++ [0], ⟨value, n_remain⟩)
    else if n_remain > 0 then
      let value := ((value <<< 6) + (b &&& 0x3F)) % 2 ^ 32
      let n_remain := n_remain - 1
      decode_utf8_main bs value n_remain
        (if n_remain = 0 then code_points ++ [value] else code_points)
    else
      let n_remain := decode_utf8_lookup.getD (b >>> 4) 0 - 1
      if n_remain < 0 then ([0], ⟨0, n_remain⟩)
      else
        let mask := (1 <<< (7 - n_remain).toNat) - 1
        let value := b &&& mask
        decode_utf8_main bs value n_remain
          (if n_remain = 0 then code_points ++ [value] else code_points)

/-- Source: `decode_utf8(const std::string & src, llama_partial_utf8 partial_start)`.
The piece is its list of bytes; decoding stops at the first zero byte, as the
source walks `src.c_str()`. -/
def decode_utf8 (src : List Nat) (partial_start : llama_partial_utf8) :
    List Nat × llama_partial_utf8 :=
  match decode_utf8_continue src partial_start.value partial_start.n_remain with
  | none => ([0], ⟨0, -1⟩)
  | some (rest, value, n_remain) =>
    decode_utf8_main rest value n_remain
      (if partial_start.n_remain > 0 ∧ n_remain = 0 then [value] else [])

/-! ## Stack evaluator -/

/-- Start indices of the alternatives that follow, found by the scan
`while (!is_end_of_sequence(subpos)) subpos++; if (subpos->type == ALT) subpos++ else break`
over the elements from index `i` on. -/
def scan_alternates : List llama_grammar_element → Nat → List Nat
  | [], _ => []
  | e :: es, i =>
    match e.type with
    | llama_gretype.ALT => (i + 1) :: scan_alternates es (i + 1)
    | llama_gretype.END => []
    | _ => scan_alternates es (i + 1)

/-- The positions `subpos` visited by the `do { ... } while (true)` loops over
the alternatives of a rule: index 0, then the index after each `ALT`. -/
def rule_alternates (rule : llama_grammar_rule) : List Nat :=
  0 :: scan_alternates rule 0

/-- Append a stack unless an equal one is present (`std::find` then `emplace_back`). -/
def push_unique (new_stacks : llama_grammar_stacks) (stack : llama_grammar_stack) :
    llama_grammar_stacks :=
  if stack ∈ new_stacks then new_stacks else new_stacks ++ [stack]

/-- Push `pos` unless it is the end of an alternative. -/
def push_unless_end (rules : llama_grammar_rules) (pos : elem_ptr)
    (stack : llama_grammar_stack) : llama_grammar_stack :=
  if llama_grammar_is_end_of_sequence (rules_at rules pos) then stack else pos :: stack

/-- Source: `llama_grammar_advance_stack`. The first argument bounds the number
of nested calls. -/
def llama_grammar_advance_stack :
    Nat → llama_grammar_rules → llama_grammar_stack → llama_grammar_stacks →
      Run llama_grammar_stacks
  | 0, _, _, _ => .error Fault.fuel
  | fuel + 1, rules, stack, new_stacks =>
    match stack with
    | [] => .ok (push_unique new_stacks stack)
    | pos :: rest =>
      match (rules_at rules pos).type with
      | llama_gretype.RULE_REF =>
        let rule_id := (rules_at rules pos).value
        (rule_alternates (rules.getD rule_id [])).foldlM
          (fun acc sub =>
            llama_grammar_advance_stack fuel rules
              (push_unless_end rules ⟨rule_id, sub⟩ (push_unless_end rules (pos.add 1) rest))
              acc)
          new_stacks
      | llama_gretype.CHAR => .ok (push_unique new_stacks stack)
      | llama_gretype.CHAR_NOT => .ok (push_unique new_stacks stack)
      | llama_gretype.CHAR_ANY => .ok (push_unique new_stacks stack)
      | _ => .error Fault.abort

/-- One round of the loop of `llama_grammar_accept` over the stacks. -/
def accept_stack (fuel : Nat) (rules : llama_grammar_rules) (chr : Nat)
    (stacks_new : llama_grammar_stacks) (stack : llama_grammar_stack) :
    Run llama_grammar_stacks :=
  match stack with
  | [] => .ok stacks_new
  | top :: rest =>
    match llama_grammar_match_char rules top chr with
    | .error e => .error e
    | .ok m =>
      if m.1 then
        llama_grammar_advance_stack fuel rules (push_unless_end rules m.2 rest) stacks_new
      else .ok stacks_new

/-- The frontier `llama_grammar_accept` computes from the stacks for `chr`. -/
def accept_stacks (fuel : Nat) (rules : llama_grammar_rules)
    (cur_stacks : llama_grammar_stacks) (chr : Nat) : Run llama_grammar_stacks :=
  cur_stacks.foldlM (accept_stack fuel rules chr) []

/-! ## Candidate filter -/

/-- A candidate token, `struct llama_grammar_candidate { index; code_points; partial_utf8; }`.
The pointer `code_points` is the decoded buffer together with the cursor
`cp_pos` into it. -/
structure llama_grammar_candidate where
  index : Nat
  code_points : List Nat
  cp_pos : Nat
  partial_utf8 : llama_partial_utf8
  deriving DecidableEq, Repr

abbrev llama_grammar_candidates := List llama_grammar_candidate

/-- The code point under the cursor, `*tok.code_points` (0 past the buffer). -/
def llama_grammar_candidate.cur (tok : llama_grammar_candidate) : Nat :=
  tok.code_points.getD tok.cp_pos 0

/-- The candidate with `code_points + 1`. -/
def llama_grammar_candidate.next (tok : llama_grammar_candidate) : llama_grammar_candidate :=
  ⟨tok.index, tok.code_points, tok.cp_pos + 1, tok.partial_utf8⟩

/-- The candidate with `code_points - 1`. -/
def llama_grammar_candidate.prev (tok : llama_grammar_candidate) : llama_grammar_candidate :=
  ⟨tok.index, tok.code_points, tok.cp_pos - 1, tok.partial_utf8⟩

/-- The first loop of `llama_grammar_reject_candidates_for_stack` on a
non-empty stack: splits the candidates into `rejects` and `next_candidates`. -/
def partition_candidates (rules : llama_grammar_rules) (stack_pos : elem_ptr) :
    llama_grammar_candidates → Run (llama_grammar_candidates × llama_grammar_candidates)
  | [] => .ok ([], [])
  | tok :: toks =>
    if tok.cur = 0 then
      if tok.partial_utf8.n_remain ≠ 0 then
        match llama_grammar_match_partial_char rules stack_pos tok.partial_utf8 with
        | .error e => .error e
        | .ok b =>
          match partition_candidates rules stack_pos toks with
          | .error e => .error e
          | .ok (rejects, next_candidates) =>
            if b then .ok (rejects, next_candidates) else .ok (tok :: rejects, next_candidates)
      else partition_candidates rules stack_pos toks
    else
      match llama_grammar_match_char rules stack_pos tok.cur with
      | .error e => .error e
      | .ok m =>
        match partition_candidates rules stack_pos toks with
        | .error e => .error e
        | .ok (rejects, next_candidates) =>
          if m.1 then .ok (rejects, tok.next :: next_candidates)
          else .ok (tok :: rejects, next_candidates)

mutual

/-- Source: `llama_grammar_reject_candidates`. -/
def llama_grammar_reject_candidates :
    Nat → llama_grammar_rules → llama_grammar_stacks → llama_grammar_candidates →
      Run llama_grammar_candidates
  | 0, _, _, _ => .error Fault.fuel
  | fuel + 1, rules, cur_stacks, candidates =>
    match cur_stacks with
    | [] => .error Fault.abort
    | front :: others =>
      if candidates.isEmpty then .ok []
      else
        match llama_grammar_reject_candidates_for_stack fuel rules front candidates with
        | .error e => .error e
        | .ok rejects =>
          others.foldlM
            (fun rejects stack =>
              llama_grammar_reject_candidates_for_stack fuel rules stack rejects)
            rejects

/-- Source: `llama_grammar_reject_candidates_for_stack`. -/
def llama_grammar_reject_candidates_for_stack :
    Nat → llama_grammar_rules → llama_grammar_stack → llama_grammar_candidates →
      Run llama_grammar_candidates
  | 0, _, _, _ => .error Fault.fuel
  | fuel + 1, rules, stack, candidates =>
    match stack with
    | [] =>
      .ok (candidates.filter
        (fun tok => decide (tok.cur ≠ 0) || decide (tok.partial_utf8.n_remain ≠ 0)))
    | stack_pos :: rest =>
      match partition_candidates rules stack_pos candidates with
      | .error e => .error e
      | .ok (rejects, next_candidates) =>
        match llama_grammar_match_char rules stack_pos 0 with
        | .error e => .error e
        | .ok m =>
          match llama_grammar_advance_stack fuel rules (push_unless_end rules m.2 rest) [] with
          | .error e => .error e
          | .ok next_stacks =>
            match llama_grammar_reject_candidates fuel rules next_stacks next_candidates with
            | .error e => .error e
            | .ok next_rejects =>
              .ok (rejects ++ next_rejects.map llama_grammar_candidate.prev)

end

/-! ## Left-recursion check -/

/-- The three `std::vector<bool>` of the left-recursion check. -/
structure lr_state where
  rules_visited : List Bool
  rules_in_progress : List Bool
  rules_may_be_empty : List Bool
  deriving DecidableEq, Repr

/-- First loop of `llama_grammar_detect_left_recursion`: whether the rule has an
alternative that is empty at its start. -/
def rule_has_empty_alternate : llama_grammar_rule → Bool → Bool
  | [], _ => false
  | e :: es, at_rule_start =>
    if llama_grammar_is_end_of_sequence e then
      if at_rule_start then true else rule_has_empty_alternate es true
    else rule_has_empty_alternate es false

/-- Second loop of `llama_grammar_detect_left_recursion` over the elements of
the rule, with `detect` standing for the nested call. The result is `true`
when a nested call reported left recursion. -/
def detect_loop (detect : Nat → lr_state → Run (Bool × lr_state)) :
    llama_grammar_rule → Bool → lr_state → Run (Bool × lr_state)
  | [], _, st => .ok (false, st)
  | e :: es, recurse_into_nonterminal, st =>
    if e.type = llama_gretype.RULE_REF ∧ recurse_into_nonterminal = true then
      match detect e.value st with
      | .error err => .error err
      | .ok (true, st1) => .ok (true, st1)
      | .ok (false, st1) =>
        if st1.rules_may_be_empty.getD e.value false then detect_loop detect es true st1
        else detect_loop detect es false st1
    else if llama_grammar_is_end_of_sequence e then detect_loop detect es true st
    else detect_loop detect es false st

/-- Source: `llama_grammar_detect_left_recursion`. The first argument bounds the
depth of the nested calls. -/
def llama_grammar_detect_left_recursion :
    Nat → llama_grammar_rules → Nat → lr_state → Run (Bool × lr_state)
  | 0, _, _, _ => .error Fault.fuel
  | fuel + 1, rules, rule_index, st =>
    if st.rules_in_progress.getD rule_index false then .ok (true, st)
    else
      let st1 : lr_state :=
        { st with rules_in_progress := st.rules_in_progress.set rule_index true }
      let rule := rules.getD rule_index []
      let st2 : lr_state :=
        if rule_has_empty_alternate rule true then
          { st1 with rules_may_be_empty := st1.rules_may_be_empty.set rule_index true }
        else st1
      match detect_loop (llama_grammar_detect_left_recursion fuel rules) rule true st2 with
      | .error err => .error err
      | .ok (true, st3) => .ok (true, st3)
      | .ok (false, st3) =>
        .ok (false,
          { st3 with
            rules_in_progress := st3.rules_in_progress.set rule_index false
            rules_visited := st3.rules_visited.set rule_index true })

/-- The loop `for (i = 0; i < n_rules; i++)` of `llama_grammar_init_impl` that
runs the check from every rule not yet visited; `true` when left recursion is
reported. The argument is the list of indices still to run. -/
def check_left_recursion (fuel : Nat) (rules : llama_grammar_rules) :
    List Nat → lr_state → Run Bool
  | [], _ => .ok false
  | i :: is, st =>
    if st.rules_visited.getD i false then check_left_recursion fuel rules is st
    else
      match llama_grammar_detect_left_recursion fuel rules i st with
      | .error err => .error err
      | .ok (true, _) => .ok true
      | .ok (false, st1) => check_left_recursion fuel rules is st1

/-- The state of the check at its start: three vectors of `n_rules` times `false`. -/
def lr_state_init (n_rules : Nat) : lr_state :=
  ⟨List.replicate n_rules false, List.replicate n_rules false, List.replicate n_rules false⟩

/-! ## Grammar session -/

/-- What the core consumes of `llama_vocab`: the piece of a token (its bytes)
and the end-of-generation predicate. -/
structure llama_vocab where
  token_to_piece : Nat → List Nat
  is_eog : Nat → Bool

/-- A logit: a finite value, never inspected by the core, or `-INFINITY`. -/
inductive logit_t
  | finite (x : Int)
  | neg_infinity
  deriving DecidableEq, Repr

/-- An entry of the logit array, `llama_token_data { id; logit; }`. -/
structure llama_token_data where
  id : Nat
  logit : logit_t
  deriving DecidableEq, Repr

/-- The session, `struct llama_grammar`. The vocabulary is passed alongside;
a trigger pattern is kept as its source text. -/
structure llama_grammar where
  rules : llama_grammar_rules
  cur_stacks : llama_grammar_stacks
  partial_utf8 : llama_partial_utf8
  lazy : Bool
  awaiting_trigger : Bool
  trigger_buffer : List Nat
  trigger_tokens : List Nat
  trigger_patterns : List String
  deriving DecidableEq, Repr

/-- Source: `llama_grammar_accept`. -/
def llama_grammar_accept (fuel : Nat) (grammar : llama_grammar) (chr : Nat) :
    Run llama_grammar :=
  match accept_stacks fuel grammar.rules grammar.cur_stacks chr with
  | .error e => .error e
  | .ok stacks_new => .ok { grammar with cur_stacks := stacks_new }

/-- The loop of `llama_grammar_accept_str` over the decoded code points. -/
def accept_code_points (fuel : Nat) : llama_grammar → List Nat → Run llama_grammar
  | grammar, [] => .ok grammar
  | grammar, chr :: chrs =>
    match llama_grammar_accept fuel grammar chr with
    | .error e => .error e
    | .ok grammar1 => accept_code_points fuel grammar1 chrs

/-- The two ways `llama_grammar_accept_str` ends: it returns, or it throws
`Unexpected empty grammar stack after accepting piece`. In both the session
has been updated in place. -/
inductive accept_outcome
  | done (grammar : llama_grammar)
  | parse_error (grammar : llama_grammar)
  deriving DecidableEq, Repr

/-- Source: `llama_grammar_accept_str`. -/
def llama_grammar_accept_str (fuel : Nat) (grammar : llama_grammar) (piece : List Nat) :
    Run accept_outcome :=
  let decoded := decode_utf8 piece grammar.partial_utf8
  match accept_code_points fuel grammar decoded.1.dropLast with
  | .error e => .error e
  | .ok grammar1 =>
    let grammar2 : llama_grammar := { grammar1 with partial_utf8 := decoded.2 }
    if grammar2.cur_stacks.isEmpty then .ok (accept_outcome.parse_error grammar2)
    else .ok (accept_outcome.done grammar2)

/-- The first loop of `llama_grammar_apply_impl` over the logit array from index
`i` on: masks end-of-generation tokens and tokens with an empty piece or a
leading zero byte, and collects a candidate for every other token. -/
def apply_scan (vocab : llama_vocab) (grammar : llama_grammar) (allow_eog : Bool) :
    List llama_token_data → Nat → List llama_token_data × llama_grammar_candidates
  | [], _ => ([], [])
  | d :: ds, i =>
    let r := apply_scan vocab grammar allow_eog ds (i + 1)
    let piece := vocab.token_to_piece d.id
    if vocab.is_eog d.id then
      if !allow_eog then (⟨d.id, logit_t.neg_infinity⟩ :: r.1, r.2) else (d :: r.1, r.2)
    else if piece.isEmpty ∨ piece.head? = some 0 then
      (⟨d.id, logit_t.neg_infinity⟩ :: r.1, r.2)
    else
      let decoded := decode_utf8 piece grammar.partial_utf8
      (d :: r.1, ⟨i, decoded.1, 0, decoded.2⟩ :: r.2)

/-- The assignment `cur_p->data[index].logit = -INFINITY`. -/
def mask_logit (cur_p : List llama_token_data) (index : Nat) : List llama_token_data :=
  match cur_p.get? index with
  | none => cur_p
  | some d => cur_p.set index ⟨d.id, logit_t.neg_infinity⟩

/-- Source: `llama_grammar_apply_impl`. -/
def llama_grammar_apply_impl (fuel : Nat) (vocab : llama_vocab) (grammar : llama_grammar)
    (cur_p : List llama_token_data) : Run (List llama_token_data) :=
  if grammar.awaiting_trigger then .ok cur_p
  else
    let allow_eog := grammar.cur_stacks.any List.isEmpty
    let scanned := apply_scan vocab grammar allow_eog cur_p 0
    match llama_grammar_reject_candidates fuel grammar.rules grammar.cur_stacks scanned.2 with
    | .error e => .error e
    | .ok rejects => .ok (rejects.foldl (fun acc reject => mask_logit acc reject.index) scanned.1)

/-- The copy of a rule made by `llama_grammar_init_impl`: the elements up to the
first `END`, then `END`. -/
def copy_rule (rule : llama_grammar_rule) : llama_grammar_rule :=
  rule.takeWhile (fun e => decide (e.type ≠ llama_gretype.END)) ++ [⟨llama_gretype.END, 0⟩]

/-- The loop of `llama_grammar_init_impl` over the alternatives of the start
rule that builds the initial stacks. -/
def init_stacks (fuel : Nat) (vec_rules : llama_grammar_rules) (start_rule_index : Nat) :
    Run llama_grammar_stacks :=
  (rule_alternates (vec_rules.getD start_rule_index [])).foldlM
    (fun acc sub =>
      llama_grammar_advance_stack fuel vec_rules
        (push_unless_end vec_rules ⟨start_rule_index, sub⟩ []) acc)
    []

/-- Source: `llama_grammar_init_impl` on a rule table (the overload taking
`rules`, `n_rules`, `start_rule_index`; the overload taking the grammar text
runs the same statements on the table the parser produced, and then stores the
lazy flag and the triggers). `none` is the `nullptr` returned when left
recursion is detected. -/
def llama_grammar_init_impl (fuel : Nat) (rules : llama_grammar_rules)
    (start_rule_index : Nat) (lazy : Bool) (trigger_tokens : List Nat)
    (trigger_patterns : List String) : Run (Option llama_grammar) :=
  let vec_rules := rules.map copy_rule
  let n_rules := rules.length
  match check_left_recursion fuel vec_rules (List.range n_rules) (lr_state_init n_rules) with
  | .error e => .error e
  | .ok true => .ok none
  | .ok false =>
    match init_stacks fuel vec_rules start_rule_index with
    | .error e => .error e
    | .ok init_stacks_result =>
      .ok (some ⟨vec_rules, init_stacks_result, ⟨0, 0⟩, lazy, lazy, [], trigger_tokens,
        trigger_patterns⟩)

/-- The start offset `llama_grammar_accept_impl` takes from a regex match: the
position of the first capture group (index 1 and up) of positive length, else
the position of group 0. A match is the list of `(position, length)` of its
groups, group 0 first. -/
def trigger_start (groups : List (Nat × Nat)) : Nat :=
  match groups.tail.find? (fun g => decide (g.2 > 0)) with
  | some g => g.1
  | none => (groups.headD (0, 0)).1

/-- The loop of `llama_grammar_accept_impl` over the trigger patterns, with
`regex_match pattern buffer` standing for `std::regex_match` (the groups of the
match, or `none`). `none` when no pattern matches. -/
def find_trigger (regex_match : String → List Nat → Option (List (Nat × Nat)))
    (buffer : List Nat) : List String → Option Nat
  | [] => none
  | pattern :: patterns =>
    match regex_match pattern buffer with
    | some groups => some (trigger_start groups)
    | none => find_trigger regex_match buffer patterns

/-- Source: `llama_grammar_accept_impl`. -/
def llama_grammar_accept_impl (fuel : Nat) (vocab : llama_vocab)
    (regex_match : String → List Nat → Option (List (Nat × Nat)))
    (grammar : llama_grammar) (token : Nat) : Run accept_outcome :=
  let piece := vocab.token_to_piece token
  if grammar.awaiting_trigger then
    if token ∈ grammar.trigger_tokens then
      llama_grammar_accept_str fuel
        { grammar with awaiting_trigger := false, trigger_buffer := [] } piece
    else
      let buffer := grammar.trigger_buffer ++ piece
      match find_trigger regex_match buffer grammar.trigger_patterns with
      | some start =>
        llama_grammar_accept_str fuel
          { grammar with awaiting_trigger := false, trigger_buffer := [] } (buffer.drop start)
      | none => .ok (accept_outcome.done { grammar with trigger_buffer := buffer })
  else if vocab.is_eog token then
    if grammar.cur_stacks.any List.isEmpty then .ok (accept_outcome.done grammar)
    else .error Fault.abort
  else llama_grammar_accept_str fuel grammar piece

/-- The session an outcome carries. -/
def accept_outcome.grammar : accept_outcome → llama_grammar
  | accept_outcome.done g => g
  | accept_outcome.parse_error g => g

/-! ## Properties stated about the code -/

/-- A stack is empty or its top is a `CHAR`, `CHAR_NOT` or `CHAR_ANY` element. -/
def stack_top_ok (rules : llama_grammar_rules) : llama_grammar_stack → Bool
  | [] => true
  | top :: _ =>
    match (rules_at rules top).type with
    | llama_gretype.CHAR => true
    | llama_gretype.CHAR_NOT => true
    | llama_gretype.CHAR_ANY => true
    | _ => false

/-- The sessions a host can hold: the one `llama_grammar_init_impl` returns, and
those obtained from it by `llama_grammar_accept`, `llama_grammar_accept_str`
and `llama_grammar_accept_impl` calls that come back (normally or with the
parse-progress error). -/
inductive session_reachable : llama_grammar → Prop
  | init (fuel : Nat) (rules : llama_grammar_rules) (start_rule_index : Nat) (lazy : Bool)
      (trigger_tokens : List Nat) (trigger_patterns : List String) (g : llama_grammar) :
      llama_grammar_init_impl fuel rules start_rule_index lazy trigger_tokens trigger_patterns
        = .ok (some g) → session_reachable g
  | accept (fuel : Nat) (g g1 : llama_grammar) (chr : Nat) :
      session_reachable g → llama_grammar_accept fuel g chr = .ok g1 → session_reachable g1
  | accept_str (fuel : Nat) (g : llama_grammar) (piece : List Nat) (o : accept_outcome) :
      session_reachable g → llama_grammar_accept_str fuel g piece = .ok o →
      session_reachable o.grammar
  | accept_impl (fuel : Nat) (vocab : llama_vocab)
      (regex_match : String → List Nat → Option (List (Nat × Nat)))
      (g : llama_grammar) (token : Nat) (o : accept_outcome) :
      session_reachable g → llama_grammar_accept_impl fuel vocab regex_match g token = .ok o →
      session_reachable o.grammar

/-- Every stack of a frontier is empty or has a character-class top. -/
def frontier_ok (rules : llama_grammar_rules) (ss : llama_grammar_stacks) : Prop :=
  ∀ s ∈ ss, stack_top_ok rules s = true

/-! ## Character classes as the spec describes them -/

/-- One entry of a character class as the spec lists them: a single code point
or an inclusive range. -/
inductive class_item
  | single (c : Nat)
  | range (lo hi : Nat)
  deriving DecidableEq, Repr

/-- The elements that spell an entry; `type` is the kind of its first element. -/
def class_item.encode (type : llama_gretype) : class_item → List llama_grammar_element
  | class_item.single c => [⟨type, c⟩]
  | class_item.range lo hi => [⟨type, lo⟩, ⟨llama_gretype.CHAR_RNG_UPPER, hi⟩]

/-- Whether the entry contains the code point. -/
def class_item.has (chr : Nat) : class_item → Bool
  | class_item.single c => decide (c = chr)
  | class_item.range lo hi => decide (lo ≤ chr) && decide (chr ≤ hi)

/-- The elements of the entries after the first: each starts with `CHAR_ALT`. -/
def encode_alts : List class_item → List llama_grammar_element
  | [] => []
  | item :: items => item.encode llama_gretype.CHAR_ALT ++ encode_alts items

/-- A well-formed character class: a positive or negated list of entries (at
least one), or the wildcard. -/
inductive char_class
  | positive (first : class_item) (others : List class_item)
  | negated (first : class_item) (others : List class_item)
  | any (value : Nat)
  deriving DecidableEq, Repr

/-- The elements of a class in a rule. -/
def char_class.encode : char_class → List llama_grammar_element
  | char_class.positive first others => first.encode llama_gretype.CHAR ++ encode_alts others
  | char_class.negated first others => first.encode llama_gretype.CHAR_NOT ++ encode_alts others
  | char_class.any value => [⟨llama_gretype.CHAR_ANY, value⟩]

/-- Membership as the spec words it: a positive class holds the code point when
one of its entries does, the wildcard always, a negated class when no entry
does. -/
def char_class.accepts (chr : Nat) : char_class → Bool
  | char_class.positive first others => (first :: others).any (class_item.has chr)
  | char_class.negated first others => !(first :: others).any (class_item.has chr)
  | char_class.any _ => true

/-- The class `cls` stands at `pos`: its elements start there and the element
after them continues no class (it is neither `CHAR_ALT` nor `CHAR_RNG_UPPER`). -/
def class_at (rules : llama_grammar_rules) (pos : elem_ptr) (cls : char_class) : Prop :=
  ∃ pre post, rules.getD pos.rule [] = pre ++ cls.encode ++ post ∧ pos.idx = pre.length ∧
    (rule_at post 0).type ≠ llama_gretype.CHAR_ALT ∧
    (rule_at post 0).type ≠ llama_gretype.CHAR_RNG_UPPER

/-! ## Grammar notions of the spec -/

/-- Index `s` starts an alternative of the rule: it is 0 or follows an `ALT`. -/
def alt_start (rule : llama_grammar_rule) (s : Nat) : Prop :=
  s = 0 ∨ (0 < s ∧ ∃ v, rule.get? (s - 1) = some ⟨llama_gretype.ALT, v⟩)

/-- Rule `A` can derive the empty string: one of its alternatives consists of
references to rules that can derive the empty string (none, for an empty
alternative). The alternative spans the indices `s .. e - 1`, and `refs j` is
the rule referenced at index `j`. -/
inductive nullable (rules : llama_grammar_rules) : Nat → Prop
  | intro (A s e : Nat) (refs : Nat → Nat) (x : llama_grammar_element) :
      alt_start (rules.getD A []) s → s ≤ e →
      (rules.getD A []).get? e = some x → llama_grammar_is_end_of_sequence x = true →
      (∀ j, s ≤ j → j < e → (rules.getD A []).get? j = some ⟨llama_gretype.RULE_REF, refs j⟩) →
      (∀ j, s ≤ j → j < e → nullable rules (refs j)) →
      nullable rules A

/-- Rule `B` is referenced in an alternative of rule `A` at a leftmost
position: every element of the alternative before the reference is a reference
to a rule that can derive the empty string. -/
def left_edge (rules : llama_grammar_rules) (A B : Nat) : Prop :=
  ∃ (s i : Nat) (refs : Nat → Nat),
    alt_start (rules.getD A []) s ∧ s ≤ i ∧
    (rules.getD A []).get? i = some ⟨llama_gretype.RULE_REF, B⟩ ∧
    ∀ j, s ≤ j → j < i →
      (rules.getD A []).get? j = some ⟨llama_gretype.RULE_REF, refs j⟩ ∧ nullable rules (refs j)

/-- The grammar is left-recursive: some rule reaches a reference to itself
through leftmost positions, in one step or more. -/
def left_recursive (rules : llama_grammar_rules) : Prop :=
  ∃ A, Relation.TransGen (left_edge rules) A A

/-- The element sequence from `pos` to the end of its alternative derives the
word `w` (a list of code points). -/
inductive seq_derives (rules : llama_grammar_rules) : elem_ptr → List Nat → Prop
  | done (pos : elem_ptr) :
      llama_grammar_is_end_of_sequence (rules_at rules pos) = true → seq_derives rules pos []
  | char (pos : elem_ptr) (cls : char_class) (c : Nat) (w : List Nat) :
      class_at rules pos cls → cls.accepts c = true →
      seq_derives rules (pos.add cls.encode.length) w → seq_derives rules pos (c :: w)
  | ref (pos : elem_ptr) (sub : Nat) (w1 w2 : List Nat) :
      (rules_at rules pos).type = llama_gretype.RULE_REF →
      sub ∈ rule_alternates (rules.getD (rules_at rules pos).value []) →
      seq_derives rules ⟨(rules_at rules pos).value, sub⟩ w1 →
      seq_derives rules (pos.add 1) w2 → seq_derives rules pos (w1 ++ w2)

/-- The word `w` is in the language generated from rule `root`. -/
def in_language (rules : llama_grammar_rules) (root : Nat) (w : List Nat) : Prop :=
  ∃ sub, sub ∈ rule_alternates (rules.getD root []) ∧ seq_derives rules ⟨root, sub⟩ w

/-! ## Invariants of the left-recursion check -/

/-- A well-formed rule table: every rule is END-terminated with no other `END`
(it is its own `copy_rule`), and every `RULE_REF` names a rule of the table. -/
def rules_wf (rules : llama_grammar_rules) : Prop :=
  ∀ rule ∈ rules, copy_rule rule = rule ∧
    ∀ e ∈ rule, e.type = llama_gretype.RULE_REF → e.value < rules.length

/-- The invariant of the left-recursion check: the vector `rules_in_progress`
has one entry per rule, and a rule is marked in `rules_may_be_empty` only if it
can derive the empty string. -/
def lr_inv (rules : llama_grammar_rules) (st : lr_state) : Prop :=
  st.rules_in_progress.length = rules.length ∧
    ∀ v, st.rules_may_be_empty.getD v false = true → nullable rules v

/-- What a returning call of `llama_grammar_detect_left_recursion` on rule `idx`
guarantees, `ip` being `rules_in_progress` at the call: a `true` result comes
with a rule in progress reachable from `idx` through leftmost references (or
the grammar is left-recursive); a `false` result restores `rules_in_progress`
and keeps the invariant. -/
def detect_post (rules : llama_grammar_rules) (idx : Nat) (ip : List Bool)
    (r : Bool × lr_state) : Prop :=
  (r.1 = true →
    (∃ q, ip.getD q false = true ∧ Relation.ReflTransGen (left_edge rules) idx q) ∨
      left_recursive rules) ∧
  (r.1 = false → r.2.rules_in_progress = ip ∧ lr_inv rules r.2)

/-- The same for the second loop of the check, which has taken one step at least
when it reports `true`. -/
def loop_post (rules : llama_grammar_rules) (idx : Nat) (ip : List Bool)
    (r : Bool × lr_state) : Prop :=
  (r.1 = true →
    (∃ q, ip.getD q false = true ∧ Relation.TransGen (left_edge rules) idx q) ∨
      left_recursive rules) ∧
  (r.1 = false → r.2.rules_in_progress = ip ∧ lr_inv rules r.2)

/-- The flag `recurse_into_nonterminal` is justified at index `k` of the rule:
the elements from the start `s` of the alternative up to `k` are references to
rules that can derive the empty string. -/
def leftmost_at (rules : llama_grammar_rules) (rule : llama_grammar_rule) (k : Nat) : Prop :=
  ∃ s, alt_start rule s ∧ s ≤ k ∧
    ∀ j, s ≤ j → j < k →
      rule.get? j = some ⟨llama_gretype.RULE_REF, (rule_at rule j).value⟩ ∧
        nullable rules (rule_at rule j).value

/-! ## The candidate filter, one candidate at a time -/

/-- The assertion of `llama_grammar_match_char` and
`llama_grammar_match_partial_char`: `pos` is a `CHAR`, `CHAR_ANY` or `CHAR_NOT`
element. -/
def char_ok (rules : llama_grammar_rules) (pos : elem_ptr) : Bool :=
  (decide ((rules_at rules pos).type = llama_gretype.CHAR) ||
    decide ((rules_at rules pos).type = llama_gretype.CHAR_ANY)) ||
  decide ((rules_at rules pos).type = llama_gretype.CHAR_NOT)

/-- Whether `llama_grammar_match_char` returns a match for `chr` at `pos`. -/
def char_matches (rules : llama_grammar_rules) (pos : elem_ptr) (chr : Nat) : Bool :=
  match llama_grammar_match_char rules pos chr with
  | .ok m => m.1
  | .error _ => false

/-- Whether `llama_grammar_match_partial_char` returns true at `pos`. -/
def partial_matches (rules : llama_grammar_rules) (pos : elem_ptr)
    (partial_utf8 : llama_partial_utf8) : Bool :=
  match llama_grammar_match_partial_char rules pos partial_utf8 with
  | .ok b => b
  | .error _ => false

/-- The candidate goes to `rejects` in the first loop of
`llama_grammar_reject_candidates_for_stack`. -/
def rejected_here (rules : llama_grammar_rules) (pos : elem_ptr)
    (tok : llama_grammar_candidate) : Bool :=
  if tok.cur = 0 then
    decide (tok.partial_utf8.n_remain ≠ 0) && !partial_matches rules pos tok.partial_utf8
  else !char_matches rules pos tok.cur

/-- The candidate goes to `next_candidates` in that loop. -/
def advances_here (rules : llama_grammar_rules) (pos : elem_ptr)
    (tok : llama_grammar_candidate) : Bool :=
  decide (tok.cur ≠ 0) && char_matches rules pos tok.cur

/-- A filter over candidate batches judges each candidate on its own: when it
returns on a batch, it returns the empty batch on the empty batch, its result
is drawn from the batch, and on each single candidate of the batch it returns
that candidate or nothing according to the batched result. -/
def filter_indep (g : llama_grammar_candidates → Run llama_grammar_candidates) : Prop :=
  ∀ C R, g C = .ok R →
    g [] = .ok [] ∧ (∀ tok ∈ R, tok ∈ C) ∧
    ∀ tok ∈ C, g [tok] = .ok (if tok ∈ R then [tok] else [])

/-- A filter that returns on a batch returns on every batch drawn from it. -/
def filter_sub (g : llama_grammar_candidates → Run llama_grammar_candidates) : Prop :=
  ∀ C R, g C = .ok R → ∀ C1, (∀ tok ∈ C1, tok ∈ C) → ∃ R1, g C1 = .ok R1

/-! ## Example grammars -/

/-- The rule table of `root ::= "(" root ")" | ""`. -/
def parens_rules : llama_grammar_rules :=
  [[⟨llama_gretype.CHAR, 0x28⟩, ⟨llama_gretype.RULE_REF, 0⟩, ⟨llama_gretype.CHAR, 0x29⟩,
    ⟨llama_gretype.ALT, 0⟩, ⟨llama_gretype.END, 0⟩]]

/-- The session `llama_grammar_init_impl` returns for `parens_rules`. -/
def parens_session : llama_grammar :=
  ⟨parens_rules, [[⟨0, 0⟩], []], ⟨0, 0⟩, false, false, [], [], []⟩

/-- Two candidates for `parens_rules`: the token "(" and the token "x". -/
def parens_candidates : llama_grammar_candidates :=
  [⟨0, [0x28, 0], 0, ⟨0x28, 0⟩⟩, ⟨1, [0x78, 0], 0, ⟨0x78, 0⟩⟩]

/-- The rule table the parser produces for
`root ::= "a" x`, `x ::= b x | "y"`, `b ::= c`, `c ::= ""`:
`x` is left-recursive through `b`, which derives the empty string through `c`. -/
def hidden_left_recursion_rules : llama_grammar_rules :=
  [[⟨llama_gretype.CHAR, 0x61⟩, ⟨llama_gretype.RULE_REF, 1⟩, ⟨llama_gretype.END, 0⟩],
   [⟨llama_gretype.RULE_REF, 2⟩, ⟨llama_gretype.RULE_REF, 1⟩, ⟨llama_gretype.ALT, 0⟩,
    ⟨llama_gretype.CHAR, 0x79⟩, ⟨llama_gretype.END, 0⟩],
   [⟨llama_gretype.RULE_REF, 3⟩, ⟨llama_gretype.END, 0⟩],
   [⟨llama_gretype.END, 0⟩]]

/-- The session `llama_grammar_init_impl` returns for `hidden_left_recursion_rules`. -/
def hidden_left_recursion_session : llama_grammar :=
  ⟨hidden_left_recursion_rules, [[⟨0, 0⟩]], ⟨0, 0⟩, false, false, [], [], []⟩

/-- The rule table the parser produces for
`root ::= b root | "x"`, `b ::= c`, `c ::= ""`. -/
def seeded_left_recursion_rules : llama_grammar_rules :=
  [[⟨llama_gretype.RULE_REF, 1⟩, ⟨llama_gretype.RULE_REF, 0⟩, ⟨llama_gretype.ALT, 0⟩,
    ⟨llama_gretype.CHAR, 0x78⟩, ⟨llama_gretype.END, 0⟩],
   [⟨llama_gretype.RULE_REF, 2⟩, ⟨llama_gretype.END, 0⟩],
   [⟨llama_gretype.END, 0⟩]]

/-- The rule table of `root ::= "a"`. -/
def single_a_rules : llama_grammar_rules :=
  [[⟨llama_gretype.CHAR, 0x61⟩, ⟨llama_gretype.END, 0⟩]]

/-- The session `llama_grammar_init_impl` returns for `single_a_rules`. -/
def single_a_session : llama_grammar :=
  ⟨single_a_rules, [[⟨0, 0⟩]], ⟨0, 0⟩, false, false, [], [], []⟩

/-- A vocabulary whose token 0 has the two-byte piece `C0 80` (an overlong
encoding of code point 0); no token is end-of-generation. -/
def overlong_nul_vocab : llama_vocab :=
  ⟨fun t => if t = 0 then [0xC0, 0x80] else [0x61], fun _ => false⟩

/-- The rule table of `root ::= [^é]` (U+00E9). -/
def negated_class_rules : llama_grammar_rules :=
  [[⟨llama_gretype.CHAR_NOT, 0xE9⟩, ⟨llama_gretype.END, 0⟩]]

/-! ## The logit array after `apply`, entry by entry -/

/-- The entry with its logit set to `-INFINITY` when `b` holds. -/
def mask_entry (b : Bool) (d : llama_token_data) : llama_token_data :=
  if b then ⟨d.id, logit_t.neg_infinity⟩ else d

/-- Whether the first loop of `llama_grammar_apply_impl` masks a token with
this id: an end-of-generation token when no stack is empty, any other token
when its piece is empty or starts with a zero byte. -/
def scan_masks (vocab : llama_vocab) (allow_eog : Bool) (id : Nat) : Bool :=
  if vocab.is_eog id then !allow_eog
  else decide ((vocab.token_to_piece id).isEmpty ∨ (vocab.token_to_piece id).head? = some 0)

/-! ## Feeding a frontier; more example grammars and sessions -/

/-- The frontier obtained by feeding the code points, in order, through
`llama_grammar_accept`. -/
def feed_frontier (fuel : Nat) (rules : llama_grammar_rules) :
    llama_grammar_stacks → List Nat → Run llama_grammar_stacks
  | frontier, [] => .ok frontier
  | frontier, chr :: chrs =>
    match accept_stacks fuel rules frontier chr with
    | .error e => .error e
    | .ok frontier1 => feed_frontier fuel rules frontier1 chrs

/-- The rule table the parser produces for
`root ::= digit+ ("," digit+)*`, `digit ::= [0-9]`
(rules 2, 4 and 5 are the synthetic rules of `+`, `+` and `*`, rule 3 is the group). -/
def int_list_rules : llama_grammar_rules :=
  [[⟨llama_gretype.RULE_REF, 1⟩, ⟨llama_gretype.RULE_REF, 2⟩, ⟨llama_gretype.RULE_REF, 5⟩,
    ⟨llama_gretype.END, 0⟩],
   [⟨llama_gretype.CHAR, 0x30⟩, ⟨llama_gretype.CHAR_RNG_UPPER, 0x39⟩, ⟨llama_gretype.END, 0⟩],
   [⟨llama_gretype.RULE_REF, 1⟩, ⟨llama_gretype.RULE_REF, 2⟩, ⟨llama_gretype.ALT, 0⟩,
    ⟨llama_gretype.END, 0⟩],
   [⟨llama_gretype.CHAR, 0x2C⟩, ⟨llama_gretype.RULE_REF, 1⟩, ⟨llama_gretype.RULE_REF, 4⟩,
    ⟨llama_gretype.END, 0⟩],
   [⟨llama_gretype.RULE_REF, 1⟩, ⟨llama_gretype.RULE_REF, 4⟩, ⟨llama_gretype.ALT, 0⟩,
    ⟨llama_gretype.END, 0⟩],
   [⟨llama_gretype.RULE_REF, 3⟩, ⟨llama_gretype.RULE_REF, 5⟩, ⟨llama_gretype.ALT, 0⟩,
    ⟨llama_gretype.END, 0⟩]]

/-- A vocabulary of single letters: token `t` has the one-byte piece
`0x61 + t` ("a", "b", ...), and token 26 is the end-of-generation token. -/
def letters_vocab : llama_vocab :=
  ⟨fun t => [0x61 + t], fun t => t == 26⟩

/-- The session `llama_grammar_init_impl` returns for `int_list_rules`. -/
def int_list_session : llama_grammar :=
  ⟨int_list_rules, [[⟨1, 0⟩, ⟨0, 1⟩]], ⟨0, 0⟩, false, false, [], [], []⟩

/-- The session `single_a_session` after `llama_grammar_accept_str` has failed on
"b": the frontier is empty. -/
def single_a_dead_session : llama_grammar :=
  ⟨single_a_rules, [], ⟨0x62, 0⟩, false, false, [], [], []⟩

/-- The session `single_a_session` after `llama_grammar_accept_str` has taken the
invalid piece `80` (a lone continuation byte): the stored partial state has
`n_remain = -1`. -/
def single_a_invalid_tail_session : llama_grammar :=
  ⟨single_a_rules, [[⟨0, 0⟩]], ⟨0, -1⟩, false, false, [], [], []⟩

/-! ## UTF-8 as the spec describes it -/

/-- A Unicode scalar value: a code point up to U+10FFFF that is not a surrogate. -/
def is_scalar_value (c : Nat) : Prop :=
  c < 0xD800 ∨ (0xE000 ≤ c ∧ c < 0x110000)

instance (c : Nat) : Decidable (is_scalar_value c) := by
  unfold is_scalar_value
  exact inferInstance

/-- The standard UTF-8 encoding of one code point, in one to four bytes (the
encoding the spec's round trip refers to; the source has no encoder). -/
def utf8_encode (c : Nat) : List Nat :=
  if c < 0x80 then [c]
  else if c < 0x800 then [0xC0 + c / 0x40, 0x80 + c % 0x40]
  else if c < 0x10000 then [0xE0 + c / 0x1000, 0x80 + c / 0x40 % 0x40, 0x80 + c % 0x40]
  else [0xF0 + c / 0x40000, 0x80 + c / 0x1000 % 0x40, 0x80 + c / 0x40 % 0x40, 0x80 + c % 0x40]

/-- The standard UTF-8 encoding of a sequence of code points. -/
def utf8_encode_all (cs : List Nat) : List Nat :=
  cs.flatMap utf8_encode

/-! ## Grammar text parser -/

/-- What a `throw` inside the parser reports: the `what()` text without the
position it quotes. -/
inductive parse_error
  | expecting_hex_chars (size : Nat)
  | expecting_name
  | expecting_integer
  | unknown_escape
  | unexpected_end_of_input
  | expecting_preceding_item
  | expecting_close_paren
  | expecting_an_int
  | expecting_close_brace
  | expecting_comma
  | expecting_define
  | expecting_newline_or_end
  | stoul_out_of_range
  | undefined_rule
  | undefined_rule_identifier (name : List Nat)
  deriving DecidableEq, Repr

/-- How a parser function stops without a result: an exception of the source,
or an exhausted recursion budget of the embedding. -/
inductive parse_fault
  | thrown (what : parse_error)
  | fuel
  deriving DecidableEq, Repr

/-- The character `*pos`: the text is the list of bytes from `pos` on, and the
terminating 0 is read at its end. A zero byte inside the list ends the text as
it would end the C string. -/
def peek (pos : List Nat) : Nat :=
  pos.headD 0

/-- The character `pos[i]`. -/
def peek_at (pos : List Nat) (i : Nat) : Nat :=
  pos.getD i 0

/-- The string `std::string(src, end - src)` for a position `end` further on in
the same text. -/
def text_between (src end_pos : List Nat) : List Nat :=
  src.take (src.length - end_pos.length)

/-- Source: `is_digit_char`. -/
def is_digit_char (c : Nat) : Bool :=
  decide (0x30 ≤ c ∧ c ≤ 0x39)

/-- Source: `is_word_char`. A `char` above 0x7F is negative in the source and
in none of the ranges, as here. -/
def is_word_char (c : Nat) : Bool :=
  decide (0x61 ≤ c ∧ c ≤ 0x7A) || decide (0x41 ≤ c ∧ c ≤ 0x5A) || decide (c = 0x2D) ||
    is_digit_char c

/-- The lookup table of `decode_utf8(const char * src)`. -/
def decode_utf8_cstr_lookup : List Nat := [1, 1, 1, 1, 1, 1, 1, 1, 1, 1, 1, 1, 2, 2, 3, 4]

/-- The `for ( ; pos < end && *pos; pos++)` loop of `decode_utf8(const char * src)`;
the first argument is `end - pos`. -/
def decode_utf8_cstr_loop : Nat → List Nat → Nat → Nat × List Nat
  | 0, pos, value => (value, pos)
  | _ + 1, [], value => (value, [])
  | n + 1, b :: bs, value =>
    if b = 0 then (value, b :: bs)
    else decode_utf8_cstr_loop n bs (((value <<< 6) + (b &&& 0x3F)) % 2 ^ 32)

/-- Source: `decode_utf8(const char * src)`, the decoder of one code point of
the grammar text. -/
def decode_utf8_cstr (src : List Nat) : Nat × List Nat :=
  let first_byte := peek src
  let len := decode_utf8_cstr_lookup.getD (first_byte >>> 4) 0
  let mask := ((1 <<< (8 - len)) - 1) % 2 ^ 8
  let value := first_byte &&& mask
  decode_utf8_cstr_loop (len - 1) (src.drop 1) value

/-- The value of one hexadecimal digit, if the character is one. -/
def hex_digit (c : Nat) : Option Nat :=
  if 0x61 ≤ c ∧ c ≤ 0x66 then some (c - 0x61 + 10)
  else if 0x41 ≤ c ∧ c ≤ 0x46 then some (c - 0x41 + 10)
  else if 0x30 ≤ c ∧ c ≤ 0x39 then some (c - 0x30)
  else none

/-- The loop of `parse_hex`; the first argument is `end - pos`. `none` when the
loop stops before `end` (end of text or not a hex digit). -/
def parse_hex_loop : Nat → List Nat → Nat → Option (Nat × List Nat)
  | 0, pos, value => some (value, pos)
  | _ + 1, [], _ => none
  | n + 1, c :: rest, value =>
    if c = 0 then none
    else
      match hex_digit c with
      | some d => parse_hex_loop n rest ((((value <<< 4) % 2 ^ 32) + d) % 2 ^ 32)
      | none => none

/-- Source: `parse_hex`. -/
def parse_hex (src : List Nat) (size : Nat) : Except parse_error (Nat × List Nat) :=
  match parse_hex_loop size src 0 with
  | some r => .ok r
  | none => .error (parse_error.expecting_hex_chars size)

/-- The loops of `parse_space`, one character at a time. The flag tells whether
the position is inside a `#` comment (the inner `while`). -/
def parse_space_loop (newline_ok : Bool) : Bool → List Nat → List Nat
  | _, [] => []
  | true, c :: rest =>
    if c ≠ 0 ∧ c ≠ 0x0D ∧ c ≠ 0x0A then parse_space_loop newline_ok true rest
    else if newline_ok = true ∧ (c = 0x0D ∨ c = 0x0A) then parse_space_loop newline_ok false rest
    else c :: rest
  | false, c :: rest =>
    if c = 0x23 then parse_space_loop newline_ok true rest
    else if c = 0x20 ∨ c = 0x09 ∨ (newline_ok = true ∧ (c = 0x0D ∨ c = 0x0A)) then
      parse_space_loop newline_ok false rest
    else c :: rest

/-- Source: `parse_space`. -/
def parse_space (src : List Nat) (newline_ok : Bool) : List Nat :=
  parse_space_loop newline_ok false src

/-- Source: `parse_name`. Returns the position after the name. -/
def parse_name (src : List Nat) : Except parse_error (List Nat) :=
  let pos := src.dropWhile is_word_char
  if pos.length = src.length then .error parse_error.expecting_name else .ok pos

/-- Source: `parse_int`. Returns the position after the digits. -/
def parse_int (src : List Nat) : Except parse_error (List Nat) :=
  let pos := src.dropWhile is_digit_char
  if pos.length = src.length then .error parse_error.expecting_integer else .ok pos

/-- Source: `parse_char`. -/
def parse_char (src : List Nat) : Except parse_error (Nat × List Nat) :=
  if peek src = 0x5C then
    let c := peek_at src 1
    if c = 0x78 then parse_hex (src.drop 2) 2
    else if c = 0x75 then parse_hex (src.drop 2) 4
    else if c = 0x55 then parse_hex (src.drop 2) 8
    else if c = 0x74 then .ok (0x09, src.drop 2)
    else if c = 0x72 then .ok (0x0D, src.drop 2)
    else if c = 0x6E then .ok (0x0A, src.drop 2)
    else if c = 0x5C ∨ c = 0x22 ∨ c = 0x5B ∨ c = 0x5D then .ok (c, src.drop 2)
    else .error parse_error.unknown_escape
  else if peek src ≠ 0 then .ok (decode_utf8_cstr src)
  else .error parse_error.unexpected_end_of_input

/-- The number written by a string of decimal digits. -/
def decimal_value (digits : List Nat) : Nat :=
  digits.foldl (fun acc d => acc * 10 + (d - 0x30)) 0

/-- The conversion `std::stoul` of a string of decimal digits, with a 64-bit
`unsigned long`: `std::out_of_range` above `ULONG_MAX`. -/
def stoul (digits : List Nat) : Except parse_error Nat :=
  let v := decimal_value digits
  if v < 2 ^ 64 then .ok v else .error parse_error.stoul_out_of_range

/-- The conversion of an `unsigned long` to `int` (`int min_times = std::stoul(...)`):
the value modulo `2^32`, read as a two's complement number. -/
def to_int (v : Nat) : Int :=
  if v % 2 ^ 32 < 2 ^ 31 then ((v % 2 ^ 32 : Nat) : Int) else ((v % 2 ^ 32 : Nat) : Int) - 2 ^ 32

/-- The decimal digits of `std::to_string`, most significant first. -/
def to_string_digits : Nat → Nat → List Nat
  | 0, _ => []
  | fuel + 1, n =>
    if n < 10 then [0x30 + n] else to_string_digits fuel (n / 10) ++ [0x30 + n % 10]

/-- The text `std::to_string(n)` of an unsigned number. -/
def to_string (n : Nat) : List Nat :=
  to_string_digits (n + 1) n

/-- The parser object, `struct llama_grammar_parser`: `symbol_ids` is the
`std::map` from names to ids, kept as the list of its entries in the order
they were inserted, and `rules` the rule table. -/
structure llama_grammar_parser_t where
  symbol_ids : List (List Nat × Nat)
  rules : llama_grammar_rules
  deriving DecidableEq, Repr

/-- The assignment `symbol_ids[key] = value`: the entry of an existing key is
overwritten, a new key is inserted. -/
def symbol_ids_assign (symbol_ids : List (List Nat × Nat)) (key : List Nat) (value : Nat) :
    List (List Nat × Nat) :=
  if symbol_ids.any (fun kv => kv.1 == key) then
    symbol_ids.map (fun kv => if kv.1 = key then (kv.1, value) else kv)
  else symbol_ids ++ [(key, value)]

/-- Source: `llama_grammar_parser::get_symbol_id`. `emplace` inserts only when
the name is not yet a key. -/
def get_symbol_id (p : llama_grammar_parser_t) (name : List Nat) : Nat × llama_grammar_parser_t :=
  let next_id := p.symbol_ids.length
  match p.symbol_ids.lookup name with
  | some id => (id, p)
  | none => (next_id, { p with symbol_ids := p.symbol_ids ++ [(name, next_id)] })

/-- Source: `llama_grammar_parser::generate_symbol_id`. -/
def generate_symbol_id (p : llama_grammar_parser_t) (base_name : List Nat) :
    Nat × llama_grammar_parser_t :=
  let next_id := p.symbol_ids.length
  let key := base_name ++ [0x5F] ++ to_string next_id
  (next_id, { p with symbol_ids := symbol_ids_assign p.symbol_ids key next_id })

/-- Source: `llama_grammar_parser::add_rule`. -/
def add_rule (p : llama_grammar_parser_t) (rule_id : Nat) (rule : llama_grammar_rule) :
    llama_grammar_parser_t :=
  let rules :=
    if p.rules.length ≤ rule_id then p.rules ++ List.replicate (rule_id + 1 - p.rules.length) []
    else p.rules
  { p with rules := rules.set rule_id rule }

/-- The loop `for (int i = 0; i < n_opt; i++)` of `handle_repetitions`, which
creates the synthetic rules. Arguments: iterations left, `i`, the parser and
`last_rec_rule_id`. -/
def handle_repetitions_loop (rule_name : List Nat) (prev_rule : llama_grammar_rule)
    (max_times : Int) : Nat → Nat → llama_grammar_parser_t → Nat → llama_grammar_parser_t × Nat
  | 0, _, p, last_rec_rule_id => (p, last_rec_rule_id)
  | n + 1, i, p, last_rec_rule_id =>
    let g := generate_symbol_id p rule_name
    let rec_rule_id := g.1
    let rec_rule :=
      prev_rule ++
        (if i > 0 ∨ max_times < 0 then
          [⟨llama_gretype.RULE_REF, if max_times < 0 then rec_rule_id else last_rec_rule_id⟩]
        else []) ++
        [⟨llama_gretype.ALT, 0⟩, ⟨llama_gretype.END, 0⟩]
    handle_repetitions_loop rule_name prev_rule max_times n (i + 1)
      (add_rule g.2 rec_rule_id rec_rule) rec_rule_id

/-- Source: the lambda `handle_repetitions` of `parse_sequence`, with what it
captures (`rule`, `last_sym_start`, `rule_name`, the parser) as arguments. The
counts are `int`; their difference is taken in `Int`. -/
def handle_repetitions (p : llama_grammar_parser_t) (rule_name : List Nat)
    (rule : llama_grammar_rule) (last_sym_start : Nat) (min_times max_times : Int) :
    Except parse_error (llama_grammar_rule × llama_grammar_parser_t) :=
  if last_sym_start = rule.length then .error parse_error.expecting_preceding_item
  else
    let prev_rule := rule.drop last_sym_start
    let rule1 :=
      if min_times = 0 then rule.take last_sym_start
      else rule ++ (List.replicate (min_times - 1).toNat prev_rule).flatten
    let n_opt : Int := if max_times < 0 then 1 else max_times - min_times
    let r := handle_repetitions_loop rule_name prev_rule max_times n_opt.toNat 0 p 0
    .ok (if n_opt > 0 then rule1 ++ [⟨llama_gretype.RULE_REF, r.2⟩] else rule1, r.1)

/-- The loop `while (*pos != '"')` of the literal branch of `parse_sequence`. -/
def parse_literal : Nat → List Nat → llama_grammar_rule →
    Except parse_fault (List Nat × llama_grammar_rule)
  | 0, _, _ => .error parse_fault.fuel
  | fuel + 1, pos, rule =>
    if peek pos = 0x22 then .ok (pos, rule)
    else if peek pos = 0 then .error (parse_fault.thrown parse_error.unexpected_end_of_input)
    else
      match parse_char pos with
      | .error e => .error (parse_fault.thrown e)
      | .ok char_pair =>
        parse_literal fuel char_pair.2 (rule ++ [⟨llama_gretype.CHAR, char_pair.1⟩])

/-- The loop `while (*pos != ']')` of the character-range branch of
`parse_sequence`. -/
def parse_char_ranges (last_sym_start : Nat) (start_type : llama_gretype) :
    Nat → List Nat → llama_grammar_rule → Except parse_fault (List Nat × llama_grammar_rule)
  | 0, _, _ => .error parse_fault.fuel
  | fuel + 1, pos, rule =>
    if peek pos = 0x5D then .ok (pos, rule)
    else if peek pos = 0 then .error (parse_fault.thrown parse_error.unexpected_end_of_input)
    else
      match parse_char pos with
      | .error e => .error (parse_fault.thrown e)
      | .ok char_pair =>
        let pos1 := char_pair.2
        let type := if last_sym_start < rule.length then llama_gretype.CHAR_ALT else start_type
        let rule1 := rule ++ [⟨type, char_pair.1⟩]
        if peek_at pos1 0 = 0x2D ∧ peek_at pos1 1 ≠ 0x5D then
          if peek_at pos1 1 = 0 then
            .error (parse_fault.thrown parse_error.unexpected_end_of_input)
          else
            match parse_char (pos1.drop 1) with
            | .error e => .error (parse_fault.thrown e)
            | .ok endchar_pair =>
              parse_char_ranges last_sym_start start_type fuel endchar_pair.2
                (rule1 ++ [⟨llama_gretype.CHAR_RNG_UPPER, endchar_pair.1⟩])
        else parse_char_ranges last_sym_start start_type fuel pos1 rule1

/-- The counts of the `{` branch of `parse_sequence`, read from the position
after `{` and the blanks that follow it: `min_times`, `max_times` and the
position after the closing `}` and its blanks. -/
def parse_repetition_counts (pos : List Nat) (is_nested : Bool) :
    Except parse_error (Int × Int × List Nat) :=
  if is_digit_char (peek pos) = false then .error parse_error.expecting_an_int
  else
    match parse_int pos with
    | .error e => .error e
    | .ok int_end =>
      match stoul (text_between pos int_end) with
      | .error e => .error e
      | .ok v =>
        let min_times := to_int v
        let pos1 := parse_space int_end is_nested
        if peek pos1 = 0x7D then .ok (min_times, min_times, parse_space (pos1.drop 1) is_nested)
        else if peek pos1 = 0x2C then
          let pos2 := parse_space (pos1.drop 1) is_nested
          let upper : Except parse_error (Int × List Nat) :=
            if is_digit_char (peek pos2) = true then
              match parse_int pos2 with
              | .error e => .error e
              | .ok int_end2 =>
                match stoul (text_between pos2 int_end2) with
                | .error e => .error e
                | .ok v2 => .ok (to_int v2, parse_space int_end2 is_nested)
            else .ok (-1, pos2)
          match upper with
          | .error e => .error e
          | .ok (max_times, pos3) =>
            if peek pos3 ≠ 0x7D then .error parse_error.expecting_close_brace
            else .ok (min_times, max_times, parse_space (pos3.drop 1) is_nested)
        else .error parse_error.expecting_comma

/-- The result of a parser method: a value, or the fault together with the
parser object as the method left it. -/
abbrev Parse (α : Type) := Except (parse_fault × llama_grammar_parser_t) α

mutual

/-- Source: `llama_grammar_parser::parse_sequence`, the iterations of its
`while (*pos)` loop. `rule` is the rule under construction and
`last_sym_start` the local of that name (`rule.size()` on entry). The first
argument bounds the iterations and nested calls. -/
def parse_sequence : Nat → List Nat → List Nat → llama_grammar_rule → Nat → Bool →
    llama_grammar_parser_t → Parse (List Nat × llama_grammar_rule × llama_grammar_parser_t)
  | 0, _, _, _, _, _, p => .error (parse_fault.fuel, p)
  | fuel + 1, pos, rule_name, rule, last_sym_start, is_nested, p =>
    let c := peek pos
    if c = 0 then .ok (pos, rule, p)
    else if c = 0x22 then
      match parse_literal fuel (pos.drop 1) rule with
      | .error e => .error (e, p)
      | .ok (pos1, rule1) =>
        parse_sequence fuel (parse_space (pos1.drop 1) is_nested) rule_name rule1 rule.length
          is_nested p
    else if c = 0x5B then
      let negated := decide (peek (pos.drop 1) = 0x5E)
      let pos1 := if negated then pos.drop 2 else pos.drop 1
      let start_type := if negated then llama_gretype.CHAR_NOT else llama_gretype.CHAR
      match parse_char_ranges rule.length start_type fuel pos1 rule with
      | .error e => .error (e, p)
      | .ok (pos2, rule1) =>
        parse_sequence fuel (parse_space (pos2.drop 1) is_nested) rule_name rule1 rule.length
          is_nested p
    else if is_word_char c = true then
      match parse_name pos with
      | .error e => .error (parse_fault.thrown e, p)
      | .ok name_end =>
        let s := get_symbol_id p (text_between pos name_end)
        parse_sequence fuel (parse_space name_end is_nested) rule_name
          (rule ++ [⟨llama_gretype.RULE_REF, s.1⟩]) rule.length is_nested s.2
    else if c = 0x28 then
      let pos1 := parse_space (pos.drop 1) true
      let g := generate_symbol_id p rule_name
      match parse_alternates fuel pos1 rule_name g.1 true g.2 with
      | .error e => .error e
      | .ok (pos2, p2) =>
        if peek pos2 ≠ 0x29 then
          .error (parse_fault.thrown parse_error.expecting_close_paren, p2)
        else
          parse_sequence fuel (parse_space (pos2.drop 1) is_nested) rule_name
            (rule ++ [⟨llama_gretype.RULE_REF, g.1⟩]) rule.length is_nested p2
    else if c = 0x2E then
      parse_sequence fuel (parse_space (pos.drop 1) is_nested) rule_name
        (rule ++ [⟨llama_gretype.CHAR_ANY, 0⟩]) rule.length is_nested p
    else if c = 0x2A then
      match handle_repetitions p rule_name rule last_sym_start 0 (-1) with
      | .error e => .error (parse_fault.thrown e, p)
      | .ok (rule1, p1) =>
        parse_sequence fuel (parse_space (pos.drop 1) is_nested) rule_name rule1
          last_sym_start is_nested p1
    else if c = 0x2B then
      match handle_repetitions p rule_name rule last_sym_start 1 (-1) with
      | .error e => .error (parse_fault.thrown e, p)
      | .ok (rule1, p1) =>
        parse_sequence fuel (parse_space (pos.drop 1) is_nested) rule_name rule1
          last_sym_start is_nested p1
    else if c = 0x3F then
      match handle_repetitions p rule_name rule last_sym_start 0 1 with
      | .error e => .error (parse_fault.thrown e, p)
      | .ok (rule1, p1) =>
        parse_sequence fuel (parse_space (pos.drop 1) is_nested) rule_name rule1
          last_sym_start is_nested p1
    else if c = 0x7B then
      match parse_repetition_counts (parse_space (pos.drop 1) is_nested) is_nested with
      | .error e => .error (parse_fault.thrown e, p)
      | .ok (min_times, max_times, pos1) =>
        match handle_repetitions p rule_name rule last_sym_start min_times max_times with
        | .error e => .error (parse_fault.thrown e, p)
        | .ok (rule1, p1) =>
          parse_sequence fuel pos1 rule_name rule1 last_sym_start is_nested p1
    else .ok (pos, rule, p)

/-- Source: `llama_grammar_parser::parse_alternates`: the first
`parse_sequence` call on an empty rule. -/
def parse_alternates : Nat → List Nat → List Nat → Nat → Bool → llama_grammar_parser_t →
    Parse (List Nat × llama_grammar_parser_t)
  | 0, _, _, _, _, p => .error (parse_fault.fuel, p)
  | fuel + 1, src, rule_name, rule_id, is_nested, p =>
    match parse_sequence fuel src rule_name [] 0 is_nested p with
    | .error e => .error e
    | .ok (pos, rule, p1) => parse_alternates_loop fuel pos rule_name rule_id rule is_nested p1

/-- The loop `while (*pos == '|')` of `parse_alternates` and the statements
after it. -/
def parse_alternates_loop : Nat → List Nat → List Nat → Nat → llama_grammar_rule → Bool →
    llama_grammar_parser_t → Parse (List Nat × llama_grammar_parser_t)
  | 0, _, _, _, _, _, p => .error (parse_fault.fuel, p)
  | fuel + 1, pos, rule_name, rule_id, rule, is_nested, p =>
    if peek pos = 0x7C then
      let rule1 := rule ++ [⟨llama_gretype.ALT, 0⟩]
      match parse_sequence fuel (parse_space (pos.drop 1) true) rule_name rule1 rule1.length
          is_nested p with
      | .error e => .error e
      | .ok (pos1, rule2, p1) =>
        parse_alternates_loop fuel pos1 rule_name rule_id rule2 is_nested p1
    else .ok (pos, add_rule p rule_id (rule ++ [⟨llama_gretype.END, 0⟩]))

end

/-- Source: `llama_grammar_parser::parse_rule`. -/
def parse_rule (fuel : Nat) (src : List Nat) (p : llama_grammar_parser_t) :
    Parse (List Nat × llama_grammar_parser_t) :=
  match parse_name src with
  | .error e => .error (parse_fault.thrown e, p)
  | .ok name_end =>
    let pos := parse_space name_end false
    let name := text_between src name_end
    let s := get_symbol_id p name
    if ¬ (peek_at pos 0 = 0x3A ∧ peek_at pos 1 = 0x3A ∧ peek_at pos 2 = 0x3D) then
      .error (parse_fault.thrown parse_error.expecting_define, s.2)
    else
      match parse_alternates fuel (parse_space (pos.drop 3) true) name s.1 false s.2 with
      | .error e => .error e
      | .ok (pos1, p1) =>
        if peek pos1 = 0x0D then
          .ok (parse_space (pos1.drop (if peek_at pos1 1 = 0x0A then 2 else 1)) true, p1)
        else if peek pos1 = 0x0A then .ok (parse_space (pos1.drop 1) true, p1)
        else if peek pos1 ≠ 0 then
          .error (parse_fault.thrown parse_error.expecting_newline_or_end, p1)
        else .ok (parse_space pos1 true, p1)

/-- The loop `while (*pos) { pos = parse_rule(pos); }` of `parse`. -/
def parse_rules_loop : Nat → List Nat → llama_grammar_parser_t → Parse llama_grammar_parser_t
  | 0, _, p => .error (parse_fault.fuel, p)
  | fuel + 1, pos, p =>
    if peek pos = 0 then .ok p
    else
      match parse_rule fuel pos p with
      | .error e => .error e
      | .ok (pos1, p1) => parse_rules_loop fuel pos1 p1

/-- The inner loop of the validation in `parse`, over the elements of one
rule: a `RULE_REF` to a missing or empty rule throws when a symbol with that
id is found. The name reported is that of the first entry found, in the
order of the list. -/
def validate_elements (p : llama_grammar_parser_t) : llama_grammar_rule → Except parse_error Unit
  | [] => .ok ()
  | elem :: rest =>
    if elem.type = llama_gretype.RULE_REF ∧
        (elem.value ≥ p.rules.length ∨ (p.rules.getD elem.value []).isEmpty = true) then
      match p.symbol_ids.find? (fun kv => kv.2 == elem.value) with
      | some kv => .error (parse_error.undefined_rule_identifier kv.1)
      | none => validate_elements p rest
    else validate_elements p rest

/-- The validation loop of `parse` over the rules. -/
def validate_rules (p : llama_grammar_parser_t) : llama_grammar_rules → Except parse_error Unit
  | [] => .ok ()
  | rule :: rest =>
    if rule.isEmpty = true then .error parse_error.undefined_rule
    else
      match validate_elements p rule with
      | .error e => .error e
      | .ok _ => validate_rules p rest

/-- Source: `llama_grammar_parser::parse`, on the parser object `p`. Every
exception is caught: the rules are cleared and the result is `false`. -/
def parse (fuel : Nat) (p : llama_grammar_parser_t) (src : List Nat) :
    Run (Bool × llama_grammar_parser_t) :=
  match parse_rules_loop fuel (parse_space src true) p with
  | .error (parse_fault.fuel, _) => .error Fault.fuel
  | .error (parse_fault.thrown _, p1) => .ok (false, { p1 with rules := [] })
  | .ok p1 =>
    match validate_rules p1 p1.rules with
    | .error _ => .ok (false, { p1 with rules := [] })
    | .ok _ => .ok (true, p1)

/-- A newly constructed parser object. -/
def llama_grammar_parser_t.fresh : llama_grammar_parser_t :=
  ⟨[], []⟩

/-- The bytes of a text written as a string: its characters in UTF-8. -/
def text_bytes (s : String) : List Nat :=
  utf8_encode_all (s.data.map Char.toNat)

/-! ## Invariants of the parser object -/

/-- An entry of the symbol table is a name without underscore (a name read from
the text), or a generated name: a base without underscore, an underscore and
the decimal text of the entry's own id. -/
def symbol_key_ok (kv : List Nat × Nat) : Prop :=
  0x5F ∉ kv.1 ∨ ∃ base, 0x5F ∉ base ∧ kv.1 = base ++ [0x5F] ++ to_string kv.2

/-- The symbol table holds distinct names, the ids are `0 .. n-1` in the order
of insertion, and every entry is a text name or a generated name. -/
def symbols_ok (symbol_ids : List (List Nat × Nat)) : Prop :=
  symbol_ids.map Prod.snd = List.range symbol_ids.length ∧
    (symbol_ids.map Prod.fst).Nodup ∧ ∀ kv ∈ symbol_ids, symbol_key_ok kv

/-- Every `RULE_REF` of the rule has a value below `n`. -/
def refs_below (n : Nat) (rule : llama_grammar_rule) : Prop :=
  ∀ e ∈ rule, e.type = llama_gretype.RULE_REF → e.value < n

/-- The parser object between two steps: the symbol table is well formed, no
rule has an index without a symbol, and every `RULE_REF` names a symbol. -/
def parser_ok (p : llama_grammar_parser_t) : Prop :=
  symbols_ok p.symbol_ids ∧ p.rules.length ≤ p.symbol_ids.length ∧
    ∀ rule ∈ p.rules, refs_below p.symbol_ids.length rule

/-- What `parse_sequence` gives from position `pos` and parser `p` when its
budget suffices: an exception, or a position further on in the text, a parser that
is again well formed with a symbol table at least as long, and a rule whose
references name symbols. -/
def seq_post (pos : List Nat) (p : llama_grammar_parser_t)
    (r : Parse (List Nat × llama_grammar_rule × llama_grammar_parser_t)) : Prop :=
  (∃ e p1, r = .error (parse_fault.thrown e, p1)) ∨
    ∃ pos1 rule1 p1, r = .ok (pos1, rule1, p1) ∧ pos1 <:+ pos ∧ parser_ok p1 ∧
      refs_below p1.symbol_ids.length rule1 ∧ p.symbol_ids.length ≤ p1.symbol_ids.length

/-- What `parse_alternates` and `parse_rule` give from position `pos` and
parser `p` when their budget suffices. -/
def alt_post (pos : List Nat) (p : llama_grammar_parser_t)
    (r : Parse (List Nat × llama_grammar_parser_t)) : Prop :=
  (∃ e p1, r = .error (parse_fault.thrown e, p1)) ∨
    ∃ pos1 p1, r = .ok (pos1, p1) ∧ pos1 <:+ pos ∧ parser_ok p1 ∧
      p.symbol_ids.length ≤ p1.symbol_ids.length

/-! ## Trigger offsets as the spec describes them; sessions for the trigger claims -/

/-- The start offset in the spec's words, read as the smallest buffer position
of a capture group (index 1 and up) of positive length, or the match start
when there is none. A match is the list of `(position, length)` of its
groups, group 0 first. -/
def earliest_capture_start (groups : List (Nat × Nat)) : Nat :=
  match (groups.tail.filter (fun g => decide (g.2 > 0))).map Prod.fst with
  | [] => (groups.headD (0, 0)).1
  | p :: ps => ps.foldl min p

/-- A vocabulary whose token 0 is end-of-generation and has an empty piece;
every other token has the piece "a". -/
def empty_eog_vocab : llama_vocab :=
  ⟨fun t => if t = 0 then [] else [0x61], fun t => t == 0⟩

/-- A lazy session on `single_a_rules` that awaits a trigger, with "x" in its
trigger buffer, the trigger token 7 and one trigger pattern, whose first
capture group stands in a lookahead. -/
def single_a_lazy_session : llama_grammar :=
  ⟨single_a_rules, [[⟨0, 0⟩]], ⟨0, 0⟩, true, true, [0x78], [7], ["(?=.*(a))(x).*"]⟩

/-- The match of the pattern of `single_a_lazy_session` against the buffer
"xa": group 0 is the whole buffer, group 1 (in the lookahead) is the "a" at
position 1, group 2 is the "x" at position 0. No other buffer matches. -/
def lookahead_match (_ : String) (buffer : List Nat) : Option (List (Nat × Nat)) :=
  if buffer = [0x78, 0x61] then some [(0, 2), (1, 1), (0, 1)] else none

/-- A vocabulary without end-of-generation token: token 0 has the empty piece,
token 1 the piece `00 28`, every other token the piece `(`. -/
def nul_pieces_vocab : llama_vocab :=
  ⟨fun t => if t = 0 then [] else if t = 1 then [0, 0x28] else [0x28], fun _ => false⟩

/-! ## Session from a grammar text -/

/-- How `llama_grammar_init_impl` on a grammar text ends: with a session, with
`nullptr`, with the `std::out_of_range` that `symbol_ids.at(grammar_root)`
throws, or with the `std::regex_error` that the construction of a trigger
pattern throws. -/
inductive init_outcome
  | session (grammar : llama_grammar)
  | null
  | out_of_range
  | regex_error
  deriving DecidableEq, Repr

/-- Source: `llama_grammar_init_impl` on a grammar text (the overload taking
`grammar_str` and `grammar_root`). After the parse and the two tests it runs
the statements of the overload on a rule table, `llama_grammar_init_impl`
here, on the rules of the parser with the start rule `symbol_ids.at(grammar_root)`.
After the initial stacks are built it constructs a `std::regex` from every
trigger pattern, in order; `regex_compiles pattern` says whether the engine
accepts the pattern, and the constructor throws `std::regex_error` otherwise.
The session keeps the patterns as their source text. -/
def llama_grammar_init_impl_str (fuel : Nat) (regex_compiles : String → Bool)
    (grammar_str grammar_root : List Nat)
    (lazy : Bool) (trigger_patterns : List String) (trigger_tokens : List Nat) :
    Run init_outcome :=
  match parse fuel llama_grammar_parser_t.fresh grammar_str with
  | .error e => .error e
  | .ok (parsed, parser) =>
    if parsed = false ∨ parser.rules.isEmpty = true then .ok init_outcome.null
    else if parser.symbol_ids.lookup (text_bytes "root") = none then .ok init_outcome.null
    else
      match parser.symbol_ids.lookup grammar_root with
      | none => .ok init_outcome.out_of_range
      | some start_rule_index =>
        match llama_grammar_init_impl fuel parser.rules start_rule_index lazy trigger_tokens
            trigger_patterns with
        | .error e => .error e
        | .ok none => .ok init_outcome.null
        | .ok (some grammar) =>
          if trigger_patterns.all regex_compiles = true then
            .ok (init_outcome.session grammar)
          else .ok init_outcome.regex_error

/-- The rule table of `root ::= "é"` (U+00E9). -/
def e_acute_rules : llama_grammar_rules :=
  [[⟨llama_gretype.CHAR, 0xE9⟩, ⟨llama_gretype.END, 0⟩]]

/-- The session `llama_grammar_init_impl` returns for `e_acute_rules`. -/
def e_acute_session : llama_grammar :=
  ⟨e_acute_rules, [[⟨0, 0⟩]], ⟨0, 0⟩, false, false, [], [], []⟩

/-- The session after `e_acute_session` has accepted the piece `C3`. -/
def e_acute_half_session : llama_grammar :=
  ⟨e_acute_rules, [[⟨0, 0⟩]], ⟨3, 1⟩, false, false, [], [], []⟩

/-- A vocabulary of byte strings around `C3 A9`: the tokens 0 to 9 have the
pieces `C3`, `C3 A9`, `A9`, `41`, `C3 A9 41`, `C3 29`, `C3 69`, `E0 83`,
`E0 83 A9` and `F0 80 83`; no token is end-of-generation. -/
def split_vocab : llama_vocab :=
  ⟨fun t =>
      [[0xC3], [0xC3, 0xA9], [0xA9], [0x41], [0xC3, 0xA9, 0x41], [0xC3, 0x29], [0xC3, 0x69],
        [0xE0, 0x83], [0xE0, 0x83, 0xA9], [0xF0, 0x80, 0x83]].getD t [0x41],
    fun _ => false⟩

/-- The logit array with the tokens `0 .. n-1`, all with logit 0. -/
def flat_logits (n : Nat) : List llama_token_data :=
  (List.range n).map (fun i => ⟨i, logit_t.finite 0⟩)

/-! ## Stack entries that point at items -/

/-- Every entry of the stack points at an element of the table that is not the
end of an alternative. -/
def stack_entries_ok (rules : llama_grammar_rules) (stack : llama_grammar_stack) : Prop :=
  ∀ entry ∈ stack, llama_grammar_is_end_of_sequence (rules_at rules entry) = false

/-- Every stack of the frontier satisfies `stack_entries_ok`. -/
def frontier_entries_ok (rules : llama_grammar_rules) (ss : llama_grammar_stacks) : Prop :=
  ∀ s ∈ ss, stack_entries_ok rules s

/-! ## What a stack still derives; grammars made of items -/

/-- The stack derives the word `v`: `v` splits into one word for each entry,
top first, the entry deriving its word up to the end of its alternative. The
empty stack derives the empty word only. -/
def stack_derives (rules : llama_grammar_rules) : llama_grammar_stack → List Nat → Prop
  | [], v => v = []
  | pos :: rest, v =>
    ∃ v1 v2, v = v1 ++ v2 ∧ seq_derives rules pos v1 ∧ stack_derives rules rest v2

/-- The elements from `pos` to the end of its alternative are a sequence of
items: character classes and rule references. -/
inductive seq_wf (rules : llama_grammar_rules) : elem_ptr → Prop
  | done (pos : elem_ptr) :
      llama_grammar_is_end_of_sequence (rules_at rules pos) = true → seq_wf rules pos
  | char (pos : elem_ptr) (cls : char_class) :
      class_at rules pos cls → seq_wf rules (pos.add cls.encode.length) → seq_wf rules pos
  | ref (pos : elem_ptr) :
      (rules_at rules pos).type = llama_gretype.RULE_REF →
      seq_wf rules (pos.add 1) → seq_wf rules pos

/-- Every alternative of every rule is a sequence of items. -/
def grammar_wf (rules : llama_grammar_rules) : Prop :=
  ∀ r sub, sub ∈ rule_alternates (rules.getD r []) → seq_wf rules ⟨r, sub⟩

/-- Every entry of the stack starts a sequence of items and is not the end of
an alternative. -/
def stack_wf (rules : llama_grammar_rules) (stack : llama_grammar_stack) : Prop :=
  ∀ pos ∈ stack, seq_wf rules pos ∧ llama_grammar_is_end_of_sequence (rules_at rules pos) = false

/-- Every stack of the frontier satisfies `stack_wf`. -/
def frontier_wf (rules : llama_grammar_rules) (ss : llama_grammar_stacks) : Prop :=
  ∀ s ∈ ss, stack_wf rules s

/-- The call of `llama_grammar_advance_stack` on the stack returns a frontier
for every accumulator, given a budget of `n` nested calls or more. -/
def advance_returns (rules : llama_grammar_rules) (stack : llama_grammar_stack) : Prop :=
  ∃ n, ∀ fuel, n ≤ fuel → ∀ acc, ∃ res,
    llama_grammar_advance_stack fuel rules stack acc = .ok res

/-- The call of `llama_grammar_advance_stack` returns on a stack with `pos`
pushed, provided it returns on the stack below whenever the sequence at `pos`
derives the empty word. -/
def seq_returns (rules : llama_grammar_rules) (pos : elem_ptr) : Prop :=
  ∀ rest, (seq_derives rules pos [] → advance_returns rules rest) →
    advance_returns rules (push_unless_end rules pos rest)

/-- The rule table of `root ::= "ab"`. -/
def ab_rules : llama_grammar_rules :=
  [[⟨llama_gretype.CHAR, 0x61⟩, ⟨llama_gretype.CHAR, 0x62⟩, ⟨llama_gretype.END, 0⟩]]

/-- The session `llama_grammar_init_impl` returns for `ab_rules`. -/
def ab_session : llama_grammar :=
  ⟨ab_rules, [[⟨0, 0⟩]], ⟨0, 0⟩, false, false, [], [], []⟩

/-! ## The grammars of the worked examples -/

/-- The rule table the parser produces for `root ::= "a"{2,4}`: rule 1 is
`"a" | (empty)` and rule 2 is `"a" <rule 1> | (empty)`. -/
def bounded_a_rules : llama_grammar_rules :=
  [[⟨llama_gretype.CHAR, 0x61⟩, ⟨llama_gretype.CHAR, 0x61⟩, ⟨llama_gretype.RULE_REF, 2⟩,
    ⟨llama_gretype.END, 0⟩],
   [⟨llama_gretype.CHAR, 0x61⟩, ⟨llama_gretype.ALT, 0⟩, ⟨llama_gretype.END, 0⟩],
   [⟨llama_gretype.CHAR, 0x61⟩, ⟨llama_gretype.RULE_REF, 1⟩, ⟨llama_gretype.ALT, 0⟩,
    ⟨llama_gretype.END, 0⟩]]

/-- The session `llama_grammar_init_impl` returns for `bounded_a_rules`. -/
def bounded_a_session : llama_grammar :=
  ⟨bounded_a_rules, [[⟨0, 0⟩]], ⟨0, 0⟩, false, false, [], [], []⟩

/-- The frontier of `bounded_a_session` after `k` letters `a`. -/
def bounded_a_frontier : Nat → llama_grammar_stacks
  | 0 => [[⟨0, 0⟩]]
  | 1 => [[⟨0, 1⟩]]
  | 2 => [[⟨2, 0⟩], []]
  | 3 => [[⟨1, 0⟩], []]
  | 4 => [[]]
  | _ => []

/-! ## Parser objects reached by symbol-table calls -/

/-- A name `parse_name` accepts: a non-empty string of letters, digits and
hyphens. -/
def is_rule_name (name : List Nat) : Prop :=
  name ≠ [] ∧ ∀ c ∈ name, is_word_char c = true

/-- The parser objects reached from a new one by calls of `get_symbol_id` and
`generate_symbol_id` with names `parse_name` accepts, and by calls of
`add_rule` with the id of a symbol. -/
inductive symbol_table_reachable : llama_grammar_parser_t → Prop
  | fresh : symbol_table_reachable llama_grammar_parser_t.fresh
  | get (p : llama_grammar_parser_t) (name : List Nat) :
      symbol_table_reachable p → is_rule_name name →
      symbol_table_reachable (get_symbol_id p name).2
  | generate (p : llama_grammar_parser_t) (base_name : List Nat) :
      symbol_table_reachable p → is_rule_name base_name →
      symbol_table_reachable (generate_symbol_id p base_name).2
  | add (p : llama_grammar_parser_t) (rule_id : Nat) (rule : llama_grammar_rule) :
      symbol_table_reachable p → rule_id < p.symbol_ids.length →
      symbol_table_reachable (add_rule p rule_id rule)

/-! ## Frontiers of the balanced-parentheses example -/

/-- The frontier of `parens_session` after the first `k` bytes of `(())`. -/
def parens_frontier : Nat → llama_grammar_stacks
  | 0 => [[⟨0, 0⟩], []]
  | 1 => [[⟨0, 0⟩, ⟨0, 2⟩], [⟨0, 2⟩]]
  | 2 => [[⟨0, 0⟩, ⟨0, 2⟩, ⟨0, 2⟩], [⟨0, 2⟩, ⟨0, 2⟩]]
  | 3 => [[⟨0, 2⟩]]
  | _ => [[]]

/-- The code points the frontier after the first `k` bytes of `(())` admits:
`(` up to the second byte, `)` from the first byte to the third. -/
def parens_admits (k c : Nat) : Prop :=
  (k ≤ 2 ∧ c = 0x28) ∨ (1 ≤ k ∧ k ≤ 3 ∧ c = 0x29)

/-! ## A directly left-recursive grammar -/

/-- The rule table of `root ::= root "a" | "a"`. -/
def direct_lr_rules : llama_grammar_rules :=
  [[⟨llama_gretype.RULE_REF, 0⟩, ⟨llama_gretype.CHAR, 0x61⟩, ⟨llama_gretype.ALT, 0⟩,
    ⟨llama_gretype.CHAR, 0x61⟩, ⟨llama_gretype.END, 0⟩]]

/-! ## The evaluator as a relation on stacks -/

/-- The stack `x` is one of the stacks `llama_grammar_advance_stack` appends for
`stack`: `stack` itself when it is empty or its top is a character class, else
a stack it appends for one alternative of the referenced rule. -/
inductive stack_advances (rules : llama_grammar_rules) :
    llama_grammar_stack → llama_grammar_stack → Prop
  | empty : stack_advances rules [] []
  | char (pos : elem_ptr) (rest : llama_grammar_stack) :
      stack_top_ok rules (pos :: rest) = true → stack_advances rules (pos :: rest) (pos :: rest)
  | ref (pos : elem_ptr) (rest : llama_grammar_stack) (sub : Nat) (x : llama_grammar_stack) :
      (rules_at rules pos).type = llama_gretype.RULE_REF →
      sub ∈ rule_alternates (rules.getD (rules_at rules pos).value []) →
      stack_advances rules
        (push_unless_end rules ⟨(rules_at rules pos).value, sub⟩
          (push_unless_end rules (pos.add 1) rest)) x →
      stack_advances rules (pos :: rest) x

/-- The stack `x` is one of the stacks a round of `llama_grammar_accept`
appends for `stack` on the code point `chr`: the top of `stack` matches `chr`
and `x` comes from the stack advanced past the class. -/
def stack_steps (rules : llama_grammar_rules) (chr : Nat) (stack x : llama_grammar_stack) :
    Prop :=
  ∃ pos rest m, stack = pos :: rest ∧ llama_grammar_match_char rules pos chr = .ok m ∧
    m.1 = true ∧ stack_advances rules (push_unless_end rules m.2 rest) x

/-- The stack can take the code points one after the other. -/
inductive stack_survives (rules : llama_grammar_rules) :
    llama_grammar_stack → List Nat → Prop
  | done (stack : llama_grammar_stack) : stack_survives rules stack []
  | step (stack x : llama_grammar_stack) (chr : Nat) (chrs : List Nat) :
      stack_steps rules chr stack x → stack_survives rules x chrs →
      stack_survives rules stack (chr :: chrs)

/-- The code points the candidate still has to offer are `cps`: its buffer from
the cursor on is `cps`, none of them 0, then the terminating 0. -/
def candidate_offers (tok : llama_grammar_candidate) (cps : List Nat) : Prop :=
  0 ∉ cps ∧ ∃ tail, tok.code_points.drop tok.cp_pos = cps ++ 0 :: tail

/-! ## The lazy session of the trigger example -/

/-- The rule table the parser produces for `root ::= [a-z]+`: rule 1 is
`[a-z] <rule 1> | (empty)`. -/
def lower_rules : llama_grammar_rules :=
  [[⟨llama_gretype.CHAR, 0x61⟩, ⟨llama_gretype.CHAR_RNG_UPPER, 0x7A⟩,
    ⟨llama_gretype.RULE_REF, 1⟩, ⟨llama_gretype.END, 0⟩],
   [⟨llama_gretype.CHAR, 0x61⟩, ⟨llama_gretype.CHAR_RNG_UPPER, 0x7A⟩,
    ⟨llama_gretype.RULE_REF, 1⟩, ⟨llama_gretype.ALT, 0⟩, ⟨llama_gretype.END, 0⟩]]

/-- The session `llama_grammar_init_impl` returns for the text
`root ::= [a-z]+`, lazy, with one trigger pattern and no trigger token. -/
def lower_lazy_session (pattern : String) : llama_grammar :=
  ⟨lower_rules, [[⟨0, 0⟩]], ⟨0, 0⟩, true, true, [], [], [pattern]⟩

/-- The frontier of `lower_rules` after one letter or more. -/
def lower_frontier : llama_grammar_stacks := [[⟨1, 0⟩], []]

/-- The session of `lower_lazy_session` once active and fed `abc`. -/
def lower_active_session (pattern : String) : llama_grammar :=
  ⟨lower_rules, lower_frontier, ⟨0x63, 0⟩, true, false, [], [], [pattern]⟩

/-- Successive calls of `llama_grammar_accept_impl`, one per token, as the
sampler makes them; the parse-progress error ends the run. -/
def accept_tokens (fuel : Nat) (vocab : llama_vocab)
    (regex_match : String → List Nat → Option (List (Nat × Nat))) :
    llama_grammar → List Nat → Run accept_outcome
  | grammar, [] => .ok (accept_outcome.done grammar)
  | grammar, token :: tokens =>
    match llama_grammar_accept_impl fuel vocab regex_match grammar token with
    | .error e => .error e
    | .ok (accept_outcome.parse_error grammar1) => .ok (accept_outcome.parse_error grammar1)
    | .ok (accept_outcome.done grammar1) => accept_tokens fuel vocab regex_match grammar1 tokens

/-- The answers of `std::regex_match` for the pattern `^BEGIN:(.*)$`, which has
to match the whole buffer: the buffer starts with `BEGIN:` and holds no line
break; group 0 is the buffer, group 1 what follows `BEGIN:`. No answer is
given for another pattern. -/
def anchored_begin_match (pattern : String) (buffer : List Nat) : Option (List (Nat × Nat)) :=
  if pattern = "^BEGIN:(.*)$" ∧ buffer.take 6 = text_bytes "BEGIN:" ∧ 0x0A ∉ buffer ∧
      0x0D ∉ buffer then
    some [(0, buffer.length), (6, buffer.length - 6)]
  else none

/-- The answers of `std::regex_match` for the pattern `.*BEGIN:(.+)` on the
buffers `noise `, `noise BEGIN:` and `noise BEGIN:abc`, the ones it is asked
below: the last one alone matches, with group 1 the text `abc` at offset 12. -/
def suffix_begin_match (pattern : String) (buffer : List Nat) : Option (List (Nat × Nat)) :=
  if pattern = ".*BEGIN:(.+)" ∧ buffer = text_bytes "noise BEGIN:abc" then
    some [(0, 15), (12, 3)]
  else none

/-- A vocabulary with the pieces `noise `, `BEGIN:`, `abc`, the whole text
`noise BEGIN:abc` and `X1`; token 9 is the end-of-generation token. -/
def noise_vocab : llama_vocab :=
  ⟨fun t =>
    match t with
    | 0 => text_bytes "noise "
    | 1 => text_bytes "BEGIN:"
    | 2 => text_bytes "abc"
    | 3 => text_bytes "noise BEGIN:abc"
    | 4 => text_bytes "X1"
    | _ => [],
   fun t => t == 9⟩

/-! ## The shape of the rules the parser stores -/

/-- A sequence of items as `parse_sequence` emits them: character classes and
rule references. -/
inductive item_seq : llama_grammar_rule → Prop
  | nil : item_seq []
  | ref (value : Nat) (l : llama_grammar_rule) :
      item_seq l → item_seq (⟨llama_gretype.RULE_REF, value⟩ :: l)
  | cls (c : char_class) (l : llama_grammar_rule) : item_seq l → item_seq (c.encode ++ l)

/-- Alternatives, each a sequence of items, separated by `ALT`. -/
inductive alt_seq : llama_grammar_rule → Prop
  | one (l : llama_grammar_rule) : item_seq l → alt_seq l
  | more (l1 l2 : llama_grammar_rule) :
      item_seq l1 → alt_seq l2 → alt_seq (l1 ++ ⟨llama_gretype.ALT, 0⟩ :: l2)

/-- A rule of the table: not yet defined (empty), or alternatives closed by `END`. -/
def rule_ok (rule : llama_grammar_rule) : Prop :=
  rule = [] ∨ ∃ body, alt_seq body ∧ rule = body ++ [⟨llama_gretype.END, 0⟩]

/-- Every rule of the table has the shape `rule_ok`. -/
def table_ok (rules : llama_grammar_rules) : Prop :=
  ∀ rule ∈ rules, rule_ok rule

/-- The rule under construction in `parse_sequence`: alternatives up to
`last_sym_start`, then the items of the last symbol. -/
def open_rule_ok (rule : llama_grammar_rule) (last_sym_start : Nat) : Prop :=
  ∃ a b, rule = a ++ b ∧ a.length = last_sym_start ∧ alt_seq a ∧ item_seq b

/-- The elements of a character class under construction in
`parse_char_ranges`: none yet, or a first entry of kind `start_type` and
further entries. -/
def class_part (start_type : llama_gretype) (part : llama_grammar_rule) : Prop :=
  part = [] ∨ ∃ first others, part = class_item.encode start_type first ++ encode_alts others

/-- The sessions reached from `g0` by calls of `llama_grammar_accept` that
return, with any code points and budgets. -/
inductive reached_by_accept (g0 : llama_grammar) : llama_grammar → Prop
  | start : reached_by_accept g0 g0
  | accept (fuel : Nat) (g g1 : llama_grammar) (chr : Nat) :
      reached_by_accept g0 g → llama_grammar_accept fuel g chr = .ok g1 →
      reached_by_accept g0 g1

/-! ## Sessions as objects in memory -/

/-- The address of a grammar element: the session object whose rule table
holds the element (`owner`, the index of that object in memory) and the
position in that table. Two addresses are equal iff both parts are equal: the
rule tables of two objects are distinct vectors. -/
structure elem_addr where
  owner : Nat
  pos : elem_ptr
  deriving DecidableEq, Repr

/-- The address `pos + k`. -/
def elem_addr.add (a : elem_addr) (k : Nat) : elem_addr :=
  ⟨a.owner, a.pos.add k⟩

/-- A session as it lies in memory: `struct llama_grammar` with the stack
entries as addresses, which may point into the rule table of any object. -/
structure grammar_object where
  rules : llama_grammar_rules
  cur_stacks : List (List elem_addr)
  partial_utf8 : llama_partial_utf8
  lazy : Bool
  awaiting_trigger : Bool
  trigger_buffer : List Nat
  trigger_tokens : List Nat
  trigger_patterns : List String
  deriving DecidableEq, Repr

/-- The session objects allocated so far; the address of an object is its
index. No object is freed. -/
abbrev grammar_memory := List grammar_object

/-- The rule table of the object at `owner`; the empty table when there is no
such object. -/
def memory_rules (mem : grammar_memory) (owner : Nat) : llama_grammar_rules :=
  match mem[owner]? with
  | some obj => obj.rules
  | none => []

/-- The element an address designates, `*pos`, read in the table of its owner. -/
def memory_at (mem : grammar_memory) (a : elem_addr) : llama_grammar_element :=
  rules_at (memory_rules mem a.owner) a.pos

/-- Append a stack of addresses unless an equal one is present. -/
def push_unique_obj (new_stacks : List (List elem_addr)) (stack : List elem_addr) :
    List (List elem_addr) :=
  if stack ∈ new_stacks then new_stacks else new_stacks ++ [stack]

/-- Push the address unless it designates the end of an alternative. -/
def push_unless_end_obj (mem : grammar_memory) (a : elem_addr) (stack : List elem_addr) :
    List elem_addr :=
  if llama_grammar_is_end_of_sequence (memory_at mem a) then stack else a :: stack

/-- Source: `llama_grammar_advance_stack`, on addresses. `own` is the object
whose table is passed as `rules`: the alternatives of a referenced rule are
read in that table and pushed as addresses into it, while the top of the stack
and its successor are read where they point. -/
def llama_grammar_advance_stack_obj :
    Nat → grammar_memory → Nat → List elem_addr → List (List elem_addr) →
      Run (List (List elem_addr))
  | 0, _, _, _, _ => .error Fault.fuel
  | fuel + 1, mem, own, stack, new_stacks =>
    match stack with
    | [] => .ok (push_unique_obj new_stacks stack)
    | pos :: rest =>
      match (memory_at mem pos).type with
      | llama_gretype.RULE_REF =>
        let rule_id := (memory_at mem pos).value
        (rule_alternates ((memory_rules mem own).getD rule_id [])).foldlM
          (fun acc sub =>
            llama_grammar_advance_stack_obj fuel mem own
              (push_unless_end_obj mem ⟨own, ⟨rule_id, sub⟩⟩
                (push_unless_end_obj mem (pos.add 1) rest))
              acc)
          new_stacks
      | llama_gretype.CHAR => .ok (push_unique_obj new_stacks stack)
      | llama_gretype.CHAR_NOT => .ok (push_unique_obj new_stacks stack)
      | llama_gretype.CHAR_ANY => .ok (push_unique_obj new_stacks stack)
      | _ => .error Fault.abort

/-- Source: `llama_grammar_match_char`, on an address: it reads the elements
from `pos` on in the vector `pos` points into and returns a pointer into the
same vector. -/
def llama_grammar_match_char_obj (mem : grammar_memory) (pos : elem_addr) (chr : Nat) :
    Run (Bool × elem_addr) :=
  match llama_grammar_match_char (memory_rules mem pos.owner) pos.pos chr with
  | .error e => .error e
  | .ok m => .ok (m.1, ⟨pos.owner, m.2⟩)

/-- One round of the loop of `llama_grammar_accept` over the stacks, on
addresses. -/
def accept_stack_obj (fuel : Nat) (mem : grammar_memory) (own : Nat) (chr : Nat)
    (stacks_new : List (List elem_addr)) (stack : List elem_addr) :
    Run (List (List elem_addr)) :=
  match stack with
  | [] => .ok stacks_new
  | top :: rest =>
    match llama_grammar_match_char_obj mem top chr with
    | .error e => .error e
    | .ok m =>
      if m.1 then
        llama_grammar_advance_stack_obj fuel mem own (push_unless_end_obj mem m.2 rest)
          stacks_new
      else .ok stacks_new

/-- The frontier `llama_grammar_accept` computes from the stacks of the object
at `own` for `chr`. -/
def accept_stacks_obj (fuel : Nat) (mem : grammar_memory) (own : Nat)
    (cur_stacks : List (List elem_addr)) (chr : Nat) : Run (List (List elem_addr)) :=
  cur_stacks.foldlM (accept_stack_obj fuel mem own chr) []

/-- Source: `llama_grammar_accept`, on the object `grammar` that lies at `own`.
The rule tables are read in `mem`; they are never written after construction. -/
def llama_grammar_accept_obj (fuel : Nat) (mem : grammar_memory) (own : Nat)
    (grammar : grammar_object) (chr : Nat) : Run grammar_object :=
  match accept_stacks_obj fuel mem own grammar.cur_stacks chr with
  | .error e => .error e
  | .ok stacks_new => .ok { grammar with cur_stacks := stacks_new }

/-- The loop of `llama_grammar_accept_str` over the decoded code points, on an
object. -/
def accept_code_points_obj (fuel : Nat) (mem : grammar_memory) (own : Nat) :
    grammar_object → List Nat → Run grammar_object
  | grammar, [] => .ok grammar
  | grammar, chr :: chrs =>
    match llama_grammar_accept_obj fuel mem own grammar chr with
    | .error e => .error e
    | .ok grammar1 => accept_code_points_obj fuel mem own grammar1 chrs

/-- The two ways `llama_grammar_accept_str` ends, with the object as the call
leaves it. -/
inductive accept_outcome_obj
  | done (grammar : grammar_object)
  | parse_error (grammar : grammar_object)
  deriving DecidableEq, Repr

/-- The object an outcome carries. -/
def accept_outcome_obj.object : accept_outcome_obj → grammar_object
  | accept_outcome_obj.done g => g
  | accept_outcome_obj.parse_error g => g

/-- Source: `llama_grammar_accept_str`, on the object `grammar` at `own`. -/
def llama_grammar_accept_str_obj (fuel : Nat) (mem : grammar_memory) (own : Nat)
    (grammar : grammar_object) (piece : List Nat) : Run accept_outcome_obj :=
  let decoded := decode_utf8 piece grammar.partial_utf8
  match accept_code_points_obj fuel mem own grammar decoded.1.dropLast with
  | .error e => .error e
  | .ok grammar1 =>
    let grammar2 : grammar_object := { grammar1 with partial_utf8 := decoded.2 }
    if grammar2.cur_stacks.isEmpty then .ok (accept_outcome_obj.parse_error grammar2)
    else .ok (accept_outcome_obj.done grammar2)

/-- Source: `llama_grammar_accept_impl`, on the object `grammar` at `own`. -/
def llama_grammar_accept_impl_obj (fuel : Nat) (vocab : llama_vocab)
    (regex_match : String → List Nat → Option (List (Nat × Nat)))
    (mem : grammar_memory) (own : Nat) (grammar : grammar_object) (token : Nat) :
    Run accept_outcome_obj :=
  let piece := vocab.token_to_piece token
  if grammar.awaiting_trigger then
    if token ∈ grammar.trigger_tokens then
      llama_grammar_accept_str_obj fuel mem own
        { grammar with awaiting_trigger := false, trigger_buffer := [] } piece
    else
      let buffer := grammar.trigger_buffer ++ piece
      match find_trigger regex_match buffer grammar.trigger_patterns with
      | some start =>
        llama_grammar_accept_str_obj fuel mem own
          { grammar with awaiting_trigger := false, trigger_buffer := [] } (buffer.drop start)
      | none => .ok (accept_outcome_obj.done { grammar with trigger_buffer := buffer })
  else if vocab.is_eog token then
    if grammar.cur_stacks.any List.isEmpty then .ok (accept_outcome_obj.done grammar)
    else .error Fault.abort
  else llama_grammar_accept_str_obj fuel mem own grammar piece

/-- A call of `llama_grammar_accept_impl` on the session at address `own`: the
call reads the object there and leaves it as the outcome says; no other object
is written. The result is the outcome and the memory after the call. A call on
an address that holds no object is undefined in the source; here it stops with
the fatal error. -/
def llama_grammar_accept_impl_at (fuel : Nat) (vocab : llama_vocab)
    (regex_match : String → List Nat → Option (List (Nat × Nat)))
    (mem : grammar_memory) (own : Nat) (token : Nat) :
    Run (accept_outcome_obj × grammar_memory) :=
  match mem[own]? with
  | none => .error Fault.abort
  | some grammar =>
    match llama_grammar_accept_impl_obj fuel vocab regex_match mem own grammar token with
    | .error e => .error e
    | .ok o => .ok (o, mem.set own o.object)

/-- The four loops of `llama_grammar_clone_impl` for one stack entry: over the
rules `ir0` of the source and their elements `ir1`, whenever the entry of the
source is the address of element `ir1` of rule `ir0` of the source's table,
the entry of the copy is set to the address of the element with the same
indices in the copy's table. `entry` is the entry of the source (and the
initial entry of the copy), `src` the address of the source, `dst` that of the
copy. An entry that is the address of no element of the source's table is left
as it was copied. -/
def clone_redirect (src : Nat) (rules : llama_grammar_rules) (dst : Nat)
    (entry : elem_addr) : elem_addr :=
  (List.range rules.length).foldl
    (fun acc ir0 =>
      (List.range (rules.getD ir0 []).length).foldl
        (fun acc1 ir1 => if entry = ⟨src, ⟨ir0, ir1⟩⟩ then ⟨dst, ⟨ir0, ir1⟩⟩ else acc1)
        acc)
    entry

/-- Source: `llama_grammar_clone_impl`, on the object at address `src`. The
`new llama_grammar` is the next free address; every field is copied, the rule
table into a vector of its own, and the stack entries of the copy are then
redirected. The result is the address of the copy and the memory with it;
`none` when `src` holds no object (a dangling reference, undefined in the
source). -/
def llama_grammar_clone_impl (mem : grammar_memory) (src : Nat) :
    Option (Nat × grammar_memory) :=
  match mem[src]? with
  | none => none
  | some grammar =>
    let dst := mem.length
    some (dst, mem ++ [{ grammar with
      cur_stacks := grammar.cur_stacks.map (fun stack =>
        stack.map (clone_redirect src grammar.rules dst)) }])

/-- The session `g` laid out at address `own`: every stack entry points into
the rule table of the object itself. This is how `llama_grammar_init_impl`
leaves a new session: `vec_rules` is moved into the object, so the pointers
its stacks hold point into the object's own table. -/
def store_session (own : Nat) (g : llama_grammar) : grammar_object :=
  ⟨g.rules, g.cur_stacks.map (fun stack => stack.map (fun p => ⟨own, p⟩)), g.partial_utf8,
    g.lazy, g.awaiting_trigger, g.trigger_buffer, g.trigger_tokens, g.trigger_patterns⟩

/-- The outcome of a call on the session laid out at `own`. -/
def store_outcome (own : Nat) : accept_outcome → accept_outcome_obj
  | accept_outcome.done g => accept_outcome_obj.done (store_session own g)
  | accept_outcome.parse_error g => accept_outcome_obj.parse_error (store_session own g)

/-- Source: `llama_grammar_init_impl`, as an allocation: the session it returns
is a new object at the next free address. -/
def llama_grammar_init_impl_at (fuel : Nat) (mem : grammar_memory)
    (rules : llama_grammar_rules) (start_rule_index : Nat) (lazy : Bool)
    (trigger_tokens : List Nat) (trigger_patterns : List String) :
    Run (Option (Nat × grammar_memory)) :=
  match llama_grammar_init_impl fuel rules start_rule_index lazy trigger_tokens
      trigger_patterns with
  | .error e => .error e
  | .ok none => .ok none
  | .ok (some g) => .ok (some (mem.length, mem ++ [store_session mem.length g]))

/-- The memories a host can build: from the empty memory by
`llama_grammar_init_impl`, `llama_grammar_clone_impl` and
`llama_grammar_accept_impl` calls that come back. -/
inductive memory_reachable : grammar_memory → Prop
  | empty : memory_reachable []
  | init (fuel : Nat) (mem : grammar_memory) (rules : llama_grammar_rules)
      (start_rule_index : Nat) (lazy : Bool) (trigger_tokens : List Nat)
      (trigger_patterns : List String) (dst : Nat) (mem1 : grammar_memory) :
      memory_reachable mem →
      llama_grammar_init_impl_at fuel mem rules start_rule_index lazy trigger_tokens
        trigger_patterns = .ok (some (dst, mem1)) →
      memory_reachable mem1
  | clone (mem : grammar_memory) (src dst : Nat) (mem1 : grammar_memory) :
      memory_reachable mem → llama_grammar_clone_impl mem src = some (dst, mem1) →
      memory_reachable mem1
  | accept_impl (fuel : Nat) (vocab : llama_vocab)
      (regex_match : String → List Nat → Option (List (Nat × Nat)))
      (mem : grammar_memory) (own token : Nat) (o : accept_outcome_obj)
      (mem1 : grammar_memory) :
      memory_reachable mem →
      llama_grammar_accept_impl_at fuel vocab regex_match mem own token = .ok (o, mem1) →
      memory_reachable mem1

/-! ## Theorems -/

/-! ### Folds that return -/

theorem foldlM_ok_inv {α β : Type} (P : β → Prop) (f : β → α → Run β) :
    ∀ (l : List α) (acc r : β),
      (∀ acc a r, a ∈ l → P acc → f acc a = .ok r → P r) →
      P acc → l.foldlM f acc = .ok r → P r := by
  intro l
  induction l with
  | nil =>
    intro acc r _ hacc h
    simp only [List.foldlM_nil, pure, Except.pure, Except.ok.injEq] at h
    exact h ▸ hacc
  | cons a as ih =>
    intro acc r hstep hacc h
    simp only [List.foldlM_cons, bind, Except.bind] at h
    cases hf : f acc a with
    | error e => rw [hf] at h; cases h
    | ok r1 =>
      rw [hf] at h
      exact ih r1 r (fun acc a r ha => hstep acc a r (List.mem_cons_of_mem _ ha))
        (hstep acc a r1 (List.mem_cons_self _ _) hacc hf) h

theorem foldlM_ok_inv_cons {α β : Type} (P : β → Prop) (f : β → α → Run β)
    (a : α) (l : List α) (acc r : β)
    (hstep : ∀ acc a r, f acc a = .ok r → P r)
    (h : (a :: l).foldlM f acc = .ok r) : P r := by
  simp only [List.foldlM_cons, bind, Except.bind] at h
  cases hf : f acc a with
  | error e => rw [hf] at h; cases h
  | ok r1 =>
    rw [hf] at h
    exact foldlM_ok_inv P f l r1 r (fun acc a r _ _ => hstep acc a r) (hstep acc a r1 hf) h

/-! ### The frontier after `init` is non-empty (C10) and keeps character-class tops (C9) -/

theorem push_unique_ne_nil (new_stacks : llama_grammar_stacks) (stack : llama_grammar_stack) :
    push_unique new_stacks stack ≠ [] := by
  unfold push_unique
  split
  · rename_i h
    exact List.ne_nil_of_mem h
  · simp

theorem advance_stack_ne_nil :
    ∀ (fuel : Nat) (rules : llama_grammar_rules) (stack : llama_grammar_stack)
      (new_stacks res : llama_grammar_stacks),
      llama_grammar_advance_stack fuel rules stack new_stacks = .ok res → res ≠ [] := by
  intro fuel
  induction fuel with
  | zero => intro rules stack new_stacks res h; simp [llama_grammar_advance_stack] at h
  | succ n ih =>
    intro rules stack new_stacks res h
    unfold llama_grammar_advance_stack at h
    cases stack with
    | nil =>
      simp only [Except.ok.injEq] at h
      exact h ▸ push_unique_ne_nil _ _
    | cons pos rest =>
      simp only at h
      split at h
      · exact foldlM_ok_inv_cons (fun r => r ≠ []) _ _ _ _ _
          (fun acc a r hr => ih _ _ _ _ hr) h
      · simp only [Except.ok.injEq] at h; exact h ▸ push_unique_ne_nil _ _
      · simp only [Except.ok.injEq] at h; exact h ▸ push_unique_ne_nil _ _
      · simp only [Except.ok.injEq] at h; exact h ▸ push_unique_ne_nil _ _
      · cases h

theorem init_stacks_ne_nil (fuel : Nat) (vec_rules : llama_grammar_rules) (start : Nat)
    (res : llama_grammar_stacks) (h : init_stacks fuel vec_rules start = .ok res) :
    res ≠ [] := by
  unfold init_stacks rule_alternates at h
  exact foldlM_ok_inv_cons (fun r => r ≠ []) _ _ _ _ _
    (fun acc a r hr => advance_stack_ne_nil _ _ _ _ _ hr) h

theorem init_impl_some (fuel : Nat) (rules : llama_grammar_rules) (start : Nat) (lazy : Bool)
    (tt : List Nat) (tp : List String) (g : llama_grammar)
    (h : llama_grammar_init_impl fuel rules start lazy tt tp = .ok (some g)) :
    g.rules = rules.map copy_rule ∧
    init_stacks fuel (rules.map copy_rule) start = .ok g.cur_stacks ∧
    g.partial_utf8 = ⟨0, 0⟩ ∧ g.awaiting_trigger = lazy := by
  unfold llama_grammar_init_impl at h
  simp only at h
  split at h
  · cases h
  · cases h
  · split at h
    · cases h
    · rename_i r hr
      simp only [Except.ok.injEq, Option.some.injEq] at h
      subst h
      exact ⟨rfl, hr, rfl, rfl⟩

theorem push_unique_frontier_ok (rules : llama_grammar_rules) (ss : llama_grammar_stacks)
    (s : llama_grammar_stack) (hss : frontier_ok rules ss) (hs : stack_top_ok rules s = true) :
    frontier_ok rules (push_unique ss s) := by
  unfold push_unique
  split
  · exact hss
  · intro t ht
    rcases List.mem_append.mp ht with h | h
    · exact hss t h
    · simp only [List.mem_singleton] at h
      exact h ▸ hs

theorem advance_stack_frontier_ok :
    ∀ (fuel : Nat) (rules : llama_grammar_rules) (stack : llama_grammar_stack)
      (new_stacks res : llama_grammar_stacks),
      frontier_ok rules new_stacks →
      llama_grammar_advance_stack fuel rules stack new_stacks = .ok res →
      frontier_ok rules res := by
  intro fuel
  induction fuel with
  | zero => intro rules stack new_stacks res _ h; simp [llama_grammar_advance_stack] at h
  | succ n ih =>
    intro rules stack new_stacks res hacc h
    unfold llama_grammar_advance_stack at h
    cases stack with
    | nil =>
      simp only [Except.ok.injEq] at h
      exact h ▸ push_unique_frontier_ok rules _ _ hacc rfl
    | cons pos rest =>
      simp only at h
      split at h
      · exact foldlM_ok_inv (frontier_ok rules) _ _ _ _
          (fun acc a r _ hP hr => ih _ _ _ _ hP hr) hacc h
      · rename_i ht
        simp only [Except.ok.injEq] at h
        exact h ▸ push_unique_frontier_ok rules _ _ hacc (by simp [stack_top_ok, ht])
      · rename_i ht
        simp only [Except.ok.injEq] at h
        exact h ▸ push_unique_frontier_ok rules _ _ hacc (by simp [stack_top_ok, ht])
      · rename_i ht
        simp only [Except.ok.injEq] at h
        exact h ▸ push_unique_frontier_ok rules _ _ hacc (by simp [stack_top_ok, ht])
      · cases h

theorem frontier_ok_nil (rules : llama_grammar_rules) : frontier_ok rules [] := by
  intro s hs; cases hs

theorem accept_stack_frontier_ok (fuel : Nat) (rules : llama_grammar_rules) (chr : Nat)
    (acc : llama_grammar_stacks) (stack : llama_grammar_stack) (res : llama_grammar_stacks)
    (hacc : frontier_ok rules acc) (h : accept_stack fuel rules chr acc stack = .ok res) :
    frontier_ok rules res := by
  unfold accept_stack at h
  cases stack with
  | nil => simp only [Except.ok.injEq] at h; exact h ▸ hacc
  | cons top rest =>
    simp only at h
    split at h
    · cases h
    · split at h
      · exact advance_stack_frontier_ok _ _ _ _ _ hacc h
      · simp only [Except.ok.injEq] at h; exact h ▸ hacc

theorem accept_stacks_frontier_ok (fuel : Nat) (rules : llama_grammar_rules)
    (ss : llama_grammar_stacks) (chr : Nat) (res : llama_grammar_stacks)
    (h : accept_stacks fuel rules ss chr = .ok res) : frontier_ok rules res := by
  unfold accept_stacks at h
  exact foldlM_ok_inv (frontier_ok rules) _ _ _ _
    (fun acc a r _ hP hr => accept_stack_frontier_ok fuel rules chr acc a r hP hr)
    (frontier_ok_nil rules) h

theorem accept_frontier_ok (fuel : Nat) (g g1 : llama_grammar) (chr : Nat)
    (h : llama_grammar_accept fuel g chr = .ok g1) :
    g1.rules = g.rules ∧ frontier_ok g1.rules g1.cur_stacks := by
  unfold llama_grammar_accept at h
  split at h
  · cases h
  · rename_i r hr
    simp only [Except.ok.injEq] at h
    subst h
    exact ⟨rfl, accept_stacks_frontier_ok _ _ _ _ _ hr⟩

theorem accept_code_points_frontier_ok (fuel : Nat) :
    ∀ (chrs : List Nat) (g g1 : llama_grammar),
      frontier_ok g.rules g.cur_stacks →
      accept_code_points fuel g chrs = .ok g1 →
      frontier_ok g1.rules g1.cur_stacks := by
  intro chrs
  induction chrs with
  | nil =>
    intro g g1 hg h
    simp only [accept_code_points, Except.ok.injEq] at h
    exact h ▸ hg
  | cons c cs ih =>
    intro g g1 _ h
    simp only [accept_code_points] at h
    split at h
    · cases h
    · rename_i g2 hg2
      exact ih g2 g1 (accept_frontier_ok _ _ _ _ hg2).2 h

theorem accept_str_frontier_ok (fuel : Nat) (g : llama_grammar) (piece : List Nat)
    (o : accept_outcome) (hg : frontier_ok g.rules g.cur_stacks)
    (h : llama_grammar_accept_str fuel g piece = .ok o) :
    frontier_ok o.grammar.rules o.grammar.cur_stacks := by
  unfold llama_grammar_accept_str at h
  simp only at h
  split at h
  · cases h
  · rename_i g1 hg1
    have h1 := accept_code_points_frontier_ok fuel _ g g1 hg hg1
    split at h
    · simp only [Except.ok.injEq] at h; subst h; exact h1
    · simp only [Except.ok.injEq] at h; subst h; exact h1

theorem accept_impl_frontier_ok (fuel : Nat) (vocab : llama_vocab)
    (regex_match : String → List Nat → Option (List (Nat × Nat)))
    (g : llama_grammar) (token : Nat)
    (o : accept_outcome) (hg : frontier_ok g.rules g.cur_stacks)
    (h : llama_grammar_accept_impl fuel vocab regex_match g token = .ok o) :
    frontier_ok o.grammar.rules o.grammar.cur_stacks := by
  unfold llama_grammar_accept_impl at h
  simp only at h
  split at h
  · split at h
    · exact accept_str_frontier_ok fuel
        { g with awaiting_trigger := false, trigger_buffer := [] } _ o hg h
    · split at h
      · exact accept_str_frontier_ok fuel
          { g with awaiting_trigger := false, trigger_buffer := [] } _ o hg h
      · simp only [Except.ok.injEq] at h; subst h; exact hg
  · split at h
    · split at h
      · simp only [Except.ok.injEq] at h; subst h; exact hg
      · cases h
    · exact accept_str_frontier_ok fuel _ _ o hg h

theorem init_stacks_frontier_ok (fuel : Nat) (vec_rules : llama_grammar_rules) (start : Nat)
    (res : llama_grammar_stacks) (h : init_stacks fuel vec_rules start = .ok res) :
    frontier_ok vec_rules res := by
  unfold init_stacks at h
  exact foldlM_ok_inv (frontier_ok vec_rules) _ _ _ _
    (fun acc a r _ hP hr => advance_stack_frontier_ok _ _ _ _ _ hP hr)
    (frontier_ok_nil vec_rules) h

/-- C9. Stack-top invariant: in every session a host can reach (returned by
`llama_grammar_init_impl`, or obtained from it through `llama_grammar_accept`,
`llama_grammar_accept_str` and `llama_grammar_accept_impl` calls), every stack
of the frontier is empty or has a top element of kind `CHAR`, `CHAR_NOT` or
`CHAR_ANY`. -/
theorem stack_top_invariant (g : llama_grammar) (h : session_reachable g) :
    ∀ s ∈ g.cur_stacks, stack_top_ok g.rules s = true := by
  induction h with
  | init fuel rules start lazy tt tp g hinit =>
    obtain ⟨hr, hs, _, _⟩ := init_impl_some _ _ _ _ _ _ _ hinit
    rw [hr]
    exact init_stacks_frontier_ok _ _ _ _ hs
  | accept fuel g g1 chr _ hacc _ => exact (accept_frontier_ok _ _ _ _ hacc).2
  | accept_str fuel g piece o _ hacc ih => exact accept_str_frontier_ok _ _ _ _ ih hacc
  | accept_impl fuel vocab rm g token o _ hacc ih =>
    exact accept_impl_frontier_ok _ _ _ _ _ _ ih hacc

/-- C10. Whenever `llama_grammar_init_impl` returns a session, the frontier of
that session is non-empty. -/
theorem init_frontier_nonempty (fuel : Nat) (rules : llama_grammar_rules)
    (start_rule_index : Nat) (lazy : Bool) (trigger_tokens : List Nat)
    (trigger_patterns : List String) (g : llama_grammar)
    (h : llama_grammar_init_impl fuel rules start_rule_index lazy trigger_tokens
      trigger_patterns = .ok (some g)) :
    g.cur_stacks ≠ [] := by
  obtain ⟨_, hs, _, _⟩ := init_impl_some _ _ _ _ _ _ _ h
  exact init_stacks_ne_nil _ _ _ _ hs

theorem parens_init :
    llama_grammar_init_impl 4 parens_rules 0 false [] [] = .ok (some parens_session) := by
  rfl

theorem stack_top_invariant_witness :
    session_reachable parens_session ∧
      ∀ s ∈ parens_session.cur_stacks, stack_top_ok parens_session.rules s = true :=
  ⟨session_reachable.init 4 parens_rules 0 false [] [] parens_session parens_init,
   stack_top_invariant parens_session
     (session_reachable.init 4 parens_rules 0 false [] [] parens_session parens_init)⟩

theorem init_frontier_nonempty_witness :
    llama_grammar_init_impl 4 parens_rules 0 false [] [] = .ok (some parens_session) ∧
      parens_session.cur_stacks ≠ [] :=
  ⟨parens_init, init_frontier_nonempty 4 parens_rules 0 false [] [] parens_session parens_init⟩

/-! ### `llama_grammar_match_char` against the class it reads (C8) -/

theorem rule_at_append_right (pre l : llama_grammar_rule) (k : Nat) :
    rule_at (pre ++ l) (pre.length + k) = rule_at l k := by
  unfold rule_at
  simp [List.getD_eq_getElem?_getD, List.getElem?_append_right]

theorem rule_at_append_zero (pre l : llama_grammar_rule) :
    rule_at (pre ++ l) pre.length = rule_at l 0 := by
  have := rule_at_append_right pre l 0
  simpa using this

theorem encode_alts_head_type (others : List class_item) (post : llama_grammar_rule)
    (h1 : (rule_at post 0).type ≠ llama_gretype.CHAR_RNG_UPPER) :
    (rule_at (encode_alts others ++ post) 0).type ≠ llama_gretype.CHAR_RNG_UPPER := by
  cases others with
  | nil => simpa [encode_alts] using h1
  | cons o os =>
    cases o <;> simp [encode_alts, class_item.encode, rule_at]

theorem match_char_loop_spec (rule : llama_grammar_rule) (chr : Nat) (post : llama_grammar_rule)
    (hp1 : (rule_at post 0).type ≠ llama_gretype.CHAR_ALT)
    (hp2 : (rule_at post 0).type ≠ llama_gretype.CHAR_RNG_UPPER) :
    ∀ (others : List class_item) (item : class_item) (pre : llama_grammar_rule)
      (type : llama_gretype) (found : Bool) (fuel : Nat),
      type ≠ llama_gretype.CHAR_ANY → others.length < fuel →
      rule = pre ++ (item.encode type ++ encode_alts others) ++ post →
      match_char_loop rule chr fuel pre.length found =
        (found || (item :: others).any (class_item.has chr),
          pre.length + (item.encode type ++ encode_alts others).length) := by
  intro others
  induction others with
  | nil =>
    intro item pre type found fuel hty hfuel hrule
    cases fuel with
    | zero => cases hfuel
    | succ f =>
      subst hrule
      cases item with
      | single c =>
        have e0 : rule_at (pre ++ ([⟨type, c⟩] ++ []) ++ post) pre.length = ⟨type, c⟩ := by
          rw [List.append_assoc, rule_at_append_zero]; simp [rule_at]
        have e1 : rule_at (pre ++ ([⟨type, c⟩] ++ []) ++ post) (pre.length + 1) =
            rule_at post 0 := by
          rw [List.append_assoc, rule_at_append_right]; simp [rule_at]
        simp only [match_char_loop, class_item.encode, encode_alts, e0, e1, hp1, hp2, hty,
          if_false, List.any_cons, List.any_nil, class_item.has, Bool.or_false,
          List.length_append, List.length_cons, List.length_nil, ↓reduceIte]
      | range lo hi =>
        have e0 : rule_at (pre ++ ([⟨type, lo⟩, ⟨llama_gretype.CHAR_RNG_UPPER, hi⟩] ++ [])
            ++ post) pre.length = ⟨type, lo⟩ := by
          rw [List.append_assoc, rule_at_append_zero]; simp [rule_at]
        have e1 : rule_at (pre ++ ([⟨type, lo⟩, ⟨llama_gretype.CHAR_RNG_UPPER, hi⟩] ++ [])
            ++ post) (pre.length + 1) = ⟨llama_gretype.CHAR_RNG_UPPER, hi⟩ := by
          rw [List.append_assoc, rule_at_append_right]; simp [rule_at]
        have e2 : rule_at (pre ++ ([⟨type, lo⟩, ⟨llama_gretype.CHAR_RNG_UPPER, hi⟩] ++ [])
            ++ post) (pre.length + 2) = rule_at post 0 := by
          rw [List.append_assoc, rule_at_append_right]; simp [rule_at]
        simp only [match_char_loop, class_item.encode, encode_alts, e0, e1, e2, hp1,
          if_false, List.any_cons, List.any_nil, class_item.has, Bool.or_false,
          List.length_append, List.length_cons, List.length_nil, ↓reduceIte]
  | cons o os ih =>
    intro item pre type found fuel hty hfuel hrule
    cases fuel with
    | zero => cases hfuel
    | succ f =>
      have hf : os.length < f := by simpa using hfuel
      have hnext : (rule_at (encode_alts (o :: os) ++ post) 0).type = llama_gretype.CHAR_ALT := by
        cases o <;> simp [encode_alts, class_item.encode, rule_at]
      cases item with
      | single c =>
        have hr : rule = (pre ++ [⟨type, c⟩]) ++
            (o.encode llama_gretype.CHAR_ALT ++ encode_alts os) ++ post := by
          rw [hrule]; simp [class_item.encode, encode_alts]
        have e0 : rule_at rule pre.length = ⟨type, c⟩ := by
          rw [hrule, List.append_assoc, rule_at_append_zero]; simp [rule_at, class_item.encode]
        have e1 : rule_at rule (pre.length + 1) = rule_at (encode_alts (o :: os) ++ post) 0 := by
          rw [hrule, List.append_assoc, rule_at_append_right]
          simp [rule_at, class_item.encode]
        have hrec := ih o (pre ++ [⟨type, c⟩]) llama_gretype.CHAR_ALT
          (found || decide (c = chr)) f (by decide) hf hr
        have hlen : (pre ++ [(⟨type, c⟩ : llama_grammar_element)]).length = pre.length + 1 := by
          simp
        rw [hlen] at hrec
        have hne : (rule_at (encode_alts (o :: os) ++ post) 0).type ≠
            llama_gretype.CHAR_RNG_UPPER := by rw [hnext]; decide
        simp only [match_char_loop, e0, e1, hne, hty, if_false, ↓reduceIte]
        rw [if_pos hnext, hrec]
        simp [class_item.has, class_item.encode, encode_alts, Bool.or_assoc]
        omega
      | range lo hi =>
        have hr : rule = (pre ++ [⟨type, lo⟩, ⟨llama_gretype.CHAR_RNG_UPPER, hi⟩]) ++
            (o.encode llama_gretype.CHAR_ALT ++ encode_alts os) ++ post := by
          rw [hrule]; simp [class_item.encode, encode_alts]
        have e0 : rule_at rule pre.length = ⟨type, lo⟩ := by
          rw [hrule, List.append_assoc, rule_at_append_zero]; simp [rule_at, class_item.encode]
        have e1 : rule_at rule (pre.length + 1) = ⟨llama_gretype.CHAR_RNG_UPPER, hi⟩ := by
          rw [hrule, List.append_assoc, rule_at_append_right]
          simp [rule_at, class_item.encode]
        have e2 : rule_at rule (pre.length + 2) = rule_at (encode_alts (o :: os) ++ post) 0 := by
          rw [hrule, List.append_assoc, rule_at_append_right]
          simp [rule_at, class_item.encode]
        have hrec := ih o (pre ++ [⟨type, lo⟩, ⟨llama_gretype.CHAR_RNG_UPPER, hi⟩])
          llama_gretype.CHAR_ALT
          (found || (decide (lo ≤ chr) && decide (chr ≤ hi))) f (by decide) hf hr
        have hlen : (pre ++ [(⟨type, lo⟩ : llama_grammar_element),
            ⟨llama_gretype.CHAR_RNG_UPPER, hi⟩]).length = pre.length + 2 := by
          simp
        rw [hlen] at hrec
        simp only [match_char_loop, e0, e1, e2, hnext, if_false, ↓reduceIte, hrec]
        simp [class_item.has, class_item.encode, encode_alts, Bool.or_assoc]
        omega

theorem class_item_encode_head (type : llama_gretype) (item : class_item)
    (rest : llama_grammar_rule) :
    (rule_at (item.encode type ++ rest) 0).type = type := by
  cases item <;> simp [class_item.encode, rule_at]

theorem encode_alts_length (others : List class_item) :
    others.length ≤ (encode_alts others).length := by
  induction others with
  | nil => simp [encode_alts]
  | cons o os ih => cases o <;> simp [encode_alts, class_item.encode] <;> omega

theorem class_fuel_bound (rule pre post : llama_grammar_rule) (first : class_item)
    (type : llama_gretype) (others : List class_item)
    (hrule : rule = pre ++ (first.encode type ++ encode_alts others) ++ post) :
    others.length < rule.length + 1 := by
  have := encode_alts_length others
  rw [hrule]
  simp only [List.length_append]
  omega

/-- C8. For a well-formed character class standing at `pos` and every code
point `chr`, `llama_grammar_match_char` returns the membership the spec states
(a positive class: `chr` is one of the listed code points or lies in one of
the inclusive ranges; the wildcard: always; a negated class: the negation)
together with the position of the first element after the class. -/
theorem match_char_class (rules : llama_grammar_rules) (pos : elem_ptr) (cls : char_class)
    (chr : Nat) (h : class_at rules pos cls) :
    llama_grammar_match_char rules pos chr =
      .ok (cls.accepts chr, ⟨pos.rule, pos.idx + cls.encode.length⟩) := by
  obtain ⟨pre, post, hrule, hidx, hp1, hp2⟩ := h
  cases cls with
  | positive first others =>
    have hloop := match_char_loop_spec _ chr post hp1 hp2 others first pre llama_gretype.CHAR
      false ((rules.getD pos.rule []).length + 1) (by decide)
      (class_fuel_bound _ pre post first _ others hrule) hrule
    have hhead : (rule_at (rules.getD pos.rule []) pos.idx).type = llama_gretype.CHAR := by
      rw [hrule, hidx, List.append_assoc, rule_at_append_zero]
      simp only [char_class.encode, List.append_assoc]
      exact class_item_encode_head _ _ _
    rw [hidx] at hhead
    unfold llama_grammar_match_char
    simp only [hidx, hhead, hloop]
    simp [char_class.accepts, char_class.encode]
  | negated first others =>
    have hloop := match_char_loop_spec _ chr post hp1 hp2 others first pre
      llama_gretype.CHAR_NOT
      false ((rules.getD pos.rule []).length + 1) (by decide)
      (class_fuel_bound _ pre post first _ others hrule) hrule
    have hhead : (rule_at (rules.getD pos.rule []) pos.idx).type = llama_gretype.CHAR_NOT := by
      rw [hrule, hidx, List.append_assoc, rule_at_append_zero]
      simp only [char_class.encode, List.append_assoc]
      exact class_item_encode_head _ _ _
    rw [hidx] at hhead
    unfold llama_grammar_match_char
    simp only [hidx, hhead, hloop]
    simp [char_class.accepts, char_class.encode]
  | any value =>
    have e0 : rule_at (rules.getD pos.rule []) pre.length = ⟨llama_gretype.CHAR_ANY, value⟩ := by
      rw [hrule, List.append_assoc, rule_at_append_zero]; simp [rule_at, char_class.encode]
    have e1 : rule_at (rules.getD pos.rule []) (pre.length + 1) = rule_at post 0 := by
      rw [hrule, List.append_assoc, rule_at_append_right]; simp [rule_at, char_class.encode]
    unfold llama_grammar_match_char
    simp only [hidx, e0, match_char_loop, e1, hp1, hp2, if_false, ↓reduceIte]
    simp [char_class.accepts, char_class.encode]

theorem match_char_class_witness :
    class_at parens_rules ⟨0, 0⟩ (char_class.positive (class_item.single 0x28) []) ∧
      llama_grammar_match_char parens_rules ⟨0, 0⟩ 0x28 =
        .ok ((char_class.positive (class_item.single 0x28) []).accepts 0x28,
          ⟨0, 0 + (char_class.positive (class_item.single 0x28) []).encode.length⟩) :=
  ⟨⟨[], [⟨llama_gretype.RULE_REF, 0⟩, ⟨llama_gretype.CHAR, 0x29⟩, ⟨llama_gretype.ALT, 0⟩,
      ⟨llama_gretype.END, 0⟩], rfl, rfl, by decide, by decide⟩,
   match_char_class parens_rules ⟨0, 0⟩ (char_class.positive (class_item.single 0x28) []) 0x28
     ⟨[], [⟨llama_gretype.RULE_REF, 0⟩, ⟨llama_gretype.CHAR, 0x29⟩, ⟨llama_gretype.ALT, 0⟩,
      ⟨llama_gretype.END, 0⟩], rfl, rfl, by decide, by decide⟩⟩

/-! ### Left recursion behind an indirectly empty rule (C4, C5, C1) -/

theorem hidden_nullable_c : nullable hidden_left_recursion_rules 3 :=
  nullable.intro 3 0 0 (fun _ => 0) ⟨llama_gretype.END, 0⟩ (Or.inl rfl) (Nat.le_refl 0) rfl rfl
    (fun j _ h => absurd h (Nat.not_lt_zero j)) (fun j _ h => absurd h (Nat.not_lt_zero j))

theorem hidden_nullable_b : nullable hidden_left_recursion_rules 2 :=
  nullable.intro 2 0 1 (fun _ => 3) ⟨llama_gretype.END, 0⟩ (Or.inl rfl) (Nat.zero_le 1) rfl rfl
    (fun j _ h => by
      have hj : j = 0 := by omega
      subst hj; rfl)
    (fun _ _ _ => hidden_nullable_c)

theorem hidden_left_edge_x : left_edge hidden_left_recursion_rules 1 1 :=
  ⟨0, 1, fun _ => 2, Or.inl rfl, Nat.zero_le 1, rfl, fun j _ h => by
    have hj : j = 0 := by omega
    subst hj
    exact ⟨rfl, hidden_nullable_b⟩⟩

/-- C4 (failing input). The table of `root ::= "a" x`, `x ::= b x | "y"`,
`b ::= c`, `c ::= ""` is left-recursive (`x` reaches itself behind `b`, which
derives the empty string through `c`), yet the left-recursion check of
`llama_grammar_init_impl` reports nothing and a session is returned. -/
theorem hidden_left_recursion_accepted :
    left_recursive hidden_left_recursion_rules ∧
      check_left_recursion 4 hidden_left_recursion_rules (List.range 4) (lr_state_init 4)
        = .ok false ∧
      llama_grammar_init_impl 4 hidden_left_recursion_rules 0 false [] []
        = .ok (some hidden_left_recursion_session) :=
  ⟨⟨1, Relation.TransGen.single hidden_left_edge_x⟩, rfl, rfl⟩

theorem hidden_advance_diverges (fuel : Nat) :
    ∀ acc : llama_grammar_stacks,
      llama_grammar_advance_stack fuel hidden_left_recursion_rules [⟨1, 0⟩] acc
        = .error Fault.fuel ∧
      llama_grammar_advance_stack fuel hidden_left_recursion_rules [⟨2, 0⟩, ⟨1, 1⟩] acc
        = .error Fault.fuel ∧
      llama_grammar_advance_stack fuel hidden_left_recursion_rules [⟨1, 1⟩] acc
        = .error Fault.fuel := by
  induction fuel with
  | zero => intro acc; exact ⟨rfl, rfl, rfl⟩
  | succ n ih =>
    intro acc
    obtain ⟨h1, h2, h3⟩ := ih acc
    have e1 : llama_grammar_advance_stack (n + 1) hidden_left_recursion_rules [⟨1, 0⟩] acc =
        (llama_grammar_advance_stack n hidden_left_recursion_rules [⟨2, 0⟩, ⟨1, 1⟩] acc >>=
          fun a => pure a) := rfl
    have e2 : llama_grammar_advance_stack (n + 1) hidden_left_recursion_rules
        [⟨2, 0⟩, ⟨1, 1⟩] acc =
        (llama_grammar_advance_stack n hidden_left_recursion_rules [⟨1, 1⟩] acc >>=
          fun a => pure a) := rfl
    have e3 : llama_grammar_advance_stack (n + 1) hidden_left_recursion_rules [⟨1, 1⟩] acc =
        (llama_grammar_advance_stack n hidden_left_recursion_rules [⟨1, 0⟩] acc >>=
          fun a => llama_grammar_advance_stack n hidden_left_recursion_rules [⟨1, 3⟩] a >>=
            fun b => pure b) := rfl
    rw [e1, e2, e3, h1, h2, h3]
    exact ⟨rfl, rfl, rfl⟩

theorem hidden_advance_after_a (fuel : Nat) (acc : llama_grammar_stacks) :
    llama_grammar_advance_stack fuel hidden_left_recursion_rules [⟨0, 1⟩] acc
      = .error Fault.fuel := by
  cases fuel with
  | zero => rfl
  | succ n =>
    have e : llama_grammar_advance_stack (n + 1) hidden_left_recursion_rules [⟨0, 1⟩] acc =
        (llama_grammar_advance_stack n hidden_left_recursion_rules [⟨1, 0⟩] acc >>=
          fun a => llama_grammar_advance_stack n hidden_left_recursion_rules [⟨1, 3⟩] a >>=
            fun b => pure b) := rfl
    rw [e, (hidden_advance_diverges n acc).1]
    rfl

theorem hidden_in_language : in_language hidden_left_recursion_rules 0 [0x61, 0x79] := by
  refine ⟨0, by decide, ?_⟩
  refine seq_derives.char ⟨0, 0⟩ (char_class.positive (class_item.single 0x61) []) 0x61 [0x79]
    ⟨[], [⟨llama_gretype.RULE_REF, 1⟩, ⟨llama_gretype.END, 0⟩], rfl, rfl, by decide, by decide⟩
    rfl ?_
  refine seq_derives.ref ⟨0, 1⟩ 3 [0x79] [] rfl (by decide) ?_ (seq_derives.done _ rfl)
  exact seq_derives.char ⟨1, 3⟩ (char_class.positive (class_item.single 0x79) []) 0x79 []
    ⟨[⟨llama_gretype.RULE_REF, 2⟩, ⟨llama_gretype.RULE_REF, 1⟩, ⟨llama_gretype.ALT, 0⟩],
      [⟨llama_gretype.END, 0⟩], rfl, rfl, by decide, by decide⟩
    rfl (seq_derives.done _ rfl)

/-- C1 (failing input). For the grammar `root ::= "a" x`, `x ::= b x | "y"`,
`b ::= c`, `c ::= ""`, `llama_grammar_init_impl` returns a session and the word
"ay" is in the language of the root rule, but `llama_grammar_accept_str` on the
fresh session never returns for "ay": whatever the recursion budget, the
expansion of `x` after the "a" exhausts it. -/
theorem accept_str_diverges_on_language_word :
    llama_grammar_init_impl 4 hidden_left_recursion_rules 0 false [] []
        = .ok (some hidden_left_recursion_session) ∧
      in_language hidden_left_recursion_rules 0 [0x61, 0x79] ∧
      ∀ fuel, llama_grammar_accept_str fuel hidden_left_recursion_session [0x61, 0x79]
        = .error Fault.fuel := by
  refine ⟨rfl, hidden_in_language, ?_⟩
  intro fuel
  have hd : decode_utf8 [0x61, 0x79] hidden_left_recursion_session.partial_utf8 =
      ([0x61, 0x79, 0], ⟨0x79, 0⟩) := rfl
  have hs : accept_stack fuel hidden_left_recursion_rules 0x61 [] [⟨0, 0⟩] =
      llama_grammar_advance_stack fuel hidden_left_recursion_rules [⟨0, 1⟩] [] := rfl
  have hacc : llama_grammar_accept fuel hidden_left_recursion_session 0x61 =
      .error Fault.fuel := by
    unfold llama_grammar_accept accept_stacks
    simp only [hidden_left_recursion_session, List.foldlM_cons, List.foldlM_nil, hs,
      hidden_advance_after_a]
    rfl
  unfold llama_grammar_accept_str
  rw [hd]
  simp only [List.dropLast, accept_code_points, hacc]

theorem seeded_advance_diverges (fuel : Nat) :
    ∀ acc : llama_grammar_stacks,
      llama_grammar_advance_stack fuel seeded_left_recursion_rules [⟨0, 0⟩] acc
        = .error Fault.fuel ∧
      llama_grammar_advance_stack fuel seeded_left_recursion_rules [⟨1, 0⟩, ⟨0, 1⟩] acc
        = .error Fault.fuel ∧
      llama_grammar_advance_stack fuel seeded_left_recursion_rules [⟨0, 1⟩] acc
        = .error Fault.fuel := by
  induction fuel with
  | zero => intro acc; exact ⟨rfl, rfl, rfl⟩
  | succ n ih =>
    intro acc
    obtain ⟨h1, h2, h3⟩ := ih acc
    have e1 : llama_grammar_advance_stack (n + 1) seeded_left_recursion_rules [⟨0, 0⟩] acc =
        (llama_grammar_advance_stack n seeded_left_recursion_rules [⟨1, 0⟩, ⟨0, 1⟩] acc >>=
          fun a => pure a) := rfl
    have e2 : llama_grammar_advance_stack (n + 1) seeded_left_recursion_rules
        [⟨1, 0⟩, ⟨0, 1⟩] acc =
        (llama_grammar_advance_stack n seeded_left_recursion_rules [⟨0, 1⟩] acc >>=
          fun a => pure a) := rfl
    have e3 : llama_grammar_advance_stack (n + 1) seeded_left_recursion_rules [⟨0, 1⟩] acc =
        (llama_grammar_advance_stack n seeded_left_recursion_rules [⟨0, 0⟩] acc >>=
          fun a => llama_grammar_advance_stack n seeded_left_recursion_rules [⟨0, 3⟩] a >>=
            fun b => pure b) := rfl
    rw [e1, e2, e3, h1, h2, h3]
    exact ⟨rfl, rfl, rfl⟩

/-- C5 (failing input). The table of `root ::= b root | "x"`, `b ::= c`,
`c ::= ""` passes the left-recursion check (from a budget of 3 nested calls
on), and then `llama_grammar_advance_stack` on the stack seeded from the first
root alternative never returns: `llama_grammar_init_impl` exhausts every
recursion budget. -/
theorem init_diverges_after_check :
    (∀ n, check_left_recursion (n + 3) seeded_left_recursion_rules (List.range 3)
        (lr_state_init 3) = .ok false) ∧
      ∀ fuel, llama_grammar_init_impl fuel seeded_left_recursion_rules 0 false [] []
        = .error Fault.fuel := by
  have hcheck : ∀ n, check_left_recursion (n + 3) seeded_left_recursion_rules (List.range 3)
      (lr_state_init 3) = .ok false := fun n => rfl
  have hseed : ∀ fuel, init_stacks fuel seeded_left_recursion_rules 0 = .error Fault.fuel := by
    intro fuel
    have e : init_stacks fuel seeded_left_recursion_rules 0 =
        (llama_grammar_advance_stack fuel seeded_left_recursion_rules [⟨0, 0⟩] [] >>=
          fun a => llama_grammar_advance_stack fuel seeded_left_recursion_rules [⟨0, 3⟩] a >>=
            fun b => pure b) := rfl
    rw [e, (seeded_advance_diverges fuel []).1]
    rfl
  refine ⟨hcheck, ?_⟩
  intro fuel
  have hcopy : seeded_left_recursion_rules.map copy_rule = seeded_left_recursion_rules := rfl
  match fuel with
  | 0 => rfl
  | 1 => rfl
  | 2 => rfl
  | n + 3 =>
    unfold llama_grammar_init_impl
    simp only [hcopy]
    have hl : seeded_left_recursion_rules.length = 3 := rfl
    rw [hl, hcheck n, hseed]

/-! ### A decoded code point 0 (C2) and negated classes against partial sequences (C7) -/

/-- C2 (failing input). Grammar `root ::= "a"`, fresh session, token 0 with the
piece `C0 80`: `llama_grammar_apply_impl` leaves the token's logit as it was,
and `llama_grammar_accept_impl` on that token empties the frontier and ends
with the parse-progress error. -/
theorem unmasked_token_fails_accept :
    llama_grammar_init_impl 2 single_a_rules 0 false [] [] = .ok (some single_a_session) ∧
      overlong_nul_vocab.is_eog 0 = false ∧
      llama_grammar_apply_impl 3 overlong_nul_vocab single_a_session [⟨0, logit_t.finite 0⟩]
        = .ok [⟨0, logit_t.finite 0⟩] ∧
      llama_grammar_accept_impl 3 overlong_nul_vocab (fun _ _ => none) single_a_session 0
        = .ok (accept_outcome.parse_error { single_a_session with cur_stacks := [] }) :=
  ⟨rfl, rfl, rfl, rfl⟩

/-- C7 (failing input). Class `[^é]` (U+00E9) and the partial state after the
byte `C3` (value 3, one byte remaining): the completion interval is
`[0xC0, 0xFF]`, the code point U+00E8 in it satisfies the class, and
`llama_grammar_match_partial_char` returns false. -/
theorem match_partial_char_negated_false :
    partial_range 3 1 = (0xC0, 0xFF) ∧
      llama_grammar_match_char negated_class_rules ⟨0, 0⟩ 0xE8 = .ok (true, ⟨0, 1⟩) ∧
      llama_grammar_match_partial_char negated_class_rules ⟨0, 0⟩ ⟨3, 1⟩ = .ok false :=
  ⟨by decide, rfl, rfl⟩

/-! ### The left-recursion check has no false positives (C6) -/

theorem takeWhile_length_le_of_stop {α : Type} (p : α → Bool) (e : α) (he : p e = false) :
    ∀ (pre es : List α), ((pre ++ e :: es).takeWhile p).length ≤ pre.length := by
  intro pre
  induction pre with
  | nil => intro es; simp [List.takeWhile, he]
  | cons a as ih =>
    intro es
    simp only [List.cons_append, List.takeWhile, List.length_cons]
    cases p a with
    | true => simp only [List.length_cons]; exact Nat.succ_le_succ (ih es)
    | false => simp

theorem copy_rule_end_last (rule pre es : llama_grammar_rule) (e : llama_grammar_element)
    (hcopy : copy_rule rule = rule) (hrule : rule = pre ++ e :: es)
    (he : e.type = llama_gretype.END) : es = [] := by
  have hlen : (copy_rule rule).length = rule.length := by rw [hcopy]
  unfold copy_rule at hlen
  have h1 := takeWhile_length_le_of_stop
    (fun e : llama_grammar_element => decide (e.type ≠ llama_gretype.END)) e (by simp [he]) pre es
  rw [← hrule] at h1
  rw [List.length_append, List.length_singleton] at hlen
  have h2 : rule.length = pre.length + (es.length + 1) := by rw [hrule]; simp
  have h3 : es.length = 0 := by omega
  exact List.length_eq_zero.mp h3

theorem get?_append_cons (pre es : llama_grammar_rule) (e : llama_grammar_element) :
    (pre ++ e :: es).get? pre.length = some e := by
  rw [List.get?_eq_getElem?, List.getElem?_append_right (Nat.le_refl _)]
  simp

theorem end_of_sequence_cases (e : llama_grammar_element)
    (h : llama_grammar_is_end_of_sequence e = true) :
    e.type = llama_gretype.END ∨ e.type = llama_gretype.ALT := by
  unfold llama_grammar_is_end_of_sequence at h
  split at h <;> simp_all

theorem alt_start_after (rule pre es : llama_grammar_rule) (e : llama_grammar_element)
    (hrule : rule = pre ++ e :: es) (he : e.type = llama_gretype.ALT) :
    alt_start rule (pre.length + 1) := by
  refine Or.inr ⟨Nat.succ_pos _, e.value, ?_⟩
  rw [hrule, Nat.add_sub_cancel, get?_append_cons]
  cases e
  simp_all

theorem has_empty_alternate_nullable (rules : llama_grammar_rules) (A : Nat)
    (hcopy : copy_rule (rules.getD A []) = rules.getD A []) :
    ∀ (es pre : llama_grammar_rule) (at_rule_start : Bool),
      rules.getD A [] = pre ++ es →
      (at_rule_start = true → alt_start (rules.getD A []) pre.length) →
      rule_has_empty_alternate es at_rule_start = true → nullable rules A := by
  intro es
  induction es with
  | nil => intro pre a _ _ h; simp [rule_has_empty_alternate] at h
  | cons e es ih =>
    intro pre a hrule ha h
    unfold rule_has_empty_alternate at h
    by_cases hend : llama_grammar_is_end_of_sequence e = true
    · simp only [hend, if_true] at h
      cases a with
      | true =>
        exact nullable.intro A pre.length pre.length (fun _ => 0) e (ha rfl) (Nat.le_refl _)
          (by rw [hrule]; exact get?_append_cons _ _ _) hend
          (fun j h1 h2 => absurd h2 (Nat.not_lt.mpr h1))
          (fun j h1 h2 => absurd h2 (Nat.not_lt.mpr h1))
      | false =>
        simp only [Bool.false_eq_true, if_false] at h
        rcases end_of_sequence_cases e hend with hE | hA
        · have := copy_rule_end_last _ pre es e hcopy hrule hE
          subst this
          simp [rule_has_empty_alternate] at h
        · have hs := alt_start_after _ pre es e hrule hA
          refine ih (pre ++ [e]) true (by rw [hrule]; simp) (fun _ => ?_) h
          simpa using hs
    · simp only [hend, Bool.false_eq_true, if_false] at h
      exact ih (pre ++ [e]) false (by rw [hrule]; simp) (fun hf => by cases hf) h

theorem set_restore (ip : List Bool) (idx : Nat) (h : ip.getD idx false = false) :
    (ip.set idx true).set idx false = ip := by
  rw [List.set_set]
  apply List.ext_getElem?
  intro j
  rw [List.getElem?_set]
  by_cases hij : idx = j
  · subst hij
    simp only [if_true]
    by_cases hlt : idx < ip.length
    · simp only [hlt, if_true]
      rw [List.getD_eq_getElem?_getD] at h
      rw [List.getElem?_eq_getElem hlt] at h ⊢
      simp only [Option.getD_some] at h
      rw [h]
    · simp only [hlt, if_false]
      exact (List.getElem?_eq_none (Nat.le_of_not_lt hlt)).symm
  · simp [hij]

theorem getD_set_true (ip : List Bool) (idx q : Nat)
    (h : (ip.set idx true).getD q false = true) : q = idx ∨ ip.getD q false = true := by
  by_cases hq : idx = q
  · exact Or.inl hq.symm
  · right
    rw [List.getD_eq_getElem?_getD] at h ⊢
    rw [List.getElem?_set_ne hq] at h
    exact h

theorem rule_at_append_cons (pre es : llama_grammar_rule) (e : llama_grammar_element) :
    rule_at (pre ++ e :: es) pre.length = e := by
  rw [rule_at_append_zero]; rfl

theorem detect_loop_sound (rules : llama_grammar_rules) (idx fuel : Nat) (ip1 : List Bool)
    (hwf : rules_wf rules) (hidx : idx < rules.length)
    (H : ∀ v st r, v < rules.length → lr_inv rules st →
      llama_grammar_detect_left_recursion fuel rules v st = .ok r →
      detect_post rules v st.rules_in_progress r) :
    ∀ (es pre : llama_grammar_rule) (flag : Bool) (st : lr_state) (r : Bool × lr_state),
      rules.getD idx [] = pre ++ es →
      (flag = true → es = [] ∨ leftmost_at rules (rules.getD idx []) pre.length) →
      lr_inv rules st → st.rules_in_progress = ip1 →
      detect_loop (llama_grammar_detect_left_recursion fuel rules) es flag st = .ok r →
      loop_post rules idx ip1 r := by
  have hmem : rules.getD idx [] ∈ rules := by
    rw [List.getD_eq_getElem?_getD, List.getElem?_eq_getElem hidx]
    exact List.getElem_mem _
  have hcopy := (hwf _ hmem).1
  intro es
  induction es with
  | nil =>
    intro pre flag st r _ _ hinv hip h
    simp only [detect_loop, Except.ok.injEq] at h
    subst h
    exact ⟨fun h => (by cases h), fun _ => ⟨hip, hinv⟩⟩
  | cons e es ih =>
    intro pre flag st r hrule hflag hinv hip h
    have hrule' : rules.getD idx [] = (pre ++ [e]) ++ es := by rw [hrule]; simp
    have hlen' : (pre ++ [e]).length = pre.length + 1 := by simp
    unfold detect_loop at h
    by_cases hc : e.type = llama_gretype.RULE_REF ∧ flag = true
    · rw [if_pos hc] at h
      have hv : e.value < rules.length :=
        (hwf _ hmem).2 e (by rw [hrule]; simp) hc.1
      have hleft : leftmost_at rules (rules.getD idx []) pre.length := by
        rcases hflag hc.2 with h0 | h0
        · cases h0
        · exact h0
      have hget : (rules.getD idx []).get? pre.length =
          some ⟨llama_gretype.RULE_REF, e.value⟩ := by
        rw [hrule, get?_append_cons]
        cases e
        simp_all
      have hedge : left_edge rules idx e.value := by
        obtain ⟨s, hs, hle, hall⟩ := hleft
        exact ⟨s, pre.length, fun j => (rule_at (rules.getD idx []) j).value, hs, hle, hget, hall⟩
      cases hd : llama_grammar_detect_left_recursion fuel rules e.value st with
      | error err => rw [hd] at h; cases h
      | ok r1 =>
        rw [hd] at h
        have hpost := H e.value st r1 hv hinv hd
        rw [hip] at hpost
        obtain ⟨b, st1⟩ := r1
        cases b with
        | true =>
          simp only [Except.ok.injEq] at h
          subst h
          refine ⟨fun _ => ?_, fun h => by cases h⟩
          rcases hpost.1 rfl with ⟨q, hq, hreach⟩ | hlr
          · exact Or.inl ⟨q, hq, Relation.TransGen.head' hedge hreach⟩
          · exact Or.inr hlr
        | false =>
          simp only at h
          obtain ⟨hip1, hinv1⟩ := hpost.2 rfl
          by_cases hm : st1.rules_may_be_empty.getD e.value false = true
          · rw [if_pos hm] at h
            refine ih (pre ++ [e]) true st1 r hrule' (fun _ => Or.inr ?_) hinv1 hip1 h
            obtain ⟨s, hs, hle, hall⟩ := hleft
            refine ⟨s, hs, by rw [hlen']; omega, ?_⟩
            intro j hj1 hj2
            rw [hlen'] at hj2
            by_cases hjl : j < pre.length
            · exact hall j hj1 hjl
            · have hje : j = pre.length := by omega
              subst hje
              have hra : rule_at (rules.getD idx []) pre.length = e := by
                rw [hrule]; exact rule_at_append_cons _ _ _
              rw [hra]
              exact ⟨hget, hinv1.2 _ hm⟩
          · rw [if_neg hm] at h
            exact ih (pre ++ [e]) false st1 r hrule' (fun hf => by cases hf) hinv1 hip1 h
    · rw [if_neg hc] at h
      by_cases hend : llama_grammar_is_end_of_sequence e = true
      · rw [if_pos hend] at h
        refine ih (pre ++ [e]) true st r hrule' (fun _ => ?_) hinv hip h
        rcases end_of_sequence_cases e hend with hE | hA
        · exact Or.inl (copy_rule_end_last _ pre es e hcopy hrule hE)
        · right
          rw [hlen']
          exact ⟨pre.length + 1, alt_start_after _ pre es e hrule hA, Nat.le_refl _,
            fun j h1 h2 => absurd h2 (Nat.not_lt.mpr h1)⟩
      · rw [if_neg hend] at h
        exact ih (pre ++ [e]) false st r hrule' (fun hf => by cases hf) hinv hip h

theorem detect_sound (rules : llama_grammar_rules) (hwf : rules_wf rules) :
    ∀ (fuel idx : Nat) (st : lr_state) (r : Bool × lr_state),
      idx < rules.length → lr_inv rules st →
      llama_grammar_detect_left_recursion fuel rules idx st = .ok r →
      detect_post rules idx st.rules_in_progress r := by
  intro fuel
  induction fuel with
  | zero => intro idx st r _ _ h; simp [llama_grammar_detect_left_recursion] at h
  | succ n ih =>
    intro idx st r hidx hinv h
    have hmem : rules.getD idx [] ∈ rules := by
      rw [List.getD_eq_getElem?_getD, List.getElem?_eq_getElem hidx]
      exact List.getElem_mem _
    unfold llama_grammar_detect_left_recursion at h
    by_cases hip : st.rules_in_progress.getD idx false = true
    · rw [if_pos hip] at h
      simp only [Except.ok.injEq] at h
      subst h
      exact ⟨fun _ => Or.inl ⟨idx, hip, Relation.ReflTransGen.refl⟩, fun h => by cases h⟩
    · rw [if_neg hip] at h
      simp only at h
      have hipf : st.rules_in_progress.getD idx false = false := by
        cases hb : st.rules_in_progress.getD idx false with
        | true => exact absurd hb hip
        | false => rfl
      -- the state handed to the second loop
      generalize hst2 : (if rule_has_empty_alternate (rules.getD idx []) true = true then
          ({ rules_visited := st.rules_visited,
             rules_in_progress := st.rules_in_progress.set idx true,
             rules_may_be_empty := st.rules_may_be_empty.set idx true } : lr_state)
        else
          { rules_visited := st.rules_visited,
            rules_in_progress := st.rules_in_progress.set idx true,
            rules_may_be_empty := st.rules_may_be_empty }) = st2 at h
      have hip2 : st2.rules_in_progress = st.rules_in_progress.set idx true := by
        rw [← hst2]; split <;> rfl
      have hinv2 : lr_inv rules st2 := by
        refine ⟨by rw [hip2, List.length_set]; exact hinv.1, ?_⟩
        intro v hv
        rw [← hst2] at hv
        split at hv
        · rename_i hemp
          simp only at hv
          by_cases hvi : idx = v
          · subst hvi
            exact has_empty_alternate_nullable rules idx (hwf _ hmem).1 _ [] true rfl
              (fun _ => Or.inl rfl) hemp
          · rw [List.getD_eq_getElem?_getD, List.getElem?_set_ne hvi,
              ← List.getD_eq_getElem?_getD] at hv
            exact hinv.2 v hv
        · exact hinv.2 v hv
      cases hl : detect_loop (llama_grammar_detect_left_recursion n rules) (rules.getD idx [])
          true st2 with
      | error err => rw [hl] at h; cases h
      | ok r3 =>
        rw [hl] at h
        have hpost := detect_loop_sound rules idx n (st.rules_in_progress.set idx true) hwf hidx
          (fun v st r hv hi hd => ih v st r hv hi hd) (rules.getD idx []) [] true st2 r3 rfl
          (fun _ => Or.inr ⟨0, Or.inl rfl, Nat.le_refl _,
            fun j _ h2 => absurd h2 (Nat.not_lt_zero j)⟩) hinv2 hip2 hl
        obtain ⟨b, st3⟩ := r3
        cases b with
        | true =>
          simp only [Except.ok.injEq] at h
          subst h
          refine ⟨fun _ => ?_, fun h => by cases h⟩
          rcases hpost.1 rfl with ⟨q, hq, hreach⟩ | hlr
          · rcases getD_set_true _ _ _ hq with hqi | hq'
            · subst hqi
              exact Or.inr ⟨q, hreach⟩
            · exact Or.inl ⟨q, hq', hreach.to_reflTransGen⟩
          · exact Or.inr hlr
        | false =>
          simp only [Except.ok.injEq] at h
          subst h
          obtain ⟨hip3, hinv3⟩ := hpost.2 rfl
          refine ⟨fun h => (by cases h), fun _ => ⟨?_, ?_, ?_⟩⟩
          · show st3.rules_in_progress.set idx false = st.rules_in_progress
            have hip3' : st3.rules_in_progress = st.rules_in_progress.set idx true := hip3
            rw [hip3']
            exact set_restore _ _ hipf
          · simp only [List.length_set]
            exact hinv3.1
          · exact hinv3.2

theorem count_false_set_true (ip : List Bool) (idx : Nat) (hlt : idx < ip.length)
    (h : ip.getD idx false = false) :
    (ip.set idx true).count false + 1 = ip.count false := by
  have hget : ip[idx] = false := by
    rw [List.getD_eq_getElem?_getD, List.getElem?_eq_getElem hlt] at h
    simpa using h
  have hpos : 0 < ip.count false := by
    apply List.count_pos_iff.mpr
    rw [← hget]
    exact List.getElem_mem _
  rw [List.count_set true false ip idx hlt, hget]
  simp only [beq_self_eq_true, if_true]
  have : (true == false) = false := rfl
  simp only [this, Bool.false_eq_true, if_false]
  omega

theorem getD_replicate_false (n q : Nat) : (List.replicate n false).getD q false = false := by
  rw [List.getD_eq_getElem?_getD]
  by_cases h : q < n
  · rw [List.getElem?_eq_getElem (by simpa using h)]
    simp
  · rw [List.getElem?_eq_none (by simpa using Nat.le_of_not_lt h)]
    rfl

theorem lr_inv_init (rules : llama_grammar_rules) : lr_inv rules (lr_state_init rules.length) :=
  ⟨by simp [lr_state_init], fun v hv => by
    simp only [lr_state_init] at hv
    rw [getD_replicate_false] at hv
    cases hv⟩

theorem rule_mem_of_lt (rules : llama_grammar_rules) (idx : Nat) (hidx : idx < rules.length) :
    rules.getD idx [] ∈ rules := by
  rw [List.getD_eq_getElem?_getD, List.getElem?_eq_getElem hidx]
  exact List.getElem_mem _

theorem detect_loop_returns (rules : llama_grammar_rules) (fuel : Nat) (ip1 : List Bool)
    (hwf : rules_wf rules)
    (HT : ∀ v st, v < rules.length → lr_inv rules st →
      st.rules_in_progress.count false < fuel →
      ∃ r, llama_grammar_detect_left_recursion fuel rules v st = .ok r)
    (hcount : ip1.count false < fuel) :
    ∀ (es : llama_grammar_rule) (flag : Bool) (st : lr_state),
      (∀ e ∈ es, e.type = llama_gretype.RULE_REF → e.value < rules.length) →
      lr_inv rules st → st.rules_in_progress = ip1 →
      ∃ r, detect_loop (llama_grammar_detect_left_recursion fuel rules) es flag st = .ok r := by
  intro es
  induction es with
  | nil => intro flag st _ _ _; exact ⟨(false, st), rfl⟩
  | cons e es ih =>
    intro flag st hrefs hinv hip
    have hrefs' : ∀ x ∈ es, x.type = llama_gretype.RULE_REF → x.value < rules.length :=
      fun x hx => hrefs x (List.mem_cons_of_mem _ hx)
    unfold detect_loop
    by_cases hc : e.type = llama_gretype.RULE_REF ∧ flag = true
    · rw [if_pos hc]
      have hv := hrefs e (List.mem_cons_self _ _) hc.1
      obtain ⟨r1, hr1⟩ := HT e.value st hv hinv (by rw [hip]; exact hcount)
      have hpost := detect_sound rules hwf fuel e.value st r1 hv hinv hr1
      rw [hr1]
      obtain ⟨b, st1⟩ := r1
      cases b with
      | true => exact ⟨(true, st1), rfl⟩
      | false =>
        obtain ⟨hip1, hinv1⟩ := hpost.2 rfl
        simp only
        split
        · exact ih true st1 hrefs' hinv1 (hip1.trans hip)
        · exact ih false st1 hrefs' hinv1 (hip1.trans hip)
    · rw [if_neg hc]
      split
      · exact ih true st hrefs' hinv hip
      · exact ih false st hrefs' hinv hip

theorem detect_returns (rules : llama_grammar_rules) (hwf : rules_wf rules) :
    ∀ (fuel idx : Nat) (st : lr_state),
      idx < rules.length → lr_inv rules st →
      st.rules_in_progress.count false < fuel →
      ∃ r, llama_grammar_detect_left_recursion fuel rules idx st = .ok r := by
  intro fuel
  induction fuel with
  | zero => intro idx st _ _ h; cases h
  | succ n ih =>
    intro idx st hidx hinv hcount
    have hmem := rule_mem_of_lt rules idx hidx
    unfold llama_grammar_detect_left_recursion
    by_cases hip : st.rules_in_progress.getD idx false = true
    · rw [if_pos hip]; exact ⟨_, rfl⟩
    · rw [if_neg hip]
      simp only
      have hipf : st.rules_in_progress.getD idx false = false := by
        cases hb : st.rules_in_progress.getD idx false with
        | true => exact absurd hb hip
        | false => rfl
      generalize hst2 : (if rule_has_empty_alternate (rules.getD idx []) true = true then
          ({ rules_visited := st.rules_visited,
             rules_in_progress := st.rules_in_progress.set idx true,
             rules_may_be_empty := st.rules_may_be_empty.set idx true } : lr_state)
        else
          { rules_visited := st.rules_visited,
            rules_in_progress := st.rules_in_progress.set idx true,
            rules_may_be_empty := st.rules_may_be_empty }) = st2
      have hip2 : st2.rules_in_progress = st.rules_in_progress.set idx true := by
        rw [← hst2]; split <;> rfl
      have hinv2 : lr_inv rules st2 := by
        refine ⟨by rw [hip2, List.length_set]; exact hinv.1, ?_⟩
        intro v hv
        rw [← hst2] at hv
        split at hv
        · rename_i hemp
          simp only at hv
          by_cases hvi : idx = v
          · subst hvi
            exact has_empty_alternate_nullable rules idx (hwf _ hmem).1 _ [] true rfl
              (fun _ => Or.inl rfl) hemp
          · rw [List.getD_eq_getElem?_getD, List.getElem?_set_ne hvi,
              ← List.getD_eq_getElem?_getD] at hv
            exact hinv.2 v hv
        · exact hinv.2 v hv
      have hc2 : (st.rules_in_progress.set idx true).count false < n := by
        have := count_false_set_true st.rules_in_progress idx (by rw [hinv.1]; exact hidx) hipf
        omega
      obtain ⟨r3, hr3⟩ := detect_loop_returns rules n (st.rules_in_progress.set idx true) hwf
        (fun v st hv hi hc => ih v st hv hi hc) hc2 (rules.getD idx []) true st2
        (hwf _ hmem).2 hinv2 hip2
      rw [hr3]
      obtain ⟨b, st3⟩ := r3
      cases b with
      | true => exact ⟨_, rfl⟩
      | false => exact ⟨_, rfl⟩

theorem detect_fresh_false (rules : llama_grammar_rules) (hwf : rules_wf rules)
    (hnlr : ¬ left_recursive rules) (fuel idx : Nat) (st : lr_state) (r : Bool × lr_state)
    (hidx : idx < rules.length) (hinv : lr_inv rules st)
    (hip : st.rules_in_progress = List.replicate rules.length false)
    (h : llama_grammar_detect_left_recursion fuel rules idx st = .ok r) :
    r.1 = false ∧ r.2.rules_in_progress = List.replicate rules.length false ∧
      lr_inv rules r.2 := by
  have hpost := detect_sound rules hwf fuel idx st r hidx hinv h
  cases hb : r.1 with
  | true =>
    rcases hpost.1 hb with ⟨q, hq, _⟩ | hlr
    · rw [hip, getD_replicate_false] at hq; cases hq
    · exact absurd hlr hnlr
  | false =>
    obtain ⟨h1, h2⟩ := hpost.2 hb
    exact ⟨rfl, h1.trans hip, h2⟩

theorem check_sound (rules : llama_grammar_rules) (hwf : rules_wf rules)
    (hnlr : ¬ left_recursive rules) (fuel : Nat) :
    ∀ (is : List Nat) (st : lr_state) (b : Bool),
      (∀ i ∈ is, i < rules.length) → lr_inv rules st →
      st.rules_in_progress = List.replicate rules.length false →
      check_left_recursion fuel rules is st = .ok b → b = false := by
  intro is
  induction is with
  | nil => intro st b _ _ _ h; simp only [check_left_recursion, Except.ok.injEq] at h; exact h.symm
  | cons i is ih =>
    intro st b hlt hinv hip h
    have hlt' : ∀ j ∈ is, j < rules.length := fun j hj => hlt j (List.mem_cons_of_mem _ hj)
    unfold check_left_recursion at h
    split at h
    · exact ih st b hlt' hinv hip h
    · cases hd : llama_grammar_detect_left_recursion fuel rules i st with
      | error err => rw [hd] at h; cases h
      | ok r =>
        rw [hd] at h
        obtain ⟨h1, h2, h3⟩ := detect_fresh_false rules hwf hnlr fuel i st r
          (hlt i (List.mem_cons_self _ _)) hinv hip hd
        obtain ⟨b1, st1⟩ := r
        simp only at h1
        subst h1
        exact ih st1 b hlt' h3 h2 h

theorem check_returns (rules : llama_grammar_rules) (hwf : rules_wf rules)
    (hnlr : ¬ left_recursive rules) :
    ∀ (is : List Nat) (st : lr_state),
      (∀ i ∈ is, i < rules.length) → lr_inv rules st →
      st.rules_in_progress = List.replicate rules.length false →
      check_left_recursion (rules.length + 1) rules is st = .ok false := by
  intro is
  induction is with
  | nil => intro st _ _ _; rfl
  | cons i is ih =>
    intro st hlt hinv hip
    have hlt' : ∀ j ∈ is, j < rules.length := fun j hj => hlt j (List.mem_cons_of_mem _ hj)
    unfold check_left_recursion
    split
    · exact ih st hlt' hinv hip
    · obtain ⟨r, hr⟩ := detect_returns rules hwf (rules.length + 1) i st
        (hlt i (List.mem_cons_self _ _)) hinv
        (by rw [hip, List.count_replicate_self]; exact Nat.lt_succ_self _)
      obtain ⟨h1, h2, h3⟩ := detect_fresh_false rules hwf hnlr _ i st r
        (hlt i (List.mem_cons_self _ _)) hinv hip hr
      rw [hr]
      obtain ⟨b1, st1⟩ := r
      simp only at h1
      subst h1
      exact ih st1 hlt' h3 h2

theorem map_copy_rule_of_wf (rules : llama_grammar_rules) (hwf : rules_wf rules) :
    rules.map copy_rule = rules := by
  have : ∀ rule ∈ rules, copy_rule rule = id rule := fun rule h => (hwf rule h).1
  rw [List.map_congr_left this, List.map_id]

/-- C6. Left-recursion detection has no false positives: on a well-formed rule
table in which no rule reaches a reference to itself through leftmost
positions, `llama_grammar_detect_left_recursion` returns false from every
start index (given a budget of one nested call per rule, plus one), the loop of
`llama_grammar_init_impl` over the rules reports nothing, and
`llama_grammar_init_impl` never returns the `nullptr` of a refused grammar. -/
theorem detect_left_recursion_no_false_positive (rules : llama_grammar_rules)
    (hwf : rules_wf rules) (hnlr : ¬ left_recursive rules) :
    (∀ start, start < rules.length →
      ∃ st, llama_grammar_detect_left_recursion (rules.length + 1) rules start
        (lr_state_init rules.length) = .ok (false, st)) ∧
    check_left_recursion (rules.length + 1) rules (List.range rules.length)
      (lr_state_init rules.length) = .ok false ∧
    ∀ (fuel start_rule_index : Nat) (lazy : Bool) (trigger_tokens : List Nat)
      (trigger_patterns : List String),
      llama_grammar_init_impl fuel rules start_rule_index lazy trigger_tokens trigger_patterns
        ≠ .ok none := by
  have hinit := lr_inv_init rules
  have hrange : ∀ i ∈ List.range rules.length, i < rules.length :=
    fun i hi => List.mem_range.mp hi
  refine ⟨?_, check_returns rules hwf hnlr _ _ hrange hinit rfl, ?_⟩
  · intro start hstart
    obtain ⟨r, hr⟩ := detect_returns rules hwf (rules.length + 1) start
      (lr_state_init rules.length) hstart hinit
      (by simp only [lr_state_init, List.count_replicate_self]; exact Nat.lt_succ_self _)
    obtain ⟨h1, _, _⟩ := detect_fresh_false rules hwf hnlr _ start _ r hstart hinit rfl hr
    obtain ⟨b, st⟩ := r
    simp only at h1
    subst h1
    exact ⟨st, hr⟩
  · intro fuel start lazy tt tp h
    unfold llama_grammar_init_impl at h
    simp only [map_copy_rule_of_wf rules hwf] at h
    split at h
    · cases h
    · rename_i hc
      have := check_sound rules hwf hnlr fuel _ _ true hrange hinit rfl hc
      cases this
    · split at h <;> cases h

theorem parens_rules_wf : rules_wf parens_rules := by
  intro rule hrule
  simp only [parens_rules, List.mem_singleton] at hrule
  subst hrule
  refine ⟨rfl, ?_⟩
  intro e he hty
  simp only [List.mem_cons, List.mem_singleton, List.not_mem_nil, or_false] at he
  rcases he with h | h | h | h | h <;> subst h <;> first | exact Nat.zero_lt_one | cases hty

theorem parens_no_left_edge (A B : Nat) : ¬ left_edge parens_rules A B := by
  rintro ⟨s, i, refs, hs, hle, hget, hall⟩
  cases A with
  | succ a => simp [parens_rules] at hget
  | zero =>
    have hi : i = 1 := by
      rcases i with _ | _ | _ | _ | _ | i <;> simp [parens_rules] at hget
      rfl
    subst hi
    have h0 : s = 0 ∨ s = 1 := by omega
    rcases h0 with h0 | h0
    · subst h0
      have := (hall 0 (Nat.le_refl 0) Nat.zero_lt_one).1
      simp [parens_rules] at this
    · subst h0
      rcases hs with hs | ⟨_, v, hv⟩
      · cases hs
      · simp [parens_rules] at hv

theorem parens_not_left_recursive : ¬ left_recursive parens_rules := by
  rintro ⟨A, h⟩
  cases h with
  | single h1 => exact parens_no_left_edge _ _ h1
  | tail _ h1 => exact parens_no_left_edge _ _ h1

theorem detect_left_recursion_no_false_positive_witness :
    rules_wf parens_rules ∧ ¬ left_recursive parens_rules ∧
      ((∀ start, start < parens_rules.length →
        ∃ st, llama_grammar_detect_left_recursion (parens_rules.length + 1) parens_rules start
          (lr_state_init parens_rules.length) = .ok (false, st)) ∧
      check_left_recursion (parens_rules.length + 1) parens_rules
        (List.range parens_rules.length) (lr_state_init parens_rules.length) = .ok false ∧
      ∀ (fuel start_rule_index : Nat) (lazy : Bool) (trigger_tokens : List Nat)
        (trigger_patterns : List String),
        llama_grammar_init_impl fuel parens_rules start_rule_index lazy trigger_tokens
          trigger_patterns ≠ .ok none) :=
  ⟨parens_rules_wf, parens_not_left_recursive,
    detect_left_recursion_no_false_positive parens_rules parens_rules_wf
      parens_not_left_recursive⟩

/-! ### The batched candidate filter (C3) -/

theorem match_char_of_char_ok (rules : llama_grammar_rules) (pos : elem_ptr) (chr : Nat)
    (h : char_ok rules pos = true) :
    ∃ m, llama_grammar_match_char rules pos chr = .ok m := by
  unfold llama_grammar_match_char
  unfold char_ok rules_at at h
  simp only [h, if_true]
  exact ⟨_, rfl⟩

theorem char_ok_of_match_char (rules : llama_grammar_rules) (pos : elem_ptr) (chr : Nat)
    (m : Bool × elem_ptr) (h : llama_grammar_match_char rules pos chr = .ok m) :
    char_ok rules pos = true := by
  unfold llama_grammar_match_char at h
  unfold char_ok rules_at
  simp only at h
  split at h
  · assumption
  · cases h

theorem match_partial_char_of_char_ok (rules : llama_grammar_rules) (pos : elem_ptr)
    (p : llama_partial_utf8) (h : char_ok rules pos = true) :
    ∃ b, llama_grammar_match_partial_char rules pos p = .ok b := by
  unfold llama_grammar_match_partial_char
  unfold char_ok rules_at at h
  simp only [h, if_true]
  split
  · exact ⟨_, rfl⟩
  · split <;> exact ⟨_, rfl⟩

theorem partition_candidates_eq (rules : llama_grammar_rules) (pos : elem_ptr)
    (h : char_ok rules pos = true) :
    ∀ candidates : llama_grammar_candidates,
      partition_candidates rules pos candidates =
        .ok (candidates.filter (rejected_here rules pos),
          (candidates.filter (advances_here rules pos)).map llama_grammar_candidate.next) := by
  intro candidates
  induction candidates with
  | nil => rfl
  | cons tok toks ih =>
    unfold partition_candidates
    rw [ih]
    by_cases hc : tok.cur = 0
    · have hadv : advances_here rules pos tok = false := by simp [advances_here, hc]
      rw [if_pos hc]
      by_cases hn : tok.partial_utf8.n_remain ≠ 0
      · rw [if_pos hn]
        obtain ⟨b, hb⟩ := match_partial_char_of_char_ok rules pos tok.partial_utf8 h
        have hrej : rejected_here rules pos tok = !b := by
          simp [rejected_here, hc, hn, partial_matches, hb]
        rw [hb]
        cases b <;> simp_all [List.filter_cons]
      · rw [if_neg hn]
        have hrej : rejected_here rules pos tok = false := by
          simp only [rejected_here, hc, if_true]
          simp [hn]
        simp [List.filter_cons, hrej, hadv]
    · rw [if_neg hc]
      obtain ⟨m, hm⟩ := match_char_of_char_ok rules pos tok.cur h
      have hrej : rejected_here rules pos tok = !m.1 := by
        simp [rejected_here, hc, char_matches, hm]
      have hadv : advances_here rules pos tok = m.1 := by
        simp [advances_here, hc, char_matches, hm]
      rw [hm]
      cases hm1 : m.1 <;> simp_all [List.filter_cons]

theorem candidate_prev_next (tok : llama_grammar_candidate) : tok.next.prev = tok := by
  cases tok
  simp [llama_grammar_candidate.next, llama_grammar_candidate.prev]

theorem rejected_not_advances (rules : llama_grammar_rules) (pos : elem_ptr)
    (tok : llama_grammar_candidate) (h : rejected_here rules pos tok = true) :
    advances_here rules pos tok = false := by
  unfold rejected_here at h
  unfold advances_here
  by_cases hc : tok.cur = 0
  · simp [hc]
  · rw [if_neg hc] at h
    simp only [Bool.not_eq_true', ] at h
    simp [h]

theorem reject_for_stack_nil (f : Nat) (rules : llama_grammar_rules)
    (C : llama_grammar_candidates) :
    llama_grammar_reject_candidates_for_stack (f + 1) rules [] C =
      .ok (C.filter
        (fun tok => decide (tok.cur ≠ 0) || decide (tok.partial_utf8.n_remain ≠ 0))) := by
  unfold llama_grammar_reject_candidates_for_stack
  rfl

theorem reject_for_stack_cons_ok (f : Nat) (rules : llama_grammar_rules) (pos : elem_ptr)
    (rest : llama_grammar_stack) (C R : llama_grammar_candidates)
    (h : llama_grammar_reject_candidates_for_stack (f + 1) rules (pos :: rest) C = .ok R) :
    ∃ m ns NR, llama_grammar_match_char rules pos 0 = .ok m ∧
      llama_grammar_advance_stack f rules (push_unless_end rules m.2 rest) [] = .ok ns ∧
      llama_grammar_reject_candidates f rules ns
        ((C.filter (advances_here rules pos)).map llama_grammar_candidate.next) = .ok NR ∧
      R = C.filter (rejected_here rules pos) ++ NR.map llama_grammar_candidate.prev := by
  unfold llama_grammar_reject_candidates_for_stack at h
  simp only at h
  cases hp : partition_candidates rules pos C with
  | error e => rw [hp] at h; cases h
  | ok pr =>
    rw [hp] at h
    obtain ⟨rj, nx⟩ := pr
    simp only at h
    cases hm : llama_grammar_match_char rules pos 0 with
    | error e => rw [hm] at h; cases h
    | ok m =>
      rw [hm] at h
      simp only at h
      have hok := char_ok_of_match_char rules pos 0 m hm
      rw [partition_candidates_eq rules pos hok C] at hp
      simp only [Except.ok.injEq, Prod.mk.injEq] at hp
      obtain ⟨hrj, hnx⟩ := hp
      cases ha : llama_grammar_advance_stack f rules (push_unless_end rules m.2 rest) [] with
      | error e => rw [ha] at h; cases h
      | ok ns =>
        rw [ha] at h
        simp only at h
        cases hr : llama_grammar_reject_candidates f rules ns nx with
        | error e => rw [hr] at h; cases h
        | ok NR =>
          rw [hr] at h
          simp only [Except.ok.injEq] at h
          refine ⟨m, ns, NR, rfl, ha, ?_, ?_⟩
          · rw [hnx]; exact hr
          · rw [hrj]; exact h.symm

theorem reject_for_stack_cons_intro (f : Nat) (rules : llama_grammar_rules) (pos : elem_ptr)
    (rest : llama_grammar_stack) (C NR : llama_grammar_candidates) (m : Bool × elem_ptr)
    (ns : llama_grammar_stacks)
    (hm : llama_grammar_match_char rules pos 0 = .ok m)
    (ha : llama_grammar_advance_stack f rules (push_unless_end rules m.2 rest) [] = .ok ns)
    (hr : llama_grammar_reject_candidates f rules ns
      ((C.filter (advances_here rules pos)).map llama_grammar_candidate.next) = .ok NR) :
    llama_grammar_reject_candidates_for_stack (f + 1) rules (pos :: rest) C =
      .ok (C.filter (rejected_here rules pos) ++ NR.map llama_grammar_candidate.prev) := by
  unfold llama_grammar_reject_candidates_for_stack
  simp only
  rw [partition_candidates_eq rules pos (char_ok_of_match_char rules pos 0 m hm) C]
  simp only [hm, ha, hr]

theorem reject_candidates_nil_batch (f : Nat) (rules : llama_grammar_rules)
    (front : llama_grammar_stack) (others : llama_grammar_stacks) :
    llama_grammar_reject_candidates (f + 1) rules (front :: others) [] = .ok [] := by
  unfold llama_grammar_reject_candidates
  rfl

theorem reject_candidates_cons_batch (f : Nat) (rules : llama_grammar_rules)
    (front : llama_grammar_stack) (others : llama_grammar_stacks)
    (tok : llama_grammar_candidate) (toks : llama_grammar_candidates) :
    llama_grammar_reject_candidates (f + 1) rules (front :: others) (tok :: toks) =
      (match llama_grammar_reject_candidates_for_stack f rules front (tok :: toks) with
       | .error e => .error e
       | .ok rejects =>
         others.foldlM
           (fun rejects stack =>
             llama_grammar_reject_candidates_for_stack f rules stack rejects)
           rejects) := by
  rw [llama_grammar_reject_candidates]
  rfl

theorem reject_candidates_ok_shape (f : Nat) (rules : llama_grammar_rules)
    (ss : llama_grammar_stacks) (C R : llama_grammar_candidates)
    (h : llama_grammar_reject_candidates f rules ss C = .ok R) :
    ∃ f1 front others, f = f1 + 1 ∧ ss = front :: others := by
  cases f with
  | zero => unfold llama_grammar_reject_candidates at h; cases h
  | succ f1 =>
    cases ss with
    | nil => unfold llama_grammar_reject_candidates at h; cases h
    | cons front others => exact ⟨f1, front, others, rfl, rfl⟩

theorem fold_indep (g : llama_grammar_stack → llama_grammar_candidates →
      Run llama_grammar_candidates)
    (hg : ∀ s, filter_indep (g s)) :
    ∀ others : llama_grammar_stacks,
      filter_indep (fun B => others.foldlM (fun rejects stack => g stack rejects) B) := by
  intro others
  induction others with
  | nil =>
    intro C R h
    simp only [List.foldlM_nil, pure, Except.pure, Except.ok.injEq] at h
    subst h
    refine ⟨rfl, fun tok h => h, fun tok htok => ?_⟩
    simp only [List.foldlM_nil, pure, Except.pure, htok, if_true]
  | cons s ss ih =>
    intro C R h
    simp only [List.foldlM_cons, bind, Except.bind] at h
    cases hs : g s C with
    | error e => rw [hs] at h; cases h
    | ok B1 =>
      rw [hs] at h
      simp only at h
      obtain ⟨g0, gsub, gone⟩ := hg s C B1 hs
      obtain ⟨f0, fsub, fone⟩ := ih B1 R h
      refine ⟨?_, fun tok ht => gsub tok (fsub tok ht), fun tok htok => ?_⟩
      · simp only [List.foldlM_cons, bind, Except.bind, g0]
        exact f0
      · simp only [List.foldlM_cons, bind, Except.bind, gone tok htok]
        by_cases hb : tok ∈ B1
        · simp only [hb, if_true]
          exact fone tok hb
        · have hr : tok ∉ R := fun hr => hb (fsub tok hr)
          simp only [hb, hr, if_false]
          exact f0

theorem reject_indep (rules : llama_grammar_rules) :
    ∀ f : Nat,
      (∀ s, filter_indep (llama_grammar_reject_candidates_for_stack f rules s)) ∧
      (∀ ss, filter_indep (llama_grammar_reject_candidates f rules ss)) := by
  intro f
  induction f with
  | zero =>
    constructor
    · intro s C R h; unfold llama_grammar_reject_candidates_for_stack at h; cases h
    · intro ss C R h; unfold llama_grammar_reject_candidates at h; cases h
  | succ f ih =>
    obtain ⟨ihA, ihB⟩ := ih
    constructor
    · intro s C R h
      cases s with
      | nil =>
        rw [reject_for_stack_nil] at h
        simp only [Except.ok.injEq] at h
        subst h
        refine ⟨by rw [reject_for_stack_nil]; rfl, fun tok ht => (List.mem_filter.mp ht).1,
          fun tok htok => ?_⟩
        rw [reject_for_stack_nil]
        simp only [List.filter_cons, List.filter_nil, List.mem_filter, htok, true_and]
      | cons pos rest =>
        obtain ⟨m, ns, NR, hm, ha, hr, hR⟩ := reject_for_stack_cons_ok f rules pos rest C R h
        obtain ⟨b0, bsub, bone⟩ := ihB ns _ NR hr
        have hmemN : ∀ t, t ∈ NR → ∃ c, c ∈ C ∧ advances_here rules pos c = true ∧
            t = c.next := by
          intro t ht
          have := bsub t ht
          obtain ⟨c, hc, hct⟩ := List.mem_map.mp this
          exact ⟨c, (List.mem_filter.mp hc).1, (List.mem_filter.mp hc).2, hct.symm⟩
        have hmemR : ∀ tok, tok ∈ R ↔ (tok ∈ C ∧ rejected_here rules pos tok = true) ∨
            (tok ∈ C ∧ advances_here rules pos tok = true ∧ tok.next ∈ NR) := by
          intro tok
          rw [hR, List.mem_append, List.mem_filter, List.mem_map]
          constructor
          · rintro (h1 | ⟨t, ht, htp⟩)
            · exact Or.inl h1
            · obtain ⟨c, hc, hadv, hct⟩ := hmemN t ht
              have : tok = c := by rw [← htp, hct, candidate_prev_next]
              subst this
              exact Or.inr ⟨hc, hadv, hct ▸ ht⟩
          · rintro (h1 | ⟨_, _, h3⟩)
            · exact Or.inl h1
            · exact Or.inr ⟨tok.next, h3, candidate_prev_next tok⟩
        refine ⟨?_, fun tok ht => ?_, fun tok htok => ?_⟩
        · have := reject_for_stack_cons_intro f rules pos rest [] [] m ns hm ha
            (by simpa using b0)
          simpa using this
        · rcases (hmemR tok).mp ht with h1 | h1 <;> exact h1.1
        · by_cases hrej : rejected_here rules pos tok = true
          · have hadv := rejected_not_advances rules pos tok hrej
            have := reject_for_stack_cons_intro f rules pos rest [tok] [] m ns hm ha
              (by simpa [List.filter_cons, hadv] using b0)
            rw [this]
            have hin : tok ∈ R := (hmemR tok).mpr (Or.inl ⟨htok, hrej⟩)
            simp [List.filter_cons, hrej, hin]
          · by_cases hadv : advances_here rules pos tok = true
            · have hnext : tok.next ∈ (C.filter (advances_here rules pos)).map
                  llama_grammar_candidate.next :=
                List.mem_map.mpr ⟨tok, List.mem_filter.mpr ⟨htok, hadv⟩, rfl⟩
              have h1 := bone tok.next hnext
              have := reject_for_stack_cons_intro f rules pos rest [tok]
                (if tok.next ∈ NR then [tok.next] else []) m ns hm ha
                (by simpa [List.filter_cons, hadv] using h1)
              rw [this]
              have hiff : tok ∈ R ↔ tok.next ∈ NR := by
                rw [hmemR]
                constructor
                · rintro (⟨_, h2⟩ | ⟨_, _, h3⟩)
                  · exact absurd h2 hrej
                  · exact h3
                · intro h3; exact Or.inr ⟨htok, hadv, h3⟩
              by_cases hn : tok.next ∈ NR
              · have hin : tok ∈ R := hiff.mpr hn
                simp [List.filter_cons, hrej, hn, hin, candidate_prev_next]
              · have hin : tok ∉ R := fun h => hn (hiff.mp h)
                simp [List.filter_cons, hrej, hn, hin]
            · have := reject_for_stack_cons_intro f rules pos rest [tok] [] m ns hm ha
                (by simpa [List.filter_cons, hadv] using b0)
              rw [this]
              have hin : tok ∉ R := by
                rw [hmemR]
                rintro (⟨_, h2⟩ | ⟨_, h2, _⟩)
                · exact hrej h2
                · exact hadv h2
              simp [List.filter_cons, hrej, hin]
    · intro ss C R h
      cases ss with
      | nil => unfold llama_grammar_reject_candidates at h; cases h
      | cons front others =>
        refine ⟨reject_candidates_nil_batch f rules front others, ?_⟩
        cases C with
        | nil =>
          rw [reject_candidates_nil_batch] at h
          simp only [Except.ok.injEq] at h
          subst h
          exact ⟨fun tok ht => ht, fun tok ht => by cases ht⟩
        | cons c cs =>
          rw [reject_candidates_cons_batch] at h
          cases hs : llama_grammar_reject_candidates_for_stack f rules front (c :: cs) with
          | error e => rw [hs] at h; cases h
          | ok r0 =>
            rw [hs] at h
            simp only at h
            obtain ⟨g0, gsub, gone⟩ := ihA front (c :: cs) r0 hs
            obtain ⟨f0, fsub, fone⟩ := fold_indep
              (fun s r => llama_grammar_reject_candidates_for_stack f rules s r)
              (fun s => ihA s) others r0 R h
            refine ⟨fun tok ht => gsub tok (fsub tok ht), fun tok htok => ?_⟩
            rw [reject_candidates_cons_batch, gone tok htok]
            by_cases hb : tok ∈ r0
            · simp only [hb, if_true]
              exact fone tok hb
            · have hr : tok ∉ R := fun hr => hb (fsub tok hr)
              simp only [hb, hr, if_false]
              exact f0

theorem indep_mono (g : llama_grammar_candidates → Run llama_grammar_candidates)
    (hg : filter_indep g) (C C1 R R1 : llama_grammar_candidates)
    (h : g C = .ok R) (h1 : g C1 = .ok R1) (hsub : ∀ t ∈ C1, t ∈ C) :
    ∀ t ∈ R1, t ∈ R := by
  intro t ht
  have htC1 := (hg C1 R1 h1).2.1 t ht
  have e1 := (hg C1 R1 h1).2.2 t htC1
  have e2 := (hg C R h).2.2 t (hsub t htC1)
  rw [e1] at e2
  by_contra hn
  simp [ht, hn] at e2

theorem fold_sub (g : llama_grammar_stack → llama_grammar_candidates →
      Run llama_grammar_candidates)
    (hg : ∀ s, filter_indep (g s)) (hs : ∀ s, filter_sub (g s)) :
    ∀ others : llama_grammar_stacks,
      filter_sub (fun B => others.foldlM (fun rejects stack => g stack rejects) B) := by
  intro others
  induction others with
  | nil => intro C R _ C1 _; exact ⟨C1, rfl⟩
  | cons s ss ih =>
    intro C R h C1 hsub
    simp only [List.foldlM_cons, bind, Except.bind] at h ⊢
    cases hC : g s C with
    | error e => rw [hC] at h; cases h
    | ok B =>
      rw [hC] at h
      simp only at h
      obtain ⟨B1, hB1⟩ := hs s C B hC C1 hsub
      rw [hB1]
      exact ih B R h B1 (indep_mono (g s) (hg s) C C1 B B1 hC hB1 hsub)

theorem reject_sub (rules : llama_grammar_rules) :
    ∀ f : Nat,
      (∀ s, filter_sub (llama_grammar_reject_candidates_for_stack f rules s)) ∧
      (∀ ss, filter_sub (llama_grammar_reject_candidates f rules ss)) := by
  intro f
  induction f with
  | zero =>
    constructor
    · intro s C R h; unfold llama_grammar_reject_candidates_for_stack at h; cases h
    · intro ss C R h; unfold llama_grammar_reject_candidates at h; cases h
  | succ f ih =>
    obtain ⟨ihA, ihB⟩ := ih
    constructor
    · intro s C R h C1 hsub
      cases s with
      | nil => exact ⟨_, reject_for_stack_nil f rules C1⟩
      | cons pos rest =>
        obtain ⟨m, ns, NR, hm, ha, hr, _⟩ := reject_for_stack_cons_ok f rules pos rest C R h
        obtain ⟨NR1, hNR1⟩ := ihB ns _ NR hr
          ((C1.filter (advances_here rules pos)).map llama_grammar_candidate.next)
          (by
            intro t ht
            obtain ⟨c, hc, hct⟩ := List.mem_map.mp ht
            exact List.mem_map.mpr ⟨c, List.mem_filter.mpr
              ⟨hsub c (List.mem_filter.mp hc).1, (List.mem_filter.mp hc).2⟩, hct⟩)
        exact ⟨_, reject_for_stack_cons_intro f rules pos rest C1 NR1 m ns hm ha hNR1⟩
    · intro ss C R h C1 hsub
      cases ss with
      | nil => unfold llama_grammar_reject_candidates at h; cases h
      | cons front others =>
        cases C1 with
        | nil => exact ⟨[], reject_candidates_nil_batch f rules front others⟩
        | cons c1 cs1 =>
          cases C with
          | nil => exact absurd (hsub c1 (List.mem_cons_self _ _)) (List.not_mem_nil _)
          | cons c cs =>
            rw [reject_candidates_cons_batch] at h
            rw [reject_candidates_cons_batch]
            cases hs : llama_grammar_reject_candidates_for_stack f rules front (c :: cs) with
            | error e => rw [hs] at h; cases h
            | ok r0 =>
              rw [hs] at h
              simp only at h
              obtain ⟨r1, hr1⟩ := ihA front (c :: cs) r0 hs (c1 :: cs1) hsub
              rw [hr1]
              exact fold_sub
                (fun s r => llama_grammar_reject_candidates_for_stack f rules s r)
                (fun s => (reject_indep rules f).1 s) (fun s => ihA s) others r0 R h r1
                (indep_mono _ ((reject_indep rules f).1 front) _ _ r0 r1 hs hr1 hsub)

theorem fold_char (g : llama_grammar_stack → llama_grammar_candidates →
      Run llama_grammar_candidates)
    (hg : ∀ s, filter_indep (g s)) :
    ∀ (others : llama_grammar_stacks) (B R : llama_grammar_candidates),
      others.foldlM (fun rejects stack => g stack rejects) B = .ok R →
      ∀ tok ∈ B, (tok ∈ R ↔ ∀ s ∈ others, g s [tok] = .ok [tok]) := by
  intro others
  induction others with
  | nil =>
    intro B R h tok htok
    simp only [List.foldlM_nil, pure, Except.pure, Except.ok.injEq] at h
    subst h
    simp [htok]
  | cons s ss ih =>
    intro B R h tok htok
    simp only [List.foldlM_cons, bind, Except.bind] at h
    cases hB : g s B with
    | error e => rw [hB] at h; cases h
    | ok B1 =>
      rw [hB] at h
      simp only at h
      obtain ⟨_, _, gone⟩ := hg s B B1 hB
      have hRsub := ((fold_indep g hg ss) B1 R h).2.1
      have e := gone tok htok
      constructor
      · intro hR s1 hs1
        have hb1 : tok ∈ B1 := hRsub tok hR
        rcases List.mem_cons.mp hs1 with h1 | h1
        · subst h1; simpa [hb1] using e
        · exact (ih B1 R h tok hb1).mp hR s1 h1
      · intro hall
        have hb1 : tok ∈ B1 := by
          by_contra hn
          have := hall s (List.mem_cons_self _ _)
          rw [e] at this
          simp [hn] at this
        exact (ih B1 R h tok hb1).mpr (fun s1 hs1 => hall s1 (List.mem_cons_of_mem _ hs1))

theorem fold_returns (g : llama_grammar_stack → llama_grammar_candidates →
      Run llama_grammar_candidates)
    (hg : ∀ s, filter_indep (g s)) (hs : ∀ s, filter_sub (g s))
    (cands : llama_grammar_candidates) :
    ∀ (others : llama_grammar_stacks) (B : llama_grammar_candidates),
      (∀ s ∈ others, ∃ r, g s cands = .ok r) → (∀ t ∈ B, t ∈ cands) →
      ∃ R, others.foldlM (fun rejects stack => g stack rejects) B = .ok R := by
  intro others
  induction others with
  | nil => intro B _ _; exact ⟨B, rfl⟩
  | cons s ss ih =>
    intro B hret hsub
    obtain ⟨r, hr⟩ := hret s (List.mem_cons_self _ _)
    obtain ⟨B1, hB1⟩ := hs s cands r hr B hsub
    simp only [List.foldlM_cons, bind, Except.bind, hB1]
    exact ih B1 (fun s1 hs1 => hret s1 (List.mem_cons_of_mem _ hs1))
      (fun t ht => hsub t ((hg s B B1 hB1).2.1 t ht))

/-- C3. For a non-empty frontier and a candidate batch: whenever
`llama_grammar_reject_candidates` returns, its result holds exactly the
candidates of the batch that `llama_grammar_reject_candidates_for_stack`
rejects for every stack of the frontier, each judged on its own, and the
batched result equals filtering one candidate at a time; and it does return
whenever the per-stack filter returns on the batch for each stack of the
frontier. (One level of the recursion budget is spent by
`llama_grammar_reject_candidates` before it calls the per-stack filter.) -/
theorem reject_candidates_batch (fuel : Nat) (rules : llama_grammar_rules)
    (cur_stacks : llama_grammar_stacks) (candidates : llama_grammar_candidates)
    (hne : cur_stacks ≠ []) :
    ((∀ s ∈ cur_stacks,
        ∃ r, llama_grammar_reject_candidates_for_stack fuel rules s candidates = .ok r) →
      ∃ rejects,
        llama_grammar_reject_candidates (fuel + 1) rules cur_stacks candidates = .ok rejects) ∧
    ∀ rejects,
      llama_grammar_reject_candidates (fuel + 1) rules cur_stacks candidates = .ok rejects →
      (∀ tok, tok ∈ rejects ↔
        tok ∈ candidates ∧
          ∀ s ∈ cur_stacks,
            llama_grammar_reject_candidates_for_stack fuel rules s [tok] = .ok [tok]) ∧
      (∀ tok ∈ candidates,
        llama_grammar_reject_candidates (fuel + 1) rules cur_stacks [tok] =
          .ok (if tok ∈ rejects then [tok] else [])) := by
  have hA := (reject_indep rules fuel).1
  have hS := (reject_sub rules fuel).1
  cases cur_stacks with
  | nil => exact absurd rfl hne
  | cons front others =>
    constructor
    · intro hret
      cases candidates with
      | nil => exact ⟨[], reject_candidates_nil_batch fuel rules front others⟩
      | cons c cs =>
        obtain ⟨r0, hr0⟩ := hret front (List.mem_cons_self _ _)
        obtain ⟨R, hR⟩ := fold_returns
          (fun s r => llama_grammar_reject_candidates_for_stack fuel rules s r) hA hS (c :: cs)
          others r0 (fun s hs => hret s (List.mem_cons_of_mem _ hs))
          (hA front (c :: cs) r0 hr0).2.1
        exact ⟨R, by rw [reject_candidates_cons_batch, hr0]; exact hR⟩
    · intro rejects h
      refine ⟨fun tok => ?_,
        ((reject_indep rules (fuel + 1)).2 (front :: others) candidates rejects h).2.2⟩
      cases candidates with
      | nil =>
        rw [reject_candidates_nil_batch] at h
        simp only [Except.ok.injEq] at h
        subst h
        simp
      | cons c cs =>
        rw [reject_candidates_cons_batch] at h
        cases hr0 : llama_grammar_reject_candidates_for_stack fuel rules front (c :: cs) with
        | error e => rw [hr0] at h; cases h
        | ok r0 =>
          rw [hr0] at h
          simp only at h
          obtain ⟨_, gsub, gone⟩ := hA front (c :: cs) r0 hr0
          have hRsub := ((fold_indep _ hA others) r0 rejects h).2.1
          have hch := fold_char _ hA others r0 rejects h tok
          constructor
          · intro ht
            have h0 : tok ∈ r0 := hRsub tok ht
            have hc : tok ∈ c :: cs := gsub tok h0
            refine ⟨hc, fun s hs => ?_⟩
            rcases List.mem_cons.mp hs with h1 | h1
            · subst h1
              have := gone tok hc
              simpa [h0] using this
            · exact (hch h0).mp ht s h1
          · rintro ⟨hc, hall⟩
            have h0 : tok ∈ r0 := by
              by_contra hn
              have e := gone tok hc
              rw [hall front (List.mem_cons_self _ _)] at e
              simp [hn] at e
            exact (hch h0).mpr (fun s hs => hall s (List.mem_cons_of_mem _ hs))

theorem parens_filter_returns :
    ∀ s ∈ parens_session.cur_stacks,
      ∃ r, llama_grammar_reject_candidates_for_stack 5 parens_rules s parens_candidates
        = .ok r := by
  intro s hs
  simp only [parens_session, List.mem_cons, List.mem_singleton, List.not_mem_nil,
    or_false] at hs
  rcases hs with h | h <;> subst h <;> exact ⟨_, rfl⟩

theorem reject_candidates_batch_witness :
    parens_session.cur_stacks ≠ [] ∧
    llama_grammar_reject_candidates (5 + 1) parens_rules parens_session.cur_stacks
      parens_candidates = .ok [⟨1, [0x78, 0], 0, ⟨0x78, 0⟩⟩] ∧
    (∀ tok, tok ∈ [(⟨1, [0x78, 0], 0, ⟨0x78, 0⟩⟩ : llama_grammar_candidate)] ↔
      tok ∈ parens_candidates ∧
        ∀ s ∈ parens_session.cur_stacks,
          llama_grammar_reject_candidates_for_stack 5 parens_rules s [tok] = .ok [tok]) ∧
    (∀ tok ∈ parens_candidates,
      llama_grammar_reject_candidates (5 + 1) parens_rules parens_session.cur_stacks [tok] =
        .ok (if tok ∈ [(⟨1, [0x78, 0], 0, ⟨0x78, 0⟩⟩ : llama_grammar_candidate)]
          then [tok] else [])) :=
  ⟨by decide, rfl,
    (reject_candidates_batch 5 parens_rules parens_session.cur_stacks parens_candidates
      (by decide)).2 _ rfl⟩

/-! ### The round budgets of the class scans are never exhausted -/

theorem rule_at_char_alt_lt (rule : llama_grammar_rule) (pos : Nat)
    (h : (rule_at rule pos).type = llama_gretype.CHAR_ALT) : pos < rule.length := by
  by_contra hn
  unfold rule_at at h
  rw [List.getD_eq_getElem?_getD, List.getElem?_eq_none (Nat.le_of_not_lt hn)] at h
  cases h

/-- The round budget of `match_char_loop` is never the reason it stops: once the
budget covers the elements left in the rule, a larger one gives the same
result. -/
theorem match_char_loop_budget (rule : llama_grammar_rule) (chr : Nat) :
    ∀ (fuel k pos : Nat) (found : Bool), 0 < fuel → rule.length ≤ pos + fuel →
      match_char_loop rule chr (fuel + k) pos found = match_char_loop rule chr fuel pos found := by
  intro fuel
  induction fuel with
  | zero => intro k pos found h; cases h
  | succ n ih =>
    intro k pos found _ hlen
    have key : ∀ step : Bool × Nat, pos + 1 ≤ step.2 →
        (if (rule_at rule step.2).type = llama_gretype.CHAR_ALT then
          match_char_loop rule chr (n + k) step.2 step.1 else step) =
        (if (rule_at rule step.2).type = llama_gretype.CHAR_ALT then
          match_char_loop rule chr n step.2 step.1 else step) := by
      intro step hstep
      split
      · rename_i hc
        have hlt := rule_at_char_alt_lt rule _ hc
        exact ih k _ _ (by omega) (by omega)
      · rfl
    have e : n + 1 + k = (n + k) + 1 := by omega
    rw [e]
    unfold match_char_loop
    apply key
    split
    · exact Nat.le_succ _
    · split <;> exact Nat.le_refl _

/-- The same for the scan of `llama_grammar_match_partial_char`. -/
theorem match_partial_char_loop_budget (rule : llama_grammar_rule) (low high : Nat)
    (is_positive_char : Bool) :
    ∀ (fuel k pos : Nat), 0 < fuel → rule.length ≤ pos + fuel →
      match_partial_char_loop rule low high is_positive_char (fuel + k) pos =
        match_partial_char_loop rule low high is_positive_char fuel pos := by
  intro fuel
  induction fuel with
  | zero => intro k pos h; cases h
  | succ n ih =>
    intro k pos _ hlen
    have e : n + 1 + k = (n + k) + 1 := by omega
    rw [e]
    unfold match_partial_char_loop
    by_cases h1 : (rule_at rule (pos + 1)).type = llama_gretype.CHAR_RNG_UPPER
    · simp only [h1, if_true]
      by_cases h2 : (rule_at rule pos).value ≤ high ∧ low ≤ (rule_at rule (pos + 1)).value
      · simp only [h2, and_self, if_true]
      · simp only [h2, if_false]
        by_cases h3 : (rule_at rule (pos + 2)).type = llama_gretype.CHAR_ALT
        · simp only [h3, if_true]
          have hlt := rule_at_char_alt_lt rule _ h3
          exact ih k _ (by omega) (by omega)
        · simp only [h3, if_false]
    · simp only [h1, if_false]
      by_cases h2 : (rule_at rule pos).type = llama_gretype.CHAR_ANY
      · simp only [h2, if_true]
      · simp only [h2, if_false]
        by_cases h3 : low ≤ (rule_at rule pos).value ∧ (rule_at rule pos).value ≤ high
        · simp only [h3, and_self, if_true]
        · simp only [h3, if_false]
          by_cases h4 : (rule_at rule (pos + 1)).type = llama_gretype.CHAR_ALT
          · simp only [h4, if_true]
            have hlt := rule_at_char_alt_lt rule _ h4
            exact ih k _ (by omega) (by omega)
          · simp only [h4, if_false]

/-! ### Masking: the logit array returned by apply (C11, C12) -/

theorem apply_scan_fst (vocab : llama_vocab) (g : llama_grammar) (allow_eog : Bool) :
    ∀ (ds : List llama_token_data) (i : Nat),
      (apply_scan vocab g allow_eog ds i).1 =
        ds.map (fun d => mask_entry (scan_masks vocab allow_eog d.id) d) := by
  intro ds
  induction ds with
  | nil => intro i; rfl
  | cons d ds ih =>
    intro i
    unfold apply_scan
    simp only [List.map_cons]
    rw [ih (i + 1)]
    unfold scan_masks mask_entry
    by_cases he : vocab.is_eog d.id = true
    · simp only [he, if_true]
      cases allow_eog <;> simp
    · simp only [he, Bool.false_eq_true, if_false]
      by_cases hp : (vocab.token_to_piece d.id).isEmpty = true ∨
          (vocab.token_to_piece d.id).head? = some 0
      · simp only [hp, if_true, decide_True]
      · simp only [hp, if_false, decide_False, Bool.false_eq_true]

theorem apply_scan_snd_ids (vocab : llama_vocab) (g : llama_grammar) (allow_eog : Bool) :
    ∀ (ds ds1 : List llama_token_data) (i : Nat),
      ds.map (fun d => d.id) = ds1.map (fun d => d.id) →
      (apply_scan vocab g allow_eog ds i).2 = (apply_scan vocab g allow_eog ds1 i).2 := by
  intro ds
  induction ds with
  | nil =>
    intro ds1 i h
    cases ds1 with
    | nil => rfl
    | cons _ _ => simp at h
  | cons d ds ih =>
    intro ds1 i h
    cases ds1 with
    | nil => simp at h
    | cons d1 ds1 =>
      simp only [List.map_cons, List.cons.injEq] at h
      obtain ⟨hid, htl⟩ := h
      unfold apply_scan
      simp only
      rw [ih ds1 (i + 1) htl, ← hid]
      by_cases he : vocab.is_eog d.id = true
      · simp only [he, if_true]
        cases allow_eog <;> simp
      · simp only [he, Bool.false_eq_true, if_false]
        by_cases hp : (vocab.token_to_piece d.id).isEmpty = true ∨
            (vocab.token_to_piece d.id).head? = some 0
        · simp only [hp, if_true]
        · simp only [hp, if_false]

theorem apply_scan_snd_index (vocab : llama_vocab) (g : llama_grammar) (allow_eog : Bool) :
    ∀ (ds : List llama_token_data) (i : Nat) (c : llama_grammar_candidate),
      c ∈ (apply_scan vocab g allow_eog ds i).2 →
      ∃ k d, ds.get? k = some d ∧ c.index = i + k ∧ vocab.is_eog d.id = false ∧
        ¬ ((vocab.token_to_piece d.id).isEmpty = true ∨
          (vocab.token_to_piece d.id).head? = some 0) ∧
        c = ⟨i + k, (decode_utf8 (vocab.token_to_piece d.id) g.partial_utf8).1, 0,
          (decode_utf8 (vocab.token_to_piece d.id) g.partial_utf8).2⟩ := by
  intro ds
  induction ds with
  | nil => intro i c h; simp [apply_scan] at h
  | cons d ds ih =>
    intro i c h
    have shift : (∃ k d1, ds.get? k = some d1 ∧ c.index = i + 1 + k ∧
        vocab.is_eog d1.id = false ∧
        ¬ ((vocab.token_to_piece d1.id).isEmpty = true ∨
          (vocab.token_to_piece d1.id).head? = some 0) ∧
        c = ⟨i + 1 + k, (decode_utf8 (vocab.token_to_piece d1.id) g.partial_utf8).1, 0,
          (decode_utf8 (vocab.token_to_piece d1.id) g.partial_utf8).2⟩) →
        ∃ k d1, (d :: ds).get? k = some d1 ∧ c.index = i + k ∧ vocab.is_eog d1.id = false ∧
        ¬ ((vocab.token_to_piece d1.id).isEmpty = true ∨
          (vocab.token_to_piece d1.id).head? = some 0) ∧
        c = ⟨i + k, (decode_utf8 (vocab.token_to_piece d1.id) g.partial_utf8).1, 0,
          (decode_utf8 (vocab.token_to_piece d1.id) g.partial_utf8).2⟩ := by
      rintro ⟨k, d1, h1, h2, h3, h4, h5⟩
      refine ⟨k + 1, d1, h1, by omega, h3, h4, ?_⟩
      rw [h5]
      have : i + 1 + k = i + (k + 1) := by omega
      rw [this]
    unfold apply_scan at h
    simp only at h
    by_cases he : vocab.is_eog d.id = true
    · simp only [he, if_true] at h
      have h1 : c ∈ (apply_scan vocab g allow_eog ds (i + 1)).2 := by
        cases allow_eog <;> simpa using h
      exact shift (ih (i + 1) c h1)
    · simp only [he, Bool.false_eq_true, if_false] at h
      by_cases hp : (vocab.token_to_piece d.id).isEmpty = true ∨
          (vocab.token_to_piece d.id).head? = some 0
      · simp only [hp, if_true] at h
        exact shift (ih (i + 1) c h)
      · simp only [hp, if_false, List.mem_cons] at h
        rcases h with h | h
        · refine ⟨0, d, rfl, by rw [h]; rfl, by simpa using he, hp, by rw [h]; rfl⟩
        · exact shift (ih (i + 1) c h)

theorem mask_logit_get (acc : List llama_token_data) (j k : Nat) :
    (mask_logit acc j).get? k = (acc.get? k).map (mask_entry (decide (k = j))) := by
  unfold mask_logit
  cases hj : acc.get? j with
  | none =>
    simp only
    by_cases hkj : k = j
    · subst hkj; rw [hj]; rfl
    · cases acc.get? k <;> simp [mask_entry, hkj]
  | some d =>
    simp only
    rw [List.get?_eq_getElem?, List.getElem?_set]
    by_cases hkj : j = k
    · subst hkj
      have hlt : j < acc.length := by
        by_contra hn
        rw [List.get?_eq_getElem?, List.getElem?_eq_none (Nat.le_of_not_lt hn)] at hj
        cases hj
      rw [List.get?_eq_getElem?] at hj
      simp [hlt, hj, mask_entry]
    · have hkj1 : ¬ k = j := fun h => hkj h.symm
      cases h : acc[k]? <;> simp [mask_entry, hkj, hkj1, h]

theorem mask_entry_or (a b : Bool) (d : llama_token_data) :
    mask_entry a (mask_entry b d) = mask_entry (a || b) d := by
  cases a <;> cases b <;> simp [mask_entry]

theorem mask_fold_get :
    ∀ (rejects : llama_grammar_candidates) (acc : List llama_token_data) (k : Nat),
      (rejects.foldl (fun acc reject => mask_logit acc reject.index) acc).get? k =
        (acc.get? k).map
          (mask_entry (decide (k ∈ rejects.map llama_grammar_candidate.index))) := by
  intro rejects
  induction rejects with
  | nil =>
    intro acc k
    simp only [List.foldl_nil, List.map_nil, List.not_mem_nil, decide_False]
    cases acc.get? k <;> rfl
  | cons r rs ih =>
    intro acc k
    simp only [List.foldl_cons]
    rw [ih, mask_logit_get]
    cases acc.get? k with
    | none => rfl
    | some d =>
      simp only [Option.map_some', mask_entry_or, List.map_cons, List.mem_cons]
      congr 2
      by_cases h1 : k = r.index <;> by_cases h2 : k ∈ rs.map llama_grammar_candidate.index <;>
        simp [h1, h2]

theorem apply_active_eq (fuel : Nat) (vocab : llama_vocab) (g : llama_grammar)
    (cur_p : List llama_token_data) (hact : g.awaiting_trigger = false) :
    llama_grammar_apply_impl fuel vocab g cur_p =
      (match llama_grammar_reject_candidates fuel g.rules g.cur_stacks
          (apply_scan vocab g (g.cur_stacks.any List.isEmpty) cur_p 0).2 with
       | .error e => .error e
       | .ok rejects =>
         .ok (rejects.foldl (fun acc reject => mask_logit acc reject.index)
           (apply_scan vocab g (g.cur_stacks.any List.isEmpty) cur_p 0).1)) := by
  unfold llama_grammar_apply_impl
  simp only [hact, Bool.false_eq_true, if_false]

theorem apply_result_get (vocab : llama_vocab) (g : llama_grammar) (allow_eog : Bool)
    (rejects : llama_grammar_candidates) (cur_p : List llama_token_data) (k : Nat) :
    (rejects.foldl (fun acc reject => mask_logit acc reject.index)
        (apply_scan vocab g allow_eog cur_p 0).1).get? k =
      (cur_p.get? k).map (fun d =>
        mask_entry (decide (k ∈ rejects.map llama_grammar_candidate.index) ||
          scan_masks vocab allow_eog d.id) d) := by
  rw [mask_fold_get, apply_scan_fst, List.get?_eq_getElem?, List.get?_eq_getElem?,
    List.getElem?_map]
  cases cur_p[k]? with
  | none => rfl
  | some d => simp only [Option.map_some', mask_entry_or]

theorem mask_entry_id (b : Bool) (d : llama_token_data) : (mask_entry b d).id = d.id := by
  cases b <;> rfl

theorem mask_entry_logit (b : Bool) (d : llama_token_data) :
    (mask_entry b d).logit = d.logit ∨ (mask_entry b d).logit = logit_t.neg_infinity := by
  cases b
  · exact Or.inl rfl
  · exact Or.inr rfl

theorem mask_entry_idem (b : Bool) (d : llama_token_data) :
    mask_entry b (mask_entry b d) = mask_entry b d := by
  cases b <;> rfl

theorem length_of_get?_map {α : Type} (xs ys : List α) (f : Nat → α → α)
    (h : ∀ k, ys.get? k = (xs.get? k).map (f k)) : ys.length = xs.length := by
  apply Nat.le_antisymm
  · by_contra hn
    have hlt : xs.length < ys.length := Nat.lt_of_not_le hn
    have := h xs.length
    rw [List.get?_eq_getElem?, List.get?_eq_getElem?, List.getElem?_eq_getElem hlt,
      List.getElem?_eq_none (Nat.le_refl _)] at this
    cases this
  · by_contra hn
    have hlt : ys.length < xs.length := Nat.lt_of_not_le hn
    have := h ys.length
    rw [List.get?_eq_getElem?, List.get?_eq_getElem?, List.getElem?_eq_getElem hlt,
      List.getElem?_eq_none (Nat.le_refl _)] at this
    cases this

theorem ids_of_get?_map (xs ys : List llama_token_data) (f : Nat → llama_token_data → Bool)
    (h : ∀ k, ys.get? k = (xs.get? k).map (fun d => mask_entry (f k d) d)) :
    ys.map (fun d => d.id) = xs.map (fun d => d.id) := by
  apply List.ext_get?
  intro k
  rw [List.get?_eq_getElem?, List.get?_eq_getElem?, List.getElem?_map, List.getElem?_map,
    ← List.get?_eq_getElem?, ← List.get?_eq_getElem?, h k]
  cases xs.get? k with
  | none => rfl
  | some d => simp [mask_entry_id]

theorem reject_index_not_eog (fuel : Nat) (vocab : llama_vocab) (g : llama_grammar)
    (allow_eog : Bool) (cur_p : List llama_token_data) (rejects : llama_grammar_candidates)
    (h : llama_grammar_reject_candidates fuel g.rules g.cur_stacks
      (apply_scan vocab g allow_eog cur_p 0).2 = .ok rejects)
    (k : Nat) (d : llama_token_data) (hk : cur_p.get? k = some d)
    (heog : vocab.is_eog d.id = true) :
    k ∉ rejects.map llama_grammar_candidate.index := by
  intro hmem
  obtain ⟨r, hr, hrk⟩ := List.mem_map.mp hmem
  have hrc := ((reject_indep g.rules fuel).2 g.cur_stacks _ rejects h).2.1 r hr
  obtain ⟨k1, d1, h1, h2, h3, _, _⟩ := apply_scan_snd_index vocab g allow_eog cur_p 0 r hrc
  have : k1 = k := by omega
  subst this
  rw [hk] at h1
  cases h1
  rw [heog] at h3
  cases h3

theorem apply_returns_iff_filter (fuel : Nat) (vocab : llama_vocab) (g : llama_grammar)
    (cur_p : List llama_token_data) (hact : g.awaiting_trigger = false) :
    (∃ out, llama_grammar_apply_impl fuel vocab g cur_p = .ok out) ↔
      ∃ rejects, llama_grammar_reject_candidates fuel g.rules g.cur_stacks
        (apply_scan vocab g (g.cur_stacks.any List.isEmpty) cur_p 0).2 = .ok rejects := by
  rw [apply_active_eq fuel vocab g cur_p hact]
  constructor
  · rintro ⟨out, h⟩
    cases hr : llama_grammar_reject_candidates fuel g.rules g.cur_stacks
        (apply_scan vocab g (g.cur_stacks.any List.isEmpty) cur_p 0).2 with
    | error e => rw [hr] at h; cases h
    | ok rejects => exact ⟨rejects, rfl⟩
  · rintro ⟨rejects, hr⟩
    rw [hr]
    exact ⟨_, rfl⟩

/-- In the array `llama_grammar_apply_impl` returns for an active session, the
entry of an end-of-generation token has logit `-INFINITY` when no stack of the
frontier is empty and its previous logit when some stack is empty. -/
theorem apply_eog_entries (fuel : Nat) (vocab : llama_vocab) (g : llama_grammar)
    (cur_p : List llama_token_data) (hact : g.awaiting_trigger = false)
    (out : List llama_token_data) (h : llama_grammar_apply_impl fuel vocab g cur_p = .ok out)
    (k : Nat) (d : llama_token_data) (hk : cur_p.get? k = some d)
    (heog : vocab.is_eog d.id = true) :
    out.get? k = some ⟨d.id,
      if g.cur_stacks.any List.isEmpty = true then d.logit else logit_t.neg_infinity⟩ := by
  rw [apply_active_eq fuel vocab g cur_p hact] at h
  cases hr : llama_grammar_reject_candidates fuel g.rules g.cur_stacks
      (apply_scan vocab g (g.cur_stacks.any List.isEmpty) cur_p 0).2 with
  | error e => rw [hr] at h; cases h
  | ok rejects =>
    rw [hr] at h
    simp only [Except.ok.injEq] at h
    subst h
    have hnot := reject_index_not_eog fuel vocab g _ cur_p rejects hr k d hk heog
    rw [apply_result_get, hk]
    simp only [Option.map_some', hnot, decide_False, Bool.false_or, scan_masks, heog, if_true]
    cases g.cur_stacks.any List.isEmpty <;> cases d <;> rfl

/-- C12. `llama_grammar_apply_impl` never un-masks a token: when it returns an
array for `x`, that array has the length and the token ids of `x`, each of its
logits is the previous one or `-INFINITY`, and applying it again to the
returned array returns that same array. -/
theorem apply_idempotent (fuel : Nat) (vocab : llama_vocab) (g : llama_grammar)
    (x y : List llama_token_data) (h : llama_grammar_apply_impl fuel vocab g x = .ok y) :
    llama_grammar_apply_impl fuel vocab g y = .ok y ∧ y.length = x.length ∧
      ∀ k d, x.get? k = some d →
        ∃ d1, y.get? k = some d1 ∧ d1.id = d.id ∧
          (d1.logit = d.logit ∨ d1.logit = logit_t.neg_infinity) := by
  by_cases hact : g.awaiting_trigger = true
  · have hx : llama_grammar_apply_impl fuel vocab g x = .ok x := by
      unfold llama_grammar_apply_impl; simp only [hact, if_true]
    rw [hx] at h
    simp only [Except.ok.injEq] at h
    subst h
    exact ⟨hx, rfl, fun k d hk => ⟨d, hk, rfl, Or.inl rfl⟩⟩
  · have hact : g.awaiting_trigger = false := by
      cases hb : g.awaiting_trigger with
      | true => exact absurd hb hact
      | false => rfl
    rw [apply_active_eq fuel vocab g x hact] at h
    cases hr : llama_grammar_reject_candidates fuel g.rules g.cur_stacks
        (apply_scan vocab g (g.cur_stacks.any List.isEmpty) x 0).2 with
    | error e => rw [hr] at h; cases h
    | ok rejects =>
      rw [hr] at h
      simp only [Except.ok.injEq] at h
      have hget : ∀ k, y.get? k = (x.get? k).map (fun d =>
          mask_entry (decide (k ∈ rejects.map llama_grammar_candidate.index) ||
            scan_masks vocab (g.cur_stacks.any List.isEmpty) d.id) d) := by
        intro k; rw [← h]; exact apply_result_get vocab g _ rejects x k
      have hids := ids_of_get?_map x y
        (fun k d => decide (k ∈ rejects.map llama_grammar_candidate.index) ||
            scan_masks vocab (g.cur_stacks.any List.isEmpty) d.id) hget
      refine ⟨?_, length_of_get?_map x y _ hget, ?_⟩
      · rw [apply_active_eq fuel vocab g y hact,
          apply_scan_snd_ids vocab g _ y x 0 hids, hr]
        simp only [Except.ok.injEq]
        apply List.ext_get?
        intro k
        rw [apply_result_get, hget k]
        cases x.get? k with
        | none => rfl
        | some d => simp only [Option.map_some', mask_entry_id, mask_entry_idem]
      · intro k d hk
        rw [hget k, hk]
        exact ⟨_, rfl, mask_entry_id _ _, mask_entry_logit _ _⟩

/-! ### Accepting a piece (C13) -/

theorem accept_code_points_feed (fuel : Nat) :
    ∀ (chrs : List Nat) (g : llama_grammar),
      accept_code_points fuel g chrs =
        (match feed_frontier fuel g.rules g.cur_stacks chrs with
         | .error e => .error e
         | .ok frontier => .ok { g with cur_stacks := frontier }) := by
  intro chrs
  induction chrs with
  | nil => intro g; rfl
  | cons c cs ih =>
    intro g
    unfold accept_code_points feed_frontier llama_grammar_accept
    cases accept_stacks fuel g.rules g.cur_stacks c with
    | error e => rfl
    | ok frontier1 => exact ih _

/-- C13. When feeding the decoded code points of the piece (all but the
terminating 0), in order, through `llama_grammar_accept` gives a frontier,
`llama_grammar_accept_str` raises the parse-progress error if and only if that
frontier is empty; in both cases the session's frontier is that frontier, its
partial UTF-8 tail is the tail returned by the decoder, and nothing else
changes. -/
theorem accept_str_outcome (fuel : Nat) (g : llama_grammar) (piece : List Nat)
    (frontier : llama_grammar_stacks)
    (h : feed_frontier fuel g.rules g.cur_stacks
      (decode_utf8 piece g.partial_utf8).1.dropLast = .ok frontier) :
    llama_grammar_accept_str fuel g piece =
      .ok (if frontier = [] then
          accept_outcome.parse_error
            { g with cur_stacks := frontier,
                     partial_utf8 := (decode_utf8 piece g.partial_utf8).2 }
        else
          accept_outcome.done
            { g with cur_stacks := frontier,
                     partial_utf8 := (decode_utf8 piece g.partial_utf8).2 }) := by
  unfold llama_grammar_accept_str
  simp only [accept_code_points_feed, h]
  cases frontier with
  | nil => rfl
  | cons s ss => rfl

theorem int_list_init :
    llama_grammar_init_impl 7 int_list_rules 0 false [] [] = .ok (some int_list_session) := by
  rfl

theorem accept_str_outcome_witness :
    (feed_frontier 4 int_list_session.rules int_list_session.cur_stacks
        (decode_utf8 [0x31, 0x32, 0x2C, 0x33] int_list_session.partial_utf8).1.dropLast =
      .ok [[⟨1, 0⟩, ⟨4, 1⟩, ⟨5, 1⟩], [⟨3, 0⟩, ⟨5, 1⟩], []] ∧
     llama_grammar_accept_str 4 int_list_session [0x31, 0x32, 0x2C, 0x33] =
      .ok (accept_outcome.done
        { int_list_session with
          cur_stacks := [[⟨1, 0⟩, ⟨4, 1⟩, ⟨5, 1⟩], [⟨3, 0⟩, ⟨5, 1⟩], []],
          partial_utf8 := ⟨0x33, 0⟩ })) ∧
    (feed_frontier 4 int_list_session.rules int_list_session.cur_stacks
        (decode_utf8 [0x31, 0x32, 0x2C] int_list_session.partial_utf8).1.dropLast =
      .ok [[⟨1, 0⟩, ⟨3, 2⟩, ⟨5, 1⟩]] ∧
     llama_grammar_accept_str 4 int_list_session [0x31, 0x32, 0x2C] =
      .ok (accept_outcome.done
        { int_list_session with
          cur_stacks := [[⟨1, 0⟩, ⟨3, 2⟩, ⟨5, 1⟩]],
          partial_utf8 := ⟨0x2C, 0⟩ })) ∧
    (feed_frontier 4 int_list_session.rules int_list_session.cur_stacks
        (decode_utf8 [0x31, 0x32, 0x2C, 0x61] int_list_session.partial_utf8).1.dropLast =
      .ok [] ∧
     llama_grammar_accept_str 4 int_list_session [0x31, 0x32, 0x2C, 0x61] =
      .ok (accept_outcome.parse_error
        { int_list_session with cur_stacks := [], partial_utf8 := ⟨0x61, 0⟩ })) :=
  ⟨⟨rfl, accept_str_outcome 4 int_list_session [0x31, 0x32, 0x2C, 0x33] _ rfl⟩,
   ⟨rfl, accept_str_outcome 4 int_list_session [0x31, 0x32, 0x2C] _ rfl⟩,
   ⟨rfl, accept_str_outcome 4 int_list_session [0x31, 0x32, 0x2C, 0x61] _ rfl⟩⟩

/-! ### The session after a failed accept (C14); invalid UTF-8 (C16, C17) -/

theorem accept_code_points_awaiting (fuel : Nat) :
    ∀ (chrs : List Nat) (g g1 : llama_grammar),
      accept_code_points fuel g chrs = .ok g1 → g1.awaiting_trigger = g.awaiting_trigger := by
  intro chrs g g1 h
  rw [accept_code_points_feed] at h
  split at h
  · cases h
  · simp only [Except.ok.injEq] at h
    subst h
    rfl

theorem accept_str_parse_error (fuel : Nat) (g : llama_grammar) (piece : List Nat)
    (g1 : llama_grammar)
    (h : llama_grammar_accept_str fuel g piece = .ok (accept_outcome.parse_error g1)) :
    g1.cur_stacks = [] ∧ g1.awaiting_trigger = g.awaiting_trigger := by
  unfold llama_grammar_accept_str at h
  simp only at h
  split at h
  · cases h
  · rename_i g2 hg2
    have haw := accept_code_points_awaiting fuel _ g g2 hg2
    split at h
    · rename_i hemp
      simp only [Except.ok.injEq, accept_outcome.parse_error.injEq] at h
      subst h
      exact ⟨List.isEmpty_iff.mp hemp, haw⟩
    · simp only [Except.ok.injEq] at h
      cases h

theorem apply_empty_frontier_aborts (fuel : Nat) (vocab : llama_vocab) (g : llama_grammar)
    (cur_p : List llama_token_data) (hact : g.awaiting_trigger = false)
    (hemp : g.cur_stacks = []) :
    llama_grammar_apply_impl (fuel + 1) vocab g cur_p = .error Fault.abort := by
  rw [apply_active_eq _ vocab g cur_p hact, hemp]
  unfold llama_grammar_reject_candidates
  rfl

/-- C14 (as amended). After a `llama_grammar_accept_impl` that fails with the
parse-progress error the session's frontier is empty and the session is not
awaiting a trigger; every later `llama_grammar_apply_impl` call on that session
stops on the assertion of `llama_grammar_reject_candidates` that the frontier
is non-empty, whatever the vocabulary and the logit array: it aborts and
returns no array. -/
theorem failed_accept_then_apply_aborts (fuel : Nat) (vocab : llama_vocab)
    (regex_match : String → List Nat → Option (List (Nat × Nat)))
    (g : llama_grammar) (token : Nat) (g1 : llama_grammar)
    (h : llama_grammar_accept_impl fuel vocab regex_match g token =
      .ok (accept_outcome.parse_error g1)) :
    g1.cur_stacks = [] ∧ g1.awaiting_trigger = false ∧
      ∀ (fuel1 : Nat) (vocab1 : llama_vocab) (cur_p : List llama_token_data),
        llama_grammar_apply_impl (fuel1 + 1) vocab1 g1 cur_p = .error Fault.abort := by
  have key : g1.cur_stacks = [] ∧ g1.awaiting_trigger = false := by
    unfold llama_grammar_accept_impl at h
    simp only at h
    split at h
    · split at h
      · exact accept_str_parse_error fuel
          { g with awaiting_trigger := false, trigger_buffer := [] } _ g1 h
      · split at h
        · exact accept_str_parse_error fuel
            { g with awaiting_trigger := false, trigger_buffer := [] } _ g1 h
        · simp only [Except.ok.injEq] at h
          cases h
    · rename_i hna
      split at h
      · split at h
        · simp only [Except.ok.injEq] at h
          cases h
        · cases h
      · obtain ⟨h1, h2⟩ := accept_str_parse_error fuel g _ g1 h
        refine ⟨h1, ?_⟩
        rw [h2]
        cases hb : g.awaiting_trigger with
        | true => exact absurd hb hna
        | false => rfl
  exact ⟨key.1, key.2, fun fuel1 vocab1 cur_p =>
    apply_empty_frontier_aborts fuel1 vocab1 g1 cur_p key.2 key.1⟩

/-- C14 (counterexample). Grammar `root ::= "a"`: accepting the token "b" fails
with the parse-progress error, and the next `llama_grammar_apply_impl` on that
session does not complete, however large the budget: it aborts. -/
theorem dead_session_apply_does_not_complete :
    llama_grammar_accept_impl 3 letters_vocab (fun _ _ => none) single_a_session 1 =
        .ok (accept_outcome.parse_error single_a_dead_session) ∧
      (∀ fuel, llama_grammar_apply_impl (fuel + 1) letters_vocab single_a_dead_session
        [⟨0, logit_t.finite 0⟩, ⟨1, logit_t.finite 0⟩] = .error Fault.abort) ∧
      ¬ ∃ fuel out, llama_grammar_apply_impl fuel letters_vocab single_a_dead_session
        [⟨0, logit_t.finite 0⟩, ⟨1, logit_t.finite 0⟩] = .ok out := by
  refine ⟨rfl, fun fuel => apply_empty_frontier_aborts fuel _ _ _ rfl rfl, ?_⟩
  rintro ⟨fuel, out, h⟩
  cases fuel with
  | zero => cases h
  | succ n =>
    rw [apply_empty_frontier_aborts n _ _ _ rfl rfl] at h
    cases h

theorem failed_accept_then_apply_aborts_witness :
    llama_grammar_accept_impl 3 letters_vocab (fun _ _ => none) single_a_session 1 =
        .ok (accept_outcome.parse_error single_a_dead_session) ∧
      (single_a_dead_session.cur_stacks = [] ∧ single_a_dead_session.awaiting_trigger = false ∧
        ∀ (fuel1 : Nat) (vocab1 : llama_vocab) (cur_p : List llama_token_data),
          llama_grammar_apply_impl (fuel1 + 1) vocab1 single_a_dead_session cur_p =
            .error Fault.abort) :=
  ⟨rfl, failed_accept_then_apply_aborts 3 letters_vocab (fun _ _ => none) single_a_session 1
    single_a_dead_session rfl⟩

/-- C16 (failing input). The bytes `C3 41` from the empty partial state: the
second byte is not a continuation byte although `C3` starts a two-byte code
point, yet `decode_utf8` returns the code point U+00C1 and a clean partial
state, not `[0]` with `n_remain = -1`. The same byte `41` after a carried-in
partial `C3` does give `[0]` and `n_remain = -1`. -/
theorem decode_utf8_unchecked_continuation :
    0x41 >>> 6 ≠ 2 ∧
      decode_utf8 [0xC3, 0x41] ⟨0, 0⟩ = ([0xC1, 0], ⟨0xC1, 0⟩) ∧
      decode_utf8 [0xC3] ⟨0, 0⟩ = ([0], ⟨3, 1⟩) ∧
      decode_utf8 [0x41] ⟨3, 1⟩ = ([0], ⟨0, -1⟩) :=
  ⟨by decide, rfl, rfl, rfl⟩

theorem decode_utf8_restart (b : Nat) (bs : List Nat) (v : Nat) (hb : b ≠ 0) :
    decode_utf8 (b :: bs) ⟨v, -1⟩ = decode_utf8 (b :: bs) ⟨0, 0⟩ := by
  unfold decode_utf8 decode_utf8_continue
  have h1 : ¬ (b ≠ 0 ∧ (-1 : Int) > 0) := by omega
  have h2 : ¬ (b ≠ 0 ∧ (0 : Int) > 0) := by omega
  have h3 : ¬ ((-1 : Int) > 0 ∧ (-1 : Int) = 0) := by omega
  have h4 : ¬ ((0 : Int) > 0 ∧ (0 : Int) = 0) := by omega
  simp only [h1, h2, h3, h4, if_false]
  unfold decode_utf8_main
  have h5 : ¬ ((-1 : Int) > 0) := by omega
  have h6 : ¬ ((0 : Int) > 0) := by omega
  simp only [hb, h5, h6, if_false]
  simp

theorem apply_scan_restart (vocab : llama_vocab) (g : llama_grammar) (allow_eog : Bool)
    (hn : g.partial_utf8.n_remain = -1) :
    ∀ (ds : List llama_token_data) (i : Nat),
      apply_scan vocab g allow_eog ds i =
        apply_scan vocab { g with partial_utf8 := ⟨0, 0⟩ } allow_eog ds i := by
  intro ds
  induction ds with
  | nil => intro i; rfl
  | cons d ds ih =>
    intro i
    unfold apply_scan
    simp only
    rw [ih (i + 1)]
    by_cases he : vocab.is_eog d.id = true
    · simp only [he, if_true]
    · simp only [he, Bool.false_eq_true, if_false]
      by_cases hp : (vocab.token_to_piece d.id).isEmpty = true ∨
          (vocab.token_to_piece d.id).head? = some 0
      · simp only [hp, if_true]
      · simp only [hp, if_false]
        have hdec : decode_utf8 (vocab.token_to_piece d.id) g.partial_utf8 =
            decode_utf8 (vocab.token_to_piece d.id) ⟨0, 0⟩ := by
          cases hpc : vocab.token_to_piece d.id with
          | nil => rw [hpc] at hp; simp at hp
          | cons b bs =>
            rw [hpc] at hp
            have hb : b ≠ 0 := by
              intro hb0
              apply hp
              right
              simp [hb0]
            have hg : g.partial_utf8 = ⟨g.partial_utf8.value, -1⟩ := by
              cases hpu : g.partial_utf8 with
              | mk v n => rw [hpu] at hn; simp only at hn; rw [hn]
            rw [hg]
            exact decode_utf8_restart b bs _ hb
        rw [hdec]

/-- C17 (as amended). While the session's stored partial UTF-8 state has
`n_remain = -1`, `llama_grammar_apply_impl` does what it does on the same
session with the empty partial state `(0, 0)`: every token's piece is decoded
from a clean code-point boundary, so a token is masked exactly when it would be
masked without the stored invalid state. -/
theorem apply_ignores_invalid_tail (fuel : Nat) (vocab : llama_vocab) (g : llama_grammar)
    (cur_p : List llama_token_data) (hn : g.partial_utf8.n_remain = -1) :
    llama_grammar_apply_impl fuel vocab g cur_p =
      llama_grammar_apply_impl fuel vocab { g with partial_utf8 := ⟨0, 0⟩ } cur_p := by
  unfold llama_grammar_apply_impl
  simp only [apply_scan_restart vocab g _ hn]

/-- C17 (counterexample). Grammar `root ::= "a"`: after
`llama_grammar_accept_str` has taken the invalid piece `80` the stored partial
state has `n_remain = -1`, and `llama_grammar_apply_impl` leaves the token "a",
which is not end-of-generation, unmasked. -/
theorem invalid_tail_does_not_mask :
    llama_grammar_accept_str 3 single_a_session [0x80] =
        .ok (accept_outcome.done single_a_invalid_tail_session) ∧
      single_a_invalid_tail_session.partial_utf8.n_remain = -1 ∧
      letters_vocab.is_eog 0 = false ∧
      llama_grammar_apply_impl 6 letters_vocab single_a_invalid_tail_session
        [⟨0, logit_t.finite 0⟩, ⟨1, logit_t.finite 0⟩] =
        .ok [⟨0, logit_t.finite 0⟩, ⟨1, logit_t.neg_infinity⟩] :=
  ⟨rfl, rfl, rfl, rfl⟩

theorem apply_ignores_invalid_tail_witness :
    single_a_invalid_tail_session.partial_utf8.n_remain = -1 ∧
      llama_grammar_apply_impl 6 letters_vocab single_a_invalid_tail_session
          [⟨0, logit_t.finite 0⟩, ⟨1, logit_t.finite 0⟩] =
        llama_grammar_apply_impl 6 letters_vocab
          { single_a_invalid_tail_session with partial_utf8 := ⟨0, 0⟩ }
          [⟨0, logit_t.finite 0⟩, ⟨1, logit_t.finite 0⟩] :=
  ⟨rfl, apply_ignores_invalid_tail 6 letters_vocab single_a_invalid_tail_session
    [⟨0, logit_t.finite 0⟩, ⟨1, logit_t.finite 0⟩] rfl⟩

theorem apply_idempotent_witness :
    llama_grammar_apply_impl 6 letters_vocab single_a_session
        [⟨0, logit_t.finite 1⟩, ⟨1, logit_t.finite 2⟩, ⟨26, logit_t.finite 3⟩] =
      .ok [⟨0, logit_t.finite 1⟩, ⟨1, logit_t.neg_infinity⟩, ⟨26, logit_t.neg_infinity⟩] ∧
    (llama_grammar_apply_impl 6 letters_vocab single_a_session
        [⟨0, logit_t.finite 1⟩, ⟨1, logit_t.neg_infinity⟩, ⟨26, logit_t.neg_infinity⟩] =
      .ok [⟨0, logit_t.finite 1⟩, ⟨1, logit_t.neg_infinity⟩, ⟨26, logit_t.neg_infinity⟩] ∧
     [(⟨0, logit_t.finite 1⟩ : llama_token_data), ⟨1, logit_t.neg_infinity⟩,
        ⟨26, logit_t.neg_infinity⟩].length =
       [(⟨0, logit_t.finite 1⟩ : llama_token_data), ⟨1, logit_t.finite 2⟩,
        ⟨26, logit_t.finite 3⟩].length ∧
     ∀ k d, [(⟨0, logit_t.finite 1⟩ : llama_token_data), ⟨1, logit_t.finite 2⟩,
          ⟨26, logit_t.finite 3⟩].get? k = some d →
        ∃ d1, [(⟨0, logit_t.finite 1⟩ : llama_token_data), ⟨1, logit_t.neg_infinity⟩,
            ⟨26, logit_t.neg_infinity⟩].get? k = some d1 ∧ d1.id = d.id ∧
          (d1.logit = d.logit ∨ d1.logit = logit_t.neg_infinity)) :=
  ⟨rfl, apply_idempotent 6 letters_vocab single_a_session _ _ rfl⟩

/-! ### UTF-8 round trip (C15) -/

theorem lookup_one_byte (b : Nat) (h : b < 0x80) : decode_utf8_lookup.getD (b >>> 4) 0 = 1 := by
  rw [Nat.shiftRight_eq_div_pow]
  have hk : b / 2 ^ 4 < 8 := by omega
  generalize b / 2 ^ 4 = k at hk
  interval_cases k <;> rfl

theorem lookup_two_bytes (b : Nat) (h1 : 0xC0 ≤ b) (h2 : b < 0xE0) :
    decode_utf8_lookup.getD (b >>> 4) 0 = 2 := by
  rw [Nat.shiftRight_eq_div_pow]
  have hk1 : 12 ≤ b / 2 ^ 4 := by omega
  have hk2 : b / 2 ^ 4 < 14 := by omega
  generalize b / 2 ^ 4 = k at hk1 hk2
  interval_cases k <;> rfl

theorem lookup_three_bytes (b : Nat) (h1 : 0xE0 ≤ b) (h2 : b < 0xF0) :
    decode_utf8_lookup.getD (b >>> 4) 0 = 3 := by
  rw [Nat.shiftRight_eq_div_pow]
  have hk : b / 2 ^ 4 = 14 := by omega
  rw [hk]
  rfl

theorem lookup_four_bytes (b : Nat) (h1 : 0xF0 ≤ b) (h2 : b < 0x100) :
    decode_utf8_lookup.getD (b >>> 4) 0 = 4 := by
  rw [Nat.shiftRight_eq_div_pow]
  have hk : b / 2 ^ 4 = 15 := by omega
  rw [hk]
  rfl

theorem decode_utf8_main_first (b : Nat) (bs : List Nat) (v : Nat) (acc : List Nat) (m : Nat)
    (hb : b ≠ 0) (hl : decode_utf8_lookup.getD (b >>> 4) 0 = (m : Int) + 1) :
    decode_utf8_main (b :: bs) v 0 acc =
      decode_utf8_main bs (b % 2 ^ (7 - m)) m
        (if m = 0 then acc ++ [b % 2 ^ (7 - m)] else acc) := by
  rw [decode_utf8_main]
  have h0 : ¬ ((0 : Int) > 0) := by omega
  have h1 : ¬ ((m : Int) + 1 - 1 < 0) := by omega
  have h2 : (7 - ((m : Int) + 1 - 1)).toNat = 7 - m := by omega
  simp only [hb, h0, if_false, hl, h1, h2]
  have h3 : (1 <<< (7 - m) - 1) = 2 ^ (7 - m) - 1 := by rw [Nat.one_shiftLeft]
  rw [h3, Nat.and_pow_two_sub_one_eq_mod]
  have h4 : ((m : Int) + 1 - 1 = 0) ↔ m = 0 := by omega
  simp only [h4]
  have h5 : (m : Int) + 1 - 1 = m := by omega
  rw [h5]

theorem decode_utf8_main_next (b : Nat) (bs : List Nat) (v : Nat) (acc : List Nat) (m : Nat)
    (hb : b ≠ 0) :
    decode_utf8_main (b :: bs) v ((m : Int) + 1) acc =
      decode_utf8_main bs ((v * 64 + b % 64) % 2 ^ 32) m
        (if m = 0 then acc ++ [(v * 64 + b % 64) % 2 ^ 32] else acc) := by
  rw [decode_utf8_main]
  have h0 : ((m : Int) + 1 > 0) := by omega
  simp only [hb, h0, if_false, if_true]
  have h3 : b &&& 0x3F = b % 64 := Nat.and_pow_two_sub_one_eq_mod b 6
  have h4 : v <<< 6 = v * 64 := by rw [Nat.shiftLeft_eq]
  rw [h3, h4]
  have h5 : (m : Int) + 1 - 1 = m := by omega
  rw [h5]
  have h6 : ((m : Int) = 0) ↔ m = 0 := by omega
  simp only [h6]

theorem decode_utf8_main_encode (c : Nat) (hc0 : c ≠ 0) (hc : c < 0x110000)
    (rest : List Nat) (v : Nat) (acc : List Nat) :
    decode_utf8_main (utf8_encode c ++ rest) v 0 acc =
      decode_utf8_main rest c 0 (acc ++ [c]) := by
  unfold utf8_encode
  by_cases h1 : c < 0x80
  · simp only [h1, if_true, List.singleton_append]
    rw [decode_utf8_main_first c rest v acc 0 hc0 (by rw [lookup_one_byte c h1]; rfl)]
    have : c % 2 ^ (7 - 0) = c := by omega
    simp only [this, if_true, Nat.cast_zero]
  · by_cases h2 : c < 0x800
    · simp only [h1, h2, if_true, if_false, List.cons_append, List.nil_append]
      rw [decode_utf8_main_first _ _ v acc 1 (by omega)
        (by rw [lookup_two_bytes _ (by omega) (by omega)]; rfl)]
      have e := decode_utf8_main_next (0x80 + c % 0x40) rest ((0xC0 + c / 0x40) % 2 ^ (7 - 1))
        (if 1 = 0 then acc ++ [(0xC0 + c / 0x40) % 2 ^ (7 - 1)] else acc) 0 (by omega)
      simp only [Nat.cast_zero, zero_add, Nat.cast_one] at e ⊢
      rw [e]
      have : (((0xC0 + c / 0x40) % 2 ^ (7 - 1)) * 64 + (0x80 + c % 0x40) % 64) % 2 ^ 32 = c := by
        omega
      simp only [this, if_true, if_false, one_ne_zero]
    · by_cases h3 : c < 0x10000
      · simp only [h1, h2, h3, if_true, if_false, List.cons_append, List.nil_append]
        rw [decode_utf8_main_first _ _ v acc 2 (by omega)
          (by rw [lookup_three_bytes _ (by omega) (by omega)]; rfl)]
        have e1 := decode_utf8_main_next (0x80 + c / 0x40 % 0x40) ((0x80 + c % 0x40) :: rest)
          ((0xE0 + c / 0x1000) % 2 ^ (7 - 2))
          (if 2 = 0 then acc ++ [(0xE0 + c / 0x1000) % 2 ^ (7 - 2)] else acc) 1 (by omega)
        simp only [Nat.cast_one, Nat.cast_ofNat] at e1 ⊢
        have e1b : ((1 : Int) + 1) = 2 := by norm_num
        rw [e1b] at e1
        rw [e1]
        have e2 := decode_utf8_main_next (0x80 + c % 0x40) rest
          ((((0xE0 + c / 0x1000) % 2 ^ (7 - 2)) * 64 + (0x80 + c / 0x40 % 0x40) % 64) % 2 ^ 32)
          acc 0 (by omega)
        simp only [Nat.cast_zero, zero_add] at e2
        simp only [one_ne_zero, if_false, OfNat.ofNat_ne_zero]
        rw [e2]
        have : ((((0xE0 + c / 0x1000) % 2 ^ (7 - 2)) * 64 + (0x80 + c / 0x40 % 0x40) % 64)
            % 2 ^ 32 * 64 + (0x80 + c % 0x40) % 64) % 2 ^ 32 = c := by
          omega
        simp only [this, if_true]
      · simp only [h1, h2, h3, if_false, List.cons_append, List.nil_append]
        rw [decode_utf8_main_first _ _ v acc 3 (by omega)
          (by rw [lookup_four_bytes _ (by omega) (by omega)]; rfl)]
        have e1 := decode_utf8_main_next (0x80 + c / 0x1000 % 0x40)
          ((0x80 + c / 0x40 % 0x40) :: (0x80 + c % 0x40) :: rest)
          ((0xF0 + c / 0x40000) % 2 ^ (7 - 3)) acc 2 (by omega)
        have e1b : (((2 : Nat) : Int) + 1) = ((3 : Nat) : Int) := by norm_num
        rw [e1b] at e1
        simp only [OfNat.ofNat_ne_zero, if_false]
        rw [e1]
        have e2 := decode_utf8_main_next (0x80 + c / 0x40 % 0x40) ((0x80 + c % 0x40) :: rest)
          ((((0xF0 + c / 0x40000) % 2 ^ (7 - 3)) * 64 + (0x80 + c / 0x1000 % 0x40) % 64) % 2 ^ 32)
          acc 1 (by omega)
        have e2b : (((1 : Nat) : Int) + 1) = ((2 : Nat) : Int) := by norm_num
        rw [e2b] at e2
        simp only [OfNat.ofNat_ne_zero, if_false]
        rw [e2]
        have e3 := decode_utf8_main_next (0x80 + c % 0x40) rest
          ((((((0xF0 + c / 0x40000) % 2 ^ (7 - 3)) * 64 + (0x80 + c / 0x1000 % 0x40) % 64)
            % 2 ^ 32) * 64 + (0x80 + c / 0x40 % 0x40) % 64) % 2 ^ 32)
          acc 0 (by omega)
        simp only [Nat.cast_zero, zero_add] at e3
        simp only [one_ne_zero, if_false, Nat.cast_one]
        rw [e3]
        have : ((((((0xF0 + c / 0x40000) % 2 ^ (7 - 3)) * 64 + (0x80 + c / 0x1000 % 0x40) % 64)
            % 2 ^ 32) * 64 + (0x80 + c / 0x40 % 0x40) % 64) % 2 ^ 32 * 64 +
            (0x80 + c % 0x40) % 64) % 2 ^ 32 = c := by
          omega
        simp only [this, if_true]

theorem decode_utf8_continue_aligned (src : List Nat) (v : Nat) :
    decode_utf8_continue src v 0 = some (src, v, 0) := by
  cases src with
  | nil => rfl
  | cons b bs =>
    rw [decode_utf8_continue]
    have h0 : ¬ (b ≠ 0 ∧ (0 : Int) > 0) := by omega
    simp only [h0, if_false]

theorem decode_utf8_main_encode_all :
    ∀ (cs : List Nat), (∀ c ∈ cs, c ≠ 0 ∧ c < 0x110000) →
      ∀ (v : Nat) (acc : List Nat),
        decode_utf8_main (utf8_encode_all cs) v 0 acc =
          (acc ++ cs ++ [0], ⟨cs.getLastD v, 0⟩) := by
  intro cs
  induction cs with
  | nil =>
    intro _ v acc
    simp only [utf8_encode_all, List.flatMap_nil, List.append_nil, List.getLastD_nil]
    rfl
  | cons c cs ih =>
    intro h v acc
    have hc := h c (List.mem_cons_self c cs)
    have e : utf8_encode_all (c :: cs) = utf8_encode c ++ utf8_encode_all cs := by
      simp only [utf8_encode_all, List.flatMap_cons]
    rw [e, decode_utf8_main_encode c hc.1 hc.2,
      ih (fun x hx => h x (List.mem_cons_of_mem c hx)) c (acc ++ [c])]
    simp only [List.append_assoc, List.singleton_append, List.getLastD_cons]

/-- C15. UTF-8 round trip: for every sequence `cs` of Unicode scalar values none
of which is 0, `decode_utf8` on the standard UTF-8 encoding of `cs`, from the
empty partial state `(0, 0)`, returns exactly `cs` followed by one terminating
0 and a partial state with `n_remain = 0`; re-encoding the decoded code points
(without the terminating 0) gives the original bytes. -/
theorem decode_utf8_round_trip (cs : List Nat)
    (h : ∀ c ∈ cs, is_scalar_value c ∧ c ≠ 0) :
    decode_utf8 (utf8_encode_all cs) ⟨0, 0⟩ = (cs ++ [0], ⟨cs.getLastD 0, 0⟩) ∧
      utf8_encode_all (decode_utf8 (utf8_encode_all cs) ⟨0, 0⟩).1.dropLast =
        utf8_encode_all cs := by
  have hdec : decode_utf8 (utf8_encode_all cs) ⟨0, 0⟩ = (cs ++ [0], ⟨cs.getLastD 0, 0⟩) := by
    unfold decode_utf8
    simp only [decode_utf8_continue_aligned]
    have h0 : ¬ ((0 : Int) > 0 ∧ True) := by omega
    rw [if_neg h0, decode_utf8_main_encode_all cs _ 0 []]
    · simp only [List.nil_append]
    · intro c hc
      obtain ⟨hs, hz⟩ := h c hc
      refine ⟨hz, ?_⟩
      unfold is_scalar_value at hs
      omega
  refine ⟨hdec, ?_⟩
  rw [hdec]
  simp only [List.dropLast_concat]

theorem decode_utf8_round_trip_witness :
    (∀ c ∈ [0x41, 0xE9, 0x20AC, 0x1F600], is_scalar_value c ∧ c ≠ 0) ∧
      utf8_encode_all [0x41, 0xE9, 0x20AC, 0x1F600] =
        [0x41, 0xC3, 0xA9, 0xE2, 0x82, 0xAC, 0xF0, 0x9F, 0x98, 0x80] ∧
      (decode_utf8 (utf8_encode_all [0x41, 0xE9, 0x20AC, 0x1F600]) ⟨0, 0⟩ =
          ([0x41, 0xE9, 0x20AC, 0x1F600] ++ [0],
            ⟨[0x41, 0xE9, 0x20AC, 0x1F600].getLastD 0, 0⟩) ∧
        utf8_encode_all
            (decode_utf8 (utf8_encode_all [0x41, 0xE9, 0x20AC, 0x1F600]) ⟨0, 0⟩).1.dropLast =
          utf8_encode_all [0x41, 0xE9, 0x20AC, 0x1F600]) :=
  ⟨by decide, by decide, decode_utf8_round_trip [0x41, 0xE9, 0x20AC, 0x1F600] (by decide)⟩

/-! ### Decimal numbers and generated names -/

theorem decimal_value_append (xs : List Nat) (d : Nat) :
    decimal_value (xs ++ [d]) = decimal_value xs * 10 + (d - 0x30) := by
  unfold decimal_value
  rw [List.foldl_append]
  rfl

theorem to_string_digits_value :
    ∀ (fuel n : Nat), n < fuel → decimal_value (to_string_digits fuel n) = n := by
  intro fuel
  induction fuel with
  | zero => intro n h; omega
  | succ k ih =>
    intro n h
    rw [to_string_digits]
    by_cases h10 : n < 10
    · simp only [h10, if_true]
      unfold decimal_value
      simp only [List.foldl_cons, List.foldl_nil]
      omega
    · simp only [h10, if_false]
      rw [decimal_value_append, ih (n / 10) (by omega)]
      omega

theorem to_string_value (n : Nat) : decimal_value (to_string n) = n :=
  to_string_digits_value (n + 1) n (Nat.lt_succ_self n)

theorem to_string_injective (m n : Nat) (h : to_string m = to_string n) : m = n := by
  have := congrArg decimal_value h
  rwa [to_string_value, to_string_value] at this

theorem to_string_digits_are_digits :
    ∀ (fuel n : Nat), ∀ d ∈ to_string_digits fuel n, is_digit_char d = true := by
  intro fuel
  induction fuel with
  | zero => intro n d hd; simp [to_string_digits] at hd
  | succ k ih =>
    intro n d hd
    rw [to_string_digits] at hd
    by_cases h10 : n < 10
    · simp only [h10, if_true, List.mem_singleton] at hd
      subst hd
      unfold is_digit_char
      simp only [decide_eq_true_eq]
      omega
    · simp only [h10, if_false, List.mem_append, List.mem_singleton] at hd
      rcases hd with hd | hd
      · exact ih _ d hd
      · subst hd
        unfold is_digit_char
        simp only [decide_eq_true_eq]
        omega

theorem to_string_digits_ne_nil (fuel n : Nat) : to_string_digits (fuel + 1) n ≠ [] := by
  rw [to_string_digits]
  by_cases h10 : n < 10
  · simp only [h10, if_true]
    exact List.cons_ne_nil _ _
  · simp only [h10, if_false]
    intro h
    have := congrArg List.length h
    simp at this

theorem append_sep_inj (c : Nat) :
    ∀ (a b x y : List Nat), c ∉ a → c ∉ b → a ++ c :: x = b ++ c :: y → a = b ∧ x = y := by
  intro a
  induction a with
  | nil =>
    intro b x y _ hb h
    cases b with
    | nil =>
      simp only [List.nil_append, List.cons.injEq, true_and] at h
      exact ⟨rfl, h⟩
    | cons b0 bs =>
      simp only [List.nil_append, List.cons_append, List.cons.injEq] at h
      exact absurd (h.1 ▸ List.mem_cons_self b0 bs) hb
  | cons a0 as ih =>
    intro b x y ha hb h
    cases b with
    | nil =>
      simp only [List.nil_append, List.cons_append, List.cons.injEq] at h
      exact absurd (h.1 ▸ List.mem_cons_self a0 as) ha
    | cons b0 bs =>
      simp only [List.cons_append, List.cons.injEq] at h
      obtain ⟨h0, h1⟩ := h
      have := ih bs x y (fun hc => ha (List.mem_cons_of_mem _ hc))
        (fun hc => hb (List.mem_cons_of_mem _ hc)) h1
      exact ⟨by rw [h0, this.1], this.2⟩

/-! ### The symbol table -/

theorem lookup_some_mem (name : List Nat) (id : Nat) :
    ∀ (ids : List (List Nat × Nat)), ids.lookup name = some id → (name, id) ∈ ids := by
  intro ids
  induction ids with
  | nil => intro h; simp [List.lookup] at h
  | cons kv rest ih =>
    intro h
    obtain ⟨k, v⟩ := kv
    rw [List.lookup_cons] at h
    by_cases hk : (name == k) = true
    · simp only [hk, if_true, Option.some.injEq] at h
      have hk1 : name = k := by simpa using hk
      subst hk1
      subst h
      exact List.mem_cons_self _ _
    · simp only [hk, Bool.false_eq_true, if_false] at h
      exact List.mem_cons_of_mem _ (ih h)

theorem lookup_none_not_mem (name : List Nat) :
    ∀ (ids : List (List Nat × Nat)), ids.lookup name = none → name ∉ ids.map Prod.fst := by
  intro ids
  induction ids with
  | nil => intro _ h; simp at h
  | cons kv rest ih =>
    intro h
    obtain ⟨k, v⟩ := kv
    rw [List.lookup_cons] at h
    by_cases hk : (name == k) = true
    · simp only [hk, if_true] at h
      cases h
    · simp only [hk, Bool.false_eq_true, if_false] at h
      have hk1 : name ≠ k := by simpa using hk
      simp only [List.map_cons, List.mem_cons, not_or]
      exact ⟨hk1, ih h⟩

theorem symbols_ok_id_lt (ids : List (List Nat × Nat)) (h : symbols_ok ids)
    (kv : List Nat × Nat) (hkv : kv ∈ ids) : kv.2 < ids.length := by
  have hm : kv.2 ∈ ids.map Prod.snd := List.mem_map_of_mem _ hkv
  rw [h.1] at hm
  exact List.mem_range.mp hm

theorem symbols_ok_has_id (ids : List (List Nat × Nat)) (h : symbols_ok ids)
    (id : Nat) (hid : id < ids.length) : ∃ kv ∈ ids, kv.2 = id := by
  have hm : id ∈ List.range ids.length := List.mem_range.mpr hid
  rw [← h.1] at hm
  obtain ⟨kv, hkv, e⟩ := List.mem_map.mp hm
  exact ⟨kv, hkv, e⟩

theorem symbols_ok_append (ids : List (List Nat × Nat)) (h : symbols_ok ids)
    (key : List Nat) (hfresh : key ∉ ids.map Prod.fst) (hkey : symbol_key_ok (key, ids.length)) :
    symbols_ok (ids ++ [(key, ids.length)]) := by
  obtain ⟨h1, h2, h3⟩ := h
  refine ⟨?_, ?_, ?_⟩
  · rw [List.map_append, h1, List.length_append, List.length_singleton, List.range_succ]
    rfl
  · rw [List.map_append]
    refine List.Nodup.append h2 (List.nodup_singleton _) ?_
    intro x hx hx1
    simp only [List.map_cons, List.map_nil, List.mem_singleton] at hx1
    subst hx1
    exact hfresh hx
  · intro kv hkv
    rcases List.mem_append.mp hkv with hkv | hkv
    · exact h3 kv hkv
    · simp only [List.mem_singleton] at hkv
      subst hkv
      exact hkey

theorem get_symbol_id_spec (p : llama_grammar_parser_t) (name : List Nat)
    (h : symbols_ok p.symbol_ids) (hname : 0x5F ∉ name) :
    symbols_ok (get_symbol_id p name).2.symbol_ids ∧
      (get_symbol_id p name).1 < (get_symbol_id p name).2.symbol_ids.length ∧
      p.symbol_ids.length ≤ (get_symbol_id p name).2.symbol_ids.length ∧
      (get_symbol_id p name).2.rules = p.rules := by
  unfold get_symbol_id
  cases hl : p.symbol_ids.lookup name with
  | some id =>
    simp only
    exact ⟨h, symbols_ok_id_lt _ h _ (lookup_some_mem name id _ hl), le_refl _, trivial⟩
  | none =>
    simp only
    refine ⟨symbols_ok_append _ h name (lookup_none_not_mem name _ hl) (Or.inl hname), ?_, ?_, trivial⟩
    · simp
    · simp

theorem generated_key_fresh (ids : List (List Nat × Nat)) (h : symbols_ok ids)
    (base : List Nat) (hbase : 0x5F ∉ base) :
    base ++ [0x5F] ++ to_string ids.length ∉ ids.map Prod.fst := by
  intro hm
  obtain ⟨kv, hkv, e⟩ := List.mem_map.mp hm
  have hlt := symbols_ok_id_lt ids h kv hkv
  rcases h.2.2 kv hkv with h0 | ⟨base1, hb1, e1⟩
  · apply h0
    rw [e]
    simp
  · rw [e1] at e
    simp only [List.append_assoc, List.singleton_append] at e
    have := (append_sep_inj 0x5F base1 base _ _ hb1 hbase e).2
    have := to_string_injective _ _ this
    omega

theorem generate_symbol_id_spec (p : llama_grammar_parser_t) (base : List Nat)
    (h : symbols_ok p.symbol_ids) (hbase : 0x5F ∉ base) :
    (generate_symbol_id p base).1 = p.symbol_ids.length ∧
      (generate_symbol_id p base).2.symbol_ids =
        p.symbol_ids ++ [(base ++ [0x5F] ++ to_string p.symbol_ids.length, p.symbol_ids.length)] ∧
      symbols_ok (generate_symbol_id p base).2.symbol_ids ∧
      (generate_symbol_id p base).2.rules = p.rules := by
  have hfresh := generated_key_fresh p.symbol_ids h base hbase
  have hany : p.symbol_ids.any
      (fun kv => kv.1 == base ++ [0x5F] ++ to_string p.symbol_ids.length) = false := by
    rw [Bool.eq_false_iff]
    intro hany
    obtain ⟨kv, hkv, e⟩ := List.any_eq_true.mp hany
    have e1 : kv.1 = base ++ [0x5F] ++ to_string p.symbol_ids.length := by simpa using e
    exact hfresh (e1 ▸ List.mem_map_of_mem Prod.fst hkv)
  have e : (generate_symbol_id p base).2.symbol_ids =
      p.symbol_ids ++ [(base ++ [0x5F] ++ to_string p.symbol_ids.length, p.symbol_ids.length)] := by
    unfold generate_symbol_id symbol_ids_assign
    simp only [hany, Bool.false_eq_true, if_false]
  refine ⟨rfl, e, ?_, rfl⟩
  rw [e]
  exact symbols_ok_append _ h _ hfresh (Or.inr ⟨base, hbase, rfl⟩)

/-! ### The rule table under `add_rule` and `handle_repetitions` -/

theorem refs_below_mono {n m : Nat} {rule : llama_grammar_rule} (h : refs_below n rule)
    (hnm : n ≤ m) : refs_below m rule :=
  fun e he ht => Nat.lt_of_lt_of_le (h e he ht) hnm

theorem refs_below_append {n : Nat} {a b : llama_grammar_rule} (ha : refs_below n a)
    (hb : refs_below n b) : refs_below n (a ++ b) := by
  intro e he ht
  rcases List.mem_append.mp he with h | h
  · exact ha e h ht
  · exact hb e h ht

theorem refs_below_of_subset {n : Nat} {a b : llama_grammar_rule} (hb : refs_below n b)
    (hs : ∀ e ∈ a, e ∈ b) : refs_below n a :=
  fun e he ht => hb e (hs e he) ht

theorem refs_below_nil (n : Nat) : refs_below n [] := by
  intro e he
  cases he

theorem refs_below_single (n : Nat) (t : llama_gretype) (v : Nat)
    (h : t = llama_gretype.RULE_REF → v < n) : refs_below n [⟨t, v⟩] := by
  intro e he ht
  simp only [List.mem_singleton] at he
  subst he
  exact h ht

theorem add_rule_symbol_ids (p : llama_grammar_parser_t) (id : Nat) (rule : llama_grammar_rule) :
    (add_rule p id rule).symbol_ids = p.symbol_ids := rfl

theorem add_rule_length (p : llama_grammar_parser_t) (id : Nat) (rule : llama_grammar_rule) :
    (add_rule p id rule).rules.length = max p.rules.length (id + 1) := by
  unfold add_rule
  simp only [List.length_set]
  by_cases h : p.rules.length ≤ id
  · simp only [h, if_true, List.length_append, List.length_replicate]
    omega
  · simp only [h, if_false]
    omega

theorem getD_append_replicate_nil (rules : llama_grammar_rules) (k x : Nat) :
    (rules ++ List.replicate k []).getD x [] = rules.getD x [] := by
  by_cases hx : x < rules.length
  · rw [List.getD_append _ _ _ _ hx]
  · have hx1 : rules.length ≤ x := Nat.le_of_not_lt hx
    rw [List.getD_append_right _ _ _ _ hx1, List.getD_eq_default _ _ hx1]
    by_cases hk : x - rules.length < k
    · rw [List.getD_eq_getElem _ _ (by simpa using hk)]
      simp
    · rw [List.getD_eq_default _ _ (by simpa using Nat.le_of_not_lt hk)]

theorem add_rule_getD_self (p : llama_grammar_parser_t) (id : Nat) (rule : llama_grammar_rule) :
    (add_rule p id rule).rules.getD id [] = rule := by
  unfold add_rule
  simp only
  rw [List.getD_eq_getElem?_getD, List.getElem?_set_self]
  · rfl
  · by_cases h : p.rules.length ≤ id
    · simp only [h, if_true, List.length_append, List.length_replicate]
      omega
    · simp only [h, if_false]
      omega

theorem add_rule_getD_other (p : llama_grammar_parser_t) (id : Nat) (rule : llama_grammar_rule)
    (x : Nat) (hx : x ≠ id) : (add_rule p id rule).rules.getD x [] = p.rules.getD x [] := by
  unfold add_rule
  simp only
  rw [List.getD_eq_getElem?_getD, List.getElem?_set_ne (Ne.symm hx), ← List.getD_eq_getElem?_getD]
  by_cases h : p.rules.length ≤ id
  · simp only [h, if_true]
    exact getD_append_replicate_nil _ _ _
  · simp only [h, if_false]

theorem add_rule_ok (p : llama_grammar_parser_t) (id : Nat) (rule : llama_grammar_rule)
    (h : parser_ok p) (hid : id < p.symbol_ids.length)
    (hrule : refs_below p.symbol_ids.length rule) : parser_ok (add_rule p id rule) := by
  obtain ⟨h1, h2, h3⟩ := h
  refine ⟨h1, ?_, ?_⟩
  · rw [add_rule_length, add_rule_symbol_ids]
    omega
  · intro r hr
    rw [add_rule_symbol_ids]
    unfold add_rule at hr
    simp only at hr
    rcases List.mem_or_eq_of_mem_set hr with hr | hr
    · by_cases hle : p.rules.length ≤ id
      · simp only [hle, if_true, List.mem_append] at hr
        rcases hr with hr | hr
        · exact h3 r hr
        · rw [List.eq_of_mem_replicate hr]
          exact refs_below_nil _
      · simp only [hle, if_false] at hr
        exact h3 r hr
    · rw [hr]
      exact hrule

theorem handle_repetitions_loop_spec (rule_name : List Nat) (prev_rule : llama_grammar_rule)
    (max_times : Int) (hname : 0x5F ∉ rule_name) :
    ∀ (k i : Nat) (p : llama_grammar_parser_t) (last : Nat),
      parser_ok p → refs_below p.symbol_ids.length prev_rule →
      (i > 0 → last < p.symbol_ids.length) →
      parser_ok (handle_repetitions_loop rule_name prev_rule max_times k i p last).1 ∧
        (handle_repetitions_loop rule_name prev_rule max_times k i p last).1.symbol_ids.length =
          p.symbol_ids.length + k ∧
        (handle_repetitions_loop rule_name prev_rule max_times k i p last).2 =
          (if k = 0 then last else p.symbol_ids.length + k - 1) ∧
        (∀ j, j < k →
          (handle_repetitions_loop rule_name prev_rule max_times k i p last).1.rules.getD
              (p.symbol_ids.length + j) [] =
            prev_rule ++
              (if i + j > 0 ∨ max_times < 0 then
                [⟨llama_gretype.RULE_REF,
                  if max_times < 0 then p.symbol_ids.length + j
                  else if j = 0 then last else p.symbol_ids.length + j - 1⟩]
              else []) ++
              [⟨llama_gretype.ALT, 0⟩, ⟨llama_gretype.END, 0⟩]) ∧
        (∀ x, x < p.symbol_ids.length ∨ p.symbol_ids.length + k ≤ x →
          (handle_repetitions_loop rule_name prev_rule max_times k i p last).1.rules.getD x [] =
            p.rules.getD x []) := by
  intro k
  induction k with
  | zero =>
    intro i p last hp _ _
    refine ⟨hp, rfl, rfl, ?_, ?_⟩
    · intro j hj
      omega
    · intro x _
      rfl
  | succ k ih =>
    intro i p last hp hprev hlast
    obtain ⟨g1, g2, g3, g4⟩ := generate_symbol_id_spec p rule_name hp.1 hname
    have glen : (generate_symbol_id p rule_name).2.symbol_ids.length =
        p.symbol_ids.length + 1 := by
      rw [g2]
      simp
    have hg : parser_ok (generate_symbol_id p rule_name).2 := by
      refine ⟨g3, ?_, ?_⟩
      · rw [g4, glen]
        exact Nat.le_succ_of_le hp.2.1
      · intro r hr
        rw [g4] at hr
        rw [glen]
        exact refs_below_mono (hp.2.2 r hr) (Nat.le_succ _)
    let rec_rule : llama_grammar_rule :=
      prev_rule ++
        (if i > 0 ∨ max_times < 0 then
          [⟨llama_gretype.RULE_REF,
            if max_times < 0 then (generate_symbol_id p rule_name).1 else last⟩]
        else []) ++
        [⟨llama_gretype.ALT, 0⟩, ⟨llama_gretype.END, 0⟩]
    have hrec : refs_below (p.symbol_ids.length + 1) rec_rule := by
      refine refs_below_append (refs_below_append (refs_below_mono hprev (Nat.le_succ _)) ?_) ?_
      · by_cases hc : i > 0 ∨ max_times < 0
        · simp only [hc, if_true]
          apply refs_below_single
          intro _
          by_cases hm : max_times < 0
          · simp only [hm, if_true, g1]
            omega
          · simp only [hm, if_false]
            rcases hc with hc | hc
            · have := hlast hc
              omega
            · exact absurd hc hm
        · simp only [hc, if_false]
          exact refs_below_nil _
      · intro e he ht
        simp only [List.mem_cons, List.mem_singleton, List.not_mem_nil, or_false] at he
        rcases he with he | he <;> subst he <;> cases ht
    have hp1 : parser_ok (add_rule (generate_symbol_id p rule_name).2
        (generate_symbol_id p rule_name).1 rec_rule) := by
      apply add_rule_ok _ _ _ hg
      · rw [glen, g1]
        omega
      · rw [glen]
        exact hrec
    have hn1 : (add_rule (generate_symbol_id p rule_name).2
        (generate_symbol_id p rule_name).1 rec_rule).symbol_ids.length =
          p.symbol_ids.length + 1 := by
      rw [add_rule_symbol_ids, glen]
    have e : handle_repetitions_loop rule_name prev_rule max_times (k + 1) i p last =
        handle_repetitions_loop rule_name prev_rule max_times k (i + 1)
          (add_rule (generate_symbol_id p rule_name).2 (generate_symbol_id p rule_name).1 rec_rule)
          (generate_symbol_id p rule_name).1 := rfl
    rw [e]
    obtain ⟨i1, i2, i3, i4, i5⟩ := ih (i + 1)
      (add_rule (generate_symbol_id p rule_name).2 (generate_symbol_id p rule_name).1 rec_rule)
      (generate_symbol_id p rule_name).1 hp1
      (by rw [hn1]; exact refs_below_mono hprev (Nat.le_succ _))
      (by intro _; rw [hn1, g1]; omega)
    rw [hn1] at i2 i3 i4 i5
    refine ⟨i1, ?_, ?_, ?_, ?_⟩
    · rw [i2]
      omega
    · rw [i3]
      by_cases hk : k = 0
      · simp only [hk, if_true, g1]
        simp
      · simp only [hk, if_false]
        have : k + 1 ≠ 0 := by omega
        simp only [this, if_false]
        omega
    · intro j hj
      cases j with
      | zero =>
        rw [i5 (p.symbol_ids.length + 0) (Or.inl (by omega))]
        have e0 : p.symbol_ids.length + 0 = (generate_symbol_id p rule_name).1 := by
          rw [g1]
          rfl
        rw [e0, add_rule_getD_self]
        simp only [rec_rule, g1, Nat.add_zero, if_true]
      | succ j =>
        have := i4 j (by omega)
        have e1 : p.symbol_ids.length + 1 + j = p.symbol_ids.length + (j + 1) := by omega
        rw [e1] at this
        rw [this]
        have c1 : (i + 1 + j > 0 ∨ max_times < 0) := Or.inl (by omega)
        have c2 : (i + (j + 1) > 0 ∨ max_times < 0) := Or.inl (by omega)
        have c3 : j + 1 ≠ 0 := by omega
        simp only [c1, c2, c3, if_true, if_false]
        by_cases hm : max_times < 0
        · simp only [hm, if_true]
        · simp only [hm, if_false]
          by_cases hj0 : j = 0
          · simp only [hj0, if_true, g1]
            rfl
          · simp only [hj0, if_false]
    · intro x hx
      rw [i5 x (by omega)]
      rw [add_rule_getD_other _ _ _ _ (by rw [g1]; omega), g4]

/-! ### Every parser step moves forward in the text -/

theorem peek_ne_zero_length {pos : List Nat} (h : peek pos ≠ 0) : 0 < pos.length := by
  cases pos with
  | nil => exact absurd rfl h
  | cons c rest => simp

theorem suffix_of_cons {a b : List Nat} (c : Nat) (h : a <:+ b) : a <:+ c :: b :=
  List.IsSuffix.trans h (List.suffix_cons c b)

theorem parse_space_loop_suffix (newline_ok : Bool) :
    ∀ (pos : List Nat) (b : Bool), parse_space_loop newline_ok b pos <:+ pos := by
  intro pos
  induction pos with
  | nil => intro b; cases b <;> simp [parse_space_loop]
  | cons c rest ih =>
    intro b
    cases b with
    | true =>
      rw [parse_space_loop]
      split
      · exact suffix_of_cons c (ih true)
      · split
        · exact suffix_of_cons c (ih false)
        · exact List.suffix_refl _
    | false =>
      rw [parse_space_loop]
      split
      · exact suffix_of_cons c (ih true)
      · split
        · exact suffix_of_cons c (ih false)
        · exact List.suffix_refl _

theorem parse_space_suffix (pos : List Nat) (newline_ok : Bool) :
    parse_space pos newline_ok <:+ pos :=
  parse_space_loop_suffix newline_ok pos false

theorem parse_space_length (pos : List Nat) (newline_ok : Bool) :
    (parse_space pos newline_ok).length ≤ pos.length :=
  (parse_space_suffix pos newline_ok).length_le

theorem parse_name_ok {src name_end : List Nat} (h : parse_name src = .ok name_end) :
    name_end = src.dropWhile is_word_char ∧ name_end.length < src.length ∧
      name_end <:+ src := by
  unfold parse_name at h
  simp only at h
  split at h
  · cases h
  · rename_i hne
    simp only [Except.ok.injEq] at h
    subst h
    refine ⟨rfl, ?_, List.dropWhile_suffix _⟩
    have := (List.dropWhile_suffix is_word_char : src.dropWhile is_word_char <:+ src).length_le
    omega

theorem parse_int_ok {src int_end : List Nat} (h : parse_int src = .ok int_end) :
    int_end = src.dropWhile is_digit_char ∧ int_end.length < src.length ∧
      int_end <:+ src := by
  unfold parse_int at h
  simp only at h
  split at h
  · cases h
  · rename_i hne
    simp only [Except.ok.injEq] at h
    subst h
    refine ⟨rfl, ?_, List.dropWhile_suffix _⟩
    have := (List.dropWhile_suffix is_digit_char : src.dropWhile is_digit_char <:+ src).length_le
    omega

theorem text_between_dropWhile (f : Nat → Bool) (src : List Nat) :
    text_between src (src.dropWhile f) = src.takeWhile f := by
  unfold text_between
  have h := List.takeWhile_append_dropWhile f src
  have hl : src.length - (src.dropWhile f).length = (src.takeWhile f).length := by
    have := congrArg List.length h
    rw [List.length_append] at this
    omega
  rw [hl]
  have ht : List.take (src.takeWhile f).length (src.takeWhile f ++ src.dropWhile f) =
      src.takeWhile f := List.take_left' rfl
  rw [h] at ht
  exact ht

theorem parse_hex_loop_suffix :
    ∀ (n : Nat) (pos : List Nat) (value : Nat) (r : Nat × List Nat),
      parse_hex_loop n pos value = some r → r.2 <:+ pos := by
  intro n
  induction n with
  | zero =>
    intro pos value r h
    rw [parse_hex_loop] at h
    simp only [Option.some.injEq] at h
    subst h
    exact List.suffix_refl _
  | succ n ih =>
    intro pos value r h
    cases pos with
    | nil => rw [parse_hex_loop] at h; cases h
    | cons c rest =>
      rw [parse_hex_loop] at h
      split at h
      · cases h
      · split at h
        · exact suffix_of_cons c (ih _ _ _ h)
        · cases h

theorem decode_utf8_cstr_loop_suffix :
    ∀ (n : Nat) (pos : List Nat) (value : Nat),
      (decode_utf8_cstr_loop n pos value).2 <:+ pos := by
  intro n
  induction n with
  | zero => intro pos value; rw [decode_utf8_cstr_loop]
  | succ n ih =>
    intro pos value
    cases pos with
    | nil => rw [decode_utf8_cstr_loop]
    | cons b bs =>
      rw [decode_utf8_cstr_loop]
      split
      · exact List.suffix_refl _
      · exact suffix_of_cons b (ih _ _)

theorem parse_char_suffix {src : List Nat} {r : Nat × List Nat}
    (h : parse_char src = .ok r) : r.2 <:+ src ∧ r.2.length < src.length := by
  have hdrop : ∀ k, 0 < k → 0 < src.length →
      src.drop k <:+ src ∧ (src.drop k).length < src.length := by
    intro k hk hs
    refine ⟨List.drop_suffix k src, ?_⟩
    rw [List.length_drop]
    omega
  have hhex : ∀ size, parse_hex (src.drop 2) size = .ok r → 0 < src.length →
      r.2 <:+ src ∧ r.2.length < src.length := by
    intro size hh hs
    unfold parse_hex at hh
    split at hh
    · rename_i r1 hr1
      simp only [Except.ok.injEq] at hh
      subst hh
      have h1 := parse_hex_loop_suffix _ _ _ _ hr1
      have h2 := hdrop 2 (by omega) hs
      have := h1.length_le
      exact ⟨h1.trans h2.1, by omega⟩
    · cases hh
  unfold parse_char at h
  split at h
  · rename_i hb
    have hs : 0 < src.length := peek_ne_zero_length (by rw [hb]; decide)
    simp only at h
    split at h
    · exact hhex 2 h hs
    · split at h
      · exact hhex 4 h hs
      · split at h
        · exact hhex 8 h hs
        · split at h
          · simp only [Except.ok.injEq] at h
            subst h
            exact hdrop 2 (by omega) hs
          · split at h
            · simp only [Except.ok.injEq] at h
              subst h
              exact hdrop 2 (by omega) hs
            · split at h
              · simp only [Except.ok.injEq] at h
                subst h
                exact hdrop 2 (by omega) hs
              · split at h
                · simp only [Except.ok.injEq] at h
                  subst h
                  exact hdrop 2 (by omega) hs
                · cases h
  · split at h
    · rename_i hne
      have hs : 0 < src.length := peek_ne_zero_length hne
      simp only [Except.ok.injEq] at h
      subst h
      unfold decode_utf8_cstr
      simp only
      have h1 := decode_utf8_cstr_loop_suffix
        (decode_utf8_cstr_lookup.getD (peek src >>> 4) 0 - 1) (src.drop 1)
        (peek src &&& (1 <<< (8 - decode_utf8_cstr_lookup.getD (peek src >>> 4) 0) - 1) % 2 ^ 8)
      have h2 := hdrop 1 (by omega) hs
      have := h1.length_le
      exact ⟨h1.trans h2.1, by omega⟩
    · cases h

theorem parse_char_length {src : List Nat} {r : Nat × List Nat}
    (h : parse_char src = .ok r) : r.2.length < src.length :=
  (parse_char_suffix h).2

theorem parse_literal_spec :
    ∀ (fuel : Nat) (pos : List Nat) (rule : llama_grammar_rule), pos.length < fuel →
      (∃ e, parse_literal fuel pos rule = .error (parse_fault.thrown e)) ∨
        ∃ pos1 rule1, parse_literal fuel pos rule = .ok (pos1, rule1) ∧
          pos1 <:+ pos ∧ peek pos1 = 0x22 ∧
          ∀ n, refs_below n rule → refs_below n rule1 := by
  intro fuel
  induction fuel with
  | zero => intro pos rule h; omega
  | succ fuel ih =>
    intro pos rule hlen
    rw [parse_literal]
    by_cases h1 : peek pos = 0x22
    · simp only [h1, if_true]
      exact Or.inr ⟨pos, rule, rfl, List.suffix_refl _, h1, fun n h => h⟩
    · simp only [h1, if_false]
      by_cases h2 : peek pos = 0
      · simp only [h2, if_true]
        exact Or.inl ⟨_, rfl⟩
      · simp only [h2, if_false]
        cases hc : parse_char pos with
        | error e => exact Or.inl ⟨_, rfl⟩
        | ok char_pair =>
          simp only
          have hl := parse_char_length hc
          have hsf := (parse_char_suffix hc).1
          rcases ih char_pair.2 (rule ++ [⟨llama_gretype.CHAR, char_pair.1⟩]) (by omega) with
            ⟨e, he⟩ | ⟨pos1, rule1, he, hle, hq, hrefs⟩
          · exact Or.inl ⟨e, he⟩
          · refine Or.inr ⟨pos1, rule1, he, hle.trans hsf, hq, ?_⟩
            intro n hn
            apply hrefs
            exact refs_below_append hn (refs_below_single _ _ _ (fun h => by cases h))

theorem parse_char_ranges_spec (last_sym_start : Nat) (start_type : llama_gretype)
    (hstart : start_type ≠ llama_gretype.RULE_REF) :
    ∀ (fuel : Nat) (pos : List Nat) (rule : llama_grammar_rule), pos.length < fuel →
      (∃ e, parse_char_ranges last_sym_start start_type fuel pos rule =
          .error (parse_fault.thrown e)) ∨
        ∃ pos1 rule1, parse_char_ranges last_sym_start start_type fuel pos rule =
            .ok (pos1, rule1) ∧
          pos1 <:+ pos ∧ peek pos1 = 0x5D ∧
          ∀ n, refs_below n rule → refs_below n rule1 := by
  intro fuel
  induction fuel with
  | zero => intro pos rule h; omega
  | succ fuel ih =>
    intro pos rule hlen
    rw [parse_char_ranges]
    by_cases h1 : peek pos = 0x5D
    · simp only [h1, if_true]
      exact Or.inr ⟨pos, rule, rfl, List.suffix_refl _, h1, fun n h => h⟩
    · simp only [h1, if_false]
      by_cases h2 : peek pos = 0
      · simp only [h2, if_true]
        exact Or.inl ⟨_, rfl⟩
      · simp only [h2, if_false]
        cases hc : parse_char pos with
        | error e => exact Or.inl ⟨_, rfl⟩
        | ok char_pair =>
          simp only
          have hl := parse_char_length hc
          have hsf := (parse_char_suffix hc).1
          have htype : (if last_sym_start < rule.length then llama_gretype.CHAR_ALT
              else start_type) ≠ llama_gretype.RULE_REF := by
            split
            · intro h; cases h
            · exact hstart
          by_cases h3 : peek_at char_pair.2 0 = 0x2D ∧ peek_at char_pair.2 1 ≠ 0x5D
          · simp only [h3, and_self, if_true, ne_eq, not_false_eq_true]
            by_cases h4 : peek_at char_pair.2 1 = 0
            · simp only [h4, if_true]
              exact Or.inl ⟨_, rfl⟩
            · simp only [h4, if_false]
              cases hc2 : parse_char (char_pair.2.drop 1) with
              | error e => exact Or.inl ⟨_, rfl⟩
              | ok endchar_pair =>
                simp only
                have hl2 := parse_char_length hc2
                have hsf2 := (parse_char_suffix hc2).1
                have hd : (char_pair.2.drop 1).length ≤ char_pair.2.length := by
                  rw [List.length_drop]
                  omega
                rcases ih endchar_pair.2 _ (by omega) with
                  ⟨e, he⟩ | ⟨pos1, rule1, he, hle, hq, hrefs⟩
                · exact Or.inl ⟨e, he⟩
                · refine Or.inr ⟨pos1, rule1, he,
                    ((hle.trans hsf2).trans (List.drop_suffix 1 _)).trans hsf, hq, ?_⟩
                  intro n hn
                  apply hrefs
                  refine refs_below_append (refs_below_append hn
                    (refs_below_single _ _ _ (fun h => absurd h htype)))
                    (refs_below_single _ _ _ (fun h => by cases h))
          · simp only [h3, if_false]
            rcases ih char_pair.2 _ (by omega) with
              ⟨e, he⟩ | ⟨pos1, rule1, he, hle, hq, hrefs⟩
            · exact Or.inl ⟨e, he⟩
            · refine Or.inr ⟨pos1, rule1, he, hle.trans hsf, hq, ?_⟩
              intro n hn
              apply hrefs
              exact refs_below_append hn (refs_below_single _ _ _ (fun h => absurd h htype))

theorem parse_repetition_counts_suffix {pos : List Nat} {is_nested : Bool}
    {r : Int × Int × List Nat} (h : parse_repetition_counts pos is_nested = .ok r) :
    r.2.2 <:+ pos ∧ 0x7D ∈ pos := by
  have hclose : ∀ (q : List Nat), peek q = 0x7D → q <:+ pos →
      parse_space (q.drop 1) is_nested <:+ pos ∧ 0x7D ∈ pos := by
    intro q hq hs
    refine ⟨((parse_space_suffix _ _).trans (List.drop_suffix 1 q)).trans hs, ?_⟩
    cases q with
    | nil => cases hq
    | cons c rest =>
      have hc : c = 0x7D := hq
      exact hs.subset (by rw [hc]; exact List.mem_cons_self _ _)
  unfold parse_repetition_counts at h
  split at h
  · cases h
  · cases hi : parse_int pos with
    | error e => rw [hi] at h; cases h
    | ok int_end =>
      rw [hi] at h
      simp only at h
      have hi1 := (parse_int_ok hi).2.2
      cases hs : stoul (text_between pos int_end) with
      | error e => rw [hs] at h; cases h
      | ok v =>
        rw [hs] at h
        simp only at h
        have l1 := (parse_space_suffix int_end is_nested).trans hi1
        split at h
        · rename_i hq
          simp only [Except.ok.injEq] at h
          subst h
          exact hclose _ hq l1
        · split at h
          · have l2 := ((parse_space_suffix ((parse_space int_end is_nested).drop 1)
              is_nested).trans (List.drop_suffix 1 _)).trans l1
            split at h
            · cases h
            · rename_i max_times pos3 hu
              have l4 : pos3 <:+ pos := by
                split at hu
                · cases hi2 : parse_int
                      (parse_space ((parse_space int_end is_nested).drop 1) is_nested) with
                  | error e => rw [hi2] at hu; cases hu
                  | ok int_end2 =>
                    rw [hi2] at hu
                    simp only at hu
                    have hi3 := (parse_int_ok hi2).2.2
                    split at hu
                    · cases hu
                    · simp only [Except.ok.injEq, Prod.mk.injEq] at hu
                      rw [← hu.2]
                      exact ((parse_space_suffix int_end2 is_nested).trans hi3).trans l2
                · simp only [Except.ok.injEq, Prod.mk.injEq] at hu
                  rw [← hu.2]
                  exact l2
              split at h
              · cases h
              · rename_i hq
                simp only [Except.ok.injEq] at h
                subst h
                exact hclose pos3 (by simpa using hq) l4
          · cases h

theorem parse_repetition_counts_length {pos : List Nat} {is_nested : Bool}
    {r : Int × Int × List Nat} (h : parse_repetition_counts pos is_nested = .ok r) :
    r.2.2.length ≤ pos.length :=
  (parse_repetition_counts_suffix h).1.length_le

/-! ### The parser keeps its invariants and returns -/

theorem handle_repetitions_ok (p : llama_grammar_parser_t) (rule_name : List Nat)
    (rule : llama_grammar_rule) (last_sym_start : Nat) (min_times max_times : Int)
    (hp : parser_ok p) (hr : refs_below p.symbol_ids.length rule) (hname : 0x5F ∉ rule_name)
    (rule1 : llama_grammar_rule) (p1 : llama_grammar_parser_t)
    (h : handle_repetitions p rule_name rule last_sym_start min_times max_times =
      .ok (rule1, p1)) :
    parser_ok p1 ∧ refs_below p1.symbol_ids.length rule1 ∧
      p.symbol_ids.length ≤ p1.symbol_ids.length := by
  unfold handle_repetitions at h
  split at h
  · cases h
  · simp only [Except.ok.injEq, Prod.mk.injEq] at h
    generalize (if max_times < 0 then (1 : Int) else max_times - min_times) = n_opt at h
    obtain ⟨h1, h2⟩ := h
    have hprev : refs_below p.symbol_ids.length (rule.drop last_sym_start) :=
      refs_below_of_subset hr (fun e he => List.mem_of_mem_drop he)
    obtain ⟨s1, s2, s3, _, _⟩ := handle_repetitions_loop_spec rule_name
      (rule.drop last_sym_start) max_times hname n_opt.toNat 0 p 0 hp hprev
      (fun h0 => absurd h0 (Nat.lt_irrefl 0))
    rw [h2] at s1 s2
    refine ⟨s1, ?_, by omega⟩
    have hcore : refs_below p.symbol_ids.length
        (if min_times = 0 then rule.take last_sym_start
          else rule ++ (List.replicate (min_times - 1).toNat
            (rule.drop last_sym_start)).flatten) := by
      split
      · exact refs_below_of_subset hr (fun e he => List.mem_of_mem_take he)
      · refine refs_below_append hr ?_
        intro e he ht
        obtain ⟨l, hl, hel⟩ := List.mem_flatten.mp he
        rw [List.eq_of_mem_replicate hl] at hel
        exact hprev e hel ht
    rw [← h1]
    by_cases hpos : n_opt > 0
    · simp only [hpos, if_true]
      refine refs_below_append (refs_below_mono hcore (by omega)) ?_
      apply refs_below_single
      intro _
      rw [s3, s2]
      have hk : n_opt.toNat ≠ 0 := by omega
      simp only [hk, if_false]
      omega
    · simp only [hpos, if_false]
      exact refs_below_mono hcore (by omega)

theorem seq_post_mono {pos pos1 : List Nat} {p p1 : llama_grammar_parser_t}
    {r : Parse (List Nat × llama_grammar_rule × llama_grammar_parser_t)}
    (h : seq_post pos1 p1 r) (hl : pos1 <:+ pos)
    (hn : p.symbol_ids.length ≤ p1.symbol_ids.length) : seq_post pos p r := by
  rcases h with h | ⟨pos2, rule2, p2, e, a, b, c, d⟩
  · exact Or.inl h
  · exact Or.inr ⟨pos2, rule2, p2, e, a.trans hl, b, c, by omega⟩

theorem alt_post_mono {pos pos1 : List Nat} {p p1 : llama_grammar_parser_t}
    {r : Parse (List Nat × llama_grammar_parser_t)}
    (h : alt_post pos1 p1 r) (hl : pos1 <:+ pos)
    (hn : p.symbol_ids.length ≤ p1.symbol_ids.length) : alt_post pos p r := by
  rcases h with h | ⟨pos2, p2, e, a, b, d⟩
  · exact Or.inl h
  · exact Or.inr ⟨pos2, p2, e, a.trans hl, b, by omega⟩

theorem drop_length_lt {pos : List Nat} (k : Nat) (hk : 0 < k) (h : 0 < pos.length) :
    (pos.drop k).length + 1 ≤ pos.length := by
  rw [List.length_drop]
  omega

theorem space_drop_suffix (pos : List Nat) (k : Nat) (newline_ok : Bool) :
    parse_space (pos.drop k) newline_ok <:+ pos :=
  (parse_space_suffix _ _).trans (List.drop_suffix k pos)

theorem takeWhile_word_no_underscore (src : List Nat) :
    0x5F ∉ src.takeWhile is_word_char := by
  intro h
  have := List.mem_takeWhile_imp h
  revert this
  decide

theorem parse_sequence_step (fuel : Nat) (rule_name : List Nat) (is_nested : Bool)
    (hname : 0x5F ∉ rule_name)
    (ihs : ∀ (pos : List Nat) (rule : llama_grammar_rule) (lss : Nat)
      (p : llama_grammar_parser_t), 2 * pos.length + 1 ≤ fuel → parser_ok p →
      refs_below p.symbol_ids.length rule →
      seq_post pos p (parse_sequence fuel pos rule_name rule lss is_nested p))
    (iha : ∀ (pos : List Nat) (rule_id : Nat) (p : llama_grammar_parser_t),
      2 * pos.length + 2 ≤ fuel → parser_ok p → rule_id < p.symbol_ids.length →
      alt_post pos p (parse_alternates fuel pos rule_name rule_id true p))
    (pos : List Nat) (rule : llama_grammar_rule) (lss : Nat) (p : llama_grammar_parser_t)
    (hfuel : 2 * pos.length + 1 ≤ fuel + 1) (hp : parser_ok p)
    (hr : refs_below p.symbol_ids.length rule) :
    seq_post pos p (parse_sequence (fuel + 1) pos rule_name rule lss is_nested p) := by
  have step : ∀ (pos1 : List Nat) (rule1 : llama_grammar_rule) (lss1 : Nat)
      (p1 : llama_grammar_parser_t), pos1 <:+ pos → pos1.length + 1 ≤ pos.length →
      parser_ok p1 → refs_below p1.symbol_ids.length rule1 →
      p.symbol_ids.length ≤ p1.symbol_ids.length →
      seq_post pos p (parse_sequence fuel pos1 rule_name rule1 lss1 is_nested p1) := by
    intro pos1 rule1 lss1 p1 hs hl hp1 hr1 hn
    exact seq_post_mono (ihs pos1 rule1 lss1 p1 (by omega) hp1 hr1) hs hn
  rw [parse_sequence]
  simp only
  by_cases c0 : peek pos = 0
  · simp only [c0, if_true]
    exact Or.inr ⟨pos, rule, p, rfl, List.suffix_refl _, hp, hr, le_refl _⟩
  have hpos : 0 < pos.length := peek_ne_zero_length c0
  have hd1 := drop_length_lt 1 (by omega) hpos
  have hd2 := drop_length_lt 2 (by omega) hpos
  simp only [c0, if_false]
  by_cases c1 : peek pos = 0x22
  · simp only [c1, if_true]
    rcases parse_literal_spec fuel (pos.drop 1) rule (by omega) with
      ⟨e, he⟩ | ⟨pos1, rule1, he, hle, hq, hrefs⟩
    · rw [he]
      exact Or.inl ⟨e, p, rfl⟩
    · rw [he]
      simp only
      have h1 : 0 < pos1.length := peek_ne_zero_length (by rw [hq]; decide)
      have := parse_space_length (pos1.drop 1) is_nested
      have := drop_length_lt 1 (by omega) h1
      have := hle.length_le
      exact step _ _ _ _
        (((space_drop_suffix pos1 1 is_nested).trans hle).trans (List.drop_suffix 1 pos))
        (by omega) hp (hrefs _ hr) (le_refl _)
  simp only [c1, if_false]
  by_cases c2 : peek pos = 0x5B
  · simp only [c2, if_true]
    have hst : (if decide (peek (pos.drop 1) = 0x5E) = true then llama_gretype.CHAR_NOT
        else llama_gretype.CHAR) ≠ llama_gretype.RULE_REF := by
      split <;> intro h <;> cases h
    have hl0 : (if decide (peek (pos.drop 1) = 0x5E) = true then pos.drop 2
        else pos.drop 1).length + 1 ≤ pos.length := by
      split
      · exact hd2
      · exact hd1
    have hs0 : (if decide (peek (pos.drop 1) = 0x5E) = true then pos.drop 2
        else pos.drop 1) <:+ pos := by
      split
      · exact List.drop_suffix 2 pos
      · exact List.drop_suffix 1 pos
    rcases parse_char_ranges_spec rule.length _ hst fuel
        (if decide (peek (pos.drop 1) = 0x5E) = true then pos.drop 2 else pos.drop 1) rule
        (by omega) with
      ⟨e, he⟩ | ⟨pos1, rule1, he, hle, hq, hrefs⟩
    · rw [he]
      exact Or.inl ⟨e, p, rfl⟩
    · rw [he]
      simp only
      have h1 : 0 < pos1.length := peek_ne_zero_length (by rw [hq]; decide)
      have := parse_space_length (pos1.drop 1) is_nested
      have := drop_length_lt 1 (by omega) h1
      have := hle.length_le
      exact step _ _ _ _ (((space_drop_suffix pos1 1 is_nested).trans hle).trans hs0)
        (by omega) hp (hrefs _ hr) (le_refl _)
  simp only [c2, if_false]
  by_cases c3 : is_word_char (peek pos) = true
  · simp only [c3, if_true]
    cases hn : parse_name pos with
    | error e => exact Or.inl ⟨e, p, rfl⟩
    | ok name_end =>
      simp only
      obtain ⟨hne, hnl, hns⟩ := parse_name_ok hn
      have hu : 0x5F ∉ text_between pos name_end := by
        rw [hne, text_between_dropWhile]
        exact takeWhile_word_no_underscore pos
      obtain ⟨g1, g2, g3, g4⟩ := get_symbol_id_spec p (text_between pos name_end) hp.1 hu
      have := parse_space_length name_end is_nested
      refine step _ _ _ _ ((parse_space_suffix _ _).trans hns) (by omega) ⟨g1, ?_, ?_⟩ ?_ g3
      · rw [g4]
        exact le_trans hp.2.1 g3
      · intro r hr1
        rw [g4] at hr1
        exact refs_below_mono (hp.2.2 r hr1) g3
      · exact refs_below_append (refs_below_mono hr g3) (refs_below_single _ _ _ (fun _ => g2))
  simp only [c3, if_false]
  by_cases c4 : peek pos = 0x28
  · simp only [c4, if_true]
    obtain ⟨g1, g2, g3, g4⟩ := generate_symbol_id_spec p rule_name hp.1 hname
    have glen : (generate_symbol_id p rule_name).2.symbol_ids.length =
        p.symbol_ids.length + 1 := by
      rw [g2]
      simp
    have hg : parser_ok (generate_symbol_id p rule_name).2 := by
      refine ⟨g3, ?_, ?_⟩
      · rw [g4, glen]
        exact Nat.le_succ_of_le hp.2.1
      · intro r hr1
        rw [g4] at hr1
        rw [glen]
        exact refs_below_mono (hp.2.2 r hr1) (Nat.le_succ _)
    have hsp := parse_space_length (pos.drop 1) true
    rcases iha (parse_space (pos.drop 1) true) (generate_symbol_id p rule_name).1
        (generate_symbol_id p rule_name).2 (by omega) hg (by rw [glen, g1]; omega) with
      ⟨e, p1, he⟩ | ⟨pos2, p2, he, hle, hp2, hn2⟩
    · rw [he]
      exact Or.inl ⟨e, p1, rfl⟩
    · rw [he]
      simp only
      by_cases c5 : peek pos2 = 0x29
      · have h1 : 0 < pos2.length := peek_ne_zero_length (by rw [c5]; decide)
        simp only [c5, ne_eq, not_true_eq_false, if_false]
        have := parse_space_length (pos2.drop 1) is_nested
        have := drop_length_lt 1 (by omega) h1
        have := hle.length_le
        refine step _ _ _ _
          (((space_drop_suffix pos2 1 is_nested).trans hle).trans (space_drop_suffix pos 1 true))
          (by omega) hp2 ?_ (by omega)
        refine refs_below_append (refs_below_mono hr (by omega)) (refs_below_single _ _ _ ?_)
        intro _
        rw [g1]
        omega
      · simp only [c5, ne_eq, not_false_eq_true, if_true]
        exact Or.inl ⟨_, p2, rfl⟩
  simp only [c4, if_false]
  by_cases c6 : peek pos = 0x2E
  · simp only [c6, if_true]
    have := parse_space_length (pos.drop 1) is_nested
    exact step _ _ _ _ (space_drop_suffix pos 1 is_nested) (by omega) hp
      (refs_below_append hr (refs_below_single _ _ _ (fun h => by cases h))) (le_refl _)
  simp only [c6, if_false]
  have hrep : ∀ (min_times max_times : Int) (pos1 : List Nat), pos1 <:+ pos →
      pos1.length + 1 ≤ pos.length →
      seq_post pos p
        (match handle_repetitions p rule_name rule lss min_times max_times with
        | .error e => .error (parse_fault.thrown e, p)
        | .ok (rule1, p1) => parse_sequence fuel pos1 rule_name rule1 lss is_nested p1) := by
    intro min_times max_times pos1 hs hl
    cases hh : handle_repetitions p rule_name rule lss min_times max_times with
    | error e => exact Or.inl ⟨e, p, rfl⟩
    | ok r =>
      obtain ⟨rule1, p1⟩ := r
      simp only
      obtain ⟨a, b, c⟩ := handle_repetitions_ok p rule_name rule lss min_times max_times hp hr
        hname rule1 p1 hh
      exact step _ _ _ _ hs hl a b c
  have hsp := parse_space_length (pos.drop 1) is_nested
  have hss := space_drop_suffix pos 1 is_nested
  by_cases c7 : peek pos = 0x2A
  · simp only [c7, if_true]
    exact hrep 0 (-1) _ hss (by omega)
  simp only [c7, if_false]
  by_cases c8 : peek pos = 0x2B
  · simp only [c8, if_true]
    exact hrep 1 (-1) _ hss (by omega)
  simp only [c8, if_false]
  by_cases c9 : peek pos = 0x3F
  · simp only [c9, if_true]
    exact hrep 0 1 _ hss (by omega)
  simp only [c9, if_false]
  by_cases c10 : peek pos = 0x7B
  · simp only [c10, if_true]
    cases hc : parse_repetition_counts (parse_space (pos.drop 1) is_nested) is_nested with
    | error e => exact Or.inl ⟨e, p, rfl⟩
    | ok r =>
      obtain ⟨min_times, max_times, pos1⟩ := r
      simp only
      have h1 := (parse_repetition_counts_suffix hc).1
      have := h1.length_le
      simp only at this h1
      exact hrep min_times max_times pos1 (h1.trans hss) (by omega)
  simp only [c10, if_false]
  exact Or.inr ⟨pos, rule, p, rfl, List.suffix_refl _, hp, hr, le_refl _⟩

theorem parse_alternates_loop_step (fuel : Nat) (rule_name : List Nat) (is_nested : Bool)
    (ihs : ∀ (pos : List Nat) (rule : llama_grammar_rule) (lss : Nat)
      (p : llama_grammar_parser_t), 2 * pos.length + 1 ≤ fuel → parser_ok p →
      refs_below p.symbol_ids.length rule →
      seq_post pos p (parse_sequence fuel pos rule_name rule lss is_nested p))
    (ihl : ∀ (pos : List Nat) (rule_id : Nat) (rule : llama_grammar_rule)
      (p : llama_grammar_parser_t), 2 * pos.length + 1 ≤ fuel → parser_ok p →
      rule_id < p.symbol_ids.length → refs_below p.symbol_ids.length rule →
      alt_post pos p (parse_alternates_loop fuel pos rule_name rule_id rule is_nested p))
    (pos : List Nat) (rule_id : Nat) (rule : llama_grammar_rule) (p : llama_grammar_parser_t)
    (hfuel : 2 * pos.length + 1 ≤ fuel + 1) (hp : parser_ok p)
    (hid : rule_id < p.symbol_ids.length) (hr : refs_below p.symbol_ids.length rule) :
    alt_post pos p (parse_alternates_loop (fuel + 1) pos rule_name rule_id rule is_nested p) := by
  rw [parse_alternates_loop]
  by_cases c : peek pos = 0x7C
  · simp only [c, if_true]
    have hpos : 0 < pos.length := peek_ne_zero_length (by rw [c]; decide)
    have hd := drop_length_lt 1 (by omega) hpos
    have hsp := parse_space_length (pos.drop 1) true
    rcases ihs (parse_space (pos.drop 1) true) (rule ++ [⟨llama_gretype.ALT, 0⟩])
        (rule ++ [(⟨llama_gretype.ALT, 0⟩ : llama_grammar_element)]).length p (by omega) hp
        (refs_below_append hr (refs_below_single _ _ _ (fun h => by cases h))) with
      ⟨e, p1, he⟩ | ⟨pos1, rule2, p1, he, hle, hp1, hr1, hn1⟩
    · rw [he]
      exact Or.inl ⟨e, p1, rfl⟩
    · rw [he]
      simp only
      have := hle.length_le
      exact alt_post_mono (ihl pos1 rule_id rule2 p1 (by omega) hp1 (by omega) hr1)
        (hle.trans (space_drop_suffix pos 1 true)) hn1
  · simp only [c, if_false]
    refine Or.inr ⟨pos, _, rfl, List.suffix_refl _, ?_, le_refl _⟩
    exact add_rule_ok p rule_id _ hp hid
      (refs_below_append hr (refs_below_single _ _ _ (fun h => by cases h)))

theorem parse_alternates_step (fuel : Nat) (rule_name : List Nat) (is_nested : Bool)
    (ihs : ∀ (pos : List Nat) (rule : llama_grammar_rule) (lss : Nat)
      (p : llama_grammar_parser_t), 2 * pos.length + 1 ≤ fuel → parser_ok p →
      refs_below p.symbol_ids.length rule →
      seq_post pos p (parse_sequence fuel pos rule_name rule lss is_nested p))
    (ihl : ∀ (pos : List Nat) (rule_id : Nat) (rule : llama_grammar_rule)
      (p : llama_grammar_parser_t), 2 * pos.length + 1 ≤ fuel → parser_ok p →
      rule_id < p.symbol_ids.length → refs_below p.symbol_ids.length rule →
      alt_post pos p (parse_alternates_loop fuel pos rule_name rule_id rule is_nested p))
    (pos : List Nat) (rule_id : Nat) (p : llama_grammar_parser_t)
    (hfuel : 2 * pos.length + 2 ≤ fuel + 1) (hp : parser_ok p)
    (hid : rule_id < p.symbol_ids.length) :
    alt_post pos p (parse_alternates (fuel + 1) pos rule_name rule_id is_nested p) := by
  rw [parse_alternates]
  rcases ihs pos [] 0 p (by omega) hp (refs_below_nil _) with
    ⟨e, p1, he⟩ | ⟨pos1, rule2, p1, he, hle, hp1, hr1, hn1⟩
  · rw [he]
    exact Or.inl ⟨e, p1, rfl⟩
  · rw [he]
    simp only
    have := hle.length_le
    exact alt_post_mono (ihl pos1 rule_id rule2 p1 (by omega) hp1 (by omega) hr1) hle hn1

theorem parse_family_spec :
    ∀ (fuel : Nat),
      (∀ (rule_name : List Nat) (is_nested : Bool), 0x5F ∉ rule_name →
        ∀ (pos : List Nat) (rule : llama_grammar_rule) (lss : Nat) (p : llama_grammar_parser_t),
          2 * pos.length + 1 ≤ fuel → parser_ok p → refs_below p.symbol_ids.length rule →
          seq_post pos p (parse_sequence fuel pos rule_name rule lss is_nested p)) ∧
      (∀ (rule_name : List Nat) (is_nested : Bool), 0x5F ∉ rule_name →
        ∀ (pos : List Nat) (rule_id : Nat) (p : llama_grammar_parser_t),
          2 * pos.length + 2 ≤ fuel → parser_ok p → rule_id < p.symbol_ids.length →
          alt_post pos p (parse_alternates fuel pos rule_name rule_id is_nested p)) ∧
      (∀ (rule_name : List Nat) (is_nested : Bool), 0x5F ∉ rule_name →
        ∀ (pos : List Nat) (rule_id : Nat) (rule : llama_grammar_rule)
          (p : llama_grammar_parser_t),
          2 * pos.length + 1 ≤ fuel → parser_ok p → rule_id < p.symbol_ids.length →
          refs_below p.symbol_ids.length rule →
          alt_post pos p (parse_alternates_loop fuel pos rule_name rule_id rule is_nested p)) := by
  intro fuel
  induction fuel with
  | zero =>
    refine ⟨?_, ?_, ?_⟩
    · intro _ _ _ pos _ _ _ h
      omega
    · intro _ _ _ pos _ _ h
      omega
    · intro _ _ _ pos _ _ _ h
      omega
  | succ fuel ih =>
    obtain ⟨ihs, iha, ihl⟩ := ih
    refine ⟨?_, ?_, ?_⟩
    · intro rule_name is_nested hname pos rule lss p hf hp hr
      exact parse_sequence_step fuel rule_name is_nested hname
        (ihs rule_name is_nested hname) (iha rule_name true hname) pos rule lss p hf hp hr
    · intro rule_name is_nested hname pos rule_id p hf hp hid
      exact parse_alternates_step fuel rule_name is_nested
        (ihs rule_name is_nested hname) (ihl rule_name is_nested hname) pos rule_id p hf hp hid
    · intro rule_name is_nested hname pos rule_id rule p hf hp hid hr
      exact parse_alternates_loop_step fuel rule_name is_nested
        (ihs rule_name is_nested hname) (ihl rule_name is_nested hname) pos rule_id rule p hf hp
        hid hr

theorem parse_rule_spec (fuel : Nat) (src : List Nat) (p : llama_grammar_parser_t)
    (hfuel : 2 * src.length + 2 ≤ fuel) (hp : parser_ok p) :
    (∃ e p1, parse_rule fuel src p = .error (parse_fault.thrown e, p1)) ∨
      ∃ pos1 p1, parse_rule fuel src p = .ok (pos1, p1) ∧ pos1.length < src.length ∧
        parser_ok p1 ∧ p.symbol_ids.length ≤ p1.symbol_ids.length := by
  unfold parse_rule
  cases hn : parse_name src with
  | error e => exact Or.inl ⟨e, p, rfl⟩
  | ok name_end =>
    simp only
    obtain ⟨hne, hnl, _⟩ := parse_name_ok hn
    have hu : 0x5F ∉ text_between src name_end := by
      rw [hne, text_between_dropWhile]
      exact takeWhile_word_no_underscore src
    obtain ⟨g1, g2, g3, g4⟩ := get_symbol_id_spec p (text_between src name_end) hp.1 hu
    have hg : parser_ok (get_symbol_id p (text_between src name_end)).2 := by
      refine ⟨g1, ?_, ?_⟩
      · rw [g4]
        exact le_trans hp.2.1 g3
      · intro r hr1
        rw [g4] at hr1
        exact refs_below_mono (hp.2.2 r hr1) g3
    split
    · exact Or.inl ⟨_, _, rfl⟩
    · have hs1 := parse_space_length name_end false
      have hs2 := parse_space_length ((parse_space name_end false).drop 3) true
      have hd : ((parse_space name_end false).drop 3).length ≤
          (parse_space name_end false).length := by
        rw [List.length_drop]
        omega
      rcases (parse_family_spec fuel).2.1 (text_between src name_end) false hu
          (parse_space ((parse_space name_end false).drop 3) true)
          (get_symbol_id p (text_between src name_end)).1
          (get_symbol_id p (text_between src name_end)).2 (by omega) hg g2 with
        ⟨e, p1, he⟩ | ⟨pos1, p1, he, hle, hp1, hn1⟩
      · rw [he]
        exact Or.inl ⟨e, p1, rfl⟩
      · rw [he]
        simp only
        have hle := hle.length_le
        have hdk : ∀ k, (parse_space (pos1.drop k) true).length ≤ pos1.length := by
          intro k
          have := parse_space_length (pos1.drop k) true
          rw [List.length_drop] at this
          omega
        have hs3 := parse_space_length pos1 true
        split
        · exact Or.inr ⟨_, p1, rfl, by have := hdk (if peek_at pos1 1 = 0x0A then 2 else 1); omega,
            hp1, by omega⟩
        · split
          · exact Or.inr ⟨_, p1, rfl, by have := hdk 1; omega, hp1, by omega⟩
          · split
            · exact Or.inl ⟨_, p1, rfl⟩
            · exact Or.inr ⟨_, p1, rfl, by omega, hp1, by omega⟩

theorem parse_rules_loop_spec :
    ∀ (fuel : Nat) (pos : List Nat) (p : llama_grammar_parser_t),
      2 * pos.length + 3 ≤ fuel → parser_ok p →
      (∃ e p1, parse_rules_loop fuel pos p = .error (parse_fault.thrown e, p1)) ∨
        ∃ p1, parse_rules_loop fuel pos p = .ok p1 ∧ parser_ok p1 := by
  intro fuel
  induction fuel with
  | zero => intro pos p h; omega
  | succ fuel ih =>
    intro pos p hf hp
    rw [parse_rules_loop]
    by_cases c : peek pos = 0
    · simp only [c, if_true]
      exact Or.inr ⟨p, rfl, hp⟩
    · simp only [c, if_false]
      rcases parse_rule_spec fuel pos p (by omega) hp with
        ⟨e, p1, he⟩ | ⟨pos1, p1, he, hlt, hp1, _⟩
      · rw [he]
        exact Or.inl ⟨e, p1, rfl⟩
      · rw [he]
        simp only
        exact ih pos1 p1 (by omega) hp1

theorem parser_ok_fresh : parser_ok llama_grammar_parser_t.fresh := by
  refine ⟨⟨rfl, List.nodup_nil, ?_⟩, le_refl _, ?_⟩
  · intro kv h
    cases h
  · intro r h
    cases h

/-! ### The validation at the end of `parse` (C19) -/

theorem validate_elements_ok (p : llama_grammar_parser_t) (hp : symbols_ok p.symbol_ids) :
    ∀ (rule : llama_grammar_rule), refs_below p.symbol_ids.length rule →
      validate_elements p rule = .ok () →
      ∀ e ∈ rule, e.type = llama_gretype.RULE_REF →
        e.value < p.rules.length ∧ p.rules.getD e.value [] ≠ [] := by
  intro rule
  induction rule with
  | nil => intro _ _ e he; cases he
  | cons elem rest ih =>
    intro hr hv e he ht
    have hrest : refs_below p.symbol_ids.length rest :=
      refs_below_of_subset hr (fun x hx => List.mem_cons_of_mem _ hx)
    rw [validate_elements] at hv
    by_cases c : elem.type = llama_gretype.RULE_REF ∧
        (elem.value ≥ p.rules.length ∨ (p.rules.getD elem.value []).isEmpty = true)
    · simp only [c, and_self, if_true] at hv
      obtain ⟨kv, hkv, hid⟩ := symbols_ok_has_id p.symbol_ids hp elem.value
        (hr elem (List.mem_cons_self _ _) c.1)
      cases hf : p.symbol_ids.find? (fun kv => kv.2 == elem.value) with
      | some kv1 => rw [hf] at hv; cases hv
      | none =>
        have := List.find?_eq_none.mp hf kv hkv
        simp only [beq_iff_eq] at this
        exact absurd hid this
    · rw [if_neg c] at hv
      rcases List.mem_cons.mp he with he | he
      · subst he
        have hc : ¬ (e.value ≥ p.rules.length ∨ (p.rules.getD e.value []).isEmpty = true) :=
          fun h => c ⟨ht, h⟩
        rw [not_or] at hc
        refine ⟨by omega, ?_⟩
        intro hnil
        apply hc.2
        rw [hnil]
        rfl
      · exact ih hrest hv e he ht

theorem validate_rules_ok (p : llama_grammar_parser_t) :
    ∀ (rules : llama_grammar_rules), validate_rules p rules = .ok () →
      ∀ rule ∈ rules, rule ≠ [] ∧ validate_elements p rule = .ok () := by
  intro rules
  induction rules with
  | nil => intro _ rule h; cases h
  | cons r rest ih =>
    intro hv rule hrule
    rw [validate_rules] at hv
    split at hv
    · cases hv
    · rename_i hne
      cases hve : validate_elements p r with
      | error e => rw [hve] at hv; cases hv
      | ok u =>
        rw [hve] at hv
        simp only at hv
        rcases List.mem_cons.mp hrule with h | h
        · subst h
          refine ⟨?_, hve⟩
          intro hnil
          apply hne
          rw [hnil]
          rfl
        · exact ih hv rule h

theorem validate_rules_defined (p : llama_grammar_parser_t) (hp : parser_ok p)
    (hv : validate_rules p p.rules = .ok ()) :
    ∀ rule ∈ p.rules, rule ≠ [] ∧ ∀ e ∈ rule, e.type = llama_gretype.RULE_REF →
      e.value < p.rules.length ∧ p.rules.getD e.value [] ≠ [] := by
  intro rule hrule
  obtain ⟨h1, h2⟩ := validate_rules_ok p p.rules hv rule hrule
  exact ⟨h1, validate_elements_ok p hp.1 rule (hp.2.2 rule hrule) h2⟩

theorem validate_elements_complete (p : llama_grammar_parser_t) :
    ∀ (rule : llama_grammar_rule),
      (∀ e ∈ rule, e.type = llama_gretype.RULE_REF →
        e.value < p.rules.length ∧ p.rules.getD e.value [] ≠ []) →
      validate_elements p rule = .ok () := by
  intro rule
  induction rule with
  | nil => intro _; rfl
  | cons elem rest ih =>
    intro h
    rw [validate_elements]
    have c : ¬ (elem.type = llama_gretype.RULE_REF ∧
        (elem.value ≥ p.rules.length ∨ (p.rules.getD elem.value []).isEmpty = true)) := by
      rintro ⟨ht, hb⟩
      obtain ⟨h1, h2⟩ := h elem (List.mem_cons_self _ _) ht
      rcases hb with hb | hb
      · omega
      · exact h2 (List.isEmpty_iff.mp hb)
    rw [if_neg c]
    exact ih (fun e he => h e (List.mem_cons_of_mem _ he))

theorem validate_rules_complete (p : llama_grammar_parser_t) :
    ∀ (rules : llama_grammar_rules),
      (∀ rule ∈ rules, rule ≠ [] ∧ ∀ e ∈ rule, e.type = llama_gretype.RULE_REF →
        e.value < p.rules.length ∧ p.rules.getD e.value [] ≠ []) →
      validate_rules p rules = .ok () := by
  intro rules
  induction rules with
  | nil => intro _; rfl
  | cons r rest ih =>
    intro h
    obtain ⟨h1, h2⟩ := h r (List.mem_cons_self _ _)
    rw [validate_rules]
    have c : ¬ (r.isEmpty = true) := fun hc => h1 (List.isEmpty_iff.mp hc)
    rw [if_neg c, validate_elements_complete p r h2]
    exact ih (fun rule hr => h rule (List.mem_cons_of_mem _ hr))

theorem parse_of_loop_ok (fuel : Nat) (p p1 : llama_grammar_parser_t) (src : List Nat)
    (h : parse_rules_loop fuel (parse_space src true) p = .ok p1) :
    parse fuel p src =
      match validate_rules p1 p1.rules with
      | .error _ => .ok (false, { p1 with rules := [] })
      | .ok _ => .ok (true, p1) := by
  unfold parse
  rw [h]

theorem parse_of_loop_thrown (fuel : Nat) (p p1 : llama_grammar_parser_t) (src : List Nat)
    (e : parse_error)
    (h : parse_rules_loop fuel (parse_space src true) p = .error (parse_fault.thrown e, p1)) :
    parse fuel p src = .ok (false, { p1 with rules := [] }) := by
  unfold parse
  rw [h]

/-- C19 (as amended). On a fresh parser and with a budget that covers the text, `parse`
returns, and with `false` the rule set is empty. It returns `true` exactly when
the rule loop ends without an exception and, in the table it built, no rule is
empty and every `RULE_REF` refers to a non-empty rule; then every `RULE_REF`
value is also below the number of rules. When the table built by the rule loop
has a `RULE_REF` to a rule that is missing or empty (a name that is never
defined and whose reference is still in the table), `parse` returns `false` and
the rule set is empty. -/
theorem parse_true_only_if_defined (fuel : Nat) (src : List Nat)
    (hfuel : 2 * src.length + 3 ≤ fuel) :
    (∃ b p, parse fuel llama_grammar_parser_t.fresh src = .ok (b, p) ∧
      (b = false → p.rules = [])) ∧
    (∀ p, parse fuel llama_grammar_parser_t.fresh src = .ok (true, p) →
      parse_rules_loop fuel (parse_space src true) llama_grammar_parser_t.fresh = .ok p ∧
      ∀ rule ∈ p.rules, rule ≠ [] ∧ ∀ e ∈ rule, e.type = llama_gretype.RULE_REF →
        e.value < p.rules.length ∧ p.rules.getD e.value [] ≠ []) ∧
    (∀ p, parse_rules_loop fuel (parse_space src true) llama_grammar_parser_t.fresh = .ok p →
      (∀ rule ∈ p.rules, rule ≠ [] ∧ ∀ e ∈ rule, e.type = llama_gretype.RULE_REF →
        p.rules.getD e.value [] ≠ []) →
      parse fuel llama_grammar_parser_t.fresh src = .ok (true, p)) ∧
    (∀ p, parse_rules_loop fuel (parse_space src true) llama_grammar_parser_t.fresh = .ok p →
      (∃ rule ∈ p.rules, ∃ e ∈ rule, e.type = llama_gretype.RULE_REF ∧
        p.rules.getD e.value [] = []) →
      parse fuel llama_grammar_parser_t.fresh src = .ok (false, { p with rules := [] })) := by
  have hsp := parse_space_length src true
  have hloop := parse_rules_loop_spec fuel (parse_space src true) llama_grammar_parser_t.fresh
    (by omega) parser_ok_fresh
  have hvalid : ∀ p1, parse_rules_loop fuel (parse_space src true) llama_grammar_parser_t.fresh =
      .ok p1 → parser_ok p1 := by
    intro p1 h1
    rcases hloop with ⟨e, p2, he⟩ | ⟨p2, he, hp2⟩
    · rw [he] at h1
      cases h1
    · rw [he] at h1
      simp only [Except.ok.injEq] at h1
      rw [← h1]
      exact hp2
  refine ⟨?_, ?_, ?_, ?_⟩
  · rcases hloop with ⟨e, p1, he⟩ | ⟨p1, he, hp1⟩
    · exact ⟨false, _, parse_of_loop_thrown fuel _ p1 src e he, fun _ => rfl⟩
    · rw [parse_of_loop_ok fuel _ p1 src he]
      cases validate_rules p1 p1.rules with
      | error e => exact ⟨false, _, rfl, fun _ => rfl⟩
      | ok u => exact ⟨true, _, rfl, fun h => by cases h⟩
  · intro p h
    rcases hloop with ⟨e, p1, he⟩ | ⟨p1, he, hp1⟩
    · rw [parse_of_loop_thrown fuel _ p1 src e he] at h
      cases h
    · rw [parse_of_loop_ok fuel _ p1 src he] at h
      cases hv : validate_rules p1 p1.rules with
      | error e => rw [hv] at h; cases h
      | ok u =>
        rw [hv] at h
        simp only [Except.ok.injEq, Prod.mk.injEq, true_and] at h
        subst h
        exact ⟨he, validate_rules_defined p1 hp1 hv⟩
  · intro p h hdef
    have hp := hvalid p h
    rw [parse_of_loop_ok fuel _ p src h]
    have hall : ∀ rule ∈ p.rules, rule ≠ [] ∧ ∀ e ∈ rule, e.type = llama_gretype.RULE_REF →
        e.value < p.rules.length ∧ p.rules.getD e.value [] ≠ [] := by
      intro rule hrule
      refine ⟨(hdef rule hrule).1, ?_⟩
      intro e he ht
      have hne := (hdef rule hrule).2 e he ht
      refine ⟨?_, hne⟩
      by_contra hge
      exact hne (List.getD_eq_default _ _ (Nat.le_of_not_lt hge))
    rw [validate_rules_complete p p.rules hall]
  · intro p h hdangling
    have hp := hvalid p h
    rw [parse_of_loop_ok fuel _ p src h]
    cases hv : validate_rules p p.rules with
    | error e => rfl
    | ok u =>
      obtain ⟨rule, hrule, e, he, ht, hnil⟩ := hdangling
      exact absurd hnil ((validate_rules_defined p hp hv rule hrule).2 e he ht).2

/-- C19 (counterexample). The text `root ::= "a" foo{0}` references the name
`foo`, which no rule defines. The repetition `{0}` removes the reference from
the rule under construction, so the table the rule loop builds is the one rule
`"a"` with no `RULE_REF`; the symbol `foo` has the id 1 and there is no rule 1.
The validation reads the table, finds nothing, and `parse` returns `true`;
`llama_grammar_init_impl` then returns a session. -/
theorem undefined_name_under_zero_repetition :
    2 * (text_bytes "root ::= \"a\" foo\x7b0\x7d").length + 3 ≤ 45 ∧
      parse 45 llama_grammar_parser_t.fresh (text_bytes "root ::= \"a\" foo\x7b0\x7d") =
        .ok (true, ⟨[(text_bytes "root", 0), (text_bytes "foo", 1)],
          [[⟨llama_gretype.CHAR, 0x61⟩, ⟨llama_gretype.END, 0⟩]]⟩) ∧
      ([(text_bytes "root", 0), (text_bytes "foo", 1)] : List (List Nat × Nat)).lookup
        (text_bytes "foo") = some 1 ∧
      ([[⟨llama_gretype.CHAR, 0x61⟩, ⟨llama_gretype.END, 0⟩]] : llama_grammar_rules).length = 1 ∧
      llama_grammar_init_impl_str 45 (fun _ => true)
          (text_bytes "root ::= \"a\" foo\x7b0\x7d") (text_bytes "root") false [] [] =
        .ok (init_outcome.session
          ⟨[[⟨llama_gretype.CHAR, 0x61⟩, ⟨llama_gretype.END, 0⟩]], [[⟨0, 0⟩]], ⟨0, 0⟩,
            false, false, [], [], []⟩) :=
  ⟨by decide, rfl, rfl, rfl, rfl⟩

theorem parse_true_only_if_defined_witness :
    2 * (text_bytes "root ::= \"a\" item\n").length + 3 ≤ 41 ∧
    parse 41 llama_grammar_parser_t.fresh (text_bytes "root ::= \"a\" item\n") =
      .ok (false, ⟨[(text_bytes "root", 0), (text_bytes "item", 1)], []⟩) ∧
    parse_rules_loop 41 (parse_space (text_bytes "root ::= \"a\" item\n") true)
        llama_grammar_parser_t.fresh =
      .ok ⟨[(text_bytes "root", 0), (text_bytes "item", 1)],
        [[⟨llama_gretype.CHAR, 0x61⟩, ⟨llama_gretype.RULE_REF, 1⟩, ⟨llama_gretype.END, 0⟩]]⟩ ∧
    ((∃ b p, parse 41 llama_grammar_parser_t.fresh (text_bytes "root ::= \"a\" item\n") =
        .ok (b, p) ∧ (b = false → p.rules = [])) ∧
    (∀ p, parse 41 llama_grammar_parser_t.fresh (text_bytes "root ::= \"a\" item\n") =
        .ok (true, p) →
      parse_rules_loop 41 (parse_space (text_bytes "root ::= \"a\" item\n") true)
        llama_grammar_parser_t.fresh = .ok p ∧
      ∀ rule ∈ p.rules, rule ≠ [] ∧ ∀ e ∈ rule, e.type = llama_gretype.RULE_REF →
        e.value < p.rules.length ∧ p.rules.getD e.value [] ≠ []) ∧
    (∀ p, parse_rules_loop 41 (parse_space (text_bytes "root ::= \"a\" item\n") true)
        llama_grammar_parser_t.fresh = .ok p →
      (∀ rule ∈ p.rules, rule ≠ [] ∧ ∀ e ∈ rule, e.type = llama_gretype.RULE_REF →
        p.rules.getD e.value [] ≠ []) →
      parse 41 llama_grammar_parser_t.fresh (text_bytes "root ::= \"a\" item\n") =
        .ok (true, p)) ∧
    (∀ p, parse_rules_loop 41 (parse_space (text_bytes "root ::= \"a\" item\n") true)
        llama_grammar_parser_t.fresh = .ok p →
      (∃ rule ∈ p.rules, ∃ e ∈ rule, e.type = llama_gretype.RULE_REF ∧
        p.rules.getD e.value [] = []) →
      parse 41 llama_grammar_parser_t.fresh (text_bytes "root ::= \"a\" item\n") =
        .ok (false, { p with rules := [] }))) :=
  ⟨by decide, rfl, rfl,
    parse_true_only_if_defined 41 (text_bytes "root ::= \"a\" item\n") (by decide)⟩

/-! ### Repetition counts written in decimal -/

theorem parse_space_not_blank (c : Nat) (rest : List Nat) (newline_ok : Bool)
    (h1 : c ≠ 0x23) (h2 : c ≠ 0x20) (h3 : c ≠ 0x09) (h4 : c ≠ 0x0D) (h5 : c ≠ 0x0A) :
    parse_space (c :: rest) newline_ok = c :: rest := by
  unfold parse_space
  rw [parse_space_loop]
  simp only [h1, h2, h3, h4, h5, if_false, or_self, and_false]

theorem is_digit_char_not_blank {c : Nat} (h : is_digit_char c = true) :
    c ≠ 0x23 ∧ c ≠ 0x20 ∧ c ≠ 0x09 ∧ c ≠ 0x0D ∧ c ≠ 0x0A := by
  unfold is_digit_char at h
  simp only [decide_eq_true_eq] at h
  omega

theorem dropWhile_digits (ds : List Nat) (hds : ∀ d ∈ ds, is_digit_char d = true)
    (c : Nat) (rest : List Nat) (hc : is_digit_char c = false) :
    (ds ++ c :: rest).dropWhile is_digit_char = c :: rest := by
  induction ds with
  | nil =>
    rw [List.nil_append, List.dropWhile_cons]
    simp only [hc, Bool.false_eq_true, if_false]
  | cons d ds ih =>
    rw [List.cons_append, List.dropWhile_cons]
    simp only [hds d (List.mem_cons_self _ _), if_true]
    exact ih (fun x hx => hds x (List.mem_cons_of_mem _ hx))

theorem text_between_append (ds tail : List Nat) : text_between (ds ++ tail) tail = ds := by
  unfold text_between
  rw [List.length_append, Nat.add_sub_cancel]
  exact List.take_left' rfl

theorem to_string_are_digits (n : Nat) : ∀ d ∈ to_string n, is_digit_char d = true :=
  to_string_digits_are_digits (n + 1) n

theorem to_string_ne_nil (n : Nat) : to_string n ≠ [] :=
  to_string_digits_ne_nil n n

theorem to_int_small (n : Nat) (h : n < 2 ^ 31) : to_int n = (n : Int) := by
  unfold to_int
  have h1 : n % 2 ^ 32 = n := Nat.mod_eq_of_lt (by omega)
  rw [h1]
  simp only [h, if_true]

theorem parse_int_digits (n : Nat) (c : Nat) (rest : List Nat) (hc : is_digit_char c = false) :
    is_digit_char (peek (to_string n ++ c :: rest)) = true ∧
      parse_int (to_string n ++ c :: rest) = .ok (c :: rest) ∧
      text_between (to_string n ++ c :: rest) (c :: rest) = to_string n := by
  refine ⟨?_, ?_, text_between_append _ _⟩
  · cases hs : to_string n with
    | nil => exact absurd hs (to_string_ne_nil n)
    | cons d ds =>
      have := to_string_are_digits n d (by rw [hs]; exact List.mem_cons_self _ _)
      exact this
  · unfold parse_int
    simp only
    rw [dropWhile_digits _ (to_string_are_digits n) c rest hc]
    have hl : ¬ ((c :: rest).length = (to_string n ++ c :: rest).length) := by
      rw [List.length_append]
      have : 0 < (to_string n).length := List.length_pos.mpr (to_string_ne_nil n)
      omega
    rw [if_neg hl]

theorem stoul_to_string (n : Nat) (h : n < 2 ^ 64) : stoul (to_string n) = .ok n := by
  unfold stoul
  simp only [to_string_value, h, if_true]

theorem parse_repetition_counts_range (m n : Nat) (rest : List Nat) (is_nested : Bool)
    (hm : m < 2 ^ 31) (hn : n < 2 ^ 31) :
    parse_repetition_counts (to_string m ++ 0x2C :: (to_string n ++ 0x7D :: rest)) is_nested =
      .ok ((m : Int), (n : Int), parse_space rest is_nested) := by
  obtain ⟨a1, a2, a3⟩ := parse_int_digits m 0x2C (to_string n ++ 0x7D :: rest) (by decide)
  obtain ⟨b1, b2, b3⟩ := parse_int_digits n 0x7D rest (by decide)
  have hsp1 : parse_space (0x2C :: (to_string n ++ 0x7D :: rest)) is_nested =
      0x2C :: (to_string n ++ 0x7D :: rest) :=
    parse_space_not_blank _ _ _ (by decide) (by decide) (by decide) (by decide) (by decide)
  have hsp2 : parse_space (to_string n ++ 0x7D :: rest) is_nested =
      to_string n ++ 0x7D :: rest := by
    cases hs : to_string n with
    | nil => exact absurd hs (to_string_ne_nil n)
    | cons d ds =>
      have hd := to_string_are_digits n d (by rw [hs]; exact List.mem_cons_self _ _)
      obtain ⟨h1, h2, h3, h4, h5⟩ := is_digit_char_not_blank hd
      exact parse_space_not_blank _ _ _ h1 h2 h3 h4 h5
  have hsp3 : parse_space (0x7D :: rest) is_nested = 0x7D :: rest :=
    parse_space_not_blank _ _ _ (by decide) (by decide) (by decide) (by decide) (by decide)
  unfold parse_repetition_counts
  rw [a1]
  simp only [Bool.true_eq_false, if_false]
  rw [a2]
  simp only
  rw [a3, stoul_to_string m (by omega)]
  simp only
  rw [hsp1]
  have p1 : peek (0x2C :: (to_string n ++ 0x7D :: rest)) = 0x2C := rfl
  have d1 : List.drop 1 (0x2C :: (to_string n ++ 0x7D :: rest)) =
      to_string n ++ 0x7D :: rest := rfl
  rw [p1, d1, hsp2, b1]
  simp only [Nat.reduceEqDiff, if_false, if_true]
  rw [b2]
  simp only
  rw [b3, stoul_to_string n (by omega)]
  simp only
  rw [hsp3]
  have p2 : peek (0x7D :: rest) = 0x7D := rfl
  have d2 : List.drop 1 (0x7D :: rest) = rest := rfl
  rw [p2, d2, to_int_small m hm, to_int_small n hn]
  simp only [ne_eq, not_true_eq_false, if_false]

theorem parse_repetition_counts_open (m : Nat) (rest : List Nat) (is_nested : Bool)
    (hm : m < 2 ^ 31) :
    parse_repetition_counts (to_string m ++ 0x2C :: 0x7D :: rest) is_nested =
      .ok ((m : Int), -1, parse_space rest is_nested) := by
  obtain ⟨a1, a2, a3⟩ := parse_int_digits m 0x2C (0x7D :: rest) (by decide)
  have hsp1 : parse_space (0x2C :: 0x7D :: rest) is_nested = 0x2C :: 0x7D :: rest :=
    parse_space_not_blank _ _ _ (by decide) (by decide) (by decide) (by decide) (by decide)
  have hsp3 : parse_space (0x7D :: rest) is_nested = 0x7D :: rest :=
    parse_space_not_blank _ _ _ (by decide) (by decide) (by decide) (by decide) (by decide)
  unfold parse_repetition_counts
  rw [a1]
  simp only [Bool.true_eq_false, if_false]
  rw [a2]
  simp only
  rw [a3, stoul_to_string m (by omega)]
  simp only
  rw [hsp1]
  have p1 : peek (0x2C :: 0x7D :: rest) = 0x2C := rfl
  have d1 : List.drop 1 (0x2C :: 0x7D :: rest) = 0x7D :: rest := rfl
  rw [p1, d1, hsp3]
  have p2 : peek (0x7D :: rest) = 0x7D := rfl
  have d2 : List.drop 1 (0x7D :: rest) = rest := rfl
  have nd : is_digit_char 0x7D = false := by decide
  rw [p2, nd, to_int_small m hm]
  simp only [Nat.reduceEqDiff, if_false, if_true, Bool.false_eq_true, ne_eq, not_true_eq_false,
    p2, d2]

/-! ### Quantifier desugaring (C18) -/

theorem repeated_copies (rule : llama_grammar_rule) (lss m : Nat) :
    (if ((m : Nat) : Int) = 0 then rule.take lss
      else rule ++ (List.replicate (((m : Nat) : Int) - 1).toNat (rule.drop lss)).flatten) =
      rule.take lss ++ (List.replicate m (rule.drop lss)).flatten := by
  cases m with
  | zero => simp
  | succ k =>
    have h0 : ¬ (((k + 1 : Nat) : Int) = 0) := by omega
    have h1 : (((k + 1 : Nat) : Int) - 1).toNat = k := by omega
    rw [if_neg h0, h1, List.replicate_succ, List.flatten_cons, ← List.append_assoc,
      List.take_append_drop]

theorem handle_repetitions_bounded (p : llama_grammar_parser_t) (rule_name : List Nat)
    (rule : llama_grammar_rule) (lss m n : Nat) (hp : parser_ok p)
    (hr : refs_below p.symbol_ids.length rule) (hname : 0x5F ∉ rule_name)
    (hlss : lss < rule.length) (hmn : m ≤ n) :
    ∃ rule1 p1, handle_repetitions p rule_name rule lss (m : Int) (n : Int) = .ok (rule1, p1) ∧
      rule1 = rule.take lss ++ (List.replicate m (rule.drop lss)).flatten ++
        (if m < n then [⟨llama_gretype.RULE_REF, p.symbol_ids.length + (n - m) - 1⟩] else []) ∧
      p1.symbol_ids.length = p.symbol_ids.length + (n - m) ∧
      (∀ j, j < n - m → p1.rules.getD (p.symbol_ids.length + j) [] =
        rule.drop lss ++
          (if j = 0 then [] else [⟨llama_gretype.RULE_REF, p.symbol_ids.length + j - 1⟩]) ++
          [⟨llama_gretype.ALT, 0⟩, ⟨llama_gretype.END, 0⟩]) ∧
      (∀ x, x < p.symbol_ids.length ∨ p.symbol_ids.length + (n - m) ≤ x →
        p1.rules.getD x [] = p.rules.getD x []) ∧
      p.rules.length ≤ p.symbol_ids.length := by
  have hprev : refs_below p.symbol_ids.length (rule.drop lss) :=
    refs_below_of_subset hr (fun e he => List.mem_of_mem_drop he)
  have hmax : ¬ ((n : Int) < 0) := by omega
  have hk : ((n : Int) - (m : Int)).toNat = n - m := by omega
  obtain ⟨s1, s2, s3, s4, s5⟩ := handle_repetitions_loop_spec rule_name (rule.drop lss) (n : Int)
    hname (n - m) 0 p 0 hp hprev (fun h0 => absurd h0 (Nat.lt_irrefl 0))
  refine ⟨_, (handle_repetitions_loop rule_name (rule.drop lss) (n : Int) (n - m) 0 p 0).1,
    ?_, rfl, s2, ?_, s5, hp.2.1⟩
  · unfold handle_repetitions
    rw [if_neg (Nat.ne_of_lt hlss)]
    simp only [hmax, if_false, hk]
    rw [repeated_copies, s3]
    by_cases hlt : m < n
    · have h1 : (n : Int) - (m : Int) > 0 := by omega
      have h2 : n - m ≠ 0 := by omega
      simp only [h1, h2, hlt, if_true, if_false]
    · have h1 : ¬ ((n : Int) - (m : Int) > 0) := by omega
      simp only [h1, hlt, if_false, List.append_nil]
  · intro j hj
    rw [s4 j hj]
    simp only [hmax, or_false, Nat.zero_add, if_false]
    by_cases hj0 : j = 0
    · have : ¬ (j > 0) := by omega
      simp only [hj0, if_true, gt_iff_lt, Nat.lt_irrefl, if_false]
    · have : j > 0 := by omega
      simp only [hj0, this, if_true, if_false]

theorem handle_repetitions_unbounded (p : llama_grammar_parser_t) (rule_name : List Nat)
    (rule : llama_grammar_rule) (lss m : Nat) (hp : parser_ok p)
    (hr : refs_below p.symbol_ids.length rule) (hname : 0x5F ∉ rule_name)
    (hlss : lss < rule.length) :
    ∃ rule1 p1, handle_repetitions p rule_name rule lss (m : Int) (-1) = .ok (rule1, p1) ∧
      rule1 = rule.take lss ++ (List.replicate m (rule.drop lss)).flatten ++
        [⟨llama_gretype.RULE_REF, p.symbol_ids.length⟩] ∧
      p1.symbol_ids.length = p.symbol_ids.length + 1 ∧
      p1.rules.getD p.symbol_ids.length [] =
        rule.drop lss ++ [⟨llama_gretype.RULE_REF, p.symbol_ids.length⟩] ++
          [⟨llama_gretype.ALT, 0⟩, ⟨llama_gretype.END, 0⟩] ∧
      (∀ x, x ≠ p.symbol_ids.length → p1.rules.getD x [] = p.rules.getD x []) ∧
      p.rules.length ≤ p.symbol_ids.length := by
  have hprev : refs_below p.symbol_ids.length (rule.drop lss) :=
    refs_below_of_subset hr (fun e he => List.mem_of_mem_drop he)
  have hmax : ((-1 : Int) < 0) := by omega
  obtain ⟨s1, s2, s3, s4, s5⟩ := handle_repetitions_loop_spec rule_name (rule.drop lss) (-1)
    hname 1 0 p 0 hp hprev (fun h0 => absurd h0 (Nat.lt_irrefl 0))
  refine ⟨_, (handle_repetitions_loop rule_name (rule.drop lss) (-1) 1 0 p 0).1,
    ?_, rfl, s2, ?_, ?_, hp.2.1⟩
  · unfold handle_repetitions
    rw [if_neg (Nat.ne_of_lt hlss)]
    simp only [hmax, if_true]
    rw [repeated_copies]
    have h1 : (1 : Int).toNat = 1 := rfl
    have h2 : (1 : Int) > 0 := by omega
    rw [h1, s3]
    simp only [h2, if_true, one_ne_zero, if_false, Nat.add_sub_cancel]
  · have := s4 0 (by omega)
    simp only [Nat.add_zero, hmax, or_true, if_true] at this
    exact this
  · intro x hx
    exact s5 x (by omega)

theorem parser_ok_get_symbol_id (p : llama_grammar_parser_t) (name : List Nat)
    (hp : parser_ok p) (hname : 0x5F ∉ name) : parser_ok (get_symbol_id p name).2 := by
  obtain ⟨g1, _, g3, g4⟩ := get_symbol_id_spec p name hp.1 hname
  refine ⟨g1, ?_, ?_⟩
  · rw [g4]
    exact le_trans hp.2.1 g3
  · intro r hr1
    rw [g4] at hr1
    exact refs_below_mono (hp.2.2 r hr1) g3

theorem parse_sequence_at_brace (fuel : Nat) (pos : List Nat) (rule_name : List Nat)
    (rule : llama_grammar_rule) (lss : Nat) (is_nested : Bool) (p : llama_grammar_parser_t) :
    parse_sequence (fuel + 1) (0x7B :: pos) rule_name rule lss is_nested p =
      match parse_repetition_counts (parse_space pos is_nested) is_nested with
      | .error e => .error (parse_fault.thrown e, p)
      | .ok (min_times, max_times, pos1) =>
        match handle_repetitions p rule_name rule lss min_times max_times with
        | .error e => .error (parse_fault.thrown e, p)
        | .ok (rule1, p1) =>
          parse_sequence fuel pos1 rule_name rule1 lss is_nested p1 := by
  rw [parse_sequence]
  have hpk : peek (0x7B :: pos) = 0x7B := rfl
  have hw : is_word_char 0x7B = false := by decide
  have hdrop : List.drop 1 (0x7B :: pos) = pos := rfl
  simp only [hpk, hw, hdrop, Nat.reduceEqDiff, if_false, if_true, Bool.false_eq_true]

theorem handle_repetitions_no_item (p : llama_grammar_parser_t) (rule_name : List Nat)
    (rule : llama_grammar_rule) (min_times max_times : Int) :
    handle_repetitions p rule_name rule rule.length min_times max_times =
      .error parse_error.expecting_preceding_item := by
  unfold handle_repetitions
  simp only [if_true]

theorem parse_space_digits (n : Nat) (tail : List Nat) (newline_ok : Bool) :
    parse_space (to_string n ++ tail) newline_ok = to_string n ++ tail := by
  cases hs : to_string n with
  | nil => exact absurd hs (to_string_ne_nil n)
  | cons d ds =>
    have hd := to_string_are_digits n d (by rw [hs]; exact List.mem_cons_self _ _)
    obtain ⟨h1, h2, h3, h4, h5⟩ := is_digit_char_not_blank hd
    exact parse_space_not_blank _ _ _ h1 h2 h3 h4 h5

/-- C18 (as amended). Quantifier desugaring for counts that fit the `int` the
code keeps them in, after an item that leaves at least one element. At an item
`S` (the elements of the rule under construction from `last_sym_start` on, at
least one) followed by `{m,n}` with
`0 <= m <= n < 2^31`, one iteration of `parse_sequence` goes on after the `}`
with a rule that holds `m` consecutive copies of `S` in place of the item,
followed, when `n > m`, by one `RULE_REF` to the last of `n - m` rules created
at the fresh indices `N .. N + (n-m) - 1` (`N` the size of the symbol table):
rule `N` is `S | (empty)` and rule `N + j` is `S <ref to rule N + j - 1> | (empty)`.
At `{m,}` it goes on with `m` copies of `S` followed by a `RULE_REF` to the one
fresh rule `N`, which is `S <ref to rule N> | (empty)`. No other rule of the
table is modified. After an item that leaves no element (`last_sym_start` is
the length of the rule, as after the empty literal `""` or the empty class
`[]`) both forms throw `expecting preceding item`. -/
theorem repetition_desugaring (fuel : Nat) (p : llama_grammar_parser_t)
    (rule_name rest : List Nat) (rule : llama_grammar_rule) (lss m n : Nat) (is_nested : Bool)
    (hp : parser_ok p) (hr : refs_below p.symbol_ids.length rule) (hname : 0x5F ∉ rule_name)
    (hlss : lss < rule.length) (hmn : m ≤ n) (hn : n < 2 ^ 31) :
    (∃ rule1 p1,
      parse_sequence (fuel + 1) (0x7B :: (to_string m ++ 0x2C :: (to_string n ++ 0x7D :: rest)))
          rule_name rule lss is_nested p =
        parse_sequence fuel (parse_space rest is_nested) rule_name rule1 lss is_nested p1 ∧
      rule1 = rule.take lss ++ (List.replicate m (rule.drop lss)).flatten ++
        (if m < n then [⟨llama_gretype.RULE_REF, p.symbol_ids.length + (n - m) - 1⟩] else []) ∧
      (∀ j, j < n - m → p1.rules.getD (p.symbol_ids.length + j) [] =
        rule.drop lss ++
          (if j = 0 then [] else [⟨llama_gretype.RULE_REF, p.symbol_ids.length + j - 1⟩]) ++
          [⟨llama_gretype.ALT, 0⟩, ⟨llama_gretype.END, 0⟩]) ∧
      (∀ x, x < p.symbol_ids.length ∨ p.symbol_ids.length + (n - m) ≤ x →
        p1.rules.getD x [] = p.rules.getD x []) ∧
      p.rules.length ≤ p.symbol_ids.length) ∧
    (∃ rule1 p1,
      parse_sequence (fuel + 1) (0x7B :: (to_string m ++ 0x2C :: 0x7D :: rest))
          rule_name rule lss is_nested p =
        parse_sequence fuel (parse_space rest is_nested) rule_name rule1 lss is_nested p1 ∧
      rule1 = rule.take lss ++ (List.replicate m (rule.drop lss)).flatten ++
        [⟨llama_gretype.RULE_REF, p.symbol_ids.length⟩] ∧
      p1.rules.getD p.symbol_ids.length [] =
        rule.drop lss ++ [⟨llama_gretype.RULE_REF, p.symbol_ids.length⟩] ++
          [⟨llama_gretype.ALT, 0⟩, ⟨llama_gretype.END, 0⟩] ∧
      (∀ x, x ≠ p.symbol_ids.length → p1.rules.getD x [] = p.rules.getD x []) ∧
      p.rules.length ≤ p.symbol_ids.length) ∧
    (∀ rule0 : llama_grammar_rule,
      parse_sequence (fuel + 1) (0x7B :: (to_string m ++ 0x2C :: (to_string n ++ 0x7D :: rest)))
          rule_name rule0 rule0.length is_nested p =
        .error (parse_fault.thrown parse_error.expecting_preceding_item, p) ∧
      parse_sequence (fuel + 1) (0x7B :: (to_string m ++ 0x2C :: 0x7D :: rest))
          rule_name rule0 rule0.length is_nested p =
        .error (parse_fault.thrown parse_error.expecting_preceding_item, p)) := by
  have hm : m < 2 ^ 31 := by omega
  refine ⟨?_, ?_, fun rule0 => ⟨?_, ?_⟩⟩
  · obtain ⟨rule1, p1, h1, h2, _, h4, h5, h6⟩ :=
      handle_repetitions_bounded p rule_name rule lss m n hp hr hname hlss hmn
    refine ⟨rule1, p1, ?_, h2, h4, h5, h6⟩
    rw [parse_sequence_at_brace, parse_space_digits,
      parse_repetition_counts_range m n rest is_nested hm hn]
    simp only
    rw [h1]
  · obtain ⟨rule1, p1, h1, h2, _, h4, h5, h6⟩ :=
      handle_repetitions_unbounded p rule_name rule lss m hp hr hname hlss
    refine ⟨rule1, p1, ?_, h2, h4, h5, h6⟩
    rw [parse_sequence_at_brace, parse_space_digits,
      parse_repetition_counts_open m rest is_nested hm]
    simp only
    rw [h1]
  · rw [parse_sequence_at_brace, parse_space_digits,
      parse_repetition_counts_range m n rest is_nested hm hn]
    simp only
    rw [handle_repetitions_no_item]
  · rw [parse_sequence_at_brace, parse_space_digits,
      parse_repetition_counts_open m rest is_nested hm]
    simp only
    rw [handle_repetitions_no_item]

/-- C18 (counterexample). The text `root ::= "a"{4294967295,4294967295}`: both
counts are read as the `int` -1, and the rule `root` gets one copy of `"a"`
followed by a `RULE_REF` to a fresh rule `"a" <ref to itself> | (empty)`, the
table of `root ::= "a"+`; it does not get 4294967295 copies without a
`RULE_REF`. -/
theorem repetition_count_wraps :
    parse_repetition_counts (text_bytes "4294967295,4294967295\x7d") false =
        .ok (-1, -1, []) ∧
      parse 77 llama_grammar_parser_t.fresh
          (text_bytes "root ::= \"a\"\x7b4294967295,4294967295\x7d") =
        .ok (true, ⟨[(text_bytes "root", 0), (text_bytes "root_1", 1)],
          [[⟨llama_gretype.CHAR, 0x61⟩, ⟨llama_gretype.RULE_REF, 1⟩, ⟨llama_gretype.END, 0⟩],
           [⟨llama_gretype.CHAR, 0x61⟩, ⟨llama_gretype.RULE_REF, 1⟩, ⟨llama_gretype.ALT, 0⟩,
            ⟨llama_gretype.END, 0⟩]]⟩) ∧
      parse 77 llama_grammar_parser_t.fresh
          (text_bytes "root ::= \"a\"\x7b4294967295,4294967295\x7d") =
        parse 77 llama_grammar_parser_t.fresh (text_bytes "root ::= \"a\"+") :=
  ⟨rfl, rfl, rfl⟩

theorem repetition_desugaring_witness :
    (parser_ok (get_symbol_id llama_grammar_parser_t.fresh (text_bytes "root")).2 ∧
      refs_below (get_symbol_id llama_grammar_parser_t.fresh (text_bytes "root")).2.symbol_ids.length
        [⟨llama_gretype.CHAR, 0x61⟩] ∧
      0x5F ∉ text_bytes "root" ∧ 0 < [(⟨llama_gretype.CHAR, 0x61⟩ : llama_grammar_element)].length ∧
      2 ≤ 4 ∧ 4 < 2 ^ 31) ∧
    parse 39 llama_grammar_parser_t.fresh (text_bytes "root ::= \"a\"\x7b2,4\x7d") =
      .ok (true, ⟨[(text_bytes "root", 0), (text_bytes "root_1", 1), (text_bytes "root_2", 2)],
        [[⟨llama_gretype.CHAR, 0x61⟩, ⟨llama_gretype.CHAR, 0x61⟩, ⟨llama_gretype.RULE_REF, 2⟩,
          ⟨llama_gretype.END, 0⟩],
         [⟨llama_gretype.CHAR, 0x61⟩, ⟨llama_gretype.ALT, 0⟩, ⟨llama_gretype.END, 0⟩],
         [⟨llama_gretype.CHAR, 0x61⟩, ⟨llama_gretype.RULE_REF, 1⟩, ⟨llama_gretype.ALT, 0⟩,
          ⟨llama_gretype.END, 0⟩]]⟩) ∧
    ((∃ rule1 p1,
      parse_sequence (5 + 1) (0x7B :: (to_string 2 ++ 0x2C :: (to_string 4 ++ 0x7D :: [])))
          (text_bytes "root") [⟨llama_gretype.CHAR, 0x61⟩] 0 false
          (get_symbol_id llama_grammar_parser_t.fresh (text_bytes "root")).2 =
        parse_sequence 5 (parse_space [] false) (text_bytes "root") rule1 0 false p1 ∧
      rule1 = ([⟨llama_gretype.CHAR, 0x61⟩] : llama_grammar_rule).take 0 ++
          (List.replicate 2 (([⟨llama_gretype.CHAR, 0x61⟩] : llama_grammar_rule).drop 0)).flatten ++
        (if 2 < 4 then [⟨llama_gretype.RULE_REF,
          (get_symbol_id llama_grammar_parser_t.fresh (text_bytes "root")).2.symbol_ids.length +
            (4 - 2) - 1⟩] else []) ∧
      (∀ j, j < 4 - 2 → p1.rules.getD
          ((get_symbol_id llama_grammar_parser_t.fresh (text_bytes "root")).2.symbol_ids.length + j)
          [] =
        ([⟨llama_gretype.CHAR, 0x61⟩] : llama_grammar_rule).drop 0 ++
          (if j = 0 then [] else [⟨llama_gretype.RULE_REF,
            (get_symbol_id llama_grammar_parser_t.fresh (text_bytes "root")).2.symbol_ids.length +
              j - 1⟩]) ++
          [⟨llama_gretype.ALT, 0⟩, ⟨llama_gretype.END, 0⟩]) ∧
      (∀ x, x < (get_symbol_id llama_grammar_parser_t.fresh
            (text_bytes "root")).2.symbol_ids.length ∨
          (get_symbol_id llama_grammar_parser_t.fresh (text_bytes "root")).2.symbol_ids.length +
            (4 - 2) ≤ x →
        p1.rules.getD x [] =
          (get_symbol_id llama_grammar_parser_t.fresh (text_bytes "root")).2.rules.getD x []) ∧
      (get_symbol_id llama_grammar_parser_t.fresh (text_bytes "root")).2.rules.length ≤
        (get_symbol_id llama_grammar_parser_t.fresh (text_bytes "root")).2.symbol_ids.length) ∧
    (∃ rule1 p1,
      parse_sequence (5 + 1) (0x7B :: (to_string 2 ++ 0x2C :: 0x7D :: []))
          (text_bytes "root") [⟨llama_gretype.CHAR, 0x61⟩] 0 false
          (get_symbol_id llama_grammar_parser_t.fresh (text_bytes "root")).2 =
        parse_sequence 5 (parse_space [] false) (text_bytes "root") rule1 0 false p1 ∧
      rule1 = ([⟨llama_gretype.CHAR, 0x61⟩] : llama_grammar_rule).take 0 ++
          (List.replicate 2 (([⟨llama_gretype.CHAR, 0x61⟩] : llama_grammar_rule).drop 0)).flatten ++
        [⟨llama_gretype.RULE_REF,
          (get_symbol_id llama_grammar_parser_t.fresh (text_bytes "root")).2.symbol_ids.length⟩] ∧
      p1.rules.getD
          (get_symbol_id llama_grammar_parser_t.fresh (text_bytes "root")).2.symbol_ids.length [] =
        ([⟨llama_gretype.CHAR, 0x61⟩] : llama_grammar_rule).drop 0 ++
          [⟨llama_gretype.RULE_REF,
            (get_symbol_id llama_grammar_parser_t.fresh (text_bytes "root")).2.symbol_ids.length⟩] ++
          [⟨llama_gretype.ALT, 0⟩, ⟨llama_gretype.END, 0⟩] ∧
      (∀ x, x ≠ (get_symbol_id llama_grammar_parser_t.fresh
            (text_bytes "root")).2.symbol_ids.length →
        p1.rules.getD x [] =
          (get_symbol_id llama_grammar_parser_t.fresh (text_bytes "root")).2.rules.getD x []) ∧
      (get_symbol_id llama_grammar_parser_t.fresh (text_bytes "root")).2.rules.length ≤
        (get_symbol_id llama_grammar_parser_t.fresh (text_bytes "root")).2.symbol_ids.length) ∧
    (∀ rule0 : llama_grammar_rule,
      parse_sequence (5 + 1) (0x7B :: (to_string 2 ++ 0x2C :: (to_string 4 ++ 0x7D :: [])))
          (text_bytes "root") rule0 rule0.length false
          (get_symbol_id llama_grammar_parser_t.fresh (text_bytes "root")).2 =
        .error (parse_fault.thrown parse_error.expecting_preceding_item,
          (get_symbol_id llama_grammar_parser_t.fresh (text_bytes "root")).2) ∧
      parse_sequence (5 + 1) (0x7B :: (to_string 2 ++ 0x2C :: 0x7D :: []))
          (text_bytes "root") rule0 rule0.length false
          (get_symbol_id llama_grammar_parser_t.fresh (text_bytes "root")).2 =
        .error (parse_fault.thrown parse_error.expecting_preceding_item,
          (get_symbol_id llama_grammar_parser_t.fresh (text_bytes "root")).2))) ∧
    parse 39 llama_grammar_parser_t.fresh (text_bytes "root ::= \"\"\x7b2,4\x7d") =
      .ok (false, ⟨[(text_bytes "root", 0)], []⟩) ∧
    parse 39 llama_grammar_parser_t.fresh (text_bytes "root ::= []\x7b2,\x7d") =
      .ok (false, ⟨[(text_bytes "root", 0)], []⟩) :=
  ⟨⟨parser_ok_get_symbol_id _ _ parser_ok_fresh (by decide),
      refs_below_single _ _ _ (fun h => by cases h), by decide, by decide, by decide, by decide⟩,
    rfl,
    repetition_desugaring 5 (get_symbol_id llama_grammar_parser_t.fresh (text_bytes "root")).2
      (text_bytes "root") [] [⟨llama_gretype.CHAR, 0x61⟩] 0 2 4 false
      (parser_ok_get_symbol_id _ _ parser_ok_fresh (by decide))
      (refs_below_single _ _ _ (fun h => by cases h)) (by decide) (by decide) (by decide)
      (by decide),
    rfl, rfl⟩

/-! ### Malformed texts (C20) -/

theorem parens_rules_parsed :
    parse 61 llama_grammar_parser_t.fresh (text_bytes "root ::= \"(\" root \")\" | \"\"") =
      .ok (true, ⟨[(text_bytes "root", 0)], parens_rules⟩) := rfl

theorem hidden_left_recursion_rules_parsed :
    parse 97 llama_grammar_parser_t.fresh
        (text_bytes "root ::= \"a\" x\nx ::= b x | \"y\"\nb ::= c\nc ::= \"\"") =
      .ok (true, ⟨[(text_bytes "root", 0), (text_bytes "x", 1), (text_bytes "b", 2),
        (text_bytes "c", 3)], hidden_left_recursion_rules⟩) := rfl

theorem seeded_left_recursion_rules_parsed :
    parse 83 llama_grammar_parser_t.fresh
        (text_bytes "root ::= b root | \"x\"\nb ::= c\nc ::= \"\"") =
      .ok (true, ⟨[(text_bytes "root", 0), (text_bytes "b", 1), (text_bytes "c", 2)],
        seeded_left_recursion_rules⟩) := rfl

theorem single_a_rules_parsed :
    parse 27 llama_grammar_parser_t.fresh (text_bytes "root ::= \"a\"") =
      .ok (true, ⟨[(text_bytes "root", 0)], single_a_rules⟩) := rfl

theorem negated_class_rules_parsed :
    parse 33 llama_grammar_parser_t.fresh (text_bytes "root ::= [^é]") =
      .ok (true, ⟨[(text_bytes "root", 0)], negated_class_rules⟩) := rfl

theorem int_list_rules_parsed :
    parse 97 llama_grammar_parser_t.fresh
        (text_bytes "root ::= digit+ (\",\" digit+)*\ndigit ::= [0-9]\n") =
      .ok (true, ⟨[(text_bytes "root", 0), (text_bytes "digit", 1), (text_bytes "root_2", 2),
        (text_bytes "root_3", 3), (text_bytes "root_4", 4), (text_bytes "root_5", 5)],
        int_list_rules⟩) := rfl

/-! ### Rule names (C21) -/

theorem is_word_char_iff (c : Nat) :
    is_word_char c = true ↔
      ((0x61 ≤ c ∧ c ≤ 0x7A) ∨ (0x41 ≤ c ∧ c ≤ 0x5A) ∨ (0x30 ≤ c ∧ c ≤ 0x39) ∨ c = 0x2D) := by
  unfold is_word_char is_digit_char
  simp only [Bool.or_eq_true, decide_eq_true_eq]
  omega

theorem peek_dropWhile (f : Nat → Bool) (hf : f 0 = false) :
    ∀ (src : List Nat), f (peek (src.dropWhile f)) = false := by
  intro src
  induction src with
  | nil => exact hf
  | cons c rest ih =>
    rw [List.dropWhile_cons]
    by_cases hc : f c = true
    · simp only [hc, if_true]
      exact ih
    · simp only [hc, Bool.false_eq_true, if_false]
      exact Bool.eq_false_iff.mpr hc

/-- C21 (as amended). Rule names match `[A-Za-z0-9-]+`: `is_word_char` holds of
letters, digits and the hyphen and of nothing else (not of the underscore);
`parse_name` fails exactly when the text does not start with such a character,
and otherwise returns the position after the longest prefix of such
characters: the name is that prefix, and the character that follows is not one
of them. -/
theorem parse_name_takes_word_chars (src : List Nat) :
    (∀ c, is_word_char c = true ↔
      ((0x61 ≤ c ∧ c ≤ 0x7A) ∨ (0x41 ≤ c ∧ c ≤ 0x5A) ∨ (0x30 ≤ c ∧ c ≤ 0x39) ∨ c = 0x2D)) ∧
    (src.takeWhile is_word_char = [] → parse_name src = .error parse_error.expecting_name) ∧
    (src.takeWhile is_word_char ≠ [] →
      parse_name src = .ok (src.dropWhile is_word_char) ∧
      text_between src (src.dropWhile is_word_char) = src.takeWhile is_word_char ∧
      src = src.takeWhile is_word_char ++ src.dropWhile is_word_char ∧
      is_word_char (peek (src.dropWhile is_word_char)) = false) := by
  have hlen : (src.takeWhile is_word_char).length + (src.dropWhile is_word_char).length =
      src.length := by
    have := congrArg List.length (List.takeWhile_append_dropWhile is_word_char src)
    rw [List.length_append] at this
    exact this
  refine ⟨is_word_char_iff, ?_, ?_⟩
  · intro h
    unfold parse_name
    have : (src.dropWhile is_word_char).length = src.length := by
      rw [h] at hlen
      simpa using hlen
    simp only [this, if_true]
  · intro h
    have hpos : 0 < (src.takeWhile is_word_char).length := List.length_pos.mpr h
    refine ⟨?_, text_between_dropWhile _ _, (List.takeWhile_append_dropWhile _ _).symm,
      peek_dropWhile _ (by decide) _⟩
    unfold parse_name
    have : ¬ ((src.dropWhile is_word_char).length = src.length) := by omega
    simp only [this, if_false]

/-- C21 (counterexample). The underscore is not a name character: `parse_name`
on `my_rule ::= "a"` stops after `my`, and the grammar
`root ::= my_rule` / `my_rule ::= "a"` does not parse. -/
theorem underscore_ends_name :
    is_word_char 0x5F = false ∧
      parse_name (text_bytes "my_rule ::= \"a\"") = .ok (text_bytes "_rule ::= \"a\"") ∧
      parse 71 llama_grammar_parser_t.fresh (text_bytes "root ::= my_rule\nmy_rule ::= \"a\"") =
        .ok (false, ⟨[(text_bytes "root", 0), (text_bytes "my", 1)], []⟩) ∧
      parse 35 llama_grammar_parser_t.fresh (text_bytes "my_rule ::= \"a\"") =
        .ok (false, ⟨[(text_bytes "my", 0)], []⟩) :=
  ⟨rfl, rfl, rfl, rfl⟩

theorem parse_name_takes_word_chars_witness :
    (text_bytes "my-rule2 ::= \"a\"").takeWhile is_word_char ≠ [] ∧
      (parse_name (text_bytes "my-rule2 ::= \"a\"") =
          .ok ((text_bytes "my-rule2 ::= \"a\"").dropWhile is_word_char) ∧
        text_between (text_bytes "my-rule2 ::= \"a\"")
            ((text_bytes "my-rule2 ::= \"a\"").dropWhile is_word_char) =
          (text_bytes "my-rule2 ::= \"a\"").takeWhile is_word_char ∧
        text_bytes "my-rule2 ::= \"a\"" =
          (text_bytes "my-rule2 ::= \"a\"").takeWhile is_word_char ++
            (text_bytes "my-rule2 ::= \"a\"").dropWhile is_word_char ∧
        is_word_char (peek ((text_bytes "my-rule2 ::= \"a\"").dropWhile is_word_char)) = false) ∧
      (text_bytes "my-rule2 ::= \"a\"").takeWhile is_word_char = text_bytes "my-rule2" :=
  ⟨by decide,
    (parse_name_takes_word_chars (text_bytes "my-rule2 ::= \"a\"")).2.2 (by decide), by decide⟩

/-! ### The root rule of a grammar text (C22) -/

/-- A text that parses without a rule named `root` gives no session, whatever
root name is asked for. -/
theorem init_str_without_root (fuel : Nat) (regex_compiles : String → Bool)
    (grammar_str grammar_root : List Nat) (lazy : Bool)
    (trigger_patterns : List String) (trigger_tokens : List Nat)
    (parsed : Bool) (parser : llama_grammar_parser_t)
    (hparse : parse fuel llama_grammar_parser_t.fresh grammar_str = .ok (parsed, parser))
    (hroot : parser.symbol_ids.lookup (text_bytes "root") = none) :
    llama_grammar_init_impl_str fuel regex_compiles grammar_str grammar_root lazy
      trigger_patterns trigger_tokens = .ok init_outcome.null := by
  unfold llama_grammar_init_impl_str
  rw [hparse]
  simp only
  split <;> rfl

/-- A text that parses with a rule named `root`, asked for a root name it does
not hold, ends in the `std::out_of_range` of `symbol_ids.at`. -/
theorem init_str_unknown_root (fuel : Nat) (regex_compiles : String → Bool)
    (grammar_str grammar_root : List Nat) (lazy : Bool)
    (trigger_patterns : List String) (trigger_tokens : List Nat)
    (parser : llama_grammar_parser_t)
    (hparse : parse fuel llama_grammar_parser_t.fresh grammar_str = .ok (true, parser))
    (hrules : parser.rules.isEmpty = false)
    (hroot : parser.symbol_ids.lookup (text_bytes "root") ≠ none)
    (hasked : parser.symbol_ids.lookup grammar_root = none) :
    llama_grammar_init_impl_str fuel regex_compiles grammar_str grammar_root lazy
      trigger_patterns trigger_tokens = .ok init_outcome.out_of_range := by
  unfold llama_grammar_init_impl_str
  rw [hparse]
  simp only
  rw [if_neg (by simp [hrules]), if_neg hroot, hasked]

/-- C22. The text overload of `llama_grammar_init_impl` tests for the literal
name `root`, not for the name asked for. The text `start ::= "a"` parses, it
defines the rule `start`, and the table overload builds a session from its rule
0 (so there is no left recursion), yet with the root name `start` the result is
`nullptr`. On the text `root ::= start`, `start ::= "a"` the root name `start`
gives a session seeded from rule 1, and the name `other`, which the text does
not define, gives neither a session nor `nullptr` but the `std::out_of_range`
thrown by `symbol_ids.at`. No trigger pattern is passed, so the regex engine
plays no part. -/
theorem init_requires_literal_root (regex_compiles : String → Bool) :
    parse 29 llama_grammar_parser_t.fresh (text_bytes "start ::= \"a\"") =
        .ok (true, ⟨[(text_bytes "start", 0)], single_a_rules⟩) ∧
      llama_grammar_init_impl 29 single_a_rules 0 false [] [] = .ok (some single_a_session) ∧
      llama_grammar_init_impl_str 29 regex_compiles (text_bytes "start ::= \"a\"")
        (text_bytes "start") false [] [] = .ok init_outcome.null ∧
      llama_grammar_init_impl_str 59 regex_compiles
        (text_bytes "root ::= start\nstart ::= \"a\"")
        (text_bytes "start") false [] [] =
          .ok (init_outcome.session
            ⟨[[⟨llama_gretype.RULE_REF, 1⟩, ⟨llama_gretype.END, 0⟩],
              [⟨llama_gretype.CHAR, 0x61⟩, ⟨llama_gretype.END, 0⟩]],
              [[⟨1, 0⟩]], ⟨0, 0⟩, false, false, [], [], []⟩) ∧
      llama_grammar_init_impl_str 59 regex_compiles
        (text_bytes "root ::= start\nstart ::= \"a\"")
        (text_bytes "other") false [] [] = .ok init_outcome.out_of_range :=
  ⟨rfl, rfl, rfl, rfl, rfl⟩

/-! ### Triggers and end-of-generation in `llama_grammar_accept_impl` (C23, C24, C25, C26) -/

theorem accept_str_eq (fuel : Nat) (g : llama_grammar) (piece : List Nat) :
    llama_grammar_accept_str fuel g piece =
      (match feed_frontier fuel g.rules g.cur_stacks
          (decode_utf8 piece g.partial_utf8).1.dropLast with
       | .error e => .error e
       | .ok frontier =>
         .ok (if frontier = [] then
             accept_outcome.parse_error
               { g with cur_stacks := frontier,
                        partial_utf8 := (decode_utf8 piece g.partial_utf8).2 }
           else
             accept_outcome.done
               { g with cur_stacks := frontier,
                        partial_utf8 := (decode_utf8 piece g.partial_utf8).2 })) := by
  unfold llama_grammar_accept_str
  simp only [accept_code_points_feed]
  cases feed_frontier fuel g.rules g.cur_stacks (decode_utf8 piece g.partial_utf8).1.dropLast with
  | error e => rfl
  | ok frontier =>
    simp only
    cases frontier with
    | nil => rfl
    | cons s ss => rfl

theorem find_trigger_none (regex_match : String → List Nat → Option (List (Nat × Nat)))
    (buffer : List Nat) :
    ∀ (patterns : List String),
      (∀ pattern ∈ patterns, regex_match pattern buffer = none) →
      find_trigger regex_match buffer patterns = none := by
  intro patterns
  induction patterns with
  | nil => intro _; rfl
  | cons p ps ih =>
    intro h
    rw [find_trigger, h p (List.mem_cons_self _ _)]
    exact ih (fun q hq => h q (List.mem_cons_of_mem _ hq))

theorem find_trigger_first (regex_match : String → List Nat → Option (List (Nat × Nat)))
    (buffer : List Nat) (groups : List (Nat × Nat)) (pattern : String) :
    ∀ (before after : List String),
      (∀ q ∈ before, regex_match q buffer = none) →
      regex_match pattern buffer = some groups →
      find_trigger regex_match buffer (before ++ pattern :: after) =
        some (trigger_start groups) := by
  intro before
  induction before with
  | nil =>
    intro after _ hm
    rw [List.nil_append, find_trigger, hm]
  | cons p ps ih =>
    intro after hb hm
    rw [List.cons_append, find_trigger, hb p (List.mem_cons_self _ _)]
    exact ih after (fun q hq => hb q (List.mem_cons_of_mem _ hq)) hm

/-- C23. For a session awaiting a trigger and a token of `trigger_tokens`:
`llama_grammar_accept_impl` is `llama_grammar_accept_str` on the token's piece
from the session made active with an empty trigger buffer. The call does not
depend on the previous content of the buffer; it returns exactly when
`llama_grammar_accept_str` on the session held before the call returns, and
then the session is active, its trigger buffer is empty, its frontier and
partial UTF-8 tail are those `llama_grammar_accept_str` produces from the
session held before the call, and it raises the parse-progress error exactly
when that call does. -/
theorem trigger_token_activates (fuel : Nat) (vocab : llama_vocab)
    (regex_match : String → List Nat → Option (List (Nat × Nat)))
    (g : llama_grammar) (token : Nat)
    (haw : g.awaiting_trigger = true) (htok : token ∈ g.trigger_tokens) :
    llama_grammar_accept_impl fuel vocab regex_match g token =
        llama_grammar_accept_str fuel { g with awaiting_trigger := false, trigger_buffer := [] }
          (vocab.token_to_piece token) ∧
      (∀ buffer, llama_grammar_accept_impl fuel vocab regex_match
          { g with trigger_buffer := buffer } token =
        llama_grammar_accept_impl fuel vocab regex_match g token) ∧
      (∀ o1, llama_grammar_accept_str fuel g (vocab.token_to_piece token) = .ok o1 →
        ∃ o, llama_grammar_accept_impl fuel vocab regex_match g token = .ok o) ∧
      (∀ o, llama_grammar_accept_impl fuel vocab regex_match g token = .ok o →
        o.grammar.awaiting_trigger = false ∧ o.grammar.trigger_buffer = [] ∧
        o.grammar.rules = g.rules ∧ o.grammar.lazy = g.lazy ∧
        o.grammar.trigger_tokens = g.trigger_tokens ∧
        o.grammar.trigger_patterns = g.trigger_patterns ∧
        ∃ o1, llama_grammar_accept_str fuel g (vocab.token_to_piece token) = .ok o1 ∧
          o.grammar.cur_stacks = o1.grammar.cur_stacks ∧
          o.grammar.partial_utf8 = o1.grammar.partial_utf8 ∧
          ((∃ g1, o = accept_outcome.parse_error g1) ↔
            ∃ g1, o1 = accept_outcome.parse_error g1)) := by
  have e : ∀ (h : llama_grammar), h.awaiting_trigger = true → token ∈ h.trigger_tokens →
      llama_grammar_accept_impl fuel vocab regex_match h token =
        llama_grammar_accept_str fuel { h with awaiting_trigger := false, trigger_buffer := [] }
          (vocab.token_to_piece token) := by
    intro h h1 h2
    unfold llama_grammar_accept_impl
    simp only [h1, h2, if_true]
  refine ⟨e g haw htok, ?_, ?_, ?_⟩
  · intro buffer
    rw [e g haw htok, e { g with trigger_buffer := buffer } haw htok]
  · intro o1 h1
    rw [e g haw htok, accept_str_eq]
    rw [accept_str_eq] at h1
    simp only at h1 ⊢
    cases hf : feed_frontier fuel g.rules g.cur_stacks
        (decode_utf8 (vocab.token_to_piece token) g.partial_utf8).1.dropLast with
    | error x => rw [hf] at h1; cases h1
    | ok frontier => exact ⟨_, rfl⟩
  · intro o ho
    rw [e g haw htok, accept_str_eq] at ho
    simp only at ho
    rw [accept_str_eq]
    cases hf : feed_frontier fuel g.rules g.cur_stacks
        (decode_utf8 (vocab.token_to_piece token) g.partial_utf8).1.dropLast with
    | error x => rw [hf] at ho; cases ho
    | ok frontier =>
      rw [hf] at ho
      simp only [Except.ok.injEq] at ho
      subst ho
      by_cases hn : frontier = []
      · simp only [hn, if_true]
        exact ⟨rfl, rfl, rfl, rfl, rfl, rfl, _, rfl, rfl, rfl, ⟨fun _ => ⟨_, rfl⟩, fun _ => ⟨_, rfl⟩⟩⟩
      · simp only [hn, if_false]
        refine ⟨rfl, rfl, rfl, rfl, rfl, rfl, _, rfl, rfl, rfl, ⟨?_, ?_⟩⟩
        · rintro ⟨g1, h1⟩
          cases h1
        · rintro ⟨g1, h1⟩
          cases h1

/-- C25. For a session awaiting a trigger, a token that is not in
`trigger_tokens`, and a buffer that, with the token's piece appended, no
trigger pattern matches: `llama_grammar_accept_impl` returns, and the session
differs from the one before only in its trigger buffer, which is the old
buffer followed by the piece. Nothing is asked of the token: it may be
end-of-generation or one the grammar would reject. -/
theorem dormant_token_is_buffered (fuel : Nat) (vocab : llama_vocab)
    (regex_match : String → List Nat → Option (List (Nat × Nat)))
    (g : llama_grammar) (token : Nat)
    (haw : g.awaiting_trigger = true) (htok : token ∉ g.trigger_tokens)
    (hno : ∀ pattern ∈ g.trigger_patterns,
      regex_match pattern (g.trigger_buffer ++ vocab.token_to_piece token) = none) :
    llama_grammar_accept_impl fuel vocab regex_match g token =
      .ok (accept_outcome.done
        { g with trigger_buffer := g.trigger_buffer ++ vocab.token_to_piece token }) := by
  unfold llama_grammar_accept_impl
  simp only [haw, htok, if_true, if_false]
  rw [find_trigger_none regex_match _ _ hno]

/-- C26. For an active session and an end-of-generation token:
`llama_grammar_accept_impl` returns the session unchanged when some stack of
the frontier is empty, and aborts (it does not raise the parse-progress error)
when none is; the outcome is the same whatever the token's piece is, so the
piece is not fed to the grammar. -/
theorem eog_on_active_session (fuel : Nat) (vocab : llama_vocab)
    (regex_match : String → List Nat → Option (List (Nat × Nat)))
    (g : llama_grammar) (token : Nat)
    (hact : g.awaiting_trigger = false) (heog : vocab.is_eog token = true) :
    (g.cur_stacks.any List.isEmpty = true →
      llama_grammar_accept_impl fuel vocab regex_match g token =
        .ok (accept_outcome.done g)) ∧
    (g.cur_stacks.any List.isEmpty = false →
      llama_grammar_accept_impl fuel vocab regex_match g token = .error Fault.abort) ∧
    (∀ (pieces : Nat → List Nat),
      llama_grammar_accept_impl fuel ⟨pieces, vocab.is_eog⟩ regex_match g token =
        llama_grammar_accept_impl fuel vocab regex_match g token) := by
  refine ⟨?_, ?_, ?_⟩
  · intro h
    unfold llama_grammar_accept_impl
    simp only [hact, heog, h, if_true, Bool.false_eq_true, if_false]
  · intro h
    unfold llama_grammar_accept_impl
    simp only [hact, heog, h, if_true, Bool.false_eq_true, if_false]
  · intro pieces
    unfold llama_grammar_accept_impl
    simp only [hact, heog, if_true, Bool.false_eq_true, if_false]

theorem find_first_positive :
    ∀ (l : List (Nat × Nat)) (i pos len : Nat),
      l.get? i = some (pos, len) → 0 < len →
      (∀ j p n, j < i → l.get? j = some (p, n) → n = 0) →
      l.find? (fun g => decide (g.2 > 0)) = some (pos, len) := by
  intro l
  induction l with
  | nil => intro i pos len h; simp at h
  | cons g gs ih =>
    intro i pos len h hlen hz
    cases i with
    | zero =>
      simp only [List.get?_cons_zero, Option.some.injEq] at h
      subst h
      rw [List.find?_cons]
      simp only [gt_iff_lt, hlen, decide_True]
    | succ i =>
      have hg : g.2 = 0 := hz 0 g.1 g.2 (Nat.succ_pos i) rfl
      rw [List.find?_cons]
      have : decide (g.2 > 0) = false := by rw [hg]; rfl
      simp only [this]
      exact ih i pos len h hlen (fun j p n hj hjn => hz (j + 1) p n (by omega) hjn)

theorem find_no_positive :
    ∀ (l : List (Nat × Nat)), (∀ j p n, l.get? j = some (p, n) → n = 0) →
      l.find? (fun g => decide (g.2 > 0)) = none := by
  intro l
  induction l with
  | nil => intro _; rfl
  | cons g gs ih =>
    intro hz
    have hg : g.2 = 0 := hz 0 g.1 g.2 rfl
    rw [List.find?_cons]
    have : decide (g.2 > 0) = false := by rw [hg]; rfl
    simp only [this]
    exact ih (fun j p n hjn => hz (j + 1) p n hjn)

theorem get?_tail (l : List (Nat × Nat)) (i : Nat) : l.tail.get? i = l.get? (i + 1) := by
  cases l with
  | nil => rfl
  | cons g gs => rfl

/-- C24 (as amended). When the first trigger pattern that matches the trigger
buffer (the old buffer followed by the token's piece) matches with the groups
`groups`, `llama_grammar_accept_impl` makes the session active, empties the
buffer and feeds the grammar exactly the suffix of the buffer from the start
offset on. The start offset is the position of the first capture group in
group order (the lowest index from 1 up) that has positive length, and the
position of group 0, the match start, when no capture group has positive
length. -/
theorem trigger_start_first_group (fuel : Nat) (vocab : llama_vocab)
    (regex_match : String → List Nat → Option (List (Nat × Nat)))
    (g : llama_grammar) (token : Nat) (pattern : String) (before after : List String)
    (groups : List (Nat × Nat))
    (haw : g.awaiting_trigger = true) (htok : token ∉ g.trigger_tokens)
    (hpat : g.trigger_patterns = before ++ pattern :: after)
    (hbefore : ∀ q ∈ before,
      regex_match q (g.trigger_buffer ++ vocab.token_to_piece token) = none)
    (hm : regex_match pattern (g.trigger_buffer ++ vocab.token_to_piece token) = some groups) :
    llama_grammar_accept_impl fuel vocab regex_match g token =
        llama_grammar_accept_str fuel { g with awaiting_trigger := false, trigger_buffer := [] }
          ((g.trigger_buffer ++ vocab.token_to_piece token).drop (trigger_start groups)) ∧
      (∀ i pos len, 1 ≤ i → groups.get? i = some (pos, len) → 0 < len →
        (∀ j p n, 1 ≤ j → j < i → groups.get? j = some (p, n) → n = 0) →
        trigger_start groups = pos) ∧
      ((∀ j p n, 1 ≤ j → groups.get? j = some (p, n) → n = 0) →
        trigger_start groups = (groups.headD (0, 0)).1) := by
  refine ⟨?_, ?_, ?_⟩
  · unfold llama_grammar_accept_impl
    simp only [haw, htok, if_true, if_false]
    rw [hpat, find_trigger_first regex_match _ groups pattern before after hbefore hm]
  · intro i pos len hi hget hlen hz
    unfold trigger_start
    obtain ⟨k, rfl⟩ : ∃ k, i = k + 1 := ⟨i - 1, by omega⟩
    rw [find_first_positive groups.tail k pos len (by rw [get?_tail]; exact hget) hlen
      (fun j p n hj hjn => hz (j + 1) p n (by omega) (by omega) (by rw [← get?_tail]; exact hjn))]
  · intro hz
    unfold trigger_start
    rw [find_no_positive groups.tail
      (fun j p n hjn => hz (j + 1) p n (by omega) (by rw [← get?_tail]; exact hjn))]

/-- C24 (counterexample). The buffer "xa" matched with group 1 at position 1
(a group inside a lookahead) and group 2 at position 0: the earliest non-empty
capture group starts at 0, but the grammar is fed from offset 1, the position
of the first group in group order. The grammar `root ::= "a"` is fed "a" and
accepts it; fed from offset 0 it would get "xa" and raise the parse-progress
error. -/
theorem first_group_is_not_earliest :
    lookahead_match "(?=.*(a))(x).*" [0x78, 0x61] = some [(0, 2), (1, 1), (0, 1)] ∧
      trigger_start [(0, 2), (1, 1), (0, 1)] = 1 ∧
      earliest_capture_start [(0, 2), (1, 1), (0, 1)] = 0 ∧
      llama_grammar_accept_impl 3 letters_vocab lookahead_match single_a_lazy_session 0 =
        .ok (accept_outcome.done
          ⟨single_a_rules, [[]], ⟨0x61, 0⟩, true, false, [], [7], ["(?=.*(a))(x).*"]⟩) ∧
      llama_grammar_accept_str 3
          { single_a_lazy_session with awaiting_trigger := false, trigger_buffer := [] }
          ([0x78, 0x61].drop (earliest_capture_start [(0, 2), (1, 1), (0, 1)])) =
        .ok (accept_outcome.parse_error
          ⟨single_a_rules, [], ⟨0x61, 0⟩, true, false, [], [7], ["(?=.*(a))(x).*"]⟩) :=
  ⟨rfl, rfl, rfl, rfl, rfl⟩

theorem trigger_start_first_group_witness :
    (single_a_lazy_session.awaiting_trigger = true ∧
      0 ∉ single_a_lazy_session.trigger_tokens ∧
      single_a_lazy_session.trigger_patterns = [] ++ "(?=.*(a))(x).*" :: [] ∧
      lookahead_match "(?=.*(a))(x).*"
          (single_a_lazy_session.trigger_buffer ++ letters_vocab.token_to_piece 0) =
        some [(0, 2), (1, 1), (0, 1)]) ∧
    (llama_grammar_accept_impl 3 letters_vocab lookahead_match single_a_lazy_session 0 =
        llama_grammar_accept_str 3
          { single_a_lazy_session with awaiting_trigger := false, trigger_buffer := [] }
          ((single_a_lazy_session.trigger_buffer ++ letters_vocab.token_to_piece 0).drop
            (trigger_start [(0, 2), (1, 1), (0, 1)])) ∧
      (∀ i pos len, 1 ≤ i → [(0, 2), (1, 1), (0, 1)].get? i = some (pos, len) → 0 < len →
        (∀ j p n, 1 ≤ j → j < i → [(0, 2), (1, 1), (0, 1)].get? j = some (p, n) → n = 0) →
        trigger_start [(0, 2), (1, 1), (0, 1)] = pos) ∧
      ((∀ j p n, 1 ≤ j → [(0, 2), (1, 1), (0, 1)].get? j = some (p, n) → n = 0) →
        trigger_start [(0, 2), (1, 1), (0, 1)] = ([(0, 2), (1, 1), (0, 1)].headD (0, 0)).1)) :=
  ⟨⟨rfl, by decide, rfl, rfl⟩,
    trigger_start_first_group 3 letters_vocab lookahead_match single_a_lazy_session 0
      "(?=.*(a))(x).*" [] [] [(0, 2), (1, 1), (0, 1)] rfl (by decide) rfl
      (fun q hq => by cases hq) rfl⟩

theorem trigger_token_activates_witness :
    (single_a_lazy_session.awaiting_trigger = true ∧
      7 ∈ single_a_lazy_session.trigger_tokens) ∧
    llama_grammar_accept_impl 3 letters_vocab lookahead_match
        { single_a_lazy_session with trigger_tokens := [0] } 0 =
      .ok (accept_outcome.done
        ⟨single_a_rules, [[]], ⟨0x61, 0⟩, true, false, [], [0], ["(?=.*(a))(x).*"]⟩) ∧
    (llama_grammar_accept_impl 3 letters_vocab lookahead_match single_a_lazy_session 7 =
        llama_grammar_accept_str 3
          { single_a_lazy_session with awaiting_trigger := false, trigger_buffer := [] }
          (letters_vocab.token_to_piece 7) ∧
      (∀ buffer, llama_grammar_accept_impl 3 letters_vocab lookahead_match
          { single_a_lazy_session with trigger_buffer := buffer } 7 =
        llama_grammar_accept_impl 3 letters_vocab lookahead_match single_a_lazy_session 7) ∧
      (∀ o1, llama_grammar_accept_str 3 single_a_lazy_session
          (letters_vocab.token_to_piece 7) = .ok o1 →
        ∃ o, llama_grammar_accept_impl 3 letters_vocab lookahead_match
          single_a_lazy_session 7 = .ok o) ∧
      (∀ o, llama_grammar_accept_impl 3 letters_vocab lookahead_match
          single_a_lazy_session 7 = .ok o →
        o.grammar.awaiting_trigger = false ∧ o.grammar.trigger_buffer = [] ∧
        o.grammar.rules = single_a_lazy_session.rules ∧
        o.grammar.lazy = single_a_lazy_session.lazy ∧
        o.grammar.trigger_tokens = single_a_lazy_session.trigger_tokens ∧
        o.grammar.trigger_patterns = single_a_lazy_session.trigger_patterns ∧
        ∃ o1, llama_grammar_accept_str 3 single_a_lazy_session
            (letters_vocab.token_to_piece 7) = .ok o1 ∧
          o.grammar.cur_stacks = o1.grammar.cur_stacks ∧
          o.grammar.partial_utf8 = o1.grammar.partial_utf8 ∧
          ((∃ g1, o = accept_outcome.parse_error g1) ↔
            ∃ g1, o1 = accept_outcome.parse_error g1))) :=
  ⟨⟨rfl, by decide⟩, rfl,
    trigger_token_activates 3 letters_vocab lookahead_match single_a_lazy_session 7 rfl
      (by decide)⟩

theorem dormant_token_is_buffered_witness :
    (single_a_lazy_session.awaiting_trigger = true ∧
      26 ∉ single_a_lazy_session.trigger_tokens ∧
      letters_vocab.is_eog 26 = true ∧
      ∀ pattern ∈ single_a_lazy_session.trigger_patterns,
        lookahead_match pattern
          (single_a_lazy_session.trigger_buffer ++ letters_vocab.token_to_piece 26) = none) ∧
    llama_grammar_accept_impl 3 letters_vocab lookahead_match single_a_lazy_session 26 =
      .ok (accept_outcome.done
        { single_a_lazy_session with
          trigger_buffer :=
            single_a_lazy_session.trigger_buffer ++ letters_vocab.token_to_piece 26 }) :=
  ⟨⟨rfl, by decide, rfl, fun _ _ => rfl⟩,
    dormant_token_is_buffered 3 letters_vocab lookahead_match single_a_lazy_session 26 rfl
      (by decide) (fun _ _ => rfl)⟩

theorem eog_on_active_session_witness :
    (parens_session.awaiting_trigger = false ∧ letters_vocab.is_eog 26 = true ∧
      parens_session.cur_stacks.any List.isEmpty = true ∧
      single_a_session.awaiting_trigger = false ∧
      single_a_session.cur_stacks.any List.isEmpty = false) ∧
    llama_grammar_accept_impl 3 letters_vocab lookahead_match parens_session 26 =
      .ok (accept_outcome.done parens_session) ∧
    llama_grammar_accept_impl 3 letters_vocab lookahead_match single_a_session 26 =
      .error Fault.abort :=
  ⟨⟨rfl, rfl, rfl, rfl, rfl⟩,
    (eog_on_active_session 3 letters_vocab lookahead_match parens_session 26 rfl rfl).1 rfl,
    (eog_on_active_session 3 letters_vocab lookahead_match single_a_session 26 rfl rfl).2.1 rfl⟩

/-! ### Empty pieces and pieces that start with NUL (C28) -/

/-- C28 (as amended). For an active session and a logit array:
`llama_grammar_apply_impl` returns exactly when the candidate filter returns on
the candidates it collects; in the array it returns every token that is not
end-of-generation and whose piece is empty or begins with a NUL byte has logit
`-INFINITY`; and an end-of-generation token, whatever its piece, has logit
`-INFINITY` when no stack of the frontier is empty and its previous logit when
some stack is empty. -/
theorem apply_masks_empty_pieces (fuel : Nat) (vocab : llama_vocab) (g : llama_grammar)
    (cur_p : List llama_token_data) (hact : g.awaiting_trigger = false) :
    ((∃ out, llama_grammar_apply_impl fuel vocab g cur_p = .ok out) ↔
      ∃ rejects, llama_grammar_reject_candidates fuel g.rules g.cur_stacks
        (apply_scan vocab g (g.cur_stacks.any List.isEmpty) cur_p 0).2 = .ok rejects) ∧
    (∀ out, llama_grammar_apply_impl fuel vocab g cur_p = .ok out →
      ∀ k d, cur_p.get? k = some d → vocab.is_eog d.id = false →
        ((vocab.token_to_piece d.id).isEmpty = true ∨
          (vocab.token_to_piece d.id).head? = some 0) →
        out.get? k = some ⟨d.id, logit_t.neg_infinity⟩) ∧
    (∀ out, llama_grammar_apply_impl fuel vocab g cur_p = .ok out →
      ∀ k d, cur_p.get? k = some d → vocab.is_eog d.id = true →
        out.get? k = some ⟨d.id,
          if g.cur_stacks.any List.isEmpty = true then d.logit
          else logit_t.neg_infinity⟩) := by
  refine ⟨apply_returns_iff_filter fuel vocab g cur_p hact, ?_,
    fun out h k d hk heog => apply_eog_entries fuel vocab g cur_p hact out h k d hk heog⟩
  rw [apply_active_eq fuel vocab g cur_p hact]
  intro out h k d hk heog hpiece
  cases hr : llama_grammar_reject_candidates fuel g.rules g.cur_stacks
      (apply_scan vocab g (g.cur_stacks.any List.isEmpty) cur_p 0).2 with
  | error e => rw [hr] at h; cases h
  | ok rejects =>
    rw [hr] at h
    simp only [Except.ok.injEq] at h
    subst h
    rw [apply_result_get, hk]
    have hs : scan_masks vocab (g.cur_stacks.any List.isEmpty) d.id = true := by
      unfold scan_masks
      simp only [heog, Bool.false_eq_true, if_false, decide_eq_true_eq]
      exact hpiece
    simp only [Option.map_some', hs, Bool.or_true]
    rfl

/-- C28 (counterexample). An end-of-generation token with an empty piece, on a
session whose frontier holds the empty stack: `llama_grammar_apply_impl` leaves
its logit as it is. -/
theorem empty_eog_piece_stays_unmasked :
    empty_eog_vocab.token_to_piece 0 = [] ∧ empty_eog_vocab.is_eog 0 = true ∧
      parens_session.awaiting_trigger = false ∧
      llama_grammar_apply_impl 6 empty_eog_vocab parens_session
          [⟨0, logit_t.finite 5⟩, ⟨1, logit_t.finite 6⟩] =
        .ok [⟨0, logit_t.finite 5⟩, ⟨1, logit_t.neg_infinity⟩] :=
  ⟨rfl, rfl, rfl, rfl⟩

theorem apply_masks_empty_pieces_witness :
    (parens_session.awaiting_trigger = false ∧ nul_pieces_vocab.is_eog 1 = false ∧
      (nul_pieces_vocab.token_to_piece 1).head? = some 0) ∧
    llama_grammar_apply_impl 6 nul_pieces_vocab parens_session
        [⟨0, logit_t.finite 5⟩, ⟨1, logit_t.finite 6⟩, ⟨2, logit_t.finite 7⟩] =
      .ok [⟨0, logit_t.neg_infinity⟩, ⟨1, logit_t.neg_infinity⟩, ⟨2, logit_t.finite 7⟩] ∧
    [(⟨0, logit_t.neg_infinity⟩ : llama_token_data), ⟨1, logit_t.neg_infinity⟩,
        ⟨2, logit_t.finite 7⟩].get? 1 = some ⟨1, logit_t.neg_infinity⟩ ∧
    (empty_eog_vocab.is_eog 0 = true ∧ parens_session.cur_stacks.any List.isEmpty = true) ∧
    [(⟨0, logit_t.finite 5⟩ : llama_token_data), ⟨1, logit_t.neg_infinity⟩].get? 0 =
      some ⟨0, if parens_session.cur_stacks.any List.isEmpty = true then logit_t.finite 5
        else logit_t.neg_infinity⟩ :=
  ⟨⟨rfl, rfl, rfl⟩, rfl,
    (apply_masks_empty_pieces 6 nul_pieces_vocab parens_session
      [⟨0, logit_t.finite 5⟩, ⟨1, logit_t.finite 6⟩, ⟨2, logit_t.finite 7⟩] rfl).2.1 _ rfl 1
      ⟨1, logit_t.finite 6⟩ rfl rfl (Or.inr rfl),
    ⟨rfl, rfl⟩,
    (apply_masks_empty_pieces 6 empty_eog_vocab parens_session
      [⟨0, logit_t.finite 5⟩, ⟨1, logit_t.finite 6⟩] rfl).2.2 _ rfl 0
      ⟨0, logit_t.finite 5⟩ rfl rfl⟩

/-! ### Stack entries point at items of the table -/

theorem entry_ok_in_table (rules : llama_grammar_rules) (entry : elem_ptr)
    (h : llama_grammar_is_end_of_sequence (rules_at rules entry) = false) :
    entry.rule < rules.length ∧ entry.idx < (rules.getD entry.rule []).length := by
  have hidx : entry.idx < (rules.getD entry.rule []).length := by
    by_contra hge
    have : rules_at rules entry = ⟨llama_gretype.END, 0⟩ := by
      unfold rules_at rule_at
      exact List.getD_eq_default _ _ (Nat.le_of_not_lt hge)
    rw [this] at h
    cases h
  refine ⟨?_, hidx⟩
  by_contra hge
  rw [List.getD_eq_default _ _ (Nat.le_of_not_lt hge)] at hidx
  simp at hidx

theorem push_unless_end_entries_ok (rules : llama_grammar_rules) (pos : elem_ptr)
    (stack : llama_grammar_stack) (h : stack_entries_ok rules stack) :
    stack_entries_ok rules (push_unless_end rules pos stack) := by
  unfold push_unless_end
  split
  · exact h
  · rename_i hne
    intro entry he
    rcases List.mem_cons.mp he with he | he
    · rw [he]
      exact Bool.eq_false_iff.mpr hne
    · exact h entry he

theorem push_unique_entries_ok (rules : llama_grammar_rules) (ss : llama_grammar_stacks)
    (s : llama_grammar_stack) (hss : frontier_entries_ok rules ss)
    (hs : stack_entries_ok rules s) : frontier_entries_ok rules (push_unique ss s) := by
  unfold push_unique
  split
  · exact hss
  · intro t ht
    rcases List.mem_append.mp ht with h | h
    · exact hss t h
    · simp only [List.mem_singleton] at h
      exact h ▸ hs

theorem advance_stack_entries_ok :
    ∀ (fuel : Nat) (rules : llama_grammar_rules) (stack : llama_grammar_stack)
      (new_stacks res : llama_grammar_stacks),
      frontier_entries_ok rules new_stacks → stack_entries_ok rules stack →
      llama_grammar_advance_stack fuel rules stack new_stacks = .ok res →
      frontier_entries_ok rules res := by
  intro fuel
  induction fuel with
  | zero => intro rules stack new_stacks res _ _ h; simp [llama_grammar_advance_stack] at h
  | succ n ih =>
    intro rules stack new_stacks res hacc hst h
    unfold llama_grammar_advance_stack at h
    cases stack with
    | nil =>
      simp only [Except.ok.injEq] at h
      exact h ▸ push_unique_entries_ok rules _ _ hacc hst
    | cons pos rest =>
      simp only at h
      have hrest : stack_entries_ok rules rest :=
        fun e he => hst e (List.mem_cons_of_mem _ he)
      split at h
      · exact foldlM_ok_inv (frontier_entries_ok rules) _ _ _ _
          (fun acc a r _ hP hr => ih _ _ _ _ hP
            (push_unless_end_entries_ok rules _ _
              (push_unless_end_entries_ok rules _ _ hrest)) hr) hacc h
      · simp only [Except.ok.injEq] at h
        exact h ▸ push_unique_entries_ok rules _ _ hacc hst
      · simp only [Except.ok.injEq] at h
        exact h ▸ push_unique_entries_ok rules _ _ hacc hst
      · simp only [Except.ok.injEq] at h
        exact h ▸ push_unique_entries_ok rules _ _ hacc hst
      · cases h

theorem accept_stack_entries_ok (fuel : Nat) (rules : llama_grammar_rules) (chr : Nat)
    (acc : llama_grammar_stacks) (stack : llama_grammar_stack) (res : llama_grammar_stacks)
    (hacc : frontier_entries_ok rules acc) (hst : stack_entries_ok rules stack)
    (h : accept_stack fuel rules chr acc stack = .ok res) :
    frontier_entries_ok rules res := by
  unfold accept_stack at h
  cases stack with
  | nil => simp only [Except.ok.injEq] at h; exact h ▸ hacc
  | cons top rest =>
    simp only at h
    split at h
    · cases h
    · split at h
      · exact advance_stack_entries_ok _ _ _ _ _ hacc
          (push_unless_end_entries_ok rules _ _
            (fun e he => hst e (List.mem_cons_of_mem _ he))) h
      · simp only [Except.ok.injEq] at h; exact h ▸ hacc

theorem accept_stacks_entries_ok (fuel : Nat) (rules : llama_grammar_rules)
    (ss : llama_grammar_stacks) (chr : Nat) (res : llama_grammar_stacks)
    (hss : frontier_entries_ok rules ss)
    (h : accept_stacks fuel rules ss chr = .ok res) : frontier_entries_ok rules res := by
  unfold accept_stacks at h
  exact foldlM_ok_inv (frontier_entries_ok rules) _ _ _ _
    (fun acc a r ha hP hr => accept_stack_entries_ok fuel rules chr acc a r hP (hss a ha) hr)
    (fun s hs => by cases hs) h

theorem feed_frontier_entries_ok (fuel : Nat) (rules : llama_grammar_rules) :
    ∀ (chrs : List Nat) (ss res : llama_grammar_stacks),
      frontier_entries_ok rules ss → feed_frontier fuel rules ss chrs = .ok res →
      frontier_entries_ok rules res := by
  intro chrs
  induction chrs with
  | nil =>
    intro ss res hss h
    simp only [feed_frontier, Except.ok.injEq] at h
    exact h ▸ hss
  | cons c cs ih =>
    intro ss res hss h
    simp only [feed_frontier] at h
    split at h
    · cases h
    · rename_i r hr
      exact ih r res (accept_stacks_entries_ok _ _ _ _ _ hss hr) h

theorem accept_str_entries_ok (fuel : Nat) (g : llama_grammar) (piece : List Nat)
    (o : accept_outcome) (hg : frontier_entries_ok g.rules g.cur_stacks)
    (h : llama_grammar_accept_str fuel g piece = .ok o) :
    frontier_entries_ok o.grammar.rules o.grammar.cur_stacks := by
  rw [accept_str_eq] at h
  split at h
  · cases h
  · rename_i frontier hf
    have h1 := feed_frontier_entries_ok fuel g.rules _ _ _ hg hf
    simp only [Except.ok.injEq] at h
    subst h
    split
    · exact h1
    · exact h1

theorem accept_impl_entries_ok (fuel : Nat) (vocab : llama_vocab)
    (regex_match : String → List Nat → Option (List (Nat × Nat)))
    (g : llama_grammar) (token : Nat)
    (o : accept_outcome) (hg : frontier_entries_ok g.rules g.cur_stacks)
    (h : llama_grammar_accept_impl fuel vocab regex_match g token = .ok o) :
    frontier_entries_ok o.grammar.rules o.grammar.cur_stacks := by
  unfold llama_grammar_accept_impl at h
  simp only at h
  split at h
  · split at h
    · exact accept_str_entries_ok fuel
        { g with awaiting_trigger := false, trigger_buffer := [] } _ o hg h
    · split at h
      · exact accept_str_entries_ok fuel
          { g with awaiting_trigger := false, trigger_buffer := [] } _ o hg h
      · simp only [Except.ok.injEq] at h; subst h; exact hg
  · split at h
    · split at h
      · simp only [Except.ok.injEq] at h; subst h; exact hg
      · cases h
    · exact accept_str_entries_ok fuel _ _ o hg h

theorem init_stacks_entries_ok (fuel : Nat) (vec_rules : llama_grammar_rules) (start : Nat)
    (res : llama_grammar_stacks) (h : init_stacks fuel vec_rules start = .ok res) :
    frontier_entries_ok vec_rules res := by
  unfold init_stacks at h
  exact foldlM_ok_inv (frontier_entries_ok vec_rules) _ _ _ _
    (fun acc a r _ hP hr => advance_stack_entries_ok _ _ _ _ _ hP
      (push_unless_end_entries_ok vec_rules _ _ (fun e he => by cases he)) hr)
    (fun s hs => by cases hs) h

theorem reachable_entries_ok (g : llama_grammar) (h : session_reachable g) :
    frontier_entries_ok g.rules g.cur_stacks := by
  induction h with
  | init fuel rules start lazy tt tp g hinit =>
    obtain ⟨hr, hs, _, _⟩ := init_impl_some _ _ _ _ _ _ _ hinit
    rw [hr]
    exact init_stacks_entries_ok _ _ _ _ hs
  | accept fuel g g1 chr _ hacc ih =>
    unfold llama_grammar_accept at hacc
    split at hacc
    · cases hacc
    · rename_i r hr
      simp only [Except.ok.injEq] at hacc
      subst hacc
      exact accept_stacks_entries_ok _ _ _ _ _ ih hr
  | accept_str fuel g piece o _ hacc ih => exact accept_str_entries_ok _ _ _ _ ih hacc
  | accept_impl fuel vocab rm g token o _ hacc ih =>
    exact accept_impl_entries_ok _ _ _ _ _ _ ih hacc

/-! ### A code point split across tokens (C30) -/

/-- C30. On the fresh eager session of `root ::= "é"` (bytes `C3 A9`),
`llama_grammar_apply_impl` leaves unmasked the pieces `C3` and `C3 A9`, and also
the pieces `C3 29`, `C3 69`, `E0 83`, `E0 83 A9` and `F0 80 83`, none of which
is a prefix of `C3 A9`; it masks `A9`, `41` and `C3 A9 41`. After the token
`C3` has been accepted, the only piece of the ten left unmasked is `A9`. -/
theorem split_code_point_admits_non_prefixes :
    parse 29 llama_grammar_parser_t.fresh (text_bytes "root ::= \"é\"") =
        .ok (true, ⟨[(text_bytes "root", 0)], e_acute_rules⟩) ∧
      llama_grammar_init_impl 6 e_acute_rules 0 false [] [] = .ok (some e_acute_session) ∧
      llama_grammar_apply_impl 6 split_vocab e_acute_session (flat_logits 10) =
        .ok [⟨0, logit_t.finite 0⟩, ⟨1, logit_t.finite 0⟩, ⟨2, logit_t.neg_infinity⟩,
          ⟨3, logit_t.neg_infinity⟩, ⟨4, logit_t.neg_infinity⟩, ⟨5, logit_t.finite 0⟩,
          ⟨6, logit_t.finite 0⟩, ⟨7, logit_t.finite 0⟩, ⟨8, logit_t.finite 0⟩,
          ⟨9, logit_t.finite 0⟩] ∧
      llama_grammar_accept_impl 6 split_vocab (fun _ _ => none) e_acute_session 0 =
        .ok (accept_outcome.done e_acute_half_session) ∧
      llama_grammar_apply_impl 6 split_vocab e_acute_half_session (flat_logits 10) =
        .ok [⟨0, logit_t.neg_infinity⟩, ⟨1, logit_t.neg_infinity⟩, ⟨2, logit_t.finite 0⟩,
          ⟨3, logit_t.neg_infinity⟩, ⟨4, logit_t.neg_infinity⟩, ⟨5, logit_t.neg_infinity⟩,
          ⟨6, logit_t.neg_infinity⟩, ⟨7, logit_t.neg_infinity⟩, ⟨8, logit_t.neg_infinity⟩,
          ⟨9, logit_t.neg_infinity⟩] :=
  ⟨rfl, rfl, rfl, rfl, rfl⟩

/-! ### Which strings a fresh session accepts (C29) -/

theorem class_head_type (rules : llama_grammar_rules) (pos : elem_ptr) (cls : char_class)
    (h : class_at rules pos cls) :
    (rules_at rules pos).type = llama_gretype.CHAR ∨
      (rules_at rules pos).type = llama_gretype.CHAR_NOT ∨
      (rules_at rules pos).type = llama_gretype.CHAR_ANY := by
  obtain ⟨pre, post, hrule, hidx, _, _⟩ := h
  unfold rules_at
  rw [hrule, hidx, List.append_assoc, rule_at_append_zero]
  cases cls with
  | positive first others =>
    left
    simp only [char_class.encode, List.append_assoc]
    exact class_item_encode_head _ _ _
  | negated first others =>
    right; left
    simp only [char_class.encode, List.append_assoc]
    exact class_item_encode_head _ _ _
  | any value =>
    right; right
    simp [char_class.encode, rule_at]

theorem match_char_at_class (rules : llama_grammar_rules) (pos : elem_ptr) (cls : char_class)
    (chr : Nat) (h : class_at rules pos cls) :
    llama_grammar_match_char rules pos chr =
      .ok (cls.accepts chr, pos.add cls.encode.length) := by
  obtain ⟨pre, post, hrule, hidx, hp1, hp2⟩ := h
  unfold elem_ptr.add
  cases cls with
  | positive first others =>
    have hloop := match_char_loop_spec _ chr post hp1 hp2 others first pre llama_gretype.CHAR
      false ((rules.getD pos.rule []).length + 1) (by decide)
      (class_fuel_bound _ pre post first _ others hrule) hrule
    have hhead : (rule_at (rules.getD pos.rule []) pos.idx).type = llama_gretype.CHAR := by
      rw [hrule, hidx, List.append_assoc, rule_at_append_zero]
      simp only [char_class.encode, List.append_assoc]
      exact class_item_encode_head _ _ _
    rw [hidx] at hhead
    unfold llama_grammar_match_char
    simp only [hidx, hhead, hloop]
    simp [char_class.accepts, char_class.encode]
  | negated first others =>
    have hloop := match_char_loop_spec _ chr post hp1 hp2 others first pre
      llama_gretype.CHAR_NOT
      false ((rules.getD pos.rule []).length + 1) (by decide)
      (class_fuel_bound _ pre post first _ others hrule) hrule
    have hhead : (rule_at (rules.getD pos.rule []) pos.idx).type = llama_gretype.CHAR_NOT := by
      rw [hrule, hidx, List.append_assoc, rule_at_append_zero]
      simp only [char_class.encode, List.append_assoc]
      exact class_item_encode_head _ _ _
    rw [hidx] at hhead
    unfold llama_grammar_match_char
    simp only [hidx, hhead, hloop]
    simp [char_class.accepts, char_class.encode]
  | any value =>
    have e0 : rule_at (rules.getD pos.rule []) pre.length = ⟨llama_gretype.CHAR_ANY, value⟩ := by
      rw [hrule, List.append_assoc, rule_at_append_zero]; simp [rule_at, char_class.encode]
    have e1 : rule_at (rules.getD pos.rule []) (pre.length + 1) = rule_at post 0 := by
      rw [hrule, List.append_assoc, rule_at_append_right]; simp [rule_at, char_class.encode]
    unfold llama_grammar_match_char
    simp only [hidx, e0, match_char_loop, e1, hp1, hp2, if_false, ↓reduceIte]
    simp [char_class.accepts, char_class.encode]

theorem class_not_end (rules : llama_grammar_rules) (pos : elem_ptr) (cls : char_class)
    (h : class_at rules pos cls) :
    llama_grammar_is_end_of_sequence (rules_at rules pos) = false := by
  unfold llama_grammar_is_end_of_sequence
  rcases class_head_type rules pos cls h with h1 | h1 | h1 <;> rw [h1]

theorem ref_not_end (e : llama_grammar_element) (h : e.type = llama_gretype.RULE_REF) :
    llama_grammar_is_end_of_sequence e = false := by
  unfold llama_grammar_is_end_of_sequence
  rw [h]

theorem class_not_ref (rules : llama_grammar_rules) (pos : elem_ptr) (cls : char_class)
    (h : class_at rules pos cls) : (rules_at rules pos).type ≠ llama_gretype.RULE_REF := by
  rcases class_head_type rules pos cls h with h1 | h1 | h1 <;> rw [h1] <;> decide

theorem seq_derives_at_end (rules : llama_grammar_rules) (pos : elem_ptr) (w : List Nat)
    (hend : llama_grammar_is_end_of_sequence (rules_at rules pos) = true)
    (h : seq_derives rules pos w) : w = [] := by
  cases h with
  | done _ _ => rfl
  | char _ cls c w hc _ _ =>
    rw [class_not_end rules pos cls hc] at hend
    cases hend
  | ref _ sub w1 w2 ht _ _ _ =>
    rw [ref_not_end _ ht] at hend
    cases hend

theorem seq_derives_at_ref (rules : llama_grammar_rules) (pos : elem_ptr) (w : List Nat)
    (ht : (rules_at rules pos).type = llama_gretype.RULE_REF)
    (h : seq_derives rules pos w) :
    ∃ sub w1 w2, w = w1 ++ w2 ∧
      sub ∈ rule_alternates (rules.getD (rules_at rules pos).value []) ∧
      seq_derives rules ⟨(rules_at rules pos).value, sub⟩ w1 ∧
      seq_derives rules (pos.add 1) w2 := by
  cases h with
  | done _ hend =>
    rw [ref_not_end _ ht] at hend
    cases hend
  | char _ cls c w hc _ _ => exact absurd ht (class_not_ref rules pos cls hc)
  | ref _ sub w1 w2 _ hsub h1 h2 => exact ⟨sub, w1, w2, rfl, hsub, h1, h2⟩

theorem seq_derives_at_class (rules : llama_grammar_rules) (pos : elem_ptr) (w : List Nat)
    (hend : llama_grammar_is_end_of_sequence (rules_at rules pos) = false)
    (ht : (rules_at rules pos).type ≠ llama_gretype.RULE_REF)
    (h : seq_derives rules pos w) :
    ∃ cls c w1, w = c :: w1 ∧ class_at rules pos cls ∧ cls.accepts c = true ∧
      seq_derives rules (pos.add cls.encode.length) w1 := by
  cases h with
  | done _ hend1 =>
    rw [hend] at hend1
    cases hend1
  | char _ cls c w hc ha hs => exact ⟨cls, c, w, rfl, hc, ha, hs⟩
  | ref _ sub w1 w2 ht1 _ _ _ => exact absurd ht1 ht

theorem stack_derives_push (rules : llama_grammar_rules) (pos : elem_ptr)
    (stack : llama_grammar_stack) (v : List Nat) :
    stack_derives rules (push_unless_end rules pos stack) v ↔
      ∃ v1 v2, v = v1 ++ v2 ∧ seq_derives rules pos v1 ∧ stack_derives rules stack v2 := by
  unfold push_unless_end
  split
  · rename_i hend
    constructor
    · intro h
      exact ⟨[], v, rfl, seq_derives.done pos hend, h⟩
    · rintro ⟨v1, v2, hv, h1, h2⟩
      have := seq_derives_at_end rules pos v1 hend h1
      subst this
      rw [hv]
      exact h2
  · rfl

theorem mem_push_unique (acc : llama_grammar_stacks) (stack s : llama_grammar_stack) :
    s ∈ push_unique acc stack ↔ s ∈ acc ∨ s = stack := by
  unfold push_unique
  split
  · rename_i hmem
    constructor
    · exact Or.inl
    · rintro (h | h)
      · exact h
      · exact h ▸ hmem
  · simp

theorem foldlM_frontier_spec {α : Type} (rules : llama_grammar_rules)
    (f : llama_grammar_stacks → α → Run llama_grammar_stacks) (G : α → List Nat → Prop) :
    ∀ (l : List α) (acc res : llama_grammar_stacks),
      (∀ a ∈ l, ∀ acc r, f acc a = .ok r →
        (∀ s ∈ acc, s ∈ r) ∧
        (∀ s ∈ r, s ∈ acc ∨ ∀ v, stack_derives rules s v → G a v) ∧
        (∀ v, G a v → ∃ s ∈ r, stack_derives rules s v)) →
      l.foldlM f acc = .ok res →
      (∀ s ∈ acc, s ∈ res) ∧
      (∀ s ∈ res, s ∈ acc ∨ ∃ a ∈ l, ∀ v, stack_derives rules s v → G a v) ∧
      (∀ a ∈ l, ∀ v, G a v → ∃ s ∈ res, stack_derives rules s v) := by
  intro l
  induction l with
  | nil =>
    intro acc res _ h
    simp only [List.foldlM_nil, pure, Except.pure, Except.ok.injEq] at h
    subst h
    exact ⟨fun s hs => hs, fun s hs => Or.inl hs, fun a ha => by cases ha⟩
  | cons a as ih =>
    intro acc res hstep h
    simp only [List.foldlM_cons, bind, Except.bind] at h
    cases hf : f acc a with
    | error e => rw [hf] at h; cases h
    | ok r1 =>
      rw [hf] at h
      obtain ⟨a1, a2, a3⟩ := hstep a (List.mem_cons_self _ _) acc r1 hf
      obtain ⟨b1, b2, b3⟩ := ih r1 res
        (fun x hx => hstep x (List.mem_cons_of_mem _ hx)) h
      refine ⟨fun s hs => b1 s (a1 s hs), ?_, ?_⟩
      · intro s hs
        rcases b2 s hs with h1 | ⟨x, hx, h1⟩
        · rcases a2 s h1 with h2 | h2
          · exact Or.inl h2
          · exact Or.inr ⟨a, List.mem_cons_self _ _, h2⟩
        · exact Or.inr ⟨x, List.mem_cons_of_mem _ hx, h1⟩
      · intro x hx v hv
        rcases List.mem_cons.mp hx with hx | hx
        · subst hx
          obtain ⟨s, hs, hd⟩ := a3 v hv
          exact ⟨s, b1 s hs, hd⟩
        · exact b3 x hx v hv

theorem advance_stack_leaf_spec (rules : llama_grammar_rules) (stack : llama_grammar_stack)
    (acc : llama_grammar_stacks) :
    (∀ s ∈ acc, s ∈ push_unique acc stack) ∧
    (∀ s ∈ push_unique acc stack,
      s ∈ acc ∨ ∀ v, stack_derives rules s v → stack_derives rules stack v) ∧
    (∀ v, stack_derives rules stack v →
      ∃ s ∈ push_unique acc stack, stack_derives rules s v) := by
  refine ⟨fun s hs => (mem_push_unique acc stack s).mpr (Or.inl hs), ?_, ?_⟩
  · intro s hs
    rcases (mem_push_unique acc stack s).mp hs with h | h
    · exact Or.inl h
    · exact Or.inr (fun v hv => h ▸ hv)
  · intro v hv
    exact ⟨stack, (mem_push_unique acc stack stack).mpr (Or.inr rfl), hv⟩

/-- What a returning call of `llama_grammar_advance_stack` adds to the
accumulator: stacks that derive only words the stack derives, and for every
word the stack derives a stack that derives it. -/
theorem advance_stack_spec :
    ∀ (fuel : Nat) (rules : llama_grammar_rules) (stack : llama_grammar_stack)
      (acc res : llama_grammar_stacks),
      llama_grammar_advance_stack fuel rules stack acc = .ok res →
      (∀ s ∈ acc, s ∈ res) ∧
      (∀ s ∈ res, s ∈ acc ∨ ∀ v, stack_derives rules s v → stack_derives rules stack v) ∧
      (∀ v, stack_derives rules stack v → ∃ s ∈ res, stack_derives rules s v) := by
  intro fuel
  induction fuel with
  | zero => intro rules stack acc res h; simp [llama_grammar_advance_stack] at h
  | succ n ih =>
    intro rules stack acc res h
    unfold llama_grammar_advance_stack at h
    cases stack with
    | nil =>
      simp only [Except.ok.injEq] at h
      subst h
      exact advance_stack_leaf_spec rules [] acc
    | cons pos rest =>
      simp only at h
      split at h
      · rename_i ht
        obtain ⟨c1, c2, c3⟩ := foldlM_frontier_spec rules _
          (fun sub v => stack_derives rules
            (push_unless_end rules ⟨(rules_at rules pos).value, sub⟩
              (push_unless_end rules (pos.add 1) rest)) v)
          _ acc res (fun a _ acc1 r hr => ih rules _ acc1 r hr) h
        refine ⟨c1, ?_, ?_⟩
        · intro s hs
          rcases c2 s hs with h1 | ⟨sub, hsub, h1⟩
          · exact Or.inl h1
          · right
            intro v hv
            obtain ⟨v1, v2, e1, d1, d2⟩ := (stack_derives_push rules _ _ v).mp (h1 v hv)
            obtain ⟨v3, v4, e2, d3, d4⟩ := (stack_derives_push rules _ _ v2).mp d2
            refine ⟨v1 ++ v3, v4, ?_, seq_derives.ref pos sub v1 v3 ht hsub d1 d3, d4⟩
            rw [e1, e2, List.append_assoc]
        · intro v hv
          obtain ⟨u, v2, e1, d1, d2⟩ := hv
          obtain ⟨sub, w1, w2, e2, hsub, d3, d4⟩ := seq_derives_at_ref rules pos u ht d1
          refine c3 sub hsub v ?_
          refine (stack_derives_push rules _ _ v).mpr ⟨w1, w2 ++ v2, ?_, d3, ?_⟩
          · rw [e1, e2, List.append_assoc]
          · exact (stack_derives_push rules _ _ _).mpr ⟨w2, v2, rfl, d4, d2⟩
      · simp only [Except.ok.injEq] at h
        subst h
        exact advance_stack_leaf_spec rules _ acc
      · simp only [Except.ok.injEq] at h
        subst h
        exact advance_stack_leaf_spec rules _ acc
      · simp only [Except.ok.injEq] at h
        subst h
        exact advance_stack_leaf_spec rules _ acc
      · cases h

theorem stack_wf_tail (rules : llama_grammar_rules) (pos : elem_ptr)
    (rest : llama_grammar_stack) (h : stack_wf rules (pos :: rest)) : stack_wf rules rest :=
  fun p hp => h p (List.mem_cons_of_mem _ hp)

/-- The top of a well-formed stack on which `llama_grammar_match_char` does not
abort is a character class. -/
theorem stack_top_class (rules : llama_grammar_rules) (pos : elem_ptr)
    (rest : llama_grammar_stack) (chr : Nat) (m : Bool × elem_ptr)
    (hwf : stack_wf rules (pos :: rest))
    (hm : llama_grammar_match_char rules pos chr = .ok m) :
    ∃ cls, class_at rules pos cls ∧ seq_wf rules (pos.add cls.encode.length) := by
  obtain ⟨hs, hne⟩ := hwf pos (List.mem_cons_self _ _)
  cases hs with
  | done _ hend => rw [hne] at hend; cases hend
  | char _ cls hc hnext => exact ⟨cls, hc, hnext⟩
  | ref _ ht _ =>
    unfold llama_grammar_match_char at hm
    unfold rules_at at ht
    simp only [ht] at hm
    simp at hm

/-- What one round of the loop of `llama_grammar_accept` adds to the new
frontier for the code point `chr`. -/
theorem accept_stack_spec (fuel : Nat) (rules : llama_grammar_rules) (chr : Nat)
    (acc : llama_grammar_stacks) (stack : llama_grammar_stack) (res : llama_grammar_stacks)
    (hwf : stack_wf rules stack)
    (h : accept_stack fuel rules chr acc stack = .ok res) :
    (∀ s ∈ acc, s ∈ res) ∧
    (∀ s ∈ res, s ∈ acc ∨ ∀ v, stack_derives rules s v → stack_derives rules stack (chr :: v)) ∧
    (∀ v, stack_derives rules stack (chr :: v) → ∃ s ∈ res, stack_derives rules s v) := by
  unfold accept_stack at h
  cases stack with
  | nil =>
    simp only [Except.ok.injEq] at h
    subst h
    refine ⟨fun s hs => hs, fun s hs => Or.inl hs, ?_⟩
    intro v hv
    cases hv
  | cons top rest =>
    simp only at h
    cases hm : llama_grammar_match_char rules top chr with
    | error e => rw [hm] at h; cases h
    | ok m =>
      rw [hm] at h
      simp only at h
      obtain ⟨cls, hc, _⟩ := stack_top_class rules top rest chr m hwf hm
      have hm2 := match_char_at_class rules top cls chr hc
      rw [hm] at hm2
      simp only [Except.ok.injEq] at hm2
      subst hm2
      simp only at h
      by_cases ha : cls.accepts chr = true
      · rw [if_pos ha] at h
        obtain ⟨c1, c2, c3⟩ := advance_stack_spec _ _ _ _ _ h
        refine ⟨c1, ?_, ?_⟩
        · intro s hs
          rcases c2 s hs with h1 | h1
          · exact Or.inl h1
          · right
            intro v hv
            obtain ⟨v1, v2, e1, d1, d2⟩ := (stack_derives_push rules _ _ v).mp (h1 v hv)
            exact ⟨chr :: v1, v2, by rw [e1]; rfl, seq_derives.char top cls chr v1 hc ha d1, d2⟩
        · intro v hv
          obtain ⟨u, v2, e1, d1, d2⟩ := hv
          obtain ⟨cls1, c, w1, e2, hc1, ha1, d3⟩ := seq_derives_at_class rules top u
            (class_not_end rules top cls hc) (class_not_ref rules top cls hc) d1
          have hm3 := match_char_at_class rules top cls1 chr hc1
          rw [match_char_at_class rules top cls chr hc] at hm3
          simp only [Except.ok.injEq, Prod.mk.injEq] at hm3
          rw [e2, List.cons_append, List.cons.injEq] at e1
          refine c3 v ((stack_derives_push rules _ _ v).mpr ⟨w1, v2, e1.2, ?_, d2⟩)
          rw [hm3.2]
          exact d3
      · rw [if_neg ha] at h
        simp only [Except.ok.injEq] at h
        subst h
        refine ⟨fun s hs => hs, fun s hs => Or.inl hs, ?_⟩
        intro v hv
        obtain ⟨u, v2, e1, d1, d2⟩ := hv
        obtain ⟨cls1, c, w1, e2, hc1, ha1, d3⟩ := seq_derives_at_class rules top u
          (class_not_end rules top cls hc) (class_not_ref rules top cls hc) d1
        have hm3 := match_char_at_class rules top cls1 chr hc1
        rw [match_char_at_class rules top cls chr hc] at hm3
        simp only [Except.ok.injEq, Prod.mk.injEq] at hm3
        rw [e2, List.cons_append, List.cons.injEq] at e1
        rw [← e1.1, ← hm3.1] at ha1
        exact absurd ha1 ha

/-- The frontier `llama_grammar_accept` computes for `chr`: its stacks derive
the words `v` for which a stack of the old frontier derives `chr :: v`. -/
theorem accept_stacks_spec (fuel : Nat) (rules : llama_grammar_rules)
    (ss : llama_grammar_stacks) (chr : Nat) (res : llama_grammar_stacks)
    (hwf : frontier_wf rules ss)
    (h : accept_stacks fuel rules ss chr = .ok res) :
    (∀ s ∈ res, ∃ s0 ∈ ss, ∀ v, stack_derives rules s v → stack_derives rules s0 (chr :: v)) ∧
    (∀ s0 ∈ ss, ∀ v, stack_derives rules s0 (chr :: v) → ∃ s ∈ res, stack_derives rules s v) := by
  unfold accept_stacks at h
  obtain ⟨_, c2, c3⟩ := foldlM_frontier_spec rules (accept_stack fuel rules chr)
    (fun s0 v => stack_derives rules s0 (chr :: v)) ss [] res
    (fun a ha acc r hr => accept_stack_spec fuel rules chr acc a r (hwf a ha) hr) h
  refine ⟨?_, c3⟩
  intro s hs
  rcases c2 s hs with h1 | h1
  · cases h1
  · exact h1

theorem seq_wf_after_ref (rules : llama_grammar_rules) (pos : elem_ptr)
    (ht : (rules_at rules pos).type = llama_gretype.RULE_REF) (h : seq_wf rules pos) :
    seq_wf rules (pos.add 1) := by
  cases h with
  | done _ hend => rw [ref_not_end _ ht] at hend; cases hend
  | char _ cls hc _ => exact absurd ht (class_not_ref rules pos cls hc)
  | ref _ _ hnext => exact hnext

theorem push_unless_end_wf (rules : llama_grammar_rules) (pos : elem_ptr)
    (stack : llama_grammar_stack) (hpos : seq_wf rules pos) (h : stack_wf rules stack) :
    stack_wf rules (push_unless_end rules pos stack) := by
  unfold push_unless_end
  split
  · exact h
  · rename_i hne
    intro p hp
    rcases List.mem_cons.mp hp with hp | hp
    · rw [hp]
      exact ⟨hpos, Bool.eq_false_iff.mpr hne⟩
    · exact h p hp

theorem push_unique_wf (rules : llama_grammar_rules) (ss : llama_grammar_stacks)
    (s : llama_grammar_stack) (hss : frontier_wf rules ss) (hs : stack_wf rules s) :
    frontier_wf rules (push_unique ss s) := by
  intro t ht
  rcases (mem_push_unique ss s t).mp ht with h | h
  · exact hss t h
  · exact h ▸ hs

theorem advance_stack_wf (rules : llama_grammar_rules) (hg : grammar_wf rules) :
    ∀ (fuel : Nat) (stack : llama_grammar_stack) (acc res : llama_grammar_stacks),
      frontier_wf rules acc → stack_wf rules stack →
      llama_grammar_advance_stack fuel rules stack acc = .ok res → frontier_wf rules res := by
  intro fuel
  induction fuel with
  | zero => intro stack acc res _ _ h; simp [llama_grammar_advance_stack] at h
  | succ n ih =>
    intro stack acc res hacc hst h
    unfold llama_grammar_advance_stack at h
    cases stack with
    | nil =>
      simp only [Except.ok.injEq] at h
      exact h ▸ push_unique_wf rules _ _ hacc hst
    | cons pos rest =>
      simp only at h
      split at h
      · rename_i ht
        exact foldlM_ok_inv (frontier_wf rules) _ _ _ _
          (fun acc1 a r ha hP hr => ih _ _ _ hP
            (push_unless_end_wf rules _ _ (hg _ a ha)
              (push_unless_end_wf rules _ _
                (seq_wf_after_ref rules pos ht (hst pos (List.mem_cons_self _ _)).1)
                (stack_wf_tail rules pos rest hst))) hr) hacc h
      · simp only [Except.ok.injEq] at h
        exact h ▸ push_unique_wf rules _ _ hacc hst
      · simp only [Except.ok.injEq] at h
        exact h ▸ push_unique_wf rules _ _ hacc hst
      · simp only [Except.ok.injEq] at h
        exact h ▸ push_unique_wf rules _ _ hacc hst
      · cases h

theorem accept_stack_wf (rules : llama_grammar_rules) (hg : grammar_wf rules) (fuel : Nat)
    (chr : Nat) (acc : llama_grammar_stacks) (stack : llama_grammar_stack)
    (res : llama_grammar_stacks) (hacc : frontier_wf rules acc) (hst : stack_wf rules stack)
    (h : accept_stack fuel rules chr acc stack = .ok res) : frontier_wf rules res := by
  unfold accept_stack at h
  cases stack with
  | nil => simp only [Except.ok.injEq] at h; exact h ▸ hacc
  | cons top rest =>
    simp only at h
    cases hm : llama_grammar_match_char rules top chr with
    | error e => rw [hm] at h; cases h
    | ok m =>
      rw [hm] at h
      simp only at h
      obtain ⟨cls, hc, hnext⟩ := stack_top_class rules top rest chr m hst hm
      have hm2 := match_char_at_class rules top cls chr hc
      rw [hm] at hm2
      simp only [Except.ok.injEq] at hm2
      subst hm2
      simp only at h
      split at h
      · exact advance_stack_wf rules hg _ _ _ _ hacc
          (push_unless_end_wf rules _ _ hnext (stack_wf_tail rules top rest hst)) h
      · simp only [Except.ok.injEq] at h; exact h ▸ hacc

theorem accept_stacks_wf (rules : llama_grammar_rules) (hg : grammar_wf rules) (fuel : Nat)
    (ss : llama_grammar_stacks) (chr : Nat) (res : llama_grammar_stacks)
    (hss : frontier_wf rules ss)
    (h : accept_stacks fuel rules ss chr = .ok res) : frontier_wf rules res := by
  unfold accept_stacks at h
  exact foldlM_ok_inv (frontier_wf rules) _ _ _ _
    (fun acc a r ha hP hr => accept_stack_wf rules hg fuel chr acc a r hP (hss a ha) hr)
    (fun s hs => by cases hs) h

theorem init_stacks_wf (rules : llama_grammar_rules) (hg : grammar_wf rules) (fuel : Nat)
    (start : Nat) (res : llama_grammar_stacks)
    (h : init_stacks fuel rules start = .ok res) : frontier_wf rules res := by
  unfold init_stacks at h
  exact foldlM_ok_inv (frontier_wf rules) _ _ _ _
    (fun acc a r ha hP hr => advance_stack_wf rules hg _ _ _ _ hP
      (push_unless_end_wf rules _ _ (hg _ a ha) (fun e he => by cases he)) hr)
    (fun s hs => by cases hs) h

/-! Budgets: more nested calls change no result. -/

theorem foldlM_ok_congr {α β : Type} (f g : β → α → Run β) :
    ∀ (l : List α) (acc r : β),
      (∀ acc a r, a ∈ l → f acc a = .ok r → g acc a = .ok r) →
      l.foldlM f acc = .ok r → l.foldlM g acc = .ok r := by
  intro l
  induction l with
  | nil => intro acc r _ h; exact h
  | cons a as ih =>
    intro acc r hstep h
    simp only [List.foldlM_cons, bind, Except.bind] at h ⊢
    cases hf : f acc a with
    | error e => rw [hf] at h; cases h
    | ok r1 =>
      rw [hf] at h
      rw [hstep acc a r1 (List.mem_cons_self _ _) hf]
      exact ih r1 r (fun acc a r ha => hstep acc a r (List.mem_cons_of_mem _ ha)) h

theorem advance_stack_mono :
    ∀ (fuel fuel1 : Nat) (rules : llama_grammar_rules) (stack : llama_grammar_stack)
      (acc res : llama_grammar_stacks), fuel ≤ fuel1 →
      llama_grammar_advance_stack fuel rules stack acc = .ok res →
      llama_grammar_advance_stack fuel1 rules stack acc = .ok res := by
  intro fuel
  induction fuel with
  | zero => intro fuel1 rules stack acc res _ h; simp [llama_grammar_advance_stack] at h
  | succ n ih =>
    intro fuel1 rules stack acc res hle h
    cases fuel1 with
    | zero => omega
    | succ m =>
      unfold llama_grammar_advance_stack at h ⊢
      cases stack with
      | nil => exact h
      | cons pos rest =>
        simp only at h ⊢
        revert h
        cases hty : (rules_at rules pos).type <;> intro h <;> simp only at h ⊢
        case RULE_REF =>
          exact foldlM_ok_congr _ _ _ _ _
            (fun acc1 a r _ hr => ih m rules _ acc1 r (by omega) hr) h
        all_goals exact h

theorem accept_stack_mono (fuel fuel1 : Nat) (rules : llama_grammar_rules) (chr : Nat)
    (acc : llama_grammar_stacks) (stack : llama_grammar_stack) (res : llama_grammar_stacks)
    (hle : fuel ≤ fuel1) (h : accept_stack fuel rules chr acc stack = .ok res) :
    accept_stack fuel1 rules chr acc stack = .ok res := by
  unfold accept_stack at h ⊢
  cases stack with
  | nil => exact h
  | cons top rest =>
    simp only at h ⊢
    cases hm : llama_grammar_match_char rules top chr with
    | error e => rw [hm] at h; cases h
    | ok m =>
      rw [hm] at h
      simp only at h ⊢
      split
      · rename_i hb
        rw [if_pos hb] at h
        exact advance_stack_mono _ _ _ _ _ _ hle h
      · rename_i hb
        rw [if_neg hb] at h
        exact h

theorem accept_stacks_mono (fuel fuel1 : Nat) (rules : llama_grammar_rules)
    (ss : llama_grammar_stacks) (chr : Nat) (res : llama_grammar_stacks)
    (hle : fuel ≤ fuel1) (h : accept_stacks fuel rules ss chr = .ok res) :
    accept_stacks fuel1 rules ss chr = .ok res := by
  unfold accept_stacks at h ⊢
  exact foldlM_ok_congr _ _ _ _ _
    (fun acc a r _ hr => accept_stack_mono fuel fuel1 rules chr acc a r hle hr) h

theorem feed_frontier_mono (fuel fuel1 : Nat) (rules : llama_grammar_rules) (hle : fuel ≤ fuel1) :
    ∀ (chrs : List Nat) (ss res : llama_grammar_stacks),
      feed_frontier fuel rules ss chrs = .ok res →
      feed_frontier fuel1 rules ss chrs = .ok res := by
  intro chrs
  induction chrs with
  | nil => intro ss res h; exact h
  | cons c cs ih =>
    intro ss res h
    simp only [feed_frontier] at h ⊢
    cases ha : accept_stacks fuel rules ss c with
    | error e => rw [ha] at h; cases h
    | ok r =>
      rw [ha] at h
      rw [accept_stacks_mono fuel fuel1 rules ss c r hle ha]
      exact ih r res h

theorem init_stacks_mono (fuel fuel1 : Nat) (rules : llama_grammar_rules) (start : Nat)
    (res : llama_grammar_stacks) (hle : fuel ≤ fuel1)
    (h : init_stacks fuel rules start = .ok res) :
    init_stacks fuel1 rules start = .ok res := by
  unfold init_stacks at h ⊢
  exact foldlM_ok_congr _ _ _ _ _
    (fun acc a r _ hr => advance_stack_mono fuel fuel1 rules _ acc r hle hr) h

/-! Rules that end with `END`: positions in range, starts of alternatives. -/

theorem rule_at_get? (rule : llama_grammar_rule) (i : Nat) (h : i < rule.length) :
    rule.get? i = some (rule_at rule i) := by
  unfold rule_at
  rw [List.get?_eq_getElem?, List.getD_eq_getElem?_getD, List.getElem?_eq_getElem h]
  rfl

theorem rule_at_mem (rule : llama_grammar_rule) (i : Nat) (h : i < rule.length) :
    rule_at rule i ∈ rule := by
  unfold rule_at
  rw [List.getD_eq_getElem?_getD, List.getElem?_eq_getElem h]
  exact List.getElem_mem _

theorem rule_at_in_range (rule : llama_grammar_rule) (i : Nat)
    (h : (rule_at rule i).type ≠ llama_gretype.END) : i < rule.length := by
  by_contra hge
  apply h
  unfold rule_at
  rw [List.getD_eq_default _ _ (Nat.le_of_not_lt hge)]

theorem wf_next_in_range (rule : llama_grammar_rule) (i : Nat)
    (hcopy : copy_rule rule = rule)
    (h : (rule_at rule i).type ≠ llama_gretype.END) : i + 1 < rule.length := by
  have hi := rule_at_in_range rule i h
  by_contra hge
  have hlast : i = rule.length - 1 := by omega
  apply h
  have hlen : rule.length =
      (rule.takeWhile (fun e => decide (e.type ≠ llama_gretype.END))).length + 1 := by
    conv_lhs => rw [← hcopy]
    unfold copy_rule
    simp
  rw [← hcopy]
  unfold copy_rule
  have hi2 : i = (rule.takeWhile (fun e => decide (e.type ≠ llama_gretype.END))).length := by
    omega
  rw [hi2, rule_at_append_zero]
  rfl

theorem wf_rule_nonempty (rule : llama_grammar_rule) (hcopy : copy_rule rule = rule) :
    0 < rule.length := by
  rw [← hcopy]
  unfold copy_rule
  simp

theorem scan_alternates_alt_start (rule : llama_grammar_rule) :
    ∀ (es pre : llama_grammar_rule), rule = pre ++ es →
      ∀ s ∈ scan_alternates es pre.length, alt_start rule s := by
  intro es
  induction es with
  | nil => intro pre _ s hs; simp [scan_alternates] at hs
  | cons e es ih =>
    intro pre hrule s hs
    have hrule2 : rule = (pre ++ [e]) ++ es := by rw [hrule]; simp
    have hlen : (pre ++ [e]).length = pre.length + 1 := by simp
    unfold scan_alternates at hs
    split at hs
    · rename_i ht
      rcases List.mem_cons.mp hs with h1 | h1
      · rw [h1]
        exact alt_start_after rule pre es e hrule ht
      · rw [← hlen] at h1
        exact ih (pre ++ [e]) hrule2 s h1
    · cases hs
    · rw [← hlen] at hs
      exact ih (pre ++ [e]) hrule2 s hs

theorem alternates_alt_start (rule : llama_grammar_rule) (sub : Nat)
    (h : sub ∈ rule_alternates rule) : alt_start rule sub := by
  unfold rule_alternates at h
  rcases List.mem_cons.mp h with h1 | h1
  · exact Or.inl h1
  · exact scan_alternates_alt_start rule rule [] rfl sub h1

theorem alternates_in_range (rule : llama_grammar_rule) (sub : Nat)
    (hcopy : copy_rule rule = rule) (h : sub ∈ rule_alternates rule) : sub < rule.length := by
  rcases alternates_alt_start rule sub h with h1 | ⟨hpos, v, hv⟩
  · rw [h1]
    exact wf_rule_nonempty rule hcopy
  · have hat : rule_at rule (sub - 1) = ⟨llama_gretype.ALT, v⟩ := by
      unfold rule_at
      rw [List.getD_eq_getElem?_getD, ← List.get?_eq_getElem?, hv]
      rfl
    have := wf_next_in_range rule (sub - 1) hcopy (by rw [hat]; simp)
    omega

theorem ref_target_in_table (rules : llama_grammar_rules) (hwf : rules_wf rules)
    (pos : elem_ptr) (ht : (rules_at rules pos).type = llama_gretype.RULE_REF) :
    pos.rule < rules.length ∧ pos.idx < (rules.getD pos.rule []).length ∧
      (rules_at rules pos).value < rules.length := by
  have hidx : pos.idx < (rules.getD pos.rule []).length :=
    rule_at_in_range _ _ (by unfold rules_at at ht; rw [ht]; decide)
  have hrule : pos.rule < rules.length := by
    by_contra hge
    rw [List.getD_eq_default _ _ (Nat.le_of_not_lt hge)] at hidx
    simp at hidx
  refine ⟨hrule, hidx, ?_⟩
  have hmem := rule_mem_of_lt rules pos.rule hrule
  exact (hwf _ hmem).2 (rules_at rules pos) (rule_at_mem _ _ hidx) ht

theorem get?_ref (rule : llama_grammar_rule) (j : Nat)
    (ht : (rule_at rule j).type = llama_gretype.RULE_REF) :
    rule.get? j = some ⟨llama_gretype.RULE_REF, (rule_at rule j).value⟩ := by
  rw [rule_at_get? rule j (rule_at_in_range rule j (by rw [ht]; decide))]
  cases hx : rule_at rule j with
  | mk t v =>
    rw [hx] at ht
    simp only at ht
    rw [ht]

/-- A sequence that derives the empty word is a run of references to rules that
derive the empty word, up to the end of the alternative. -/
theorem derives_nil_chain (rules : llama_grammar_rules) (hwf : rules_wf rules) :
    ∀ (pos : elem_ptr) (w : List Nat), seq_derives rules pos w → w = [] →
      pos.rule < rules.length → pos.idx < (rules.getD pos.rule []).length →
      ∃ e, pos.idx ≤ e ∧ e < (rules.getD pos.rule []).length ∧
        llama_grammar_is_end_of_sequence (rule_at (rules.getD pos.rule []) e) = true ∧
        ∀ j, pos.idx ≤ j → j < e →
          (rule_at (rules.getD pos.rule []) j).type = llama_gretype.RULE_REF ∧
          nullable rules (rule_at (rules.getD pos.rule []) j).value := by
  intro pos w h
  induction h with
  | done pos hend =>
    intro _ _ hidx
    exact ⟨pos.idx, Nat.le_refl _, hidx, hend, fun j h1 h2 => by omega⟩
  | char pos cls c w _ _ _ _ => intro hw; cases hw
  | ref pos sub w1 w2 ht hsub _ _ ih1 ih2 =>
    intro hw hrule hidx
    have hw1 : w1 = [] := (List.append_eq_nil.mp hw).1
    have hw2 : w2 = [] := (List.append_eq_nil.mp hw).2
    obtain ⟨_, _, hval⟩ := ref_target_in_table rules hwf pos ht
    have hcopy1 := (hwf _ (rule_mem_of_lt rules _ hval)).1
    have hcopy := (hwf _ (rule_mem_of_lt rules _ hrule)).1
    obtain ⟨e1, he1, hlt1, hend1, hchain1⟩ := ih1 hw1 hval
      (alternates_in_range _ sub hcopy1 hsub)
    have hnull : nullable rules (rules_at rules pos).value :=
      nullable.intro _ sub e1 (fun j => (rule_at (rules.getD (rules_at rules pos).value []) j).value)
        (rule_at (rules.getD (rules_at rules pos).value []) e1)
        (alternates_alt_start _ sub hsub) he1 (rule_at_get? _ e1 hlt1) hend1
        (fun j h1 h2 => get?_ref _ j (hchain1 j h1 h2).1)
        (fun j h1 h2 => (hchain1 j h1 h2).2)
    have hnext : pos.idx + 1 < (rules.getD pos.rule []).length :=
      wf_next_in_range _ _ hcopy (by unfold rules_at at ht; rw [ht]; decide)
    obtain ⟨e2, he2, hlt2, hend2, hchain2⟩ := ih2 hw2 hrule hnext
    refine ⟨e2, by simp only [elem_ptr.add] at he2; omega, hlt2, hend2, ?_⟩
    intro j h1 h2
    by_cases hj : j = pos.idx
    · rw [hj]
      exact ⟨ht, hnull⟩
    · exact hchain2 j (by simp only [elem_ptr.add]; omega) h2

theorem nullable_of_derives_nil (rules : llama_grammar_rules) (hwf : rules_wf rules)
    (r sub : Nat) (hr : r < rules.length) (hsub : sub ∈ rule_alternates (rules.getD r []))
    (h : seq_derives rules ⟨r, sub⟩ []) : nullable rules r := by
  have hcopy := (hwf _ (rule_mem_of_lt rules _ hr)).1
  obtain ⟨e, he, hlt, hend, hchain⟩ := derives_nil_chain rules hwf ⟨r, sub⟩ [] h rfl hr
    (alternates_in_range _ sub hcopy hsub)
  exact nullable.intro r sub e (fun j => (rule_at (rules.getD r []) j).value)
    (rule_at (rules.getD r []) e) (alternates_alt_start _ sub hsub) he
    (rule_at_get? _ e hlt) hend
    (fun j h1 h2 => get?_ref _ j (hchain j h1 h2).1)
    (fun j h1 h2 => (hchain j h1 h2).2)

/-- Without left recursion the leftmost references are well-founded. -/
theorem left_edge_wf (rules : llama_grammar_rules) (hnlr : ¬ left_recursive rules) :
    WellFounded (fun B A => left_edge rules A B) := by
  classical
  have hsrc : ∀ A B, left_edge rules A B → A < rules.length := by
    intro A B ⟨s, i, refs, _, _, hget, _⟩
    by_contra hge
    rw [List.getD_eq_default _ _ (Nat.le_of_not_lt hge)] at hget
    simp at hget
  let reach : Nat → Finset Nat := fun A =>
    (Finset.range rules.length).filter (fun B => Relation.TransGen (left_edge rules) A B)
  let rank : Nat → Nat := fun A => if A < rules.length then (reach A).card + 1 else 0
  have hrank : ∀ A B, left_edge rules A B → rank B < rank A := by
    intro A B hAB
    have hA := hsrc A B hAB
    by_cases hB : B < rules.length
    · have hsub : reach B ⊂ reach A := by
        rw [Finset.ssubset_iff_of_subset]
        · refine ⟨B, ?_, ?_⟩
          · exact Finset.mem_filter.mpr ⟨Finset.mem_range.mpr hB, Relation.TransGen.single hAB⟩
          · intro hmem
            exact hnlr ⟨B, (Finset.mem_filter.mp hmem).2⟩
        · intro C hC
          obtain ⟨h1, h2⟩ := Finset.mem_filter.mp hC
          exact Finset.mem_filter.mpr ⟨h1, Relation.TransGen.head hAB h2⟩
      have := Finset.card_lt_card hsub
      simp only [rank, hA, hB, if_true]
      omega
    · simp only [rank, hA, hB, if_true, if_false]
      omega
  exact Subrelation.wf (fun {B A} h => hrank A B h) (InvImage.wf rank Nat.lt_wfRel.wf)

/-! `llama_grammar_advance_stack` returns on grammars without left recursion. -/

theorem foldlM_returns {α β : Type} (f : Nat → β → α → Run β) :
    ∀ (l : List α),
      (∀ a ∈ l, ∃ n, ∀ fuel, n ≤ fuel → ∀ acc, ∃ res, f fuel acc a = .ok res) →
      ∃ n, ∀ fuel, n ≤ fuel → ∀ acc, ∃ res, l.foldlM (f fuel) acc = .ok res := by
  intro l
  induction l with
  | nil => intro _; exact ⟨0, fun fuel _ acc => ⟨acc, rfl⟩⟩
  | cons a as ih =>
    intro h
    obtain ⟨n1, h1⟩ := h a (List.mem_cons_self _ _)
    obtain ⟨n2, h2⟩ := ih (fun x hx => h x (List.mem_cons_of_mem _ hx))
    refine ⟨max n1 n2, fun fuel hfuel acc => ?_⟩
    obtain ⟨r1, hr1⟩ := h1 fuel (le_trans (le_max_left _ _) hfuel) acc
    obtain ⟨r2, hr2⟩ := h2 fuel (le_trans (le_max_right _ _) hfuel) r1
    refine ⟨r2, ?_⟩
    simp only [List.foldlM_cons, bind, Except.bind, hr1]
    exact hr2

theorem advance_returns_nil (rules : llama_grammar_rules) : advance_returns rules [] := by
  refine ⟨1, fun fuel hfuel acc => ?_⟩
  obtain ⟨m, rfl⟩ : ∃ m, fuel = m + 1 := ⟨fuel - 1, by omega⟩
  exact ⟨_, rfl⟩

theorem seq_returns_end (rules : llama_grammar_rules) (pos : elem_ptr)
    (hend : llama_grammar_is_end_of_sequence (rules_at rules pos) = true) :
    seq_returns rules pos := by
  intro rest hrest
  unfold push_unless_end
  rw [if_pos hend]
  exact hrest (seq_derives.done pos hend)

theorem seq_returns_class (rules : llama_grammar_rules) (pos : elem_ptr) (cls : char_class)
    (hc : class_at rules pos cls) : seq_returns rules pos := by
  intro rest _
  unfold push_unless_end
  rw [class_not_end rules pos cls hc]
  simp only [Bool.false_eq_true, if_false]
  refine ⟨1, fun fuel hfuel acc => ?_⟩
  obtain ⟨m, rfl⟩ : ∃ m, fuel = m + 1 := ⟨fuel - 1, by omega⟩
  unfold llama_grammar_advance_stack
  rcases class_head_type rules pos cls hc with h1 | h1 | h1 <;> simp only [h1] <;>
    exact ⟨_, rfl⟩

theorem seq_returns_ref (rules : llama_grammar_rules) (pos : elem_ptr)
    (ht : (rules_at rules pos).type = llama_gretype.RULE_REF)
    (halts : ∀ sub ∈ rule_alternates (rules.getD (rules_at rules pos).value []),
      seq_returns rules ⟨(rules_at rules pos).value, sub⟩)
    (hnext : (∃ sub ∈ rule_alternates (rules.getD (rules_at rules pos).value []),
        seq_derives rules ⟨(rules_at rules pos).value, sub⟩ []) →
      seq_returns rules (pos.add 1)) :
    seq_returns rules pos := by
  intro rest hrest
  unfold push_unless_end
  rw [ref_not_end _ ht]
  simp only [Bool.false_eq_true, if_false]
  have hchild : ∀ sub ∈ rule_alternates (rules.getD (rules_at rules pos).value []),
      advance_returns rules
        (push_unless_end rules ⟨(rules_at rules pos).value, sub⟩
          (push_unless_end rules (pos.add 1) rest)) := by
    intro sub hsub
    refine halts sub hsub _ (fun hnil => ?_)
    exact hnext ⟨sub, hsub, hnil⟩ rest
      (fun hnil2 => hrest (seq_derives.ref pos sub [] [] ht hsub hnil hnil2))
  obtain ⟨n, hn⟩ := foldlM_returns
    (fun fuel acc sub => llama_grammar_advance_stack fuel rules
      (push_unless_end rules ⟨(rules_at rules pos).value, sub⟩
        (push_unless_end rules (pos.add 1) rest)) acc)
    (rule_alternates (rules.getD (rules_at rules pos).value [])) hchild
  refine ⟨n + 1, fun fuel hfuel acc => ?_⟩
  obtain ⟨m, rfl⟩ : ∃ m, fuel = m + 1 := ⟨fuel - 1, by omega⟩
  unfold llama_grammar_advance_stack
  simp only [ht]
  exact hn m (by omega) acc

theorem leftmost_at_start (rules : llama_grammar_rules) (rule : llama_grammar_rule) (sub : Nat)
    (h : sub ∈ rule_alternates rule) : leftmost_at rules rule sub :=
  ⟨sub, alternates_alt_start rule sub h, Nat.le_refl _, fun j h1 h2 => by omega⟩

theorem leftmost_at_next (rules : llama_grammar_rules) (rule : llama_grammar_rule) (k : Nat)
    (h : leftmost_at rules rule k)
    (ht : (rule_at rule k).type = llama_gretype.RULE_REF)
    (hnull : nullable rules (rule_at rule k).value) : leftmost_at rules rule (k + 1) := by
  obtain ⟨s, hs, hle, hchain⟩ := h
  refine ⟨s, hs, by omega, fun j h1 h2 => ?_⟩
  by_cases hj : j = k
  · rw [hj]
    exact ⟨get?_ref rule k ht, hnull⟩
  · exact hchain j h1 (by omega)

theorem left_edge_of_leftmost (rules : llama_grammar_rules) (A k : Nat)
    (h : leftmost_at rules (rules.getD A []) k)
    (ht : (rule_at (rules.getD A []) k).type = llama_gretype.RULE_REF) :
    left_edge rules A (rule_at (rules.getD A []) k).value := by
  obtain ⟨s, hs, hle, hchain⟩ := h
  exact ⟨s, k, fun j => (rule_at (rules.getD A []) j).value, hs, hle, get?_ref _ k ht, hchain⟩

/-- Every alternative of every rule: the call returns on a stack with its start
pushed. By well-founded induction along the leftmost references, and inside an
alternative along its leftmost positions. -/
theorem alt_returns (rules : llama_grammar_rules) (hwf : rules_wf rules)
    (hg : grammar_wf rules) (hnlr : ¬ left_recursive rules) :
    ∀ r sub, sub ∈ rule_alternates (rules.getD r []) → seq_returns rules ⟨r, sub⟩ := by
  intro r
  induction r using (left_edge_wf rules hnlr).induction with
  | _ r ih =>
    have hinner : ∀ pos, seq_wf rules pos → pos.rule = r →
        leftmost_at rules (rules.getD r []) pos.idx → seq_returns rules pos := by
      intro pos hpos
      induction hpos with
      | done pos hend => intro _ _; exact seq_returns_end rules pos hend
      | char pos cls hc _ _ => intro _ _; exact seq_returns_class rules pos cls hc
      | ref pos ht _ ihn =>
        intro hr hleft
        have ht2 : (rule_at (rules.getD r []) pos.idx).type = llama_gretype.RULE_REF := by
          rw [← hr]; exact ht
        have hval : rule_at (rules.getD r []) pos.idx = rules_at rules pos := by
          rw [← hr]; rfl
        have hedge := left_edge_of_leftmost rules r pos.idx hleft ht2
        rw [hval] at hedge
        refine seq_returns_ref rules pos ht (fun sub hsub => ih _ hedge sub hsub) ?_
        rintro ⟨sub, hsub, hnil⟩
        obtain ⟨_, _, htarget⟩ := ref_target_in_table rules hwf pos ht
        have hnull := nullable_of_derives_nil rules hwf _ sub htarget hsub hnil
        refine ihn hr ?_
        have := leftmost_at_next rules (rules.getD r []) pos.idx hleft ht2 (by rw [hval]; exact hnull)
        exact this
    intro sub hsub
    exact hinner ⟨r, sub⟩ (hg r sub hsub) rfl (leftmost_at_start rules _ sub hsub)

theorem seq_returns_all (rules : llama_grammar_rules) (hwf : rules_wf rules)
    (hg : grammar_wf rules) (hnlr : ¬ left_recursive rules) :
    ∀ pos, seq_wf rules pos → seq_returns rules pos := by
  intro pos hpos
  induction hpos with
  | done pos hend => exact seq_returns_end rules pos hend
  | char pos cls hc _ _ => exact seq_returns_class rules pos cls hc
  | ref pos ht _ ihn =>
    exact seq_returns_ref rules pos ht
      (fun sub hsub => alt_returns rules hwf hg hnlr _ sub hsub) (fun _ => ihn)

/-- On a grammar of items without left recursion, `llama_grammar_advance_stack`
returns on every stack of item sequences. -/
theorem stack_returns (rules : llama_grammar_rules) (hwf : rules_wf rules)
    (hg : grammar_wf rules) (hnlr : ¬ left_recursive rules) :
    ∀ stack, stack_wf rules stack → advance_returns rules stack := by
  intro stack
  induction stack with
  | nil => intro _; exact advance_returns_nil rules
  | cons pos rest ih =>
    intro hst
    obtain ⟨hpos, hne⟩ := hst pos (List.mem_cons_self _ _)
    have := seq_returns_all rules hwf hg hnlr pos hpos rest
      (fun _ => ih (stack_wf_tail rules pos rest hst))
    unfold push_unless_end at this
    rw [hne] at this
    simpa using this

theorem stack_top_is_class (rules : llama_grammar_rules) (top : elem_ptr)
    (rest : llama_grammar_stack) (hst : stack_wf rules (top :: rest))
    (htop : stack_top_ok rules (top :: rest) = true) :
    ∃ cls, class_at rules top cls ∧ seq_wf rules (top.add cls.encode.length) := by
  obtain ⟨hs, hne⟩ := hst top (List.mem_cons_self _ _)
  cases hs with
  | done _ hend => rw [hne] at hend; cases hend
  | char _ cls hc hnext => exact ⟨cls, hc, hnext⟩
  | ref _ ht _ =>
    simp only [stack_top_ok, ht] at htop
    cases htop

theorem accept_stack_returns (rules : llama_grammar_rules) (hwf : rules_wf rules)
    (hg : grammar_wf rules) (hnlr : ¬ left_recursive rules) (chr : Nat)
    (stack : llama_grammar_stack) (hst : stack_wf rules stack)
    (htop : stack_top_ok rules stack = true) :
    ∃ n, ∀ fuel, n ≤ fuel → ∀ acc, ∃ res, accept_stack fuel rules chr acc stack = .ok res := by
  cases stack with
  | nil => exact ⟨0, fun fuel _ acc => ⟨acc, rfl⟩⟩
  | cons top rest =>
    obtain ⟨cls, hc, hnext⟩ := stack_top_is_class rules top rest hst htop
    obtain ⟨n, hn⟩ := stack_returns rules hwf hg hnlr _
      (push_unless_end_wf rules _ _ hnext (stack_wf_tail rules top rest hst))
    refine ⟨n, fun fuel hfuel acc => ?_⟩
    unfold accept_stack
    simp only [match_char_at_class rules top cls chr hc]
    split
    · exact hn fuel hfuel acc
    · exact ⟨acc, rfl⟩

theorem accept_stacks_returns (rules : llama_grammar_rules) (hwf : rules_wf rules)
    (hg : grammar_wf rules) (hnlr : ¬ left_recursive rules) (chr : Nat)
    (ss : llama_grammar_stacks) (hss : frontier_wf rules ss) (hok : frontier_ok rules ss) :
    ∃ n, ∀ fuel, n ≤ fuel → ∃ res, accept_stacks fuel rules ss chr = .ok res := by
  obtain ⟨n, hn⟩ := foldlM_returns (fun fuel acc stack => accept_stack fuel rules chr acc stack) ss
    (fun s hs => accept_stack_returns rules hwf hg hnlr chr s (hss s hs) (hok s hs))
  exact ⟨n, fun fuel hfuel => hn fuel hfuel []⟩

/-- Feeding code points to a frontier returns, with one frontier for every
budget from some budget on. -/
theorem feed_frontier_returns (rules : llama_grammar_rules) (hwf : rules_wf rules)
    (hg : grammar_wf rules) (hnlr : ¬ left_recursive rules) :
    ∀ (chrs : List Nat) (ss : llama_grammar_stacks),
      frontier_wf rules ss → frontier_ok rules ss →
      ∃ n res, ∀ fuel, n ≤ fuel → feed_frontier fuel rules ss chrs = .ok res := by
  intro chrs
  induction chrs with
  | nil => intro ss _ _; exact ⟨0, ss, fun fuel _ => rfl⟩
  | cons c cs ih =>
    intro ss hss hok
    obtain ⟨n1, h1⟩ := accept_stacks_returns rules hwf hg hnlr c ss hss hok
    obtain ⟨r1, hr1⟩ := h1 n1 (Nat.le_refl _)
    obtain ⟨n2, res, h2⟩ := ih r1 (accept_stacks_wf rules hg n1 ss c r1 hss hr1)
      (accept_stacks_frontier_ok n1 rules ss c r1 hr1)
    refine ⟨max n1 n2, res, fun fuel hfuel => ?_⟩
    simp only [feed_frontier]
    rw [accept_stacks_mono n1 fuel rules ss c r1 (le_trans (le_max_left _ _) hfuel) hr1]
    exact h2 fuel (le_trans (le_max_right _ _) hfuel)

theorem init_stacks_returns (rules : llama_grammar_rules) (hwf : rules_wf rules)
    (hg : grammar_wf rules) (hnlr : ¬ left_recursive rules) (start : Nat) :
    ∃ n res, ∀ fuel, n ≤ fuel → init_stacks fuel rules start = .ok res := by
  obtain ⟨n, hn⟩ := foldlM_returns
    (fun fuel acc sub => llama_grammar_advance_stack fuel rules
      (push_unless_end rules ⟨start, sub⟩ []) acc)
    (rule_alternates (rules.getD start []))
    (fun sub hsub => stack_returns rules hwf hg hnlr _
      (push_unless_end_wf rules _ _ (hg start sub hsub) (fun e he => by cases he)))
  obtain ⟨res, hres⟩ := hn n (Nat.le_refl _) []
  refine ⟨n, res, fun fuel hfuel => ?_⟩
  exact init_stacks_mono n fuel rules start res hfuel hres

/-! The frontier and the language. -/

theorem feed_frontier_wf (rules : llama_grammar_rules) (hg : grammar_wf rules) (fuel : Nat) :
    ∀ (chrs : List Nat) (ss res : llama_grammar_stacks),
      frontier_wf rules ss → frontier_ok rules ss →
      feed_frontier fuel rules ss chrs = .ok res →
      frontier_wf rules res ∧ frontier_ok rules res := by
  intro chrs
  induction chrs with
  | nil =>
    intro ss res hss hok h
    simp only [feed_frontier, Except.ok.injEq] at h
    exact h ▸ ⟨hss, hok⟩
  | cons c cs ih =>
    intro ss res hss _ h
    simp only [feed_frontier] at h
    cases ha : accept_stacks fuel rules ss c with
    | error e => rw [ha] at h; cases h
    | ok r =>
      rw [ha] at h
      exact ih r res (accept_stacks_wf rules hg fuel ss c r hss ha)
        (accept_stacks_frontier_ok fuel rules ss c r ha) h

theorem init_stacks_spec (rules : llama_grammar_rules) (fuel root : Nat)
    (ss : llama_grammar_stacks) (h : init_stacks fuel rules root = .ok ss) :
    (∀ s ∈ ss, ∀ v, stack_derives rules s v → in_language rules root v) ∧
    (∀ v, in_language rules root v → ∃ s ∈ ss, stack_derives rules s v) := by
  unfold init_stacks at h
  obtain ⟨_, c2, c3⟩ := foldlM_frontier_spec rules _
    (fun sub v => seq_derives rules ⟨root, sub⟩ v) _ [] ss
    (fun sub _ acc r hr => by
      obtain ⟨a1, a2, a3⟩ := advance_stack_spec _ _ _ _ _ hr
      refine ⟨a1, ?_, ?_⟩
      · intro s hs
        rcases a2 s hs with h1 | h1
        · exact Or.inl h1
        · right
          intro v hv
          obtain ⟨v1, v2, e1, d1, d2⟩ := (stack_derives_push rules _ _ v).mp (h1 v hv)
          have hv2 : v2 = [] := d2
          rw [e1, hv2, List.append_nil]
          exact d1
      · intro v hv
        exact a3 v ((stack_derives_push rules _ _ v).mpr ⟨v, [], by simp, hv, rfl⟩)) h
  constructor
  · intro s hs v hv
    rcases c2 s hs with h1 | ⟨sub, hsub, h1⟩
    · cases h1
    · exact ⟨sub, hsub, h1 v hv⟩
  · rintro v ⟨sub, hsub, hv⟩
    exact c3 sub hsub v hv

theorem feed_frontier_spec (rules : llama_grammar_rules) (hg : grammar_wf rules)
    (fuel root : Nat) :
    ∀ (chrs : List Nat) (ss res : llama_grammar_stacks) (w : List Nat),
      frontier_wf rules ss →
      (∀ s ∈ ss, ∀ v, stack_derives rules s v → in_language rules root (w ++ v)) →
      (∀ v, in_language rules root (w ++ v) → ∃ s ∈ ss, stack_derives rules s v) →
      feed_frontier fuel rules ss chrs = .ok res →
      (∀ s ∈ res, ∀ v, stack_derives rules s v → in_language rules root (w ++ chrs ++ v)) ∧
      (∀ v, in_language rules root (w ++ chrs ++ v) → ∃ s ∈ res, stack_derives rules s v) := by
  intro chrs
  induction chrs with
  | nil =>
    intro ss res w _ hs hc h
    simp only [feed_frontier, Except.ok.injEq] at h
    subst h
    simp only [List.append_nil]
    exact ⟨hs, hc⟩
  | cons c cs ih =>
    intro ss res w hss hs hc h
    simp only [feed_frontier] at h
    cases ha : accept_stacks fuel rules ss c with
    | error e => rw [ha] at h; cases h
    | ok r =>
      rw [ha] at h
      obtain ⟨a1, a2⟩ := accept_stacks_spec fuel rules ss c r hss ha
      have hw : ∀ v, w ++ c :: cs ++ v = (w ++ [c]) ++ cs ++ v := by intro v; simp
      have := ih r res (w ++ [c]) (accept_stacks_wf rules hg fuel ss c r hss ha)
        (fun s hsr v hv => by
          obtain ⟨s0, hs0, hd⟩ := a1 s hsr
          have := hs s0 hs0 (c :: v) (hd v hv)
          simpa using this)
        (fun v hv => by
          have hv2 : in_language rules root (w ++ c :: v) := by simpa using hv
          obtain ⟨s0, hs0, hd⟩ := hc (c :: v) hv2
          exact a2 s0 hs0 v hd) h
      constructor
      · intro s hsr v hv
        rw [hw]
        exact this.1 s hsr v hv
      · intro v hv
        rw [hw] at hv
        exact this.2 v hv

theorem stack_derives_nil_top (rules : llama_grammar_rules) (s : llama_grammar_stack)
    (hst : stack_wf rules s) (htop : stack_top_ok rules s = true)
    (h : stack_derives rules s []) : s = [] := by
  cases s with
  | nil => rfl
  | cons top rest =>
    exfalso
    obtain ⟨cls, hc, _⟩ := stack_top_is_class rules top rest hst htop
    obtain ⟨v1, v2, e1, d1, _⟩ := h
    have hv1 : v1 = [] := (List.append_eq_nil.mp e1.symm).1
    obtain ⟨_, c, w1, e2, _⟩ := seq_derives_at_class rules top v1
      (class_not_end rules top cls hc) (class_not_ref rules top cls hc) d1
    rw [hv1] at e2
    cases e2

theorem stack_derives_some (rules : llama_grammar_rules)
    (hprod : ∀ pos, seq_wf rules pos → ∃ v, seq_derives rules pos v) :
    ∀ s, stack_wf rules s → ∃ v, stack_derives rules s v := by
  intro s
  induction s with
  | nil => intro _; exact ⟨[], rfl⟩
  | cons pos rest ih =>
    intro hst
    obtain ⟨v1, h1⟩ := hprod pos (hst pos (List.mem_cons_self _ _)).1
    obtain ⟨v2, h2⟩ := ih (stack_wf_tail rules pos rest hst)
    exact ⟨v1 ++ v2, v1, v2, rfl, h1, h2⟩

/-- The frontier reached from the initial stacks by feeding `w`: its stacks
derive exactly the completions of `w` to words of the language, and it holds
the empty stack exactly when `w` is a word of the language. -/
theorem frontier_language (rules : llama_grammar_rules) (hg : grammar_wf rules)
    (fuel root : Nat) (w : List Nat) (ss0 ss : llama_grammar_stacks)
    (h0 : init_stacks fuel rules root = .ok ss0)
    (h1 : feed_frontier fuel rules ss0 w = .ok ss) :
    frontier_wf rules ss ∧
    (∀ s ∈ ss, ∀ v, stack_derives rules s v → in_language rules root (w ++ v)) ∧
    (∀ v, in_language rules root (w ++ v) → ∃ s ∈ ss, stack_derives rules s v) ∧
    ([] ∈ ss ↔ in_language rules root w) := by
  have hwf0 := init_stacks_wf rules hg fuel root ss0 h0
  have hok0 := init_stacks_frontier_ok fuel rules root ss0 h0
  obtain ⟨i1, i2⟩ := init_stacks_spec rules fuel root ss0 h0
  obtain ⟨f1, f2⟩ := feed_frontier_spec rules hg fuel root w ss0 ss [] hwf0
    (fun s hs v hv => i1 s hs v hv) (fun v hv => i2 v hv) h1
  obtain ⟨hwf, hok⟩ := feed_frontier_wf rules hg fuel w ss0 ss hwf0 hok0 h1
  simp only [List.nil_append] at f1 f2
  refine ⟨hwf, f1, f2, ?_, ?_⟩
  · intro hnil
    have := f1 [] hnil [] rfl
    simpa using this
  · intro hw
    obtain ⟨s, hs, hd⟩ := f2 [] (by simpa using hw)
    have := stack_derives_nil_top rules s (hwf s hs) (hok s hs) hd
    exact this ▸ hs

theorem check_returns_ge (rules : llama_grammar_rules) (hwf : rules_wf rules)
    (hnlr : ¬ left_recursive rules) (fuel : Nat) (hfuel : rules.length < fuel) :
    ∀ (is : List Nat) (st : lr_state),
      (∀ i ∈ is, i < rules.length) → lr_inv rules st →
      st.rules_in_progress = List.replicate rules.length false →
      check_left_recursion fuel rules is st = .ok false := by
  intro is
  induction is with
  | nil => intro st _ _ _; rfl
  | cons i is ih =>
    intro st hlt hinv hip
    have hlt1 : ∀ j ∈ is, j < rules.length := fun j hj => hlt j (List.mem_cons_of_mem _ hj)
    unfold check_left_recursion
    split
    · exact ih st hlt1 hinv hip
    · obtain ⟨r, hr⟩ := detect_returns rules hwf fuel i st
        (hlt i (List.mem_cons_self _ _)) hinv
        (by rw [hip, List.count_replicate_self]; exact hfuel)
      obtain ⟨h1, h2, h3⟩ := detect_fresh_false rules hwf hnlr _ i st r
        (hlt i (List.mem_cons_self _ _)) hinv hip hr
      rw [hr]
      obtain ⟨b1, st1⟩ := r
      simp only at h1
      subst h1
      exact ih st1 hlt1 h3 h2

theorem decode_utf8_encode_all (cs : List Nat) (h : ∀ c ∈ cs, c ≠ 0 ∧ c < 0x110000) :
    decode_utf8 (utf8_encode_all cs) ⟨0, 0⟩ = (cs ++ [0], ⟨cs.getLastD 0, 0⟩) := by
  unfold decode_utf8
  simp only [decode_utf8_continue_aligned]
  have h0 : ¬ ((0 : Int) > 0 ∧ True) := by omega
  rw [if_neg h0, decode_utf8_main_encode_all cs h 0 []]
  simp only [List.nil_append]

/-- C29 (as amended). On a rule table that is well formed (rules end with
`END`, references name rules of the table, every alternative is a sequence of
character classes and references) and not left-recursive, for every root rule
and every string `w` of non-zero code points: from some budget on,
`llama_grammar_init_impl` returns a session and `llama_grammar_accept_str` on
the UTF-8 bytes of `w` returns one outcome, and
* it succeeds (no parse-progress error) when `w` is a prefix of a word of
  `L(G)`;
* when it succeeds, a stack of the frontier is left, and every word that stack
  derives completes `w` to a word of `L(G)`;
* on a grammar in which every sequence derives some word, it succeeds exactly
  when `w` is a prefix of a word of `L(G)`;
* the frontier holds the empty stack exactly when `w` is in `L(G)`. -/
theorem accept_str_succeeds_on_prefixes (rules : llama_grammar_rules) (root : Nat)
    (w : List Nat) (hwf : rules_wf rules) (hg : grammar_wf rules)
    (hnlr : ¬ left_recursive rules) (_hroot : root < rules.length)
    (hw : ∀ c ∈ w, c ≠ 0 ∧ c < 0x110000) :
    ∃ n g o,
      (∀ fuel, n ≤ fuel →
        llama_grammar_init_impl fuel rules root false [] [] = .ok (some g) ∧
        llama_grammar_accept_str fuel g (utf8_encode_all w) = .ok o) ∧
      ((∃ v, in_language rules root (w ++ v)) → o = accept_outcome.done o.grammar) ∧
      (o = accept_outcome.done o.grammar →
        ∃ s ∈ o.grammar.cur_stacks, ∀ v, stack_derives rules s v →
          in_language rules root (w ++ v)) ∧
      ((∀ pos, seq_wf rules pos → ∃ v, seq_derives rules pos v) →
        (o = accept_outcome.done o.grammar ↔ ∃ v, in_language rules root (w ++ v))) ∧
      ([] ∈ o.grammar.cur_stacks ↔ in_language rules root w) := by
  obtain ⟨n0, ss0, h0⟩ := init_stacks_returns rules hwf hg hnlr root
  have hwf0 := init_stacks_wf rules hg n0 root ss0 (h0 n0 (Nat.le_refl _))
  have hok0 := init_stacks_frontier_ok n0 rules root ss0 (h0 n0 (Nat.le_refl _))
  obtain ⟨n1, ss, h1⟩ := feed_frontier_returns rules hwf hg hnlr w ss0 hwf0 hok0
  have hN0 : n0 ≤ max (max n0 n1) (rules.length + 1) :=
    le_trans (le_max_left _ _) (le_max_left _ _)
  have hN1 : n1 ≤ max (max n0 n1) (rules.length + 1) :=
    le_trans (le_max_right _ _) (le_max_left _ _)
  obtain ⟨lwf, l1, l2, l3⟩ := frontier_language rules hg _ root w ss0 ss
    (h0 _ hN0) (h1 _ hN1)
  have hdec := decode_utf8_encode_all w hw
  have hrun : ∀ fuel, max (max n0 n1) (rules.length + 1) ≤ fuel →
      llama_grammar_init_impl fuel rules root false [] [] =
          .ok (some ⟨rules, ss0, ⟨0, 0⟩, false, false, [], [], []⟩) ∧
        llama_grammar_accept_str fuel ⟨rules, ss0, ⟨0, 0⟩, false, false, [], [], []⟩
            (utf8_encode_all w) =
          .ok (if ss = [] then
              accept_outcome.parse_error
                ⟨rules, ss, ⟨w.getLastD 0, 0⟩, false, false, [], [], []⟩
            else
              accept_outcome.done
                ⟨rules, ss, ⟨w.getLastD 0, 0⟩, false, false, [], [], []⟩) := by
    intro fuel hfuel
    constructor
    · unfold llama_grammar_init_impl
      simp only [map_copy_rule_of_wf rules hwf]
      rw [check_returns_ge rules hwf hnlr fuel
        (by have := le_trans (le_max_right _ _) hfuel; omega) _ _
        (fun i hi => List.mem_range.mp hi) (lr_inv_init rules) rfl]
      simp only
      rw [h0 fuel (le_trans hN0 hfuel)]
    · rw [accept_str_eq]
      simp only [hdec, List.dropLast_concat]
      rw [h1 fuel (le_trans hN1 hfuel)]
  by_cases hss : ss = []
  · refine ⟨max (max n0 n1) (rules.length + 1),
      ⟨rules, ss0, ⟨0, 0⟩, false, false, [], [], []⟩, accept_outcome.parse_error
      ⟨rules, ss, ⟨w.getLastD 0, 0⟩, false, false, [], [], []⟩, ?_, ?_, ?_, ?_, ?_⟩
    · intro fuel hfuel
      have := hrun fuel hfuel
      rw [if_pos hss] at this
      exact this
    · rintro ⟨v, hv⟩
      obtain ⟨s, hs, _⟩ := l2 v hv
      rw [hss] at hs
      cases hs
    · intro h; cases h
    · intro _
      constructor
      · intro h; cases h
      · rintro ⟨v, hv⟩
        obtain ⟨s, hs, _⟩ := l2 v hv
        rw [hss] at hs
        cases hs
    · exact l3
  · refine ⟨max (max n0 n1) (rules.length + 1),
      ⟨rules, ss0, ⟨0, 0⟩, false, false, [], [], []⟩, accept_outcome.done
      ⟨rules, ss, ⟨w.getLastD 0, 0⟩, false, false, [], [], []⟩, ?_, ?_, ?_, ?_, ?_⟩
    · intro fuel hfuel
      have := hrun fuel hfuel
      rw [if_neg hss] at this
      exact this
    · intro _; rfl
    · intro _
      obtain ⟨s, rest, hs⟩ := List.exists_cons_of_ne_nil hss
      exact ⟨s, by simp only [accept_outcome.grammar]; rw [hs]; exact List.mem_cons_self _ _,
        fun v hv => l1 s (by rw [hs]; exact List.mem_cons_self _ _) v hv⟩
    · intro hprod
      constructor
      · intro _
        obtain ⟨s, rest, hs⟩ := List.exists_cons_of_ne_nil hss
        have hmem : s ∈ ss := by rw [hs]; exact List.mem_cons_self _ _
        obtain ⟨v, hv⟩ := stack_derives_some rules hprod s (lwf s hmem)
        exact ⟨v, l1 s hmem v hv⟩
      · intro _; rfl
    · exact l3

theorem ab_grammar_wf : grammar_wf ab_rules := by
  intro r sub hsub
  cases r with
  | zero =>
    have h0 : sub = 0 := by
      simp [ab_rules, rule_alternates, scan_alternates] at hsub
      exact hsub
    subst h0
    exact seq_wf.char ⟨0, 0⟩ (char_class.positive (class_item.single 0x61) [])
      ⟨[], [⟨llama_gretype.CHAR, 0x62⟩, ⟨llama_gretype.END, 0⟩], rfl, rfl, by decide, by decide⟩
      (seq_wf.char ⟨0, 1⟩ (char_class.positive (class_item.single 0x62) [])
        ⟨[⟨llama_gretype.CHAR, 0x61⟩], [⟨llama_gretype.END, 0⟩], rfl, rfl, by decide, by decide⟩
        (seq_wf.done ⟨0, 2⟩ rfl))
  | succ k =>
    have h0 : sub = 0 := by
      simp [ab_rules, rule_alternates, scan_alternates] at hsub
      exact hsub
    subst h0
    exact seq_wf.done _ (by simp [rules_at, rule_at, ab_rules, llama_grammar_is_end_of_sequence])

theorem parens_grammar_wf : grammar_wf parens_rules := by
  intro r sub hsub
  cases r with
  | zero =>
    have h0 : sub = 0 ∨ sub = 4 := by
      simp [parens_rules, rule_alternates, scan_alternates] at hsub
      exact hsub
    rcases h0 with h0 | h0 <;> subst h0
    · exact seq_wf.char ⟨0, 0⟩ (char_class.positive (class_item.single 0x28) [])
        ⟨[], [⟨llama_gretype.RULE_REF, 0⟩, ⟨llama_gretype.CHAR, 0x29⟩, ⟨llama_gretype.ALT, 0⟩,
          ⟨llama_gretype.END, 0⟩], rfl, rfl, by decide, by decide⟩
        (seq_wf.ref ⟨0, 1⟩ rfl
          (seq_wf.char ⟨0, 2⟩ (char_class.positive (class_item.single 0x29) [])
            ⟨[⟨llama_gretype.CHAR, 0x28⟩, ⟨llama_gretype.RULE_REF, 0⟩],
              [⟨llama_gretype.ALT, 0⟩, ⟨llama_gretype.END, 0⟩], rfl, rfl, by decide, by decide⟩
            (seq_wf.done ⟨0, 3⟩ rfl)))
    · exact seq_wf.done ⟨0, 4⟩ rfl
  | succ k =>
    have h0 : sub = 0 := by
      simp [parens_rules, rule_alternates, scan_alternates] at hsub
      exact hsub
    subst h0
    exact seq_wf.done _
      (by simp [rules_at, rule_at, parens_rules, llama_grammar_is_end_of_sequence])

/-- C29 (counterexample). For `root ::= "ab"`: the string `abc` has the prefix
`ab` in `L(G)`, yet feeding it raises the parse-progress error; and no prefix
of the string `a` is in `L(G)`, yet feeding it succeeds. -/
theorem prefix_in_language_is_not_enough :
    parse 29 llama_grammar_parser_t.fresh (text_bytes "root ::= \"ab\"") =
        .ok (true, ⟨[(text_bytes "root", 0)], ab_rules⟩) ∧
      llama_grammar_init_impl 3 ab_rules 0 false [] [] = .ok (some ab_session) ∧
      in_language ab_rules 0 [0x61, 0x62] ∧
      llama_grammar_accept_str 3 ab_session [0x61, 0x62, 0x63] =
        .ok (accept_outcome.parse_error
          ⟨ab_rules, [], ⟨0x63, 0⟩, false, false, [], [], []⟩) ∧
      ¬ in_language ab_rules 0 [] ∧ ¬ in_language ab_rules 0 [0x61] ∧
      llama_grammar_accept_str 3 ab_session [0x61] =
        .ok (accept_outcome.done
          ⟨ab_rules, [[⟨0, 1⟩]], ⟨0x61, 0⟩, false, false, [], [], []⟩) := by
  refine ⟨rfl, rfl, ?_, rfl, ?_, ?_, rfl⟩
  · exact ⟨0, by simp [ab_rules, rule_alternates, scan_alternates],
      seq_derives.char ⟨0, 0⟩ (char_class.positive (class_item.single 0x61) []) 0x61 [0x62]
        ⟨[], [⟨llama_gretype.CHAR, 0x62⟩, ⟨llama_gretype.END, 0⟩], rfl, rfl, by decide,
          by decide⟩ rfl
        (seq_derives.char ⟨0, 1⟩ (char_class.positive (class_item.single 0x62) []) 0x62 []
          ⟨[⟨llama_gretype.CHAR, 0x61⟩], [⟨llama_gretype.END, 0⟩], rfl, rfl, by decide,
            by decide⟩ rfl
          (seq_derives.done ⟨0, 2⟩ rfl))⟩
  · intro h
    have := (frontier_language ab_rules ab_grammar_wf 3 0 [] [[⟨0, 0⟩]] [[⟨0, 0⟩]]
      rfl rfl).2.2.2.mpr h
    simp at this
  · intro h
    have := (frontier_language ab_rules ab_grammar_wf 3 0 [0x61] [[⟨0, 0⟩]] [[⟨0, 1⟩]]
      rfl rfl).2.2.2.mpr h
    simp at this

theorem accept_str_succeeds_on_prefixes_witness :
    (rules_wf parens_rules ∧ grammar_wf parens_rules ∧ ¬ left_recursive parens_rules ∧
      0 < parens_rules.length ∧ ∀ c ∈ [0x28], c ≠ 0 ∧ c < 0x110000) ∧
    ∃ n g o,
      (∀ fuel, n ≤ fuel →
        llama_grammar_init_impl fuel parens_rules 0 false [] [] = .ok (some g) ∧
        llama_grammar_accept_str fuel g (utf8_encode_all [0x28]) = .ok o) ∧
      ((∃ v, in_language parens_rules 0 ([0x28] ++ v)) → o = accept_outcome.done o.grammar) ∧
      (o = accept_outcome.done o.grammar →
        ∃ s ∈ o.grammar.cur_stacks, ∀ v, stack_derives parens_rules s v →
          in_language parens_rules 0 ([0x28] ++ v)) ∧
      ((∀ pos, seq_wf parens_rules pos → ∃ v, seq_derives parens_rules pos v) →
        (o = accept_outcome.done o.grammar ↔ ∃ v, in_language parens_rules 0 ([0x28] ++ v))) ∧
      ([] ∈ o.grammar.cur_stacks ↔ in_language parens_rules 0 [0x28]) :=
  ⟨⟨parens_rules_wf, parens_grammar_wf, parens_not_left_recursive, by decide, by decide⟩,
    accept_str_succeeds_on_prefixes parens_rules 0 [0x28] parens_rules_wf parens_grammar_wf
      parens_not_left_recursive (by decide) (by decide)⟩

/-! ### Bounded repetition (C31) -/

theorem utf8_encode_all_ascii :
    ∀ (cs : List Nat), (∀ c ∈ cs, c < 0x80) → utf8_encode_all cs = cs := by
  intro cs
  induction cs with
  | nil => intro _; rfl
  | cons c cs ih =>
    intro h
    have hc : c < 0x80 := h c (List.mem_cons_self _ _)
    have := ih (fun x hx => h x (List.mem_cons_of_mem _ hx))
    unfold utf8_encode_all at this ⊢
    rw [List.flatMap_cons, this]
    unfold utf8_encode
    simp only [hc, if_true, List.singleton_append]

theorem decode_utf8_ascii (cs : List Nat) (h : ∀ c ∈ cs, c ≠ 0 ∧ c < 0x80) :
    decode_utf8 cs ⟨0, 0⟩ = (cs ++ [0], ⟨cs.getLastD 0, 0⟩) := by
  have := decode_utf8_encode_all cs (fun c hc => ⟨(h c hc).1, by have := (h c hc).2; omega⟩)
  rw [utf8_encode_all_ascii cs (fun c hc => (h c hc).2)] at this
  exact this

theorem feed_frontier_append (fuel : Nat) (rules : llama_grammar_rules) :
    ∀ (a b : List Nat) (ss mid : llama_grammar_stacks),
      feed_frontier fuel rules ss a = .ok mid →
      feed_frontier fuel rules ss (a ++ b) = feed_frontier fuel rules mid b := by
  intro a
  induction a with
  | nil =>
    intro b ss mid h
    simp only [feed_frontier, Except.ok.injEq] at h
    rw [h]
    rfl
  | cons c cs ih =>
    intro b ss mid h
    simp only [feed_frontier, List.cons_append] at h ⊢
    cases ha : accept_stacks fuel rules ss c with
    | error e => rw [ha] at h; cases h
    | ok r =>
      rw [ha] at h
      simp only
      exact ih b r mid h

theorem feed_frontier_dead (fuel : Nat) (rules : llama_grammar_rules) :
    ∀ (chrs : List Nat), feed_frontier fuel rules [] chrs = .ok [] := by
  intro chrs
  induction chrs with
  | nil => rfl
  | cons c cs ih =>
    simp only [feed_frontier]
    have : accept_stacks fuel rules [] c = .ok [] := rfl
    rw [this]
    exact ih

theorem bounded_a_feed (k fuel : Nat) (hfuel : 3 ≤ fuel) :
    feed_frontier fuel bounded_a_rules [[⟨0, 0⟩]] (List.replicate k 0x61) =
      .ok (bounded_a_frontier k) := by
  have small : ∀ j, j ≤ 5 →
      feed_frontier 3 bounded_a_rules [[⟨0, 0⟩]] (List.replicate j 0x61) =
        .ok (bounded_a_frontier j) := by
    intro j hj
    rcases j with _ | _ | _ | _ | _ | _ | j
    · rfl
    · rfl
    · rfl
    · rfl
    · rfl
    · rfl
    · omega
  by_cases hk : k ≤ 5
  · exact feed_frontier_mono 3 fuel _ hfuel _ _ _ (small k hk)
  · have hsplit : List.replicate k 0x61 = List.replicate 5 0x61 ++ List.replicate (k - 5) 0x61 := by
      rw [← List.replicate_add]
      congr 1
      omega
    have h5 := feed_frontier_mono 3 fuel _ hfuel _ _ _ (small 5 (Nat.le_refl _))
    rw [hsplit, feed_frontier_append fuel _ _ _ _ _ h5]
    have hf : bounded_a_frontier 5 = [] := rfl
    rw [hf, feed_frontier_dead]
    have : bounded_a_frontier k = [] := by
      rcases k with _ | _ | _ | _ | _ | k
      · omega
      · omega
      · omega
      · omega
      · omega
      · rfl
    rw [this]

/-- C31. Bounded repetition. The text `root ::= "a"{2,4}` parses to
`bounded_a_rules`, from which `llama_grammar_init_impl` returns
`bounded_a_session`. For every `k`, with a budget of 3 nested calls or more,
`llama_grammar_accept_str` on the string of `k` letters `a` returns; it
succeeds with the empty stack in the frontier exactly when `2 <= k <= 4`; for
`k <= 1` it succeeds without the empty stack in the frontier, and for
`k >= 5` it raises the parse-progress error. -/
theorem bounded_repetition (k fuel : Nat) (hfuel : 3 ≤ fuel) :
    parse 39 llama_grammar_parser_t.fresh (text_bytes "root ::= \"a\"\x7b2,4\x7d") =
      .ok (true, ⟨[(text_bytes "root", 0), (text_bytes "root_1", 1), (text_bytes "root_2", 2)],
        bounded_a_rules⟩) ∧
    llama_grammar_init_impl 4 bounded_a_rules 0 false [] [] = .ok (some bounded_a_session) ∧
    ∃ o, llama_grammar_accept_str fuel bounded_a_session (List.replicate k 0x61) = .ok o ∧
      o.grammar.cur_stacks = bounded_a_frontier k ∧
      ((o = accept_outcome.done o.grammar ∧ [] ∈ o.grammar.cur_stacks) ↔ (2 ≤ k ∧ k ≤ 4)) ∧
      (k ≤ 1 → o = accept_outcome.done o.grammar ∧ [] ∉ o.grammar.cur_stacks) ∧
      (5 ≤ k → o = accept_outcome.parse_error o.grammar) := by
  refine ⟨rfl, rfl, ?_⟩
  have hdec := decode_utf8_ascii (List.replicate k 0x61)
    (fun c hc => by rw [List.eq_of_mem_replicate hc]; decide)
  have hfeed := bounded_a_feed k fuel hfuel
  have hrun : llama_grammar_accept_str fuel bounded_a_session (List.replicate k 0x61) =
      .ok (if bounded_a_frontier k = [] then
          accept_outcome.parse_error
            { bounded_a_session with
              cur_stacks := bounded_a_frontier k,
              partial_utf8 := ⟨(List.replicate k 0x61).getLastD 0, 0⟩ }
        else
          accept_outcome.done
            { bounded_a_session with
              cur_stacks := bounded_a_frontier k,
              partial_utf8 := ⟨(List.replicate k 0x61).getLastD 0, 0⟩ }) := by
    have e1 : bounded_a_session.rules = bounded_a_rules := rfl
    have e2 : bounded_a_session.cur_stacks = [[⟨0, 0⟩]] := rfl
    have e3 : bounded_a_session.partial_utf8 = ⟨0, 0⟩ := rfl
    rw [accept_str_eq, e1, e2, e3, hdec]
    simp only [List.dropLast_concat]
    rw [hfeed]
    rfl
  refine ⟨_, hrun, ?_, ?_, ?_, ?_⟩
  · split <;> rfl
  · rcases k with _ | _ | _ | _ | _ | k
    · simp [bounded_a_frontier, accept_outcome.grammar]
    · simp [bounded_a_frontier, accept_outcome.grammar]
    · simp [bounded_a_frontier, accept_outcome.grammar]
    · simp [bounded_a_frontier, accept_outcome.grammar]
    · simp [bounded_a_frontier, accept_outcome.grammar]
    · simp [bounded_a_frontier, accept_outcome.grammar]
  · intro hk
    rcases k with _ | _ | k
    · simp [bounded_a_frontier, accept_outcome.grammar]
    · simp [bounded_a_frontier, accept_outcome.grammar]
    · omega
  · intro hk
    have : bounded_a_frontier k = [] := by
      rcases k with _ | _ | _ | _ | _ | k
      · omega
      · omega
      · omega
      · omega
      · omega
      · rfl
    simp [this, accept_outcome.grammar]

theorem bounded_repetition_witness :
    3 ≤ 3 ∧
    llama_grammar_accept_str 3 bounded_a_session (List.replicate 1 0x61) =
      .ok (accept_outcome.done
        ⟨bounded_a_rules, [[⟨0, 1⟩]], ⟨0x61, 0⟩, false, false, [], [], []⟩) ∧
    llama_grammar_accept_str 3 bounded_a_session (List.replicate 3 0x61) =
      .ok (accept_outcome.done
        ⟨bounded_a_rules, [[⟨1, 0⟩], []], ⟨0x61, 0⟩, false, false, [], [], []⟩) ∧
    llama_grammar_accept_str 3 bounded_a_session (List.replicate 5 0x61) =
      .ok (accept_outcome.parse_error
        ⟨bounded_a_rules, [], ⟨0x61, 0⟩, false, false, [], [], []⟩) ∧
    ∃ o, llama_grammar_accept_str 3 bounded_a_session (List.replicate 3 0x61) = .ok o ∧
      o.grammar.cur_stacks = bounded_a_frontier 3 ∧
      ((o = accept_outcome.done o.grammar ∧ [] ∈ o.grammar.cur_stacks) ↔ (2 ≤ 3 ∧ 3 ≤ 4)) ∧
      (3 ≤ 1 → o = accept_outcome.done o.grammar ∧ [] ∉ o.grammar.cur_stacks) ∧
      (5 ≤ 3 → o = accept_outcome.parse_error o.grammar) :=
  ⟨Nat.le_refl 3, rfl, rfl, rfl, (bounded_repetition 3 3 (Nat.le_refl 3)).2.2⟩

/-! ### Balanced parentheses (C32) -/

theorem parens_match_open (c : Nat) :
    llama_grammar_match_char parens_rules ⟨0, 0⟩ c = .ok (decide (c = 0x28), ⟨0, 1⟩) := by
  rw [match_char_at_class parens_rules ⟨0, 0⟩
    (char_class.positive (class_item.single 0x28) []) c
    ⟨[], [⟨llama_gretype.RULE_REF, 0⟩, ⟨llama_gretype.CHAR, 0x29⟩, ⟨llama_gretype.ALT, 0⟩,
      ⟨llama_gretype.END, 0⟩], rfl, rfl, by decide, by decide⟩]
  simp [char_class.accepts, class_item.has, char_class.encode, class_item.encode, elem_ptr.add,
    encode_alts]
  exact eq_comm

theorem parens_match_close (c : Nat) :
    llama_grammar_match_char parens_rules ⟨0, 2⟩ c = .ok (decide (c = 0x29), ⟨0, 3⟩) := by
  rw [match_char_at_class parens_rules ⟨0, 2⟩
    (char_class.positive (class_item.single 0x29) []) c
    ⟨[⟨llama_gretype.CHAR, 0x28⟩, ⟨llama_gretype.RULE_REF, 0⟩],
      [⟨llama_gretype.ALT, 0⟩, ⟨llama_gretype.END, 0⟩], rfl, rfl, by decide, by decide⟩]
  simp [char_class.accepts, class_item.has, char_class.encode, class_item.encode, elem_ptr.add,
    encode_alts]
  exact eq_comm

theorem accept_stack_skip (fuel : Nat) (rules : llama_grammar_rules) (chr : Nat)
    (acc : llama_grammar_stacks) (top pos : elem_ptr) (rest : llama_grammar_stack)
    (h : llama_grammar_match_char rules top chr = .ok (false, pos)) :
    accept_stack fuel rules chr acc (top :: rest) = .ok acc := by
  simp [accept_stack, h]

theorem parens_dead (fuel k c : Nat) (h1 : c ≠ 0x28) (h2 : c ≠ 0x29) :
    accept_stacks fuel parens_rules (parens_frontier k) c = .ok [] := by
  have ho : llama_grammar_match_char parens_rules ⟨0, 0⟩ c = .ok (false, ⟨0, 1⟩) := by
    rw [parens_match_open]; simp [h1]
  have hc : llama_grammar_match_char parens_rules ⟨0, 2⟩ c = .ok (false, ⟨0, 3⟩) := by
    rw [parens_match_close]; simp [h2]
  have hnil : ∀ acc, accept_stack fuel parens_rules c acc [] = .ok acc := fun _ => rfl
  rcases k with _ | _ | _ | _ | k <;>
    simp only [accept_stacks, parens_frontier, List.foldlM_cons, List.foldlM_nil,
      accept_stack_skip fuel parens_rules c _ _ _ _ ho,
      accept_stack_skip fuel parens_rules c _ _ _ _ hc, hnil] <;> rfl

theorem parens_accept_initial (fuel k : Nat) (hfuel : 3 ≤ fuel) (hk : k ≤ 4) :
    llama_grammar_accept_str fuel parens_session ((text_bytes "(())").take k) =
      .ok (accept_outcome.done
        ⟨parens_rules, parens_frontier k,
          (decode_utf8 ((text_bytes "(())").take k) ⟨0, 0⟩).2, false, false, [], [], []⟩) := by
  have small : ∀ j, j ≤ 4 →
      feed_frontier 3 parens_rules [[⟨0, 0⟩], []]
          (decode_utf8 ((text_bytes "(())").take j) ⟨0, 0⟩).1.dropLast =
        .ok (parens_frontier j) := by
    intro j hj
    rcases j with _ | _ | _ | _ | _ | j
    · rfl
    · rfl
    · rfl
    · rfl
    · rfl
    · omega
  have e1 : parens_session.rules = parens_rules := rfl
  have e2 : parens_session.cur_stacks = [[⟨0, 0⟩], []] := rfl
  have e3 : parens_session.partial_utf8 = ⟨0, 0⟩ := rfl
  rw [accept_str_eq, e1, e2, e3, feed_frontier_mono 3 fuel _ hfuel _ _ _ (small k hk)]
  have hne : parens_frontier k ≠ [] := by
    rcases k with _ | _ | _ | _ | k <;> simp [parens_frontier]
  simp only [hne, if_false]
  rfl

theorem parens_admission (fuel k c : Nat) (hfuel : 3 ≤ fuel) (hk : k ≤ 4) :
    ∃ res, accept_stacks fuel parens_rules (parens_frontier k) c = .ok res ∧
      (res ≠ [] ↔ parens_admits k c) := by
  by_cases h1 : c = 0x28
  · subst h1
    have small : ∀ j, j ≤ 4 → ∃ res, accept_stacks 3 parens_rules (parens_frontier j) 0x28 = .ok res ∧
        (res ≠ [] ↔ parens_admits j 0x28) := by
      intro j hj
      rcases j with _ | _ | _ | _ | _ | j
      · exact ⟨parens_frontier 1, rfl, by simp [parens_admits, parens_frontier]⟩
      · exact ⟨parens_frontier 2, rfl, by simp [parens_admits, parens_frontier]⟩
      · exact ⟨[[⟨0, 0⟩, ⟨0, 2⟩, ⟨0, 2⟩, ⟨0, 2⟩], [⟨0, 2⟩, ⟨0, 2⟩, ⟨0, 2⟩]], rfl,
          by simp [parens_admits]⟩
      · exact ⟨[], rfl, by simp [parens_admits]⟩
      · exact ⟨[], rfl, by simp [parens_admits]⟩
      · omega
    obtain ⟨res, hres, hiff⟩ := small k hk
    exact ⟨res, accept_stacks_mono 3 fuel _ _ _ _ hfuel hres, hiff⟩
  · by_cases h2 : c = 0x29
    · subst h2
      have small : ∀ j, j ≤ 4 →
          ∃ res, accept_stacks 3 parens_rules (parens_frontier j) 0x29 = .ok res ∧
            (res ≠ [] ↔ parens_admits j 0x29) := by
        intro j hj
        rcases j with _ | _ | _ | _ | _ | j
        · exact ⟨[], rfl, by simp [parens_admits]⟩
        · exact ⟨[[]], rfl, by simp [parens_admits]⟩
        · exact ⟨[[⟨0, 2⟩]], rfl, by simp [parens_admits]⟩
        · exact ⟨[[]], rfl, by simp [parens_admits]⟩
        · exact ⟨[], rfl, by simp [parens_admits]⟩
        · omega
      obtain ⟨res, hres, hiff⟩ := small k hk
      exact ⟨res, accept_stacks_mono 3 fuel _ _ _ _ hfuel hres, hiff⟩
    · refine ⟨[], parens_dead fuel k c h1 h2, ?_⟩
      simp [parens_admits, h1, h2]

theorem filter_on_empty_stack_returns (fuel : Nat) (rules : llama_grammar_rules)
    (C : llama_grammar_candidates) (hfuel : 2 ≤ fuel) :
    ∃ R, llama_grammar_reject_candidates fuel rules [[]] C = .ok R := by
  obtain ⟨f, rfl⟩ : ∃ f, fuel = f + 2 := ⟨fuel - 2, by omega⟩
  cases C with
  | nil => exact ⟨[], reject_candidates_nil_batch _ _ _ _⟩
  | cons tok toks =>
    rw [reject_candidates_cons_batch, reject_for_stack_nil]
    exact ⟨_, rfl⟩

/-- C32. Balanced parentheses, `root ::= "(" root ")" | ""`. With a budget of
3 nested calls or more, for every `k <= 4`: `llama_grammar_accept_str` on the
first `k` bytes of `(())` succeeds and leaves the frontier `parens_frontier k`;
the round of `llama_grammar_accept` on that frontier returns for every code
point `c`, and its frontier is non-empty exactly when `c` is `(` and
`k <= 2` or `c` is `)` and `1 <= k <= 3`, so only for `(` and `)`, and after
`(()` only for `)`. After `(())` the frontier is the empty stack alone, and
`llama_grammar_apply_impl` returns an array in which every end-of-generation
token keeps its entry. -/
theorem balanced_parentheses (fuel k c : Nat) (hfuel : 3 ≤ fuel) (hk : k ≤ 4) :
    llama_grammar_accept_str fuel parens_session ((text_bytes "(())").take k) =
      .ok (accept_outcome.done
        ⟨parens_rules, parens_frontier k,
          (decode_utf8 ((text_bytes "(())").take k) ⟨0, 0⟩).2, false, false, [], [], []⟩) ∧
    (∃ res, accept_stacks fuel parens_rules (parens_frontier k) c = .ok res ∧
      (res ≠ [] ↔ parens_admits k c) ∧
      (res ≠ [] → c = 0x28 ∨ c = 0x29) ∧
      (k = 3 → (res ≠ [] ↔ c = 0x29))) ∧
    llama_grammar_accept_str fuel parens_session (text_bytes "(())") =
      .ok (accept_outcome.done
        ⟨parens_rules, [[]], ⟨0x29, 0⟩, false, false, [], [], []⟩) ∧
    ∀ (vocab : llama_vocab) (cur_p : List llama_token_data),
      ∃ out, llama_grammar_apply_impl fuel vocab
          ⟨parens_rules, [[]], ⟨0x29, 0⟩, false, false, [], [], []⟩ cur_p = .ok out ∧
        ∀ i d, cur_p.get? i = some d → vocab.is_eog d.id = true → out.get? i = some d := by
  refine ⟨parens_accept_initial fuel k hfuel hk, ?_, ?_, ?_⟩
  · obtain ⟨res, hres, hiff⟩ := parens_admission fuel k c hfuel hk
    refine ⟨res, hres, hiff, ?_, ?_⟩
    · intro hne
      rcases hiff.mp hne with h | h
      · exact Or.inl h.2
      · exact Or.inr h.2.2
    · intro h3
      subst h3
      rw [hiff]
      simp [parens_admits]
  · exact parens_accept_initial fuel 4 hfuel (Nat.le_refl 4)
  · intro vocab cur_p
    rw [apply_active_eq fuel vocab _ cur_p rfl]
    obtain ⟨R, hR⟩ := filter_on_empty_stack_returns fuel parens_rules
      (apply_scan vocab ⟨parens_rules, [[]], ⟨0x29, 0⟩, false, false, [], [], []⟩
        (([[]] : llama_grammar_stacks).any List.isEmpty) cur_p 0).2 (by omega)
    have hR1 : llama_grammar_reject_candidates fuel
        (⟨parens_rules, [[]], ⟨0x29, 0⟩, false, false, [], [], []⟩ : llama_grammar).rules
        (⟨parens_rules, [[]], ⟨0x29, 0⟩, false, false, [], [], []⟩ : llama_grammar).cur_stacks
        (apply_scan vocab ⟨parens_rules, [[]], ⟨0x29, 0⟩, false, false, [], [], []⟩
          (([[]] : llama_grammar_stacks).any List.isEmpty) cur_p 0).2 = .ok R := hR
    simp only [] at hR1 ⊢
    rw [hR1]
    refine ⟨_, rfl, ?_⟩
    intro i d hi heog
    have hnot := reject_index_not_eog fuel vocab
      ⟨parens_rules, [[]], ⟨0x29, 0⟩, false, false, [], [], []⟩ _ cur_p R hR1 i d hi heog
    rw [apply_result_get, hi]
    simp only [Option.map_some', hnot, decide_False, Bool.false_or, scan_masks, heog, if_true]
    rfl

theorem balanced_parentheses_witness :
    3 ≤ 3 ∧ 3 ≤ 4 ∧
    llama_grammar_accept_str 3 parens_session (text_bytes "(()") =
      .ok (accept_outcome.done
        ⟨parens_rules, [[⟨0, 2⟩]], ⟨0x29, 0⟩, false, false, [], [], []⟩) ∧
    accept_stacks 3 parens_rules [[⟨0, 2⟩]] 0x29 = .ok [[]] ∧
    accept_stacks 3 parens_rules [[⟨0, 2⟩]] 0x28 = .ok [] ∧
    (∃ res, accept_stacks 3 parens_rules (parens_frontier 3) 0x28 = .ok res ∧
      (res ≠ [] ↔ parens_admits 3 0x28) ∧
      (res ≠ [] → 0x28 = 0x28 ∨ 0x28 = 0x29) ∧
      (3 = 3 → (res ≠ [] ↔ 0x28 = 0x29))) :=
  ⟨Nat.le_refl 3, by decide, rfl, rfl, rfl,
    (balanced_parentheses 3 3 0x28 (Nat.le_refl 3) (by decide)).2.1⟩

/-! ### Direct left recursion is rejected (C34) -/

theorem lr_inv_enter (rules : llama_grammar_rules) (hwf : rules_wf rules) (idx : Nat)
    (hidx : idx < rules.length) (st : lr_state) (hinv : lr_inv rules st) :
    lr_inv rules
      (if rule_has_empty_alternate (rules.getD idx []) true = true then
          ({ rules_visited := st.rules_visited,
             rules_in_progress := st.rules_in_progress.set idx true,
             rules_may_be_empty := st.rules_may_be_empty.set idx true } : lr_state)
        else
          { rules_visited := st.rules_visited,
            rules_in_progress := st.rules_in_progress.set idx true,
            rules_may_be_empty := st.rules_may_be_empty }) := by
  have hmem := rule_mem_of_lt rules idx hidx
  split
  · rename_i hemp
    refine ⟨by simp only [List.length_set]; exact hinv.1, ?_⟩
    intro v hv
    simp only at hv
    by_cases hvi : idx = v
    · subst hvi
      exact has_empty_alternate_nullable rules idx (hwf _ hmem).1 _ [] true rfl
        (fun _ => Or.inl rfl) hemp
    · rw [List.getD_eq_getElem?_getD, List.getElem?_set_ne hvi,
        ← List.getD_eq_getElem?_getD] at hv
      exact hinv.2 v hv
  · exact ⟨by simp only [List.length_set]; exact hinv.1, hinv.2⟩

theorem getD_set_self_true (ip : List Bool) (idx : Nat) (h : idx < ip.length) :
    (ip.set idx true).getD idx false = true := by
  rw [List.getD_eq_getElem?_getD, List.getElem?_set_self h]
  rfl

theorem getD_set_other (ip : List Bool) (idx q : Nat) (b : Bool) (h : idx ≠ q) :
    (ip.set idx b).getD q false = ip.getD q false := by
  rw [List.getD_eq_getElem?_getD, List.getElem?_set_ne h, ← List.getD_eq_getElem?_getD]

theorem detect_in_progress (rules : llama_grammar_rules) (fuel idx : Nat) (st : lr_state)
    (res : Bool × lr_state) (hip : st.rules_in_progress.getD idx false = true)
    (h : llama_grammar_detect_left_recursion fuel rules idx st = .ok res) : res.1 = true := by
  cases fuel with
  | zero => simp [llama_grammar_detect_left_recursion] at h
  | succ n =>
    unfold llama_grammar_detect_left_recursion at h
    rw [if_pos hip] at h
    simp only [Except.ok.injEq] at h
    subst h
    rfl

theorem detect_loop_direct (rules : llama_grammar_rules) (hwf : rules_wf rules)
    (r s fuel : Nat) (hr : r < rules.length) (hs : alt_start (rules.getD r []) s)
    (href : (rules.getD r []).get? s = some ⟨llama_gretype.RULE_REF, r⟩) :
    ∀ (es pre : llama_grammar_rule) (flag : Bool) (st : lr_state) (res : Bool × lr_state),
      rules.getD r [] = pre ++ es → pre.length ≤ s → (pre.length = s → flag = true) →
      lr_inv rules st → st.rules_in_progress.getD r false = true →
      detect_loop (llama_grammar_detect_left_recursion fuel rules) es flag st = .ok res →
      res.1 = true := by
  have hmem := rule_mem_of_lt rules r hr
  intro es
  induction es with
  | nil =>
    intro pre flag st res hrule hle _ _ _ _
    rw [hrule, List.append_nil] at href
    have := List.get?_eq_some.mp href
    obtain ⟨hlt, _⟩ := this
    omega
  | cons e es ih =>
    intro pre flag st res hrule hle hflag hinv hip h
    have hrule1 : rules.getD r [] = (pre ++ [e]) ++ es := by rw [hrule]; simp
    have hlen1 : (pre ++ [e]).length = pre.length + 1 := by simp
    have hget : (rules.getD r []).get? pre.length = some e := by
      rw [hrule]; exact get?_append_cons _ _ _
    -- the element before the start of the alternative is an ALT
    have halt : pre.length + 1 = s → e.type = llama_gretype.ALT := by
      intro hps
      rcases hs with h0 | ⟨_, v, hv⟩
      · omega
      · have : s - 1 = pre.length := by omega
        rw [this, hget] at hv
        cases hv
        rfl
    unfold detect_loop at h
    by_cases hat : pre.length = s
    · have he : e = ⟨llama_gretype.RULE_REF, r⟩ := by
        rw [hat, href] at hget
        cases hget
        rfl
      subst he
      rw [if_pos ⟨rfl, hflag hat⟩] at h
      cases hd : llama_grammar_detect_left_recursion fuel rules r st with
      | error err => simp only [hd] at h; cases h
      | ok r1 =>
        have hr1 := detect_in_progress rules fuel r st r1 hip hd
        simp only [hd] at h
        obtain ⟨b, st1⟩ := r1
        simp only at hr1
        subst hr1
        simp only [Except.ok.injEq] at h
        subst h
        rfl
    · have hlt : pre.length + 1 ≤ s := by omega
      by_cases hc : e.type = llama_gretype.RULE_REF ∧ flag = true
      · rw [if_pos hc] at h
        have hv : e.value < rules.length :=
          (hwf _ hmem).2 e (by rw [hrule]; simp) hc.1
        cases hd : llama_grammar_detect_left_recursion fuel rules e.value st with
        | error err => rw [hd] at h; cases h
        | ok r1 =>
          rw [hd] at h
          have hpost := detect_sound rules hwf fuel e.value st r1 hv hinv hd
          obtain ⟨b, st1⟩ := r1
          cases b with
          | true =>
            simp only [Except.ok.injEq] at h
            subst h
            rfl
          | false =>
            simp only at h
            obtain ⟨hip1, hinv1⟩ := hpost.2 rfl
            have hip2 : st1.rules_in_progress.getD r false = true := by
              have : st1.rules_in_progress = st.rules_in_progress := hip1
              rw [this]; exact hip
            have hne : (pre ++ [e]).length ≠ s := by
              intro hps
              rw [hlen1] at hps
              have := halt hps
              rw [hc.1] at this
              cases this
            split at h
            · exact ih (pre ++ [e]) true st1 res hrule1 (by rw [hlen1]; exact hlt)
                (fun _ => rfl) hinv1 hip2 h
            · exact ih (pre ++ [e]) false st1 res hrule1 (by rw [hlen1]; exact hlt)
                (fun hps => absurd hps hne) hinv1 hip2 h
      · rw [if_neg hc] at h
        by_cases hend : llama_grammar_is_end_of_sequence e = true
        · rw [if_pos hend] at h
          exact ih (pre ++ [e]) true st res hrule1 (by rw [hlen1]; exact hlt)
            (fun _ => rfl) hinv hip h
        · rw [if_neg hend] at h
          refine ih (pre ++ [e]) false st res hrule1 (by rw [hlen1]; exact hlt)
            (fun hps => ?_) hinv hip h
          rw [hlen1] at hps
          have := halt hps
          exfalso
          apply hend
          unfold llama_grammar_is_end_of_sequence
          rw [this]

theorem detect_direct (rules : llama_grammar_rules) (hwf : rules_wf rules)
    (r s : Nat) (hr : r < rules.length) (hs : alt_start (rules.getD r []) s)
    (href : (rules.getD r []).get? s = some ⟨llama_gretype.RULE_REF, r⟩)
    (fuel : Nat) (st : lr_state) (res : Bool × lr_state) (hinv : lr_inv rules st)
    (h : llama_grammar_detect_left_recursion fuel rules r st = .ok res) : res.1 = true := by
  cases fuel with
  | zero => simp [llama_grammar_detect_left_recursion] at h
  | succ n =>
    by_cases hip : st.rules_in_progress.getD r false = true
    · exact detect_in_progress rules _ r st res hip h
    · unfold llama_grammar_detect_left_recursion at h
      rw [if_neg hip] at h
      simp only at h
      have hinv2 := lr_inv_enter rules hwf r hr st hinv
      generalize hst2 : (if rule_has_empty_alternate (rules.getD r []) true = true then
          ({ rules_visited := st.rules_visited,
             rules_in_progress := st.rules_in_progress.set r true,
             rules_may_be_empty := st.rules_may_be_empty.set r true } : lr_state)
        else
          { rules_visited := st.rules_visited,
            rules_in_progress := st.rules_in_progress.set r true,
            rules_may_be_empty := st.rules_may_be_empty }) = st2 at h hinv2
      have hip2 : st2.rules_in_progress.getD r false = true := by
        have : st2.rules_in_progress = st.rules_in_progress.set r true := by
          rw [← hst2]; split <;> rfl
        rw [this]
        exact getD_set_self_true _ _ (by rw [hinv.1]; exact hr)
      cases hl : detect_loop (llama_grammar_detect_left_recursion n rules) (rules.getD r [])
          true st2 with
      | error err => rw [hl] at h; cases h
      | ok r3 =>
        rw [hl] at h
        have h3 := detect_loop_direct rules hwf r s n hr hs href (rules.getD r []) [] true st2 r3
          rfl (Nat.zero_le _) (fun _ => rfl) hinv2 hip2 hl
        obtain ⟨b, st3⟩ := r3
        simp only at h3
        subst h3
        simp only [Except.ok.injEq] at h
        subst h
        rfl

theorem detect_loop_visited (rules : llama_grammar_rules) (hwf : rules_wf rules)
    (r fuel : Nat)
    (H : ∀ v st res, v < rules.length → lr_inv rules st →
      st.rules_visited.getD r false = false →
      llama_grammar_detect_left_recursion fuel rules v st = .ok res → res.1 = false →
      res.2.rules_visited.getD r false = false) :
    ∀ (es : llama_grammar_rule) (flag : Bool) (st : lr_state) (res : Bool × lr_state),
      (∀ e ∈ es, e.type = llama_gretype.RULE_REF → e.value < rules.length) →
      lr_inv rules st → st.rules_visited.getD r false = false →
      detect_loop (llama_grammar_detect_left_recursion fuel rules) es flag st = .ok res →
      res.1 = false → res.2.rules_visited.getD r false = false := by
  intro es
  induction es with
  | nil =>
    intro flag st res _ _ hvis h _
    simp only [detect_loop, Except.ok.injEq] at h
    subst h
    exact hvis
  | cons e es ih =>
    intro flag st res hrefs hinv hvis h hres
    have hrefs1 : ∀ x ∈ es, x.type = llama_gretype.RULE_REF → x.value < rules.length :=
      fun x hx => hrefs x (List.mem_cons_of_mem _ hx)
    unfold detect_loop at h
    by_cases hc : e.type = llama_gretype.RULE_REF ∧ flag = true
    · rw [if_pos hc] at h
      have hv : e.value < rules.length := hrefs e (List.mem_cons_self _ _) hc.1
      cases hd : llama_grammar_detect_left_recursion fuel rules e.value st with
      | error err => rw [hd] at h; cases h
      | ok r1 =>
        rw [hd] at h
        have hpost := detect_sound rules hwf fuel e.value st r1 hv hinv hd
        have hvis1 := H e.value st r1 hv hinv hvis hd
        obtain ⟨b, st1⟩ := r1
        cases b with
        | true =>
          simp only [Except.ok.injEq] at h
          subst h
          cases hres
        | false =>
          simp only at h
          obtain ⟨_, hinv1⟩ := hpost.2 rfl
          split at h
          · exact ih true st1 res hrefs1 hinv1 (hvis1 rfl) h hres
          · exact ih false st1 res hrefs1 hinv1 (hvis1 rfl) h hres
    · rw [if_neg hc] at h
      split at h
      · exact ih true st res hrefs1 hinv hvis h hres
      · exact ih false st res hrefs1 hinv hvis h hres

theorem detect_visited (rules : llama_grammar_rules) (hwf : rules_wf rules)
    (r s : Nat) (hr : r < rules.length) (hs : alt_start (rules.getD r []) s)
    (href : (rules.getD r []).get? s = some ⟨llama_gretype.RULE_REF, r⟩) :
    ∀ (fuel v : Nat) (st : lr_state) (res : Bool × lr_state),
      v < rules.length → lr_inv rules st → st.rules_visited.getD r false = false →
      llama_grammar_detect_left_recursion fuel rules v st = .ok res → res.1 = false →
      res.2.rules_visited.getD r false = false := by
  intro fuel
  induction fuel with
  | zero => intro v st res _ _ _ h; simp [llama_grammar_detect_left_recursion] at h
  | succ n ih =>
    intro v st res hv hinv hvis h hres
    have hvr : v ≠ r := by
      intro hvr
      subst hvr
      have := detect_direct rules hwf v s hr hs href _ st res hinv h
      rw [this] at hres
      cases hres
    have hmem := rule_mem_of_lt rules v hv
    unfold llama_grammar_detect_left_recursion at h
    by_cases hip : st.rules_in_progress.getD v false = true
    · rw [if_pos hip] at h
      simp only [Except.ok.injEq] at h
      subst h
      cases hres
    · rw [if_neg hip] at h
      simp only at h
      have hinv2 := lr_inv_enter rules hwf v hv st hinv
      generalize hst2 : (if rule_has_empty_alternate (rules.getD v []) true = true then
          ({ rules_visited := st.rules_visited,
             rules_in_progress := st.rules_in_progress.set v true,
             rules_may_be_empty := st.rules_may_be_empty.set v true } : lr_state)
        else
          { rules_visited := st.rules_visited,
            rules_in_progress := st.rules_in_progress.set v true,
            rules_may_be_empty := st.rules_may_be_empty }) = st2 at h hinv2
      have hvis2 : st2.rules_visited.getD r false = false := by
        have : st2.rules_visited = st.rules_visited := by
          rw [← hst2]; split <;> rfl
        rw [this]
        exact hvis
      cases hl : detect_loop (llama_grammar_detect_left_recursion n rules) (rules.getD v [])
          true st2 with
      | error err => rw [hl] at h; cases h
      | ok r3 =>
        rw [hl] at h
        have h3 := detect_loop_visited rules hwf r n ih (rules.getD v []) true st2 r3
          (hwf _ hmem).2 hinv2 hvis2 hl
        obtain ⟨b, st3⟩ := r3
        cases b with
        | true =>
          simp only [Except.ok.injEq] at h
          subst h
          cases hres
        | false =>
          simp only [Except.ok.injEq] at h
          subst h
          show (st3.rules_visited.set v true).getD r false = false
          rw [getD_set_other _ _ _ _ hvr]
          exact h3 rfl

theorem check_direct (rules : llama_grammar_rules) (hwf : rules_wf rules)
    (r s : Nat) (hr : r < rules.length) (hs : alt_start (rules.getD r []) s)
    (href : (rules.getD r []).get? s = some ⟨llama_gretype.RULE_REF, r⟩)
    (fuel : Nat) (hfuel : rules.length < fuel) :
    ∀ (is : List Nat) (st : lr_state),
      r ∈ is → (∀ i ∈ is, i < rules.length) → lr_inv rules st →
      st.rules_in_progress = List.replicate rules.length false →
      st.rules_visited.getD r false = false →
      check_left_recursion fuel rules is st = .ok true := by
  intro is
  induction is with
  | nil => intro st hmem; cases hmem
  | cons i is ih =>
    intro st hmem hlt hinv hip hvis
    have hlt1 : ∀ j ∈ is, j < rules.length := fun j hj => hlt j (List.mem_cons_of_mem _ hj)
    have hi : i < rules.length := hlt i (List.mem_cons_self _ _)
    unfold check_left_recursion
    by_cases hvi : st.rules_visited.getD i false = true
    · rw [if_pos hvi]
      have hne : r ≠ i := by
        intro hri
        subst hri
        rw [hvis] at hvi
        cases hvi
      rcases List.mem_cons.mp hmem with h0 | h0
      · exact absurd h0 hne
      · exact ih st h0 hlt1 hinv hip hvis
    · rw [if_neg hvi]
      obtain ⟨r1, hr1⟩ := detect_returns rules hwf fuel i st hi hinv
        (by rw [hip, List.count_replicate_self]; exact hfuel)
      rw [hr1]
      have hpost := detect_sound rules hwf fuel i st r1 hi hinv hr1
      have hv1 := detect_visited rules hwf r s hr hs href fuel i st r1 hi hinv hvis hr1
      obtain ⟨b, st1⟩ := r1
      cases b with
      | true => rfl
      | false =>
        simp only
        obtain ⟨hip1, hinv1⟩ := hpost.2 rfl
        have hne : r ≠ i := by
          intro hri
          subst hri
          have := detect_direct rules hwf r s hr hs href fuel st _ hinv hr1
          cases this
        rcases List.mem_cons.mp hmem with h0 | h0
        · exact absurd h0 hne
        · exact ih st1 h0 hlt1 hinv1 (hip1.trans hip) (hv1 rfl)

/-- C34. Direct left recursion is always rejected. For every well-formed rule
table in which index `s` starts an alternative of rule `r` and holds a
`RULE_REF` to `r` itself, and every depth budget above the number of rules,
the left-recursion check of `llama_grammar_init_impl` returns and reports left
recursion, and `llama_grammar_init_impl` returns the null pointer, whatever
the start rule and the triggers. -/
theorem direct_left_recursion_rejected (rules : llama_grammar_rules) (r s fuel : Nat)
    (start_rule_index : Nat) (lazy : Bool) (trigger_tokens : List Nat)
    (trigger_patterns : List String)
    (hwf : rules_wf rules) (hs : alt_start (rules.getD r []) s)
    (href : (rules.getD r []).get? s = some ⟨llama_gretype.RULE_REF, r⟩)
    (hfuel : rules.length < fuel) :
    check_left_recursion fuel (rules.map copy_rule) (List.range rules.length)
        (lr_state_init rules.length) = .ok true ∧
      llama_grammar_init_impl fuel rules start_rule_index lazy trigger_tokens
        trigger_patterns = .ok none := by
  have hr : r < rules.length := by
    by_contra hge
    rw [List.getD_eq_getElem?_getD, List.getElem?_eq_none (Nat.le_of_not_lt hge)] at href
    cases href
  have hcheck : check_left_recursion fuel (rules.map copy_rule) (List.range rules.length)
      (lr_state_init rules.length) = .ok true := by
    rw [map_copy_rule_of_wf rules hwf]
    exact check_direct rules hwf r s hr hs href fuel hfuel (List.range rules.length)
      (lr_state_init rules.length) (List.mem_range.mpr hr)
      (fun i hi => List.mem_range.mp hi) (lr_inv_init rules) rfl
      (by simp only [lr_state_init]; exact getD_replicate_false _ _)
  refine ⟨hcheck, ?_⟩
  unfold llama_grammar_init_impl
  simp only [hcheck]

theorem direct_lr_rules_wf : rules_wf direct_lr_rules := by
  intro rule hrule
  simp only [direct_lr_rules, List.mem_singleton] at hrule
  subst hrule
  refine ⟨rfl, ?_⟩
  intro e he hty
  simp only [List.mem_cons, List.mem_singleton, List.not_mem_nil, or_false] at he
  rcases he with h | h | h | h | h <;> subst h <;> first | exact Nat.zero_lt_one | cases hty

theorem direct_left_recursion_rejected_witness :
    parse 31 llama_grammar_parser_t.fresh (text_bytes "root ::= root \"a\" | \"a\"") =
      .ok (true, ⟨[(text_bytes "root", 0)], direct_lr_rules⟩) ∧
    rules_wf direct_lr_rules ∧ alt_start (direct_lr_rules.getD 0 []) 0 ∧
    (direct_lr_rules.getD 0 []).get? 0 = some ⟨llama_gretype.RULE_REF, 0⟩ ∧
    direct_lr_rules.length < 2 ∧
    check_left_recursion 2 (direct_lr_rules.map copy_rule) (List.range direct_lr_rules.length)
        (lr_state_init direct_lr_rules.length) = .ok true ∧
    llama_grammar_init_impl 2 direct_lr_rules 0 false [] [] = .ok none :=
  ⟨rfl, direct_lr_rules_wf, Or.inl rfl, rfl, by decide,
    direct_left_recursion_rejected direct_lr_rules 0 0 2 0 false [] [] direct_lr_rules_wf
      (Or.inl rfl) rfl (by decide)⟩

/-! ### Incremental decoding does not depend on the split (C36) -/

theorem utf8_encode_shape (c : Nat) (hc0 : c ≠ 0) (hc : c < 0x110000) :
    ∃ first conts, utf8_encode c = first :: conts ∧ first ≠ 0 ∧
      decode_utf8_lookup.getD (first >>> 4) 0 = (conts.length : Int) + 1 ∧
      ∀ b ∈ conts, b ≠ 0 ∧ b >>> 6 = 2 := by
  have hcont : ∀ x : Nat, x < 0x40 → (0x80 + x) ≠ 0 ∧ (0x80 + x) >>> 6 = 2 := by
    intro x hx
    refine ⟨by omega, ?_⟩
    rw [Nat.shiftRight_eq_div_pow]
    omega
  unfold utf8_encode
  by_cases h1 : c < 0x80
  · refine ⟨c, [], by simp only [h1, if_true], hc0, ?_, by simp⟩
    rw [lookup_one_byte c h1]; rfl
  · by_cases h2 : c < 0x800
    · refine ⟨0xC0 + c / 0x40, [0x80 + c % 0x40], by simp only [h1, h2, if_true, if_false],
        by omega, ?_, ?_⟩
      · rw [lookup_two_bytes _ (by omega) (by omega)]; rfl
      · intro b hb
        simp only [List.mem_singleton] at hb
        subst hb
        exact hcont _ (Nat.mod_lt _ (by decide))
    · by_cases h3 : c < 0x10000
      · refine ⟨0xE0 + c / 0x1000, [0x80 + c / 0x40 % 0x40, 0x80 + c % 0x40],
          by simp only [h1, h2, h3, if_true, if_false], by omega, ?_, ?_⟩
        · rw [lookup_three_bytes _ (by omega) (by omega)]; rfl
        · intro b hb
          simp only [List.mem_cons, List.mem_singleton, List.not_mem_nil, or_false] at hb
          rcases hb with hb | hb <;> subst hb <;> exact hcont _ (Nat.mod_lt _ (by decide))
      · refine ⟨0xF0 + c / 0x40000,
          [0x80 + c / 0x1000 % 0x40, 0x80 + c / 0x40 % 0x40, 0x80 + c % 0x40],
          by simp only [h1, h2, h3, if_false], by omega, ?_, ?_⟩
        · rw [lookup_four_bytes _ (by omega) (by omega)]; rfl
        · intro b hb
          simp only [List.mem_cons, List.mem_singleton, List.not_mem_nil, or_false] at hb
          rcases hb with hb | hb | hb <;> subst hb <;> exact hcont _ (Nat.mod_lt _ (by decide))

theorem decode_utf8_continue_next (b : Nat) (bs : List Nat) (v m : Nat)
    (hb : b ≠ 0) (h2 : b >>> 6 = 2) :
    decode_utf8_continue (b :: bs) v ((m : Int) + 1) =
      decode_utf8_continue bs ((v * 64 + b % 64) % 2 ^ 32) m := by
  rw [decode_utf8_continue]
  have h0 : b ≠ 0 ∧ ((m : Int) + 1 > 0) := ⟨hb, by omega⟩
  have h1 : ¬ (b >>> 6 ≠ 2) := fun h => h h2
  simp only [h0, h1, if_false, if_true]
  have h3 : b &&& 0x3F = b % 64 := Nat.and_pow_two_sub_one_eq_mod b 6
  have h4 : v <<< 6 = v * 64 := by rw [Nat.shiftLeft_eq]
  have h5 : (m : Int) + 1 - 1 = m := by omega
  simp only [and_self, ne_eq, not_true_eq_false, if_false, h3, h4, h5]
  rw [if_pos ⟨hb, trivial⟩]

/-- The value the decoder has accumulated after the continuation bytes `conts`. -/
theorem continuation_run_main :
    ∀ (c1 : List Nat), (∀ b ∈ c1, b ≠ 0 ∧ b >>> 6 = 2) →
      ∀ (v j : Nat) (acc tail : List Nat), 0 < j →
        decode_utf8_main (c1 ++ tail) v (((c1.length + j : Nat) : Int)) acc =
          decode_utf8_main tail (c1.foldl (fun v b => (v * 64 + b % 64) % 2 ^ 32) v) j acc := by
  intro c1
  induction c1 with
  | nil => intro _ v j acc tail _; simp
  | cons b bs ih =>
    intro h v j acc tail hj
    have hb := h b (List.mem_cons_self _ _)
    have e : (((b :: bs).length + j : Nat) : Int) = ((bs.length + j : Nat) : Int) + 1 := by
      simp only [List.length_cons]; omega
    rw [e, List.cons_append, decode_utf8_main_next b _ v acc (bs.length + j) hb.1]
    have hne : ¬ (bs.length + j = 0) := by omega
    simp only [hne, if_false, List.foldl_cons]
    exact ih (fun x hx => h x (List.mem_cons_of_mem _ hx)) _ j acc tail hj

theorem continuation_run_end :
    ∀ (c2 : List Nat), (∀ b ∈ c2, b ≠ 0 ∧ b >>> 6 = 2) → c2 ≠ [] →
      ∀ (v : Nat) (rest : List Nat),
        decode_utf8_continue (c2 ++ rest) v ((c2.length : Nat) : Int) =
            some (rest, c2.foldl (fun v b => (v * 64 + b % 64) % 2 ^ 32) v, 0) ∧
          ∀ acc, decode_utf8_main (c2 ++ rest) v ((c2.length : Nat) : Int) acc =
            decode_utf8_main rest (c2.foldl (fun v b => (v * 64 + b % 64) % 2 ^ 32) v) 0
              (acc ++ [c2.foldl (fun v b => (v * 64 + b % 64) % 2 ^ 32) v]) := by
  intro c2
  induction c2 with
  | nil => intro _ h; exact absurd rfl h
  | cons b bs ih =>
    intro h _ v rest
    have hb := h b (List.mem_cons_self _ _)
    have e : (((b :: bs).length : Nat) : Int) = ((bs.length : Nat) : Int) + 1 := by
      simp only [List.length_cons]; omega
    rw [e, List.cons_append, decode_utf8_continue_next b _ v bs.length hb.1 hb.2]
    cases bs with
    | nil =>
      refine ⟨?_, ?_⟩
      · simp only [List.length_nil, Nat.cast_zero, List.nil_append, List.foldl_cons,
          List.foldl_nil]
        exact decode_utf8_continue_aligned _ _
      · intro acc
        have := decode_utf8_main_next b rest v acc 0 hb.1
        simp only [Nat.cast_zero, zero_add, if_true] at this
        simp only [List.length_nil, Nat.cast_zero, zero_add, List.nil_append, List.foldl_cons,
          List.foldl_nil]
        exact this
    | cons b1 bs1 =>
      obtain ⟨h1, h2⟩ := ih (fun x hx => h x (List.mem_cons_of_mem _ hx)) (by simp)
        ((v * 64 + b % 64) % 2 ^ 32) rest
      refine ⟨?_, ?_⟩
      · simp only [List.foldl_cons] at h1 ⊢
        exact h1
      · intro acc
        rw [decode_utf8_main_next b _ v acc (b1 :: bs1).length hb.1]
        have hne : ¬ ((b1 :: bs1).length = 0) := by simp
        simp only [hne, if_false]
        have := h2 acc
        simp only [List.foldl_cons] at this ⊢
        exact this

theorem decode_utf8_main_prefix :
    ∀ (cs : List Nat), (∀ c ∈ cs, c ≠ 0 ∧ c < 0x110000) →
      ∀ (rest : List Nat) (v : Nat) (acc : List Nat),
        decode_utf8_main (utf8_encode_all cs ++ rest) v 0 acc =
          decode_utf8_main rest (cs.getLastD v) 0 (acc ++ cs) := by
  intro cs
  induction cs with
  | nil =>
    intro _ rest v acc
    simp [utf8_encode_all]
  | cons c cs ih =>
    intro h rest v acc
    have hc := h c (List.mem_cons_self c cs)
    have e : utf8_encode_all (c :: cs) = utf8_encode c ++ utf8_encode_all cs := by
      simp only [utf8_encode_all, List.flatMap_cons]
    rw [e, List.append_assoc, decode_utf8_main_encode c hc.1 hc.2,
      ih (fun x hx => h x (List.mem_cons_of_mem c hx)) rest c (acc ++ [c])]
    simp only [List.append_assoc, List.singleton_append, List.getLastD_cons]

/-- A code point split inside its encoding: the first call ends with the
partial state `p`, from which the second call completes the code point. -/
theorem decode_utf8_split_inside (c : Nat) (hc0 : c ≠ 0) (hc : c < 0x110000)
    (pre suf : List Nat) (hsplit : utf8_encode c = pre ++ suf) (hpre : pre ≠ [])
    (hsuf : suf ≠ []) :
    ∃ p : llama_partial_utf8, p.n_remain > 0 ∧
      (∀ v acc, decode_utf8_main pre v 0 acc = (acc ++ [0], p)) ∧
      ∀ rest, decode_utf8_continue (suf ++ rest) p.value p.n_remain = some (rest, c, 0) := by
  obtain ⟨first, conts, henc, hf0, hlook, hconts⟩ := utf8_encode_shape c hc0 hc
  rw [henc] at hsplit
  cases pre with
  | nil => exact absurd rfl hpre
  | cons p0 c1 =>
    simp only [List.cons_append, List.cons.injEq] at hsplit
    obtain ⟨hp0, hcs⟩ := hsplit
    subst hp0
    have hc1 : ∀ b ∈ c1, b ≠ 0 ∧ b >>> 6 = 2 :=
      fun b hb => hconts b (by rw [hcs]; exact List.mem_append_left _ hb)
    have hc2 : ∀ b ∈ suf, b ≠ 0 ∧ b >>> 6 = 2 :=
      fun b hb => hconts b (by rw [hcs]; exact List.mem_append_right _ hb)
    have hlen : conts.length = c1.length + suf.length := by rw [hcs, List.length_append]
    have hsl : 0 < suf.length := List.length_pos.mpr hsuf
    have hm0 : ¬ (conts.length = 0) := by omega
    -- the value after the whole encoding is `c`
    have hV : suf.foldl (fun v b => (v * 64 + b % 64) % 2 ^ 32)
        (c1.foldl (fun v b => (v * 64 + b % 64) % 2 ^ 32)
          (first % 2 ^ (7 - conts.length))) = c := by
      have h1 := decode_utf8_main_encode c hc0 hc [] 0 []
      rw [henc, hcs, List.append_nil,
        decode_utf8_main_first first (c1 ++ suf) 0 [] conts.length hf0 hlook] at h1
      simp only [hm0, if_false] at h1
      have h2 := continuation_run_main c1 hc1 (first % 2 ^ (7 - conts.length)) suf.length []
        suf hsl
      rw [← hlen] at h2
      rw [h2] at h1
      have h3 := (continuation_run_end suf hc2 hsuf
        (c1.foldl (fun v b => (v * 64 + b % 64) % 2 ^ 32) (first % 2 ^ (7 - conts.length)))
        []).2 []
      simp only [List.append_nil] at h3
      rw [h3] at h1
      simp only [decode_utf8_main, List.nil_append, Prod.mk.injEq, List.cons.injEq, and_true,
        llama_partial_utf8.mk.injEq] at h1
      have h4 := h1.1
      simpa using h4
    refine ⟨⟨c1.foldl (fun v b => (v * 64 + b % 64) % 2 ^ 32) (first % 2 ^ (7 - conts.length)),
      suf.length⟩, by simp only [gt_iff_lt, Nat.cast_pos]; exact hsl, ?_, ?_⟩
    · intro v acc
      rw [decode_utf8_main_first first c1 v acc conts.length hf0 hlook]
      simp only [hm0, if_false]
      have h2 := continuation_run_main c1 hc1 (first % 2 ^ (7 - conts.length)) suf.length acc
        [] hsl
      rw [← hlen, List.append_nil] at h2
      rw [h2]
      simp only [decode_utf8_main]
    · intro rest
      have h3 := (continuation_run_end suf hc2 hsuf
        (c1.foldl (fun v b => (v * 64 + b % 64) % 2 ^ 32) (first % 2 ^ (7 - conts.length)))
        rest).1
      rw [hV] at h3
      exact h3

theorem getLastD_append_cons (l1 l2 : List Nat) (x d : Nat) :
    (l1 ++ x :: l2).getLastD d = l2.getLastD x := by
  induction l1 generalizing d with
  | nil => rw [List.nil_append, List.getLastD_cons]
  | cons y ys ih =>
    rw [List.cons_append, List.getLastD_cons]
    exact ih y

theorem utf8_encode_ne_nil (c : Nat) : utf8_encode c ≠ [] := by
  unfold utf8_encode
  split
  · simp
  · split
    · simp
    · split <;> simp

/-- A byte split of an encoded string falls between two code points or inside
the encoding of one. -/
theorem utf8_encode_all_split :
    ∀ (cs : List Nat) (a b : List Nat), utf8_encode_all cs = a ++ b →
      (∃ cs1 cs2, cs = cs1 ++ cs2 ∧ a = utf8_encode_all cs1 ∧ b = utf8_encode_all cs2) ∨
      (∃ cs1 c cs2 pre suf, cs = cs1 ++ c :: cs2 ∧ pre ≠ [] ∧ suf ≠ [] ∧
        utf8_encode c = pre ++ suf ∧ a = utf8_encode_all cs1 ++ pre ∧
        b = suf ++ utf8_encode_all cs2) := by
  intro cs
  induction cs with
  | nil =>
    intro a b h
    simp only [utf8_encode_all, List.flatMap_nil] at h
    have := List.append_eq_nil.mp h.symm
    exact Or.inl ⟨[], [], rfl, by rw [this.1]; rfl, by rw [this.2]; rfl⟩
  | cons c cs ih =>
    intro a b h
    have e : utf8_encode_all (c :: cs) = utf8_encode c ++ utf8_encode_all cs := by
      simp only [utf8_encode_all, List.flatMap_cons]
    rw [e] at h
    rcases List.append_eq_append_iff.mp h with ⟨a1, ha, hb⟩ | ⟨c1, ha, hb⟩
    · rcases ih a1 b hb with ⟨cs1, cs2, h1, h2, h3⟩ | ⟨cs1, x, cs2, pre, suf, h1, h2, h3, h4, h5, h6⟩
      · refine Or.inl ⟨c :: cs1, cs2, by rw [h1]; rfl, ?_, h3⟩
        rw [ha, h2]
        simp only [utf8_encode_all, List.flatMap_cons]
      · refine Or.inr ⟨c :: cs1, x, cs2, pre, suf, by rw [h1]; rfl, h2, h3, h4, ?_, h6⟩
        rw [ha, h5]
        simp only [utf8_encode_all, List.flatMap_cons, List.append_assoc]
    · by_cases ha0 : a = []
      · subst ha0
        refine Or.inl ⟨[], c :: cs, rfl, rfl, ?_⟩
        rw [hb, e]
        simp only [List.nil_append] at ha
        rw [ha]
      · by_cases hc0 : c1 = []
        · subst hc0
          simp only [List.append_nil] at ha
          simp only [List.nil_append] at hb
          refine Or.inl ⟨[c], cs, rfl, ?_, hb⟩
          rw [← ha]
          simp [utf8_encode_all]
        · exact Or.inr ⟨[], c, cs, a, c1, rfl, ha0, hc0, ha, by simp [utf8_encode_all], hb⟩

theorem decode_utf8_from_aligned (cs : List Nat) (h : ∀ c ∈ cs, c ≠ 0 ∧ c < 0x110000)
    (v : Nat) :
    decode_utf8 (utf8_encode_all cs) ⟨v, 0⟩ = (cs ++ [0], ⟨cs.getLastD v, 0⟩) := by
  unfold decode_utf8
  simp only [decode_utf8_continue_aligned]
  have h0 : ¬ ((0 : Int) > 0 ∧ True) := by omega
  rw [if_neg h0, decode_utf8_main_encode_all cs h v []]
  simp only [List.nil_append]

/-- C36. Incremental decoding does not depend on where the bytes are split.
For every sequence `cs` of Unicode scalar values none of which is 0 and every
split `a ++ b` of its UTF-8 encoding (inside a code point too): `decode_utf8`
on `a` from the empty partial state and then on `b` from the partial state
returned for `a` gives code points that, terminating zeros removed, concatenate
to those of one call on `a ++ b`, which are `cs`; and the final partial state
is that of the one call. -/
theorem decode_utf8_split_independent (cs a b : List Nat)
    (h : ∀ c ∈ cs, is_scalar_value c ∧ c ≠ 0) (hs : utf8_encode_all cs = a ++ b) :
    (decode_utf8 a ⟨0, 0⟩).1.dropLast ++
        (decode_utf8 b (decode_utf8 a ⟨0, 0⟩).2).1.dropLast =
      (decode_utf8 (a ++ b) ⟨0, 0⟩).1.dropLast ∧
    (decode_utf8 (a ++ b) ⟨0, 0⟩).1.dropLast = cs ∧
    (decode_utf8 b (decode_utf8 a ⟨0, 0⟩).2).2 = (decode_utf8 (a ++ b) ⟨0, 0⟩).2 := by
  have hcs : ∀ c ∈ cs, c ≠ 0 ∧ c < 0x110000 := by
    intro c hc
    obtain ⟨hsv, hz⟩ := h c hc
    refine ⟨hz, ?_⟩
    unfold is_scalar_value at hsv
    omega
  have hone := decode_utf8_from_aligned cs hcs 0
  rw [hs] at hone
  rw [hone]
  simp only [List.dropLast_concat]
  rcases utf8_encode_all_split cs a b hs with
    ⟨cs1, cs2, h1, h2, h3⟩ | ⟨cs1, c, cs2, pre, suf, h1, h2, h3, h4, h5, h6⟩
  · have hcs1 : ∀ c ∈ cs1, c ≠ 0 ∧ c < 0x110000 :=
      fun c hc => hcs c (by rw [h1]; exact List.mem_append_left _ hc)
    have hcs2 : ∀ c ∈ cs2, c ≠ 0 ∧ c < 0x110000 :=
      fun c hc => hcs c (by rw [h1]; exact List.mem_append_right _ hc)
    rw [h2, h3, decode_utf8_from_aligned cs1 hcs1 0]
    simp only
    rw [decode_utf8_from_aligned cs2 hcs2]
    simp only [List.dropLast_concat]
    refine ⟨h1.symm, trivial, ?_⟩
    rw [h1]
    cases cs2 with
    | nil => simp
    | cons x xs => rw [getLastD_append_cons, List.getLastD_cons]
  · have hcs1 : ∀ c ∈ cs1, c ≠ 0 ∧ c < 0x110000 :=
      fun x hx => hcs x (by rw [h1]; exact List.mem_append_left _ hx)
    have hcs2 : ∀ c ∈ cs2, c ≠ 0 ∧ c < 0x110000 :=
      fun x hx => hcs x (by rw [h1]; exact List.mem_append_right _ (List.mem_cons_of_mem _ hx))
    have hc := hcs c (by rw [h1]; simp)
    obtain ⟨p, hp, hmain, hcont⟩ := decode_utf8_split_inside c hc.1 hc.2 pre suf h4 h2 h3
    have hda : decode_utf8 a ⟨0, 0⟩ = (cs1 ++ [0], p) := by
      unfold decode_utf8
      simp only [decode_utf8_continue_aligned]
      have h0 : ¬ ((0 : Int) > 0 ∧ True) := by omega
      rw [if_neg h0, h5, decode_utf8_main_prefix cs1 hcs1, hmain]
      simp only [List.nil_append]
    have hdb : decode_utf8 b p = (c :: cs2 ++ [0], ⟨cs2.getLastD c, 0⟩) := by
      unfold decode_utf8
      rw [h6, hcont]
      simp only
      have h0 : p.n_remain > 0 ∧ True := ⟨hp, trivial⟩
      rw [if_pos h0, decode_utf8_main_encode_all cs2 hcs2 c [c]]
      simp only [List.singleton_append, List.cons_append, List.nil_append]
    rw [hda]
    simp only
    rw [hdb]
    simp only [List.dropLast_concat]
    refine ⟨h1.symm, trivial, ?_⟩
    rw [h1, getLastD_append_cons]

theorem decode_utf8_split_independent_witness :
    (∀ c ∈ [0xE9, 0x20AC], is_scalar_value c ∧ c ≠ 0) ∧
    utf8_encode_all [0xE9, 0x20AC] = [0xC3, 0xA9, 0xE2] ++ [0x82, 0xAC] ∧
    decode_utf8 [0xC3, 0xA9, 0xE2] ⟨0, 0⟩ = ([0xE9, 0], ⟨2, 2⟩) ∧
    decode_utf8 [0x82, 0xAC] ⟨2, 2⟩ = ([0x20AC, 0], ⟨0x20AC, 0⟩) ∧
    decode_utf8 [0xC3, 0xA9, 0xE2, 0x82, 0xAC] ⟨0, 0⟩ = ([0xE9, 0x20AC, 0], ⟨0x20AC, 0⟩) ∧
    ((decode_utf8 [0xC3, 0xA9, 0xE2] ⟨0, 0⟩).1.dropLast ++
        (decode_utf8 [0x82, 0xAC] (decode_utf8 [0xC3, 0xA9, 0xE2] ⟨0, 0⟩).2).1.dropLast =
      (decode_utf8 ([0xC3, 0xA9, 0xE2] ++ [0x82, 0xAC]) ⟨0, 0⟩).1.dropLast ∧
    (decode_utf8 ([0xC3, 0xA9, 0xE2] ++ [0x82, 0xAC]) ⟨0, 0⟩).1.dropLast = [0xE9, 0x20AC] ∧
    (decode_utf8 [0x82, 0xAC] (decode_utf8 [0xC3, 0xA9, 0xE2] ⟨0, 0⟩).2).2 =
      (decode_utf8 ([0xC3, 0xA9, 0xE2] ++ [0x82, 0xAC]) ⟨0, 0⟩).2) :=
  ⟨by decide, rfl, rfl, rfl, rfl,
    decode_utf8_split_independent [0xE9, 0x20AC] [0xC3, 0xA9, 0xE2] [0x82, 0xAC] (by decide) rfl⟩

/-! ### The candidate filter agrees with the evaluator (C35) -/

theorem foldlM_mem_spec {α : Type}
    (f : llama_grammar_stacks → α → Run llama_grammar_stacks)
    (G : α → llama_grammar_stack → Prop) :
    ∀ (l : List α) (acc res : llama_grammar_stacks),
      (∀ a ∈ l, ∀ acc r, f acc a = .ok r → ∀ x, x ∈ r ↔ x ∈ acc ∨ G a x) →
      l.foldlM f acc = .ok res →
      ∀ x, x ∈ res ↔ x ∈ acc ∨ ∃ a ∈ l, G a x := by
  intro l
  induction l with
  | nil =>
    intro acc res _ h x
    simp only [List.foldlM_nil, pure, Except.pure, Except.ok.injEq] at h
    subst h
    simp
  | cons a as ih =>
    intro acc res hstep h x
    simp only [List.foldlM_cons, bind, Except.bind] at h
    cases ha : f acc a with
    | error e => rw [ha] at h; cases h
    | ok r =>
      rw [ha] at h
      simp only at h
      have h1 := hstep a (List.mem_cons_self _ _) acc r ha
      have h2 := ih r res (fun b hb => hstep b (List.mem_cons_of_mem _ hb)) h x
      rw [h2, h1 x]
      constructor
      · rintro ((hx | hx) | ⟨b, hb, hx⟩)
        · exact Or.inl hx
        · exact Or.inr ⟨a, List.mem_cons_self _ _, hx⟩
        · exact Or.inr ⟨b, List.mem_cons_of_mem _ hb, hx⟩
      · rintro (hx | ⟨b, hb, hx⟩)
        · exact Or.inl (Or.inl hx)
        · rcases List.mem_cons.mp hb with h0 | h0
          · subst h0; exact Or.inl (Or.inr hx)
          · exact Or.inr ⟨b, h0, hx⟩

theorem stack_advances_ref (rules : llama_grammar_rules) (pos : elem_ptr)
    (rest x : llama_grammar_stack) (hty : (rules_at rules pos).type = llama_gretype.RULE_REF) :
    stack_advances rules (pos :: rest) x ↔
      ∃ sub ∈ rule_alternates (rules.getD (rules_at rules pos).value []),
        stack_advances rules
          (push_unless_end rules ⟨(rules_at rules pos).value, sub⟩
            (push_unless_end rules (pos.add 1) rest)) x := by
  constructor
  · intro h
    cases h with
    | char _ _ htop => simp [stack_top_ok, hty] at htop
    | ref _ _ sub _ _ hsub hadv => exact ⟨sub, hsub, hadv⟩
  · rintro ⟨sub, hsub, hadv⟩
    exact stack_advances.ref pos rest sub x hty hsub hadv

theorem stack_advances_char (rules : llama_grammar_rules) (pos : elem_ptr)
    (rest x : llama_grammar_stack) (htop : stack_top_ok rules (pos :: rest) = true) :
    stack_advances rules (pos :: rest) x ↔ x = pos :: rest := by
  constructor
  · intro h
    cases h with
    | char _ _ _ => rfl
    | ref _ _ sub _ hty _ _ => simp [stack_top_ok, hty] at htop
  · intro h
    subst h
    exact stack_advances.char pos rest htop

theorem stack_advances_nil (rules : llama_grammar_rules) (x : llama_grammar_stack) :
    stack_advances rules [] x ↔ x = [] := by
  constructor
  · intro h; cases h; rfl
  · intro h; subst h; exact stack_advances.empty

/-- What a returning call of `llama_grammar_advance_stack` appends. -/
theorem advance_stack_mem :
    ∀ (fuel : Nat) (rules : llama_grammar_rules) (stack : llama_grammar_stack)
      (acc res : llama_grammar_stacks),
      llama_grammar_advance_stack fuel rules stack acc = .ok res →
      ∀ x, x ∈ res ↔ x ∈ acc ∨ stack_advances rules stack x := by
  intro fuel
  induction fuel with
  | zero => intro rules stack acc res h; simp [llama_grammar_advance_stack] at h
  | succ n ih =>
    intro rules stack acc res h x
    unfold llama_grammar_advance_stack at h
    cases stack with
    | nil =>
      simp only [Except.ok.injEq] at h
      subst h
      rw [mem_push_unique, stack_advances_nil]
    | cons pos rest =>
      simp only at h
      revert h
      cases hty : (rules_at rules pos).type <;> intro h <;> simp only at h
      case RULE_REF =>
        rw [stack_advances_ref rules pos rest x hty]
        exact foldlM_mem_spec _
          (fun sub x => stack_advances rules
            (push_unless_end rules ⟨(rules_at rules pos).value, sub⟩
              (push_unless_end rules (pos.add 1) rest)) x) _ acc res
          (fun sub _ acc1 r hr => ih rules _ acc1 r hr) h x
      case CHAR =>
        simp only [Except.ok.injEq] at h
        subst h
        rw [mem_push_unique, stack_advances_char rules pos rest x (by simp [stack_top_ok, hty])]
      case CHAR_NOT =>
        simp only [Except.ok.injEq] at h
        subst h
        rw [mem_push_unique, stack_advances_char rules pos rest x (by simp [stack_top_ok, hty])]
      case CHAR_ANY =>
        simp only [Except.ok.injEq] at h
        subst h
        rw [mem_push_unique, stack_advances_char rules pos rest x (by simp [stack_top_ok, hty])]
      all_goals cases h

theorem accept_stack_mem (fuel : Nat) (rules : llama_grammar_rules) (chr : Nat)
    (acc : llama_grammar_stacks) (stack : llama_grammar_stack) (res : llama_grammar_stacks)
    (h : accept_stack fuel rules chr acc stack = .ok res) :
    ∀ x, x ∈ res ↔ x ∈ acc ∨ stack_steps rules chr stack x := by
  intro x
  unfold accept_stack at h
  cases stack with
  | nil =>
    simp only [Except.ok.injEq] at h
    subst h
    constructor
    · exact Or.inl
    · rintro (hx | ⟨pos, rest, m, h0, _⟩)
      · exact hx
      · cases h0
  | cons top rest =>
    simp only at h
    cases hm : llama_grammar_match_char rules top chr with
    | error e => rw [hm] at h; cases h
    | ok m =>
      rw [hm] at h
      simp only at h
      by_cases hb : m.1 = true
      · rw [if_pos hb] at h
        rw [advance_stack_mem fuel rules _ acc res h x]
        constructor
        · rintro (hx | hx)
          · exact Or.inl hx
          · exact Or.inr ⟨top, rest, m, rfl, hm, hb, hx⟩
        · rintro (hx | ⟨pos, rest1, m1, h0, hm1, _, hx⟩)
          · exact Or.inl hx
          · cases h0
            rw [hm] at hm1
            cases hm1
            exact Or.inr hx
      · rw [if_neg hb] at h
        simp only [Except.ok.injEq] at h
        subst h
        constructor
        · exact Or.inl
        · rintro (hx | ⟨pos, rest1, m1, h0, hm1, hb1, _⟩)
          · exact hx
          · cases h0
            rw [hm] at hm1
            cases hm1
            exact absurd hb1 hb

theorem accept_stacks_mem (fuel : Nat) (rules : llama_grammar_rules)
    (ss : llama_grammar_stacks) (chr : Nat) (res : llama_grammar_stacks)
    (h : accept_stacks fuel rules ss chr = .ok res) :
    ∀ x, x ∈ res ↔ ∃ s ∈ ss, stack_steps rules chr s x := by
  intro x
  unfold accept_stacks at h
  have := foldlM_mem_spec (accept_stack fuel rules chr) (fun s x => stack_steps rules chr s x)
    ss [] res (fun s _ acc r hr => accept_stack_mem fuel rules chr acc s r hr) h x
  simpa using this

/-- The frontier left by folding `llama_grammar_accept` over the code points is
non-empty exactly when a stack of the starting frontier survives them. -/
theorem feed_frontier_survives (fuel : Nat) (rules : llama_grammar_rules) :
    ∀ (chrs : List Nat) (ss res : llama_grammar_stacks),
      feed_frontier fuel rules ss chrs = .ok res →
      (res ≠ [] ↔ ∃ s ∈ ss, stack_survives rules s chrs) := by
  intro chrs
  induction chrs with
  | nil =>
    intro ss res h
    simp only [feed_frontier, Except.ok.injEq] at h
    subst h
    constructor
    · intro hne
      obtain ⟨s, hs⟩ := List.exists_mem_of_ne_nil _ hne
      exact ⟨s, hs, stack_survives.done s⟩
    · rintro ⟨s, hs, _⟩ hnil
      rw [hnil] at hs
      cases hs
  | cons c cs ih =>
    intro ss res h
    simp only [feed_frontier] at h
    cases ha : accept_stacks fuel rules ss c with
    | error e => rw [ha] at h; cases h
    | ok r =>
      rw [ha] at h
      simp only at h
      rw [ih r res h]
      constructor
      · rintro ⟨x, hx, hsurv⟩
        obtain ⟨s, hs, hstep⟩ := (accept_stacks_mem fuel rules ss c r ha x).mp hx
        exact ⟨s, hs, stack_survives.step s x c cs hstep hsurv⟩
      · rintro ⟨s, hs, hsurv⟩
        cases hsurv with
        | step _ x _ _ hstep hrest =>
          exact ⟨x, (accept_stacks_mem fuel rules ss c r ha x).mpr ⟨s, hs, hstep⟩, hrest⟩

theorem match_char_loop_pos_indep (rule : llama_grammar_rule) (c1 c2 : Nat) :
    ∀ (fuel pos : Nat) (f1 f2 : Bool),
      (match_char_loop rule c1 fuel pos f1).2 = (match_char_loop rule c2 fuel pos f2).2 := by
  intro fuel
  induction fuel with
  | zero => intro pos f1 f2; rfl
  | succ n ih =>
    intro pos f1 f2
    unfold match_char_loop
    by_cases h1 : (rule_at rule (pos + 1)).type = llama_gretype.CHAR_RNG_UPPER
    · simp only [h1, if_true]
      split
      · exact ih _ _ _
      · rfl
    · simp only [h1, if_false]
      by_cases h2 : (rule_at rule pos).type = llama_gretype.CHAR_ANY
      · simp only [h2, if_true]
        split
        · exact ih _ _ _
        · rfl
      · simp only [h2, if_false]
        split
        · exact ih _ _ _
        · rfl

/-- The pointer `llama_grammar_match_char` returns does not depend on the code
point. -/
theorem match_char_pos_indep (rules : llama_grammar_rules) (pos : elem_ptr) (c1 c2 : Nat)
    (m1 m2 : Bool × elem_ptr) (h1 : llama_grammar_match_char rules pos c1 = .ok m1)
    (h2 : llama_grammar_match_char rules pos c2 = .ok m2) : m1.2 = m2.2 := by
  unfold llama_grammar_match_char at h1 h2
  simp only at h1 h2
  split at h1
  · rename_i hc
    rw [if_pos hc] at h2
    simp only [Except.ok.injEq] at h1 h2
    subst h1
    subst h2
    simp only [elem_ptr.mk.injEq, true_and]
    exact match_char_loop_pos_indep _ _ _ _ _ _ _
  · cases h1

theorem candidate_cur_eq (tok : llama_grammar_candidate) :
    tok.cur = (tok.code_points.drop tok.cp_pos).headD 0 := by
  unfold llama_grammar_candidate.cur
  rw [List.getD_eq_getElem?_getD]
  cases h : tok.code_points.drop tok.cp_pos with
  | nil =>
    have : tok.code_points.length ≤ tok.cp_pos := List.drop_eq_nil_iff.mp h
    rw [List.getElem?_eq_none this]
    rfl
  | cons a as =>
    have h0 : (tok.code_points.drop tok.cp_pos)[0]? = some a := by rw [h]; simp
    rw [List.getElem?_drop] at h0
    simp only [Nat.add_zero] at h0
    rw [h0]
    rfl

theorem offers_nil_cur (tok : llama_grammar_candidate) (h : candidate_offers tok []) :
    tok.cur = 0 := by
  obtain ⟨_, tail, ht⟩ := h
  rw [candidate_cur_eq, ht]
  rfl

theorem offers_cons_cur (tok : llama_grammar_candidate) (c : Nat) (cs : List Nat)
    (h : candidate_offers tok (c :: cs)) :
    tok.cur = c ∧ c ≠ 0 ∧ candidate_offers tok.next cs := by
  obtain ⟨h0, tail, ht⟩ := h
  refine ⟨by rw [candidate_cur_eq, ht]; rfl, ?_, ?_, tail, ?_⟩
  · intro hc
    exact h0 (by rw [hc]; exact List.mem_cons_self _ _)
  · intro hc
    exact h0 (List.mem_cons_of_mem _ hc)
  · show tok.code_points.drop (tok.cp_pos + 1) = cs ++ 0 :: tail
    rw [← List.drop_drop, ht]
    rfl

/-- The filter of a frontier on one candidate: the candidate is let through by
the first stack that lets it through, and rejected when every stack rejects it. -/
theorem fold_single (g : llama_grammar_stack → llama_grammar_candidates →
      Run llama_grammar_candidates)
    (hg : ∀ s, filter_indep (g s)) (tok : llama_grammar_candidate) :
    ∀ (l : llama_grammar_stacks) (R : llama_grammar_candidates),
      l.foldlM (fun rejects stack => g stack rejects) [tok] = .ok R →
      (tok ∉ R → ∃ s ∈ l, g s [tok] = .ok []) ∧
      (tok ∈ R → ∀ s ∈ l, g s [tok] = .ok [tok]) := by
  intro l
  induction l with
  | nil =>
    intro R h
    simp only [List.foldlM_nil, pure, Except.pure, Except.ok.injEq] at h
    subst h
    exact ⟨fun hn => absurd (List.mem_singleton_self tok) hn, fun _ s hs => by cases hs⟩
  | cons s ss ih =>
    intro R h
    simp only [List.foldlM_cons, bind, Except.bind] at h
    cases hB : g s [tok] with
    | error e => rw [hB] at h; cases h
    | ok B1 =>
      rw [hB] at h
      simp only at h
      obtain ⟨_, _, gone⟩ := hg s [tok] B1 hB
      have e := gone tok (List.mem_singleton_self tok)
      rw [hB] at e
      simp only [Except.ok.injEq] at e
      by_cases hb : tok ∈ B1
      · rw [if_pos hb] at e
        rw [e] at h
        obtain ⟨h1, h2⟩ := ih R h
        refine ⟨fun hn => ?_, fun hR s1 hs1 => ?_⟩
        · obtain ⟨s1, hs1, hs2⟩ := h1 hn
          exact ⟨s1, List.mem_cons_of_mem _ hs1, hs2⟩
        · rcases List.mem_cons.mp hs1 with h0 | h0
          · subst h0; rw [hB, e]
          · exact h2 hR s1 h0
      · rw [if_neg hb] at e
        rw [e] at h
        have hRsub := ((fold_indep g hg ss) [] R h).2.1
        refine ⟨fun _ => ⟨s, List.mem_cons_self _ _, by rw [hB, e]⟩, fun hR => ?_⟩
        cases hRsub tok hR

theorem reject_candidates_as_fold (f : Nat) (rules : llama_grammar_rules)
    (ss : llama_grammar_stacks) (tok : llama_grammar_candidate) (R : llama_grammar_candidates)
    (h : llama_grammar_reject_candidates f rules ss [tok] = .ok R) :
    ∃ f1, f = f1 + 1 ∧ ss ≠ [] ∧
      ss.foldlM (fun rejects stack =>
        llama_grammar_reject_candidates_for_stack f1 rules stack rejects) [tok] = .ok R := by
  obtain ⟨f1, front, others, hf, hss⟩ := reject_candidates_ok_shape f rules ss [tok] R h
  subst hf
  subst hss
  refine ⟨f1, rfl, by simp, ?_⟩
  rw [reject_candidates_cons_batch] at h
  simp only [List.foldlM_cons, bind, Except.bind]
  cases hB : llama_grammar_reject_candidates_for_stack f1 rules front [tok] with
  | error e => rw [hB] at h; cases h
  | ok B1 =>
    rw [hB] at h
    exact h

/-- The step from the per-stack statement to the frontier, for one candidate. -/
theorem reject_front_of_stack (rules : llama_grammar_rules) (cps : List Nat)
    (P : ∀ (f : Nat) (s : llama_grammar_stack) (tok : llama_grammar_candidate)
      (R : llama_grammar_candidates), candidate_offers tok cps →
      tok.partial_utf8.n_remain = 0 →
      llama_grammar_reject_candidates_for_stack f rules s [tok] = .ok R →
      (tok ∉ R ↔ stack_survives rules s cps))
    (f : Nat) (ss : llama_grammar_stacks) (tok : llama_grammar_candidate)
    (R : llama_grammar_candidates) (hoff : candidate_offers tok cps)
    (hclean : tok.partial_utf8.n_remain = 0)
    (h : llama_grammar_reject_candidates f rules ss [tok] = .ok R) :
    (tok ∉ R ↔ ∃ s ∈ ss, stack_survives rules s cps) := by
  obtain ⟨f1, _, _, hfold⟩ := reject_candidates_as_fold f rules ss tok R h
  obtain ⟨h1, h2⟩ := fold_single
    (fun s C => llama_grammar_reject_candidates_for_stack f1 rules s C)
    (fun s => (reject_indep rules f1).1 s) tok ss R hfold
  constructor
  · intro hn
    obtain ⟨s, hs, hs1⟩ := h1 hn
    exact ⟨s, hs, (P f1 s tok [] hoff hclean hs1).mp (by simp)⟩
  · rintro ⟨s, hs, hsurv⟩ hR
    have := h2 hR s hs
    exact (P f1 s tok [tok] hoff hclean this).mpr hsurv (List.mem_singleton_self tok)

theorem reject_for_stack_single :
    ∀ (cps : List Nat) (f : Nat) (s : llama_grammar_stack) (tok : llama_grammar_candidate)
      (R : llama_grammar_candidates), candidate_offers tok cps →
      tok.partial_utf8.n_remain = 0 →
      llama_grammar_reject_candidates_for_stack f rules s [tok] = .ok R →
      (tok ∉ R ↔ stack_survives rules s cps) := by
  intro cps
  induction cps with
  | nil =>
    intro f s tok R hoff hclean h
    have hcur := offers_nil_cur tok hoff
    refine ⟨fun _ => stack_survives.done s, fun _ => ?_⟩
    cases f with
    | zero => unfold llama_grammar_reject_candidates_for_stack at h; cases h
    | succ f1 =>
      cases s with
      | nil =>
        rw [reject_for_stack_nil] at h
        simp only [Except.ok.injEq] at h
        subst h
        simp [hcur, hclean]
      | cons pos rest =>
        obtain ⟨m, ns, NR, _, _, hNR, hres⟩ := reject_for_stack_cons_ok f1 rules pos rest [tok] R h
        subst hres
        have hadv : advances_here rules pos tok = false := by
          simp [advances_here, hcur]
        have hrej : rejected_here rules pos tok = false := by
          simp [rejected_here, hcur, hclean]
        simp only [List.filter_cons, hadv, List.filter_nil, List.map_nil, Bool.false_eq_true,
          if_false, hrej] at hNR ⊢
        have hsub := ((reject_indep rules f1).2 ns [] NR hNR).2.1
        intro hmem
        simp only [List.nil_append, List.mem_map] at hmem
        obtain ⟨t, ht, _⟩ := hmem
        cases hsub t ht
  | cons c cs ih =>
    intro f s tok R hoff hclean h
    obtain ⟨hcur, hc0, hnext⟩ := offers_cons_cur tok c cs hoff
    cases f with
    | zero => unfold llama_grammar_reject_candidates_for_stack at h; cases h
    | succ f1 =>
      cases s with
      | nil =>
        rw [reject_for_stack_nil] at h
        simp only [Except.ok.injEq] at h
        subst h
        constructor
        · intro hn
          exfalso
          apply hn
          simp [hcur, hc0]
        · intro hsurv
          cases hsurv with
          | step _ x _ _ hstep _ =>
            obtain ⟨pos, rest, m, h0, _⟩ := hstep
            cases h0
      | cons pos rest =>
        obtain ⟨m, ns, NR, hm, hadv, hNR, hres⟩ :=
          reject_for_stack_cons_ok f1 rules pos rest [tok] R h
        subst hres
        obtain ⟨m1, hm1⟩ := match_char_of_char_ok rules pos c
          (char_ok_of_match_char rules pos 0 m hm)
        have hpos : m1.2 = m.2 := match_char_pos_indep rules pos c 0 m1 m hm1 hm
        have hcm : char_matches rules pos c = m1.1 := by
          unfold char_matches
          rw [hm1]
        by_cases hb : m1.1 = true
        · have hadv1 : advances_here rules pos tok = true := by
            simp [advances_here, hcur, hc0, hcm, hb]
          have hrej : rejected_here rules pos tok = false := by
            simp [rejected_here, hcur, hc0, hcm, hb]
          simp only [List.filter_cons, hadv1, List.filter_nil, List.map_cons, List.map_nil,
            if_true, hrej, Bool.false_eq_true, if_false, List.nil_append] at hNR ⊢
          have hQ := reject_front_of_stack rules cs ih f1 ns tok.next NR hnext hclean hNR
          have hsub := ((reject_indep rules f1).2 ns [tok.next] NR hNR).2.1
          have hiff : tok ∈ NR.map llama_grammar_candidate.prev ↔ tok.next ∈ NR := by
            constructor
            · intro hmem
              obtain ⟨t, ht, hte⟩ := List.mem_map.mp hmem
              have := List.mem_singleton.mp (hsub t ht)
              rw [← this]
              exact ht
            · intro hmem
              exact List.mem_map.mpr ⟨tok.next, hmem, candidate_prev_next tok⟩
          rw [hiff, hQ]
          constructor
          · rintro ⟨x, hx, hsurv⟩
            have hx1 := (advance_stack_mem f1 rules _ [] ns hadv x).mp hx
            rcases hx1 with hx1 | hx1
            · cases hx1
            · refine stack_survives.step _ x c cs ⟨pos, rest, m1, rfl, hm1, hb, ?_⟩ hsurv
              rw [hpos]
              exact hx1
          · intro hsurv
            cases hsurv with
            | step _ x _ _ hstep hrest =>
              obtain ⟨pos1, rest1, m2, h0, hm2, _, hx⟩ := hstep
              cases h0
              rw [hm1] at hm2
              cases hm2
              rw [hpos] at hx
              exact ⟨x, (advance_stack_mem f1 rules _ [] ns hadv x).mpr (Or.inr hx), hrest⟩
        · have hbf : m1.1 = false := by
            cases hv : m1.1 with
            | true => exact absurd hv hb
            | false => rfl
          have hadv1 : advances_here rules pos tok = false := by
            simp [advances_here, hcur, hcm, hbf]
          have hrej : rejected_here rules pos tok = true := by
            simp [rejected_here, hcur, hc0, hcm, hbf]
          simp only [List.filter_cons, hrej, if_true, List.filter_nil]
          constructor
          · intro hn
            exfalso
            apply hn
            simp
          · intro hsurv
            cases hsurv with
            | step _ x _ _ hstep _ =>
              obtain ⟨pos1, rest1, m2, h0, hm2, hb2, _⟩ := hstep
              cases h0
              rw [hm1] at hm2
              cases hm2
              exact absurd hb2 hb

theorem uniform_budget {α : Type} (P : α → Nat → Prop) :
    ∀ (l : List α), (∀ a ∈ l, ∃ n, ∀ fuel, n ≤ fuel → P a fuel) →
      ∃ n, ∀ fuel, n ≤ fuel → ∀ a ∈ l, P a fuel := by
  intro l
  induction l with
  | nil => intro _; exact ⟨0, fun _ _ a ha => by cases ha⟩
  | cons a as ih =>
    intro h
    obtain ⟨n1, h1⟩ := h a (List.mem_cons_self _ _)
    obtain ⟨n2, h2⟩ := ih (fun b hb => h b (List.mem_cons_of_mem _ hb))
    refine ⟨max n1 n2, fun fuel hfuel b hb => ?_⟩
    rcases List.mem_cons.mp hb with h0 | h0
    · subst h0
      exact h1 fuel (le_trans (le_max_left _ _) hfuel)
    · exact h2 fuel (le_trans (le_max_right _ _) hfuel) b h0

theorem reject_front_returns (rules : llama_grammar_rules) (ss : llama_grammar_stacks)
    (tok : llama_grammar_candidate) (hne : ss ≠ [])
    (h : ∀ s ∈ ss, ∃ n, ∀ fuel, n ≤ fuel →
      ∃ R, llama_grammar_reject_candidates_for_stack fuel rules s [tok] = .ok R) :
    ∃ n, ∀ fuel, n ≤ fuel → ∃ R, llama_grammar_reject_candidates fuel rules ss [tok] = .ok R := by
  obtain ⟨n0, hn0⟩ := uniform_budget
    (fun s fuel => ∃ R, llama_grammar_reject_candidates_for_stack fuel rules s [tok] = .ok R)
    ss h
  refine ⟨n0 + 1, fun fuel hfuel => ?_⟩
  obtain ⟨f, rfl⟩ : ∃ f, fuel = f + 1 := ⟨fuel - 1, by omega⟩
  have hf : n0 ≤ f := by omega
  cases ss with
  | nil => exact absurd rfl hne
  | cons front others =>
    rw [reject_candidates_cons_batch]
    obtain ⟨R0, hR0⟩ := hn0 f hf front (List.mem_cons_self _ _)
    rw [hR0]
    simp only
    have hsub := ((reject_indep rules f).1 front [tok] R0 hR0).2.1
    exact fold_returns (fun s C => llama_grammar_reject_candidates_for_stack f rules s C)
      (fun s => (reject_indep rules f).1 s) (fun s => (reject_sub rules f).1 s) [tok] others R0
      (fun s hs => hn0 f hf s (List.mem_cons_of_mem _ hs)) hsub

theorem reject_for_stack_returns_step (rules : llama_grammar_rules) (hwf : rules_wf rules)
    (hg : grammar_wf rules) (hnlr : ¬ left_recursive rules)
    (s : llama_grammar_stack) (tok : llama_grammar_candidate)
    (hst : stack_wf rules s) (htop : stack_top_ok rules s = true)
    (hnext : ∀ pos rest, s = pos :: rest → advances_here rules pos tok = true →
      ∀ ns, ns ≠ [] → frontier_wf rules ns → frontier_ok rules ns →
        ∃ n, ∀ fuel, n ≤ fuel →
          ∃ NR, llama_grammar_reject_candidates fuel rules ns [tok.next] = .ok NR) :
    ∃ n, ∀ fuel, n ≤ fuel →
      ∃ R, llama_grammar_reject_candidates_for_stack fuel rules s [tok] = .ok R := by
  cases s with
  | nil =>
    refine ⟨1, fun fuel hfuel => ?_⟩
    obtain ⟨f, rfl⟩ : ∃ f, fuel = f + 1 := ⟨fuel - 1, by omega⟩
    rw [reject_for_stack_nil]
    exact ⟨_, rfl⟩
  | cons pos rest =>
    obtain ⟨cls, hc, hseq⟩ := stack_top_is_class rules pos rest hst htop
    have hm := match_char_at_class rules pos cls 0 hc
    have hstk : stack_wf rules (push_unless_end rules (pos.add cls.encode.length) rest) :=
      push_unless_end_wf rules _ _ hseq (stack_wf_tail rules pos rest hst)
    obtain ⟨n1, hn1⟩ := stack_returns rules hwf hg hnlr _ hstk
    obtain ⟨ns, hns⟩ := hn1 n1 (Nat.le_refl _) []
    have hns_ne := advance_stack_ne_nil n1 rules _ [] ns hns
    have hns_wf := advance_stack_wf rules hg n1 _ [] ns (fun s hs => by cases hs) hstk hns
    have hns_ok := advance_stack_frontier_ok n1 rules _ [] ns (frontier_ok_nil rules) hns
    have hNC : ∃ n2, ∀ fuel, n2 ≤ fuel → ∃ NR, llama_grammar_reject_candidates fuel rules ns
        (([tok].filter (advances_here rules pos)).map llama_grammar_candidate.next) = .ok NR := by
      by_cases ha : advances_here rules pos tok = true
      · obtain ⟨n2, hn2⟩ := hnext pos rest rfl ha ns hns_ne hns_wf hns_ok
        refine ⟨n2, fun fuel hfuel => ?_⟩
        simp only [List.filter_cons, ha, if_true, List.filter_nil, List.map_cons, List.map_nil]
        exact hn2 fuel hfuel
      · refine ⟨1, fun fuel hfuel => ?_⟩
        obtain ⟨f, rfl⟩ : ∃ f, fuel = f + 1 := ⟨fuel - 1, by omega⟩
        simp only [List.filter_cons, ha, if_false, List.filter_nil, List.map_nil,
          Bool.false_eq_true]
        cases ns with
        | nil => exact absurd rfl hns_ne
        | cons front others => exact ⟨[], reject_candidates_nil_batch _ _ _ _⟩
    obtain ⟨n2, hn2⟩ := hNC
    refine ⟨max n1 n2 + 1, fun fuel hfuel => ?_⟩
    obtain ⟨f, rfl⟩ : ∃ f, fuel = f + 1 := ⟨fuel - 1, by omega⟩
    have hf1 : n1 ≤ f := by have := le_max_left n1 n2; omega
    have hf2 : n2 ≤ f := by have := le_max_right n1 n2; omega
    obtain ⟨NR, hNR⟩ := hn2 f hf2
    exact ⟨_, reject_for_stack_cons_intro f rules pos rest [tok] NR _ ns hm
      (advance_stack_mono n1 f rules _ [] ns hf1 hns) hNR⟩

/-- On a well-formed table without left recursion the filter returns on one
candidate for every non-empty frontier of well-formed stacks, given a large
enough budget. -/
theorem reject_single_returns (rules : llama_grammar_rules) (hwf : rules_wf rules)
    (hg : grammar_wf rules) (hnlr : ¬ left_recursive rules) :
    ∀ (cps : List Nat) (ss : llama_grammar_stacks) (tok : llama_grammar_candidate),
      ss ≠ [] → frontier_wf rules ss → frontier_ok rules ss → candidate_offers tok cps →
      ∃ n, ∀ fuel, n ≤ fuel →
        ∃ R, llama_grammar_reject_candidates fuel rules ss [tok] = .ok R := by
  intro cps
  induction cps with
  | nil =>
    intro ss tok hne hss hok hoff
    refine reject_front_returns rules ss tok hne (fun s hs => ?_)
    refine reject_for_stack_returns_step rules hwf hg hnlr s tok (hss s hs) (hok s hs) ?_
    intro pos rest _ ha
    have hcur := offers_nil_cur tok hoff
    simp [advances_here, hcur] at ha
  | cons c cs ih =>
    intro ss tok hne hss hok hoff
    obtain ⟨_, _, hnext⟩ := offers_cons_cur tok c cs hoff
    refine reject_front_returns rules ss tok hne (fun s hs => ?_)
    refine reject_for_stack_returns_step rules hwf hg hnlr s tok (hss s hs) (hok s hs) ?_
    intro pos rest _ _ ns hns_ne hns_wf hns_ok
    exact ih ns tok.next hns_ne hns_wf hns_ok hnext

/-- C35 (as amended). The candidate filter agrees with the evaluator. Take a
session whose rule table is well formed and not left-recursive and whose
frontier is non-empty, made of well-formed stacks, with the stack-top
invariant, and a candidate at the start of its buffer `cps ++ [0]`, no code
point of `cps` being 0, with `n_remain = 0`. From some budget on,
`llama_grammar_reject_candidates` on the single candidate and the fold of
`llama_grammar_accept` over `cps` both return; and whenever they return (with
whatever budgets), the candidate is absent from the rejects exactly when the
frontier after the fold is non-empty. -/
theorem filter_agrees_with_accept (g : llama_grammar) (tok : llama_grammar_candidate)
    (cps : List Nat) (hwf : rules_wf g.rules) (hg : grammar_wf g.rules)
    (hnlr : ¬ left_recursive g.rules) (hne : g.cur_stacks ≠ [])
    (hss : frontier_wf g.rules g.cur_stacks) (hok : frontier_ok g.rules g.cur_stacks)
    (hcps : tok.code_points = cps ++ [0]) (hpos : tok.cp_pos = 0)
    (hclean : tok.partial_utf8.n_remain = 0) (h0 : 0 ∉ cps) :
    (∃ n, ∀ fuel, n ≤ fuel → ∃ R g1,
      llama_grammar_reject_candidates fuel g.rules g.cur_stacks [tok] = .ok R ∧
      accept_code_points fuel g cps = .ok g1) ∧
    ∀ fuel fuel1 R g1,
      llama_grammar_reject_candidates fuel g.rules g.cur_stacks [tok] = .ok R →
      accept_code_points fuel1 g cps = .ok g1 →
      (tok ∉ R ↔ g1.cur_stacks ≠ []) := by
  have hoff : candidate_offers tok cps :=
    ⟨h0, [], by rw [hpos, List.drop_zero, hcps]⟩
  constructor
  · obtain ⟨n1, hn1⟩ := reject_single_returns g.rules hwf hg hnlr cps g.cur_stacks tok hne hss
      hok hoff
    obtain ⟨n2, res, hn2⟩ := feed_frontier_returns g.rules hwf hg hnlr cps g.cur_stacks hss hok
    refine ⟨max n1 n2, fun fuel hfuel => ?_⟩
    obtain ⟨R, hR⟩ := hn1 fuel (le_trans (le_max_left _ _) hfuel)
    refine ⟨R, { g with cur_stacks := res }, hR, ?_⟩
    rw [accept_code_points_feed, hn2 fuel (le_trans (le_max_right _ _) hfuel)]
  · intro fuel fuel1 R g1 hR hacc
    rw [accept_code_points_feed] at hacc
    cases hfeed : feed_frontier fuel1 g.rules g.cur_stacks cps with
    | error e => rw [hfeed] at hacc; cases hacc
    | ok frontier =>
      rw [hfeed] at hacc
      simp only [Except.ok.injEq] at hacc
      subst hacc
      show tok ∉ R ↔ frontier ≠ []
      rw [feed_frontier_survives fuel1 g.rules cps g.cur_stacks frontier hfeed]
      exact reject_front_of_stack g.rules cps
        (fun f s t R1 => reject_for_stack_single cps f s t R1) fuel g.cur_stacks tok R hoff
        hclean hR

/-- C35 (counterexample). For `root ::= "a"` on a fresh session, the candidate
with the code points `[0]` (followed by the terminating 0) and a clean tail,
which is what `decode_utf8` returns for the piece `C0 80`, is absent from the
rejects, yet `llama_grammar_accept` on the code point 0 leaves an empty
frontier: the filter reads the code point 0 as the end of the candidate. -/
theorem zero_code_point_disagreement :
    decode_utf8 [0xC0, 0x80] ⟨0, 0⟩ = ([0] ++ [0], ⟨0, 0⟩) ∧
    llama_grammar_reject_candidates 3 single_a_session.rules single_a_session.cur_stacks
      [⟨0, [0] ++ [0], 0, ⟨0, 0⟩⟩] = .ok [] ∧
    accept_code_points 3 single_a_session [0] =
      .ok ⟨single_a_rules, [], ⟨0, 0⟩, false, false, [], [], []⟩ ∧
    ¬ ((⟨0, [0] ++ [0], 0, ⟨0, 0⟩⟩ : llama_grammar_candidate) ∉
          ([] : llama_grammar_candidates) ↔
        (⟨single_a_rules, [], ⟨0, 0⟩, false, false, [], [], []⟩ : llama_grammar).cur_stacks
          ≠ []) := by
  refine ⟨rfl, rfl, rfl, ?_⟩
  simp

theorem filter_agrees_with_accept_witness :
    (rules_wf parens_session.rules ∧ grammar_wf parens_session.rules ∧
      ¬ left_recursive parens_session.rules ∧ parens_session.cur_stacks ≠ [] ∧
      frontier_wf parens_session.rules parens_session.cur_stacks ∧
      frontier_ok parens_session.rules parens_session.cur_stacks ∧
      (0 : Nat) ∉ [0x28, 0x29]) ∧
    llama_grammar_reject_candidates 6 parens_session.rules parens_session.cur_stacks
      [⟨7, [0x28, 0x29] ++ [0], 0, ⟨0x29, 0⟩⟩] = .ok [] ∧
    accept_code_points 6 parens_session [0x28, 0x29] =
      .ok ⟨parens_rules, [[]], ⟨0, 0⟩, false, false, [], [], []⟩ ∧
    llama_grammar_reject_candidates 6 parens_session.rules parens_session.cur_stacks
      [⟨8, [0x29] ++ [0], 0, ⟨0x29, 0⟩⟩] = .ok [⟨8, [0x29] ++ [0], 0, ⟨0x29, 0⟩⟩] ∧
    accept_code_points 6 parens_session [0x29] =
      .ok ⟨parens_rules, [], ⟨0, 0⟩, false, false, [], [], []⟩ ∧
    ((∃ n, ∀ fuel, n ≤ fuel → ∃ R g1,
      llama_grammar_reject_candidates fuel parens_session.rules parens_session.cur_stacks
        [⟨7, [0x28, 0x29] ++ [0], 0, ⟨0x29, 0⟩⟩] = .ok R ∧
      accept_code_points fuel parens_session [0x28, 0x29] = .ok g1) ∧
    ∀ fuel fuel1 R g1,
      llama_grammar_reject_candidates fuel parens_session.rules parens_session.cur_stacks
        [⟨7, [0x28, 0x29] ++ [0], 0, ⟨0x29, 0⟩⟩] = .ok R →
      accept_code_points fuel1 parens_session [0x28, 0x29] = .ok g1 →
      ((⟨7, [0x28, 0x29] ++ [0], 0, ⟨0x29, 0⟩⟩ : llama_grammar_candidate) ∉ R ↔
        g1.cur_stacks ≠ [])) :=
  ⟨⟨parens_rules_wf, parens_grammar_wf, parens_not_left_recursive, by decide,
      init_stacks_wf parens_rules parens_grammar_wf 4 0 _ rfl,
      init_stacks_frontier_ok 4 parens_rules 0 _ rfl, by decide⟩,
    rfl, rfl, rfl, rfl,
    filter_agrees_with_accept parens_session ⟨7, [0x28, 0x29] ++ [0], 0, ⟨0x29, 0⟩⟩
      [0x28, 0x29] parens_rules_wf parens_grammar_wf parens_not_left_recursive (by decide)
      (init_stacks_wf parens_rules parens_grammar_wf 4 0 _ rfl)
      (init_stacks_frontier_ok 4 parens_rules 0 _ rfl) rfl rfl rfl (by decide)⟩

/-! ### The lazy trigger example (C33) -/

theorem lower_rules_wf : rules_wf lower_rules := by
  intro rule hrule
  simp only [lower_rules, List.mem_cons, List.mem_singleton, List.not_mem_nil, or_false]
    at hrule
  rcases hrule with h | h <;> subst h
  · refine ⟨rfl, ?_⟩
    intro e he hty
    simp only [List.mem_cons, List.mem_singleton, List.not_mem_nil, or_false] at he
    rcases he with h | h | h | h <;> subst h <;> first | (show 1 < 2; decide) | cases hty
  · refine ⟨rfl, ?_⟩
    intro e he hty
    simp only [List.mem_cons, List.mem_singleton, List.not_mem_nil, or_false] at he
    rcases he with h | h | h | h | h <;> subst h <;> first | (show 1 < 2; decide) | cases hty

theorem lower_class_root :
    class_at lower_rules ⟨0, 0⟩ (char_class.positive (class_item.range 0x61 0x7A) []) :=
  ⟨[], [⟨llama_gretype.RULE_REF, 1⟩, ⟨llama_gretype.END, 0⟩], rfl, rfl, by decide, by decide⟩

theorem lower_class_tail :
    class_at lower_rules ⟨1, 0⟩ (char_class.positive (class_item.range 0x61 0x7A) []) :=
  ⟨[], [⟨llama_gretype.RULE_REF, 1⟩, ⟨llama_gretype.ALT, 0⟩, ⟨llama_gretype.END, 0⟩], rfl, rfl,
    by decide, by decide⟩

theorem lower_grammar_wf : grammar_wf lower_rules := by
  intro r sub hsub
  rcases r with _ | _ | r
  · have h0 : sub = 0 := by
      simp [lower_rules, rule_alternates, scan_alternates] at hsub
      exact hsub
    subst h0
    exact seq_wf.char ⟨0, 0⟩ _ lower_class_root
      (seq_wf.ref ⟨0, 2⟩ rfl (seq_wf.done ⟨0, 3⟩ rfl))
  · have h0 : sub = 0 ∨ sub = 4 := by
      simp [lower_rules, rule_alternates, scan_alternates] at hsub
      exact hsub
    rcases h0 with h0 | h0 <;> subst h0
    · exact seq_wf.char ⟨1, 0⟩ _ lower_class_tail
        (seq_wf.ref ⟨1, 2⟩ rfl (seq_wf.done ⟨1, 3⟩ rfl))
    · exact seq_wf.done ⟨1, 4⟩ rfl
  · have h0 : sub = 0 := by
      simp [lower_rules, rule_alternates, scan_alternates] at hsub
      exact hsub
    subst h0
    exact seq_wf.done _
      (by simp [rules_at, rule_at, lower_rules, llama_grammar_is_end_of_sequence])

theorem lower_no_left_edge (A B : Nat) : ¬ left_edge lower_rules A B := by
  rintro ⟨s, i, refs, hs, hle, hget, hall⟩
  rcases A with _ | _ | a
  · have hi : i = 2 := by
      rcases i with _ | _ | _ | _ | i <;> simp [lower_rules] at hget
      rfl
    subst hi
    have h1 := (hall 1 ?_ (by decide)).1
    · simp [lower_rules] at h1
    · rcases hs with hs | ⟨hpos, v, hv⟩
      · omega
      · have : s = 1 ∨ s = 2 := by omega
        rcases this with h0 | h0 <;> subst h0 <;> simp [lower_rules] at hv
  · have hi : i = 2 := by
      rcases i with _ | _ | _ | _ | _ | i <;> simp [lower_rules] at hget
      rfl
    subst hi
    have h1 := (hall 1 ?_ (by decide)).1
    · simp [lower_rules] at h1
    · rcases hs with hs | ⟨hpos, v, hv⟩
      · omega
      · have : s = 1 ∨ s = 2 := by omega
        rcases this with h0 | h0 <;> subst h0 <;> simp [lower_rules] at hv
  · simp [lower_rules] at hget

theorem lower_not_left_recursive : ¬ left_recursive lower_rules := by
  rintro ⟨A, h⟩
  cases h with
  | single h1 => exact lower_no_left_edge _ _ h1
  | tail _ h1 => exact lower_no_left_edge _ _ h1

theorem lower_frontier_wf : frontier_wf lower_rules lower_frontier := by
  intro s hs
  simp only [lower_frontier, List.mem_cons, List.mem_singleton, List.not_mem_nil, or_false]
    at hs
  rcases hs with h | h <;> subst h
  · intro pos hpos
    simp only [List.mem_singleton] at hpos
    subst hpos
    exact ⟨lower_grammar_wf 1 0 (by simp [rule_alternates]), rfl⟩
  · intro pos hpos
    cases hpos

theorem lower_frontier_ok : frontier_ok lower_rules lower_frontier := by
  intro s hs
  simp only [lower_frontier, List.mem_cons, List.mem_singleton, List.not_mem_nil, or_false]
    at hs
  rcases hs with h | h <;> subst h <;> rfl

theorem lower_accept (fuel c : Nat) (hfuel : 3 ≤ fuel) :
    accept_stacks fuel lower_rules lower_frontier c =
      .ok (if 0x61 ≤ c ∧ c ≤ 0x7A then lower_frontier else []) := by
  have hm : llama_grammar_match_char lower_rules ⟨1, 0⟩ c =
      .ok (decide (0x61 ≤ c) && decide (c ≤ 0x7A), ⟨1, 2⟩) := by
    rw [match_char_at_class lower_rules ⟨1, 0⟩ _ c lower_class_tail]
    simp [char_class.accepts, class_item.has, char_class.encode, class_item.encode,
      elem_ptr.add, encode_alts]
  have hadv : llama_grammar_advance_stack fuel lower_rules
      (push_unless_end lower_rules ⟨1, 2⟩ []) [] = .ok lower_frontier :=
    advance_stack_mono 3 fuel _ _ _ _ hfuel rfl
  unfold accept_stacks lower_frontier
  simp only [List.foldlM_cons, List.foldlM_nil, bind, Except.bind, accept_stack, hm]
  by_cases hc : 0x61 ≤ c ∧ c ≤ 0x7A
  · have hb : (decide (0x61 ≤ c) && decide (c ≤ 0x7A)) = true := by simp [hc.1, hc.2]
    simp only [hb, if_true, hc, and_self]
    rw [hadv]
    rfl
  · have hb : (decide (0x61 ≤ c) && decide (c ≤ 0x7A)) = false := by
      cases hv : (decide (0x61 ≤ c) && decide (c ≤ 0x7A)) with
      | false => rfl
      | true =>
        simp only [Bool.and_eq_true, decide_eq_true_eq] at hv
        exact absurd hv hc
    simp only [hb, hc, if_false, Bool.false_eq_true]
    rfl

theorem lower_feed (fuel : Nat) (hfuel : 3 ≤ fuel) :
    ∀ (cs : List Nat), feed_frontier fuel lower_rules lower_frontier cs =
      .ok (if ∀ c ∈ cs, 0x61 ≤ c ∧ c ≤ 0x7A then lower_frontier else []) := by
  intro cs
  induction cs with
  | nil => simp [feed_frontier]
  | cons c cs ih =>
    simp only [feed_frontier, lower_accept fuel c hfuel]
    by_cases hc : 0x61 ≤ c ∧ c ≤ 0x7A
    · simp only [hc, and_self, if_true, ih, List.mem_cons, forall_eq_or_imp, true_and]
    · simp only [hc, if_false, feed_frontier_dead, List.mem_cons, forall_eq_or_imp, false_and]

theorem reject_front_returns_batch (rules : llama_grammar_rules) (ss : llama_grammar_stacks)
    (C : llama_grammar_candidates) (hne : ss ≠ [])
    (h : ∀ s ∈ ss, ∃ n, ∀ fuel, n ≤ fuel →
      ∃ R, llama_grammar_reject_candidates_for_stack fuel rules s C = .ok R) :
    ∃ n, ∀ fuel, n ≤ fuel → ∃ R, llama_grammar_reject_candidates fuel rules ss C = .ok R := by
  obtain ⟨n0, hn0⟩ := uniform_budget
    (fun s fuel => ∃ R, llama_grammar_reject_candidates_for_stack fuel rules s C = .ok R) ss h
  refine ⟨n0 + 1, fun fuel hfuel => ?_⟩
  obtain ⟨f, rfl⟩ : ∃ f, fuel = f + 1 := ⟨fuel - 1, by omega⟩
  have hf : n0 ≤ f := by omega
  cases ss with
  | nil => exact absurd rfl hne
  | cons front others =>
    cases C with
    | nil => exact ⟨[], reject_candidates_nil_batch _ _ _ _⟩
    | cons tok toks =>
      rw [reject_candidates_cons_batch]
      obtain ⟨R0, hR0⟩ := hn0 f hf front (List.mem_cons_self _ _)
      rw [hR0]
      simp only
      have hsub := ((reject_indep rules f).1 front (tok :: toks) R0 hR0).2.1
      exact fold_returns (fun s C => llama_grammar_reject_candidates_for_stack f rules s C)
        (fun s => (reject_indep rules f).1 s) (fun s => (reject_sub rules f).1 s) (tok :: toks)
        others R0 (fun s hs => hn0 f hf s (List.mem_cons_of_mem _ hs)) hsub

theorem reject_for_stack_returns_batch (rules : llama_grammar_rules) (hwf : rules_wf rules)
    (hg : grammar_wf rules) (hnlr : ¬ left_recursive rules)
    (s : llama_grammar_stack) (C : llama_grammar_candidates)
    (hst : stack_wf rules s) (htop : stack_top_ok rules s = true)
    (hnext : ∀ pos rest, s = pos :: rest →
      ∀ ns, ns ≠ [] → frontier_wf rules ns → frontier_ok rules ns →
        ∃ n, ∀ fuel, n ≤ fuel →
          ∃ NR, llama_grammar_reject_candidates fuel rules ns
            ((C.filter (advances_here rules pos)).map llama_grammar_candidate.next) = .ok NR) :
    ∃ n, ∀ fuel, n ≤ fuel →
      ∃ R, llama_grammar_reject_candidates_for_stack fuel rules s C = .ok R := by
  cases s with
  | nil =>
    refine ⟨1, fun fuel hfuel => ?_⟩
    obtain ⟨f, rfl⟩ : ∃ f, fuel = f + 1 := ⟨fuel - 1, by omega⟩
    rw [reject_for_stack_nil]
    exact ⟨_, rfl⟩
  | cons pos rest =>
    obtain ⟨cls, hc, hseq⟩ := stack_top_is_class rules pos rest hst htop
    have hm := match_char_at_class rules pos cls 0 hc
    have hstk : stack_wf rules (push_unless_end rules (pos.add cls.encode.length) rest) :=
      push_unless_end_wf rules _ _ hseq (stack_wf_tail rules pos rest hst)
    obtain ⟨n1, hn1⟩ := stack_returns rules hwf hg hnlr _ hstk
    obtain ⟨ns, hns⟩ := hn1 n1 (Nat.le_refl _) []
    have hns_ne := advance_stack_ne_nil n1 rules _ [] ns hns
    have hns_wf := advance_stack_wf rules hg n1 _ [] ns (fun s hs => by cases hs) hstk hns
    have hns_ok := advance_stack_frontier_ok n1 rules _ [] ns (frontier_ok_nil rules) hns
    obtain ⟨n2, hn2⟩ := hnext pos rest rfl ns hns_ne hns_wf hns_ok
    refine ⟨max n1 n2 + 1, fun fuel hfuel => ?_⟩
    obtain ⟨f, rfl⟩ : ∃ f, fuel = f + 1 := ⟨fuel - 1, by omega⟩
    have hf1 : n1 ≤ f := by have := le_max_left n1 n2; omega
    have hf2 : n2 ≤ f := by have := le_max_right n1 n2; omega
    obtain ⟨NR, hNR⟩ := hn2 f hf2
    exact ⟨_, reject_for_stack_cons_intro f rules pos rest C NR _ ns hm
      (advance_stack_mono n1 f rules _ [] ns hf1 hns) hNR⟩

/-- On a well-formed table without left recursion the filter returns on every
batch of zero-terminated candidates, for every non-empty frontier of
well-formed stacks, given a large enough budget. -/
theorem reject_batch_returns (rules : llama_grammar_rules) (hwf : rules_wf rules)
    (hg : grammar_wf rules) (hnlr : ¬ left_recursive rules) :
    ∀ (L : Nat) (ss : llama_grammar_stacks) (C : llama_grammar_candidates),
      ss ≠ [] → frontier_wf rules ss → frontier_ok rules ss →
      (∀ tok ∈ C, ∃ cps, candidate_offers tok cps ∧ cps.length ≤ L) →
      ∃ n, ∀ fuel, n ≤ fuel → ∃ R, llama_grammar_reject_candidates fuel rules ss C = .ok R := by
  intro L
  induction L with
  | zero =>
    intro ss C hne hss hok hoff
    refine reject_front_returns_batch rules ss C hne (fun s hs => ?_)
    refine reject_for_stack_returns_batch rules hwf hg hnlr s C (hss s hs) (hok s hs) ?_
    intro pos rest _ ns hns_ne _ _
    have hnil : C.filter (advances_here rules pos) = [] := by
      rw [List.filter_eq_nil_iff]
      intro tok htok
      obtain ⟨cps, hcps, hlen⟩ := hoff tok htok
      have : cps = [] := List.length_eq_zero.mp (Nat.le_zero.mp hlen)
      subst this
      simp [advances_here, offers_nil_cur tok hcps]
    rw [hnil]
    refine ⟨1, fun fuel hfuel => ?_⟩
    obtain ⟨f, rfl⟩ : ∃ f, fuel = f + 1 := ⟨fuel - 1, by omega⟩
    cases ns with
    | nil => exact absurd rfl hns_ne
    | cons front others => exact ⟨[], reject_candidates_nil_batch _ _ _ _⟩
  | succ L ih =>
    intro ss C hne hss hok hoff
    refine reject_front_returns_batch rules ss C hne (fun s hs => ?_)
    refine reject_for_stack_returns_batch rules hwf hg hnlr s C (hss s hs) (hok s hs) ?_
    intro pos rest _ ns hns_ne hns_wf hns_ok
    refine ih ns _ hns_ne hns_wf hns_ok ?_
    intro t ht
    obtain ⟨tok, htok, rfl⟩ := List.mem_map.mp ht
    obtain ⟨htokC, hadv⟩ := List.mem_filter.mp htok
    obtain ⟨cps, hcps, hlen⟩ := hoff tok htokC
    cases cps with
    | nil => simp [advances_here, offers_nil_cur tok hcps] at hadv
    | cons c cs =>
      obtain ⟨_, _, hnext⟩ := offers_cons_cur tok c cs hcps
      exact ⟨cs, hnext, by simp only [List.length_cons] at hlen; omega⟩

theorem decode_utf8_main_has_zero :
    ∀ (src : List Nat) (v : Nat) (n : Int) (acc : List Nat),
      0 ∈ (decode_utf8_main src v n acc).1 := by
  intro src
  induction src with
  | nil => intro v n acc; simp [decode_utf8_main]
  | cons b bs ih =>
    intro v n acc
    unfold decode_utf8_main
    split
    · simp
    · split
      · exact ih _ _ _
      · simp only
        split
        · simp
        · exact ih _ _ _

theorem decode_utf8_has_zero (src : List Nat) (p : llama_partial_utf8) :
    0 ∈ (decode_utf8 src p).1 := by
  unfold decode_utf8
  split
  · simp
  · exact decode_utf8_main_has_zero _ _ _ _

theorem offers_of_mem_zero (tok : llama_grammar_candidate) (hpos : tok.cp_pos = 0)
    (h : 0 ∈ tok.code_points) :
    ∃ cps, candidate_offers tok cps ∧ cps.length ≤ tok.code_points.length := by
  obtain ⟨cps, tail, hsplit, hnot⟩ := List.eq_append_cons_of_mem h
  refine ⟨cps, ⟨hnot, tail, by rw [hpos, List.drop_zero]; exact hsplit⟩, ?_⟩
  rw [hsplit, List.length_append]
  omega

theorem apply_scan_snd_mem (vocab : llama_vocab) (g : llama_grammar) (allow_eog : Bool) :
    ∀ (ds : List llama_token_data) (i k : Nat) (d : llama_token_data),
      ds.get? k = some d → vocab.is_eog d.id = false →
      ¬ ((vocab.token_to_piece d.id).isEmpty = true ∨
        (vocab.token_to_piece d.id).head? = some 0) →
      (⟨i + k, (decode_utf8 (vocab.token_to_piece d.id) g.partial_utf8).1, 0,
        (decode_utf8 (vocab.token_to_piece d.id) g.partial_utf8).2⟩ :
          llama_grammar_candidate) ∈ (apply_scan vocab g allow_eog ds i).2 := by
  intro ds
  induction ds with
  | nil => intro i k d h; cases h
  | cons x xs ih =>
    intro i k d hget heog hpiece
    cases k with
    | zero =>
      simp only [List.get?_cons_zero, Option.some.injEq] at hget
      subst hget
      unfold apply_scan
      simp only [heog, Bool.false_eq_true, if_false, hpiece, Nat.add_zero]
      exact List.mem_cons_self _ _
    | succ k =>
      simp only [List.get?_cons_succ] at hget
      have := ih (i + 1) k d hget heog hpiece
      have e : i + 1 + k = i + (k + 1) := by omega
      rw [e] at this
      unfold apply_scan
      simp only
      split
      · split <;> exact this
      · split
        · exact this
        · exact List.mem_cons_of_mem _ this

/-- On a well-formed table without left recursion `llama_grammar_apply_impl`
returns for an active session with a non-empty frontier of well-formed stacks,
given a large enough budget. -/
theorem apply_returns (g : llama_grammar) (hwf : rules_wf g.rules) (hg : grammar_wf g.rules)
    (hnlr : ¬ left_recursive g.rules) (hne : g.cur_stacks ≠ [])
    (hss : frontier_wf g.rules g.cur_stacks) (hok : frontier_ok g.rules g.cur_stacks)
    (hact : g.awaiting_trigger = false) (vocab : llama_vocab) (cur_p : List llama_token_data) :
    ∃ n, ∀ fuel, n ≤ fuel → ∃ out, llama_grammar_apply_impl fuel vocab g cur_p = .ok out := by
  obtain ⟨n, hn⟩ := reject_batch_returns g.rules hwf hg hnlr
    (((apply_scan vocab g (g.cur_stacks.any List.isEmpty) cur_p 0).2.map
      (fun t => t.code_points.length)).sum) g.cur_stacks
    (apply_scan vocab g (g.cur_stacks.any List.isEmpty) cur_p 0).2 hne hss hok
    (by
      intro tok htok
      obtain ⟨k, d, _, _, _, _, hc⟩ := apply_scan_snd_index vocab g _ cur_p 0 tok htok
      have hz : 0 ∈ tok.code_points := by rw [hc]; exact decode_utf8_has_zero _ _
      obtain ⟨cps, hoff, hlen⟩ := offers_of_mem_zero tok (by rw [hc]) hz
      refine ⟨cps, hoff, le_trans hlen ?_⟩
      exact List.single_le_sum (fun _ _ => Nat.zero_le _) _
        (List.mem_map.mpr ⟨tok, htok, rfl⟩))
  refine ⟨n, fun fuel hfuel => ?_⟩
  rw [apply_active_eq fuel vocab g cur_p hact]
  obtain ⟨R, hR⟩ := hn fuel hfuel
  rw [hR]
  exact ⟨_, rfl⟩

theorem utf8_encode_all_head (cs : List Nat) (hne : cs ≠ [])
    (hcs : ∀ c ∈ cs, c ≠ 0 ∧ c < 0x110000) :
    ¬ ((utf8_encode_all cs).isEmpty = true ∨ (utf8_encode_all cs).head? = some 0) := by
  cases cs with
  | nil => exact absurd rfl hne
  | cons c rest =>
    obtain ⟨hc0, hc⟩ := hcs c (List.mem_cons_self _ _)
    obtain ⟨first, conts, henc, hf0, _, _⟩ := utf8_encode_shape c hc0 hc
    have e : utf8_encode_all (c :: rest) = first :: (conts ++ utf8_encode_all rest) := by
      simp only [utf8_encode_all, List.flatMap_cons, henc, List.cons_append]
    rw [e]
    simp only [List.isEmpty_cons, Bool.false_eq_true, List.head?_cons, Option.some.injEq,
      false_or]
    exact hf0

/-- The entry `llama_grammar_apply_impl` returns, on the session fed `abc`, for
a token that is not end-of-generation and whose piece is the UTF-8 encoding of
the code points `cs`. -/
theorem lower_apply_entry (pattern : String) (fuel : Nat) (vocab : llama_vocab)
    (cur_p out : List llama_token_data)
    (h : llama_grammar_apply_impl fuel vocab (lower_active_session pattern) cur_p = .ok out)
    (k : Nat) (d : llama_token_data) (hk : cur_p.get? k = some d)
    (heog : vocab.is_eog d.id = false) (cs : List Nat)
    (hcs : ∀ c ∈ cs, c ≠ 0 ∧ c < 0x110000)
    (hpiece : vocab.token_to_piece d.id = utf8_encode_all cs) :
    out.get? k =
      some (if cs ≠ [] ∧ ∀ c ∈ cs, 0x61 ≤ c ∧ c ≤ 0x7A then d
        else ⟨d.id, logit_t.neg_infinity⟩) := by
  rw [apply_active_eq fuel vocab _ cur_p rfl] at h
  cases hr : llama_grammar_reject_candidates fuel (lower_active_session pattern).rules
      (lower_active_session pattern).cur_stacks
      (apply_scan vocab (lower_active_session pattern)
        ((lower_active_session pattern).cur_stacks.any List.isEmpty) cur_p 0).2 with
  | error e => rw [hr] at h; cases h
  | ok R =>
    rw [hr] at h
    simp only [Except.ok.injEq] at h
    subst h
    rw [apply_result_get, hk]
    simp only [Option.map_some', Option.some.injEq]
    by_cases hne : cs = []
    · subst hne
      have hm : scan_masks vocab ((lower_active_session pattern).cur_stacks.any List.isEmpty)
          d.id = true := by
        simp [scan_masks, heog, hpiece, utf8_encode_all]
      simp [hm, mask_entry]
    · have hhead := utf8_encode_all_head cs hne hcs
      have hm : scan_masks vocab ((lower_active_session pattern).cur_stacks.any List.isEmpty) d.id
          = false := by
        unfold scan_masks
        rw [heog, hpiece]
        simp only [Bool.false_eq_true, if_false, decide_eq_false_iff_not]
        exact hhead
      have hdec : decode_utf8 (vocab.token_to_piece d.id) (lower_active_session pattern).partial_utf8 =
          (cs ++ [0], ⟨cs.getLastD 0x63, 0⟩) := by
        rw [hpiece]
        exact decode_utf8_from_aligned cs hcs 0x63
      have hmem := apply_scan_snd_mem vocab (lower_active_session pattern)
        ((lower_active_session pattern).cur_stacks.any List.isEmpty) cur_p 0 k d hk heog
        (by rw [hpiece]; exact hhead)
      rw [hdec] at hmem
      simp only at hmem
      have hind := (reject_indep (lower_active_session pattern).rules fuel).2
        (lower_active_session pattern).cur_stacks _ R hr
      have hsingle := hind.2.2 _ hmem
      have hoff : candidate_offers
          (⟨0 + k, cs ++ [0], 0, ⟨cs.getLastD 0x63, 0⟩⟩ : llama_grammar_candidate) cs :=
        ⟨fun h0 => (hcs 0 h0).1 rfl, [], rfl⟩
      have hiff := reject_front_of_stack (lower_active_session pattern).rules cs
        (fun f s t R1 => reject_for_stack_single cs f s t R1) fuel
        (lower_active_session pattern).cur_stacks _ _ hoff rfl hsingle
      have hfeed := feed_frontier_survives 3 lower_rules cs lower_frontier _
        (lower_feed 3 (Nat.le_refl 3) cs)
      have hR : (⟨0 + k, cs ++ [0], 0, ⟨cs.getLastD 0x63, 0⟩⟩ : llama_grammar_candidate) ∈ R ↔
          ¬ ∀ c ∈ cs, 0x61 ≤ c ∧ c ≤ 0x7A := by
        have h1 : (∃ s ∈ lower_frontier, stack_survives lower_rules s cs) ↔
            ∀ c ∈ cs, 0x61 ≤ c ∧ c ≤ 0x7A := by
          rw [← hfeed]
          by_cases hl : ∀ c ∈ cs, 0x61 ≤ c ∧ c ≤ 0x7A
          · rw [if_pos hl]
            exact ⟨fun _ => hl, fun _ => by simp [lower_frontier]⟩
          · rw [if_neg hl]
            exact ⟨fun h3 => absurd rfl h3, fun h3 => absurd h3 hl⟩
        have h2 : (∃ s ∈ (lower_active_session pattern).cur_stacks,
            stack_survives (lower_active_session pattern).rules s cs) ↔
            ∀ c ∈ cs, 0x61 ≤ c ∧ c ≤ 0x7A := h1
        rw [h2] at hiff
        by_cases hin : (⟨0 + k, cs ++ [0], 0, ⟨cs.getLastD 0x63, 0⟩⟩ :
            llama_grammar_candidate) ∈ R
        · simp only [hin, if_true, List.mem_singleton, not_true_eq_false, false_iff] at hiff
          exact ⟨fun _ => hiff, fun _ => hin⟩
        · simp only [hin, if_false, List.not_mem_nil, not_false_eq_true, true_iff] at hiff
          exact ⟨fun h3 => absurd h3 hin, fun h3 => absurd hiff h3⟩
      have hidx : k ∈ R.map llama_grammar_candidate.index ↔
          (⟨0 + k, cs ++ [0], 0, ⟨cs.getLastD 0x63, 0⟩⟩ : llama_grammar_candidate) ∈ R := by
        constructor
        · intro hkin
          obtain ⟨r, hrR, hrk⟩ := List.mem_map.mp hkin
          obtain ⟨k1, d1, hk1, hidx1, _, _, hrc⟩ := apply_scan_snd_index vocab
            (lower_active_session pattern) _ cur_p 0 r (hind.2.1 r hrR)
          have hkk : k1 = k := by omega
          subst hkk
          rw [hk] at hk1
          cases hk1
          rw [hdec] at hrc
          rw [← hrc]
          exact hrR
        · intro hin
          exact List.mem_map.mpr ⟨_, hin, by simp⟩
      by_cases hl : ∀ c ∈ cs, 0x61 ≤ c ∧ c ≤ 0x7A
      · have hnot : k ∉ R.map llama_grammar_candidate.index := by
          rw [hidx, hR]
          exact fun h3 => h3 hl
        rw [if_pos ⟨hne, hl⟩]
        simp [hnot, hm, mask_entry]
      · have hin : k ∈ R.map llama_grammar_candidate.index := by
          rw [hidx, hR]
          exact hl
        simp only [hin, decide_True, Bool.true_or, mask_entry, if_true]
        rw [if_neg (fun h3 => hl h3.2)]

theorem accept_tokens_dormant (fuel : Nat) (vocab : llama_vocab)
    (regex_match : String → List Nat → Option (List (Nat × Nat))) :
    ∀ (init : List Nat) (g : llama_grammar) (rest : List Nat),
      g.awaiting_trigger = true → g.trigger_tokens = [] →
      (∀ pre, pre <+: init → pre ≠ [] → ∀ pattern ∈ g.trigger_patterns,
        regex_match pattern (g.trigger_buffer ++ pre.flatMap vocab.token_to_piece) = none) →
      accept_tokens fuel vocab regex_match g (init ++ rest) =
        accept_tokens fuel vocab regex_match
          { g with trigger_buffer := g.trigger_buffer ++ init.flatMap vocab.token_to_piece }
          rest := by
  intro init
  induction init with
  | nil =>
    intro g rest _ _ _
    simp only [List.nil_append, List.flatMap_nil, List.append_nil]
  | cons t ts ih =>
    intro g rest haw htt hno
    have hstep : llama_grammar_accept_impl fuel vocab regex_match g t =
        .ok (accept_outcome.done
          { g with trigger_buffer := g.trigger_buffer ++ vocab.token_to_piece t }) := by
      unfold llama_grammar_accept_impl
      have ht : t ∉ g.trigger_tokens := by rw [htt]; exact List.not_mem_nil t
      simp only [haw, ht, if_true, if_false]
      rw [find_trigger_none regex_match _ _ (fun pattern hp => by
        have := hno [t] (by simp) (by simp) pattern hp
        simpa using this)]
    rw [List.cons_append, accept_tokens, hstep]
    simp only
    rw [ih { g with trigger_buffer := g.trigger_buffer ++ vocab.token_to_piece t } rest haw htt
      (fun pre hpre hne pattern hp => by
        have := hno (t :: pre) (List.cons_prefix_cons.mpr ⟨rfl, hpre⟩) (by simp) pattern hp
        simpa [List.append_assoc] using this)]
    simp only [List.flatMap_cons, List.append_assoc]

theorem lower_accept_abc (pattern : String) (fuel : Nat) (hfuel : 3 ≤ fuel) :
    llama_grammar_accept_str fuel
        ⟨lower_rules, [[⟨0, 0⟩]], ⟨0, 0⟩, true, false, [], [], [pattern]⟩ (text_bytes "abc") =
      .ok (accept_outcome.done (lower_active_session pattern)) := by
  have hfeed : feed_frontier 3 lower_rules [[⟨0, 0⟩]]
      (decode_utf8 (text_bytes "abc") ⟨0, 0⟩).1.dropLast = .ok lower_frontier := rfl
  rw [accept_str_eq]
  simp only
  rw [feed_frontier_mono 3 fuel _ hfuel _ _ _ hfeed]
  rfl

theorem lower_init_str (pattern : String) (regex_compiles : String → Bool) :
    llama_grammar_init_impl_str 40 regex_compiles (text_bytes "root ::= [a-z]+")
        (text_bytes "root") true [pattern] [] =
      .ok (if regex_compiles pattern = true then
        init_outcome.session (lower_lazy_session pattern) else init_outcome.regex_error) := by
  have h : llama_grammar_init_impl_str 40 regex_compiles (text_bytes "root ::= [a-z]+")
      (text_bytes "root") true [pattern] [] =
      (if [pattern].all regex_compiles = true then
        .ok (init_outcome.session (lower_lazy_session pattern))
      else .ok init_outcome.regex_error) := rfl
  have ha : [pattern].all regex_compiles = regex_compiles pattern := by
    simp only [List.all_cons, List.all_nil, Bool.and_true]
  rw [h, ha]
  cases regex_compiles pattern <;> rfl

/-- C33 (as amended). The lazy trigger example with `root ::= [a-z]+` and one
trigger pattern. The text parses and `llama_grammar_init_impl` returns the
lazy session when the engine accepts the pattern (and throws `std::regex_error`
otherwise). Let the tokens `init ++ [last]` spell `noise BEGIN:abc`, the
pattern match none of the buffers before the last token, and match the whole
buffer `noise BEGIN:abc` with the start offset 12 (the first non-empty capture
group begins 6 bytes after the `B`). Then, with a budget of 3 or more, the
calls of `llama_grammar_accept_impl` leave the session active, with an empty
buffer and the frontier of the grammar fed exactly `abc`. On that session
`llama_grammar_apply_impl` returns from some budget on, and in what it returns
an end-of-generation token keeps its entry, and a token whose piece is the
UTF-8 encoding of code points `cs` keeps its entry when `cs` is non-empty and
all of `[a-z]`, and has the logit `-INFINITY` otherwise. -/
theorem lazy_trigger_feeds_suffix (pattern : String) (fuel : Nat) (vocab : llama_vocab)
    (regex_compiles : String → Bool)
    (regex_match : String → List Nat → Option (List (Nat × Nat)))
    (init : List Nat) (last : Nat) (groups : List (Nat × Nat)) (hfuel : 3 ≤ fuel)
    (hspell : (init ++ [last]).flatMap vocab.token_to_piece = text_bytes "noise BEGIN:abc")
    (hdorm : ∀ pre, pre <+: init → pre ≠ [] →
      regex_match pattern (pre.flatMap vocab.token_to_piece) = none)
    (hmatch : regex_match pattern (text_bytes "noise BEGIN:abc") = some groups)
    (hstart : trigger_start groups = 12) :
    llama_grammar_init_impl_str 40 regex_compiles (text_bytes "root ::= [a-z]+")
        (text_bytes "root") true [pattern] [] =
      .ok (if regex_compiles pattern = true then
        init_outcome.session (lower_lazy_session pattern) else init_outcome.regex_error) ∧
    accept_tokens fuel vocab regex_match (lower_lazy_session pattern) (init ++ [last]) =
      .ok (accept_outcome.done (lower_active_session pattern)) ∧
    (text_bytes "noise BEGIN:abc").drop 12 = text_bytes "abc" ∧
    llama_grammar_accept_str fuel
        { lower_lazy_session pattern with awaiting_trigger := false } (text_bytes "abc") =
      .ok (accept_outcome.done (lower_active_session pattern)) ∧
    ∀ cur_p : List llama_token_data,
      (∃ n, ∀ fuel1, n ≤ fuel1 →
        ∃ out, llama_grammar_apply_impl fuel1 vocab (lower_active_session pattern) cur_p
          = .ok out) ∧
      ∀ fuel1 out,
        llama_grammar_apply_impl fuel1 vocab (lower_active_session pattern) cur_p = .ok out →
        ∀ k d, cur_p.get? k = some d →
          (vocab.is_eog d.id = true → out.get? k = some d) ∧
          (vocab.is_eog d.id = false → ∀ cs, (∀ c ∈ cs, is_scalar_value c ∧ c ≠ 0) →
            vocab.token_to_piece d.id = utf8_encode_all cs →
            out.get? k =
              some (if cs ≠ [] ∧ ∀ c ∈ cs, 0x61 ≤ c ∧ c ≤ 0x7A then d
                else ⟨d.id, logit_t.neg_infinity⟩)) := by
  refine ⟨lower_init_str pattern regex_compiles, ?_, rfl, lower_accept_abc pattern fuel hfuel, ?_⟩
  · rw [accept_tokens_dormant fuel vocab regex_match init (lower_lazy_session pattern) [last]
      rfl rfl (fun pre hpre hne q hq => by
        have hq1 : q = pattern := by
          simpa [lower_lazy_session] using hq
        subst hq1
        have := hdorm pre hpre hne
        simpa [lower_lazy_session] using this)]
    have hbuf : ([] : List Nat) ++ init.flatMap vocab.token_to_piece ++ vocab.token_to_piece last
        = text_bytes "noise BEGIN:abc" := by
      rw [← hspell]
      simp [List.flatMap_append]
    have hstep : llama_grammar_accept_impl fuel vocab regex_match
        { lower_lazy_session pattern with
          trigger_buffer := (lower_lazy_session pattern).trigger_buffer ++
            init.flatMap vocab.token_to_piece } last =
        .ok (accept_outcome.done (lower_active_session pattern)) := by
      unfold llama_grammar_accept_impl
      have e1 : (lower_lazy_session pattern).trigger_buffer = [] := rfl
      have e2 : (lower_lazy_session pattern).awaiting_trigger = true := rfl
      have e3 : (lower_lazy_session pattern).trigger_tokens = [] := rfl
      have e4 : (lower_lazy_session pattern).trigger_patterns = [pattern] := rfl
      simp only [e1, e2, e3, e4, List.not_mem_nil, if_true, if_false, hbuf, find_trigger,
        hmatch, hstart]
      exact lower_accept_abc pattern fuel hfuel
    simp only [accept_tokens, hstep]
  · intro cur_p
    refine ⟨apply_returns (lower_active_session pattern) lower_rules_wf lower_grammar_wf
      lower_not_left_recursive (by simp [lower_active_session, lower_frontier])
      lower_frontier_wf lower_frontier_ok rfl vocab cur_p, ?_⟩
    intro fuel1 out hout k d hk
    refine ⟨fun heog => ?_, fun heog cs hcs hpiece =>
      lower_apply_entry pattern fuel1 vocab cur_p out hout k d hk heog cs
        (fun c hc => by
          obtain ⟨hsv, hz⟩ := hcs c hc
          refine ⟨hz, ?_⟩
          unfold is_scalar_value at hsv
          omega) hpiece⟩
    rw [apply_active_eq fuel1 vocab _ cur_p rfl] at hout
    cases hr : llama_grammar_reject_candidates fuel1 (lower_active_session pattern).rules
        (lower_active_session pattern).cur_stacks
        (apply_scan vocab (lower_active_session pattern)
          ((lower_active_session pattern).cur_stacks.any List.isEmpty) cur_p 0).2 with
    | error e => rw [hr] at hout; cases hout
    | ok R =>
      rw [hr] at hout
      simp only [Except.ok.injEq] at hout
      subst hout
      have hnot := reject_index_not_eog fuel1 vocab (lower_active_session pattern) _ cur_p R hr
        k d hk heog
      rw [apply_result_get, hk]
      simp only [Option.map_some', hnot, decide_False, Bool.false_or, scan_masks, heog, if_true]
      rfl

/-- C33 (counterexample). With `std::regex_match`, which has to match the whole
buffer, the pattern `^BEGIN:(.*)$` does not match `noise BEGIN:abc`, nor the
buffers on the way. After the tokens `noise `, `BEGIN:`, `abc`, and as well
after the one token `noise BEGIN:abc`, the session still awaits its trigger,
the 15 bytes are in the buffer, the grammar has been fed nothing, and
`llama_grammar_apply_impl` masks nothing: the token `X1` keeps its logit. -/
theorem anchored_trigger_stays_dormant :
    anchored_begin_match "^BEGIN:(.*)$" (text_bytes "noise BEGIN:abc") = none ∧
    anchored_begin_match "^BEGIN:(.*)$" (text_bytes "BEGIN:abc") = some [(0, 9), (6, 3)] ∧
    accept_tokens 3 noise_vocab anchored_begin_match (lower_lazy_session "^BEGIN:(.*)$")
        [0, 1, 2] =
      .ok (accept_outcome.done
        ⟨lower_rules, [[⟨0, 0⟩]], ⟨0, 0⟩, true, true, text_bytes "noise BEGIN:abc", [],
          ["^BEGIN:(.*)$"]⟩) ∧
    accept_tokens 3 noise_vocab anchored_begin_match (lower_lazy_session "^BEGIN:(.*)$") [3] =
      .ok (accept_outcome.done
        ⟨lower_rules, [[⟨0, 0⟩]], ⟨0, 0⟩, true, true, text_bytes "noise BEGIN:abc", [],
          ["^BEGIN:(.*)$"]⟩) ∧
    llama_grammar_apply_impl 3 noise_vocab
        ⟨lower_rules, [[⟨0, 0⟩]], ⟨0, 0⟩, true, true, text_bytes "noise BEGIN:abc", [],
          ["^BEGIN:(.*)$"]⟩ [⟨4, logit_t.finite 0⟩, ⟨2, logit_t.finite 0⟩] =
      .ok [⟨4, logit_t.finite 0⟩, ⟨2, logit_t.finite 0⟩] :=
  ⟨rfl, rfl, rfl, rfl, rfl⟩

theorem lazy_trigger_feeds_suffix_witness :
    (3 ≤ 3 ∧
      ([0, 1] ++ [2]).flatMap noise_vocab.token_to_piece = text_bytes "noise BEGIN:abc" ∧
      (∀ pre, pre <+: [0, 1] → pre ≠ [] →
        suffix_begin_match ".*BEGIN:(.+)" (pre.flatMap noise_vocab.token_to_piece) = none) ∧
      suffix_begin_match ".*BEGIN:(.+)" (text_bytes "noise BEGIN:abc") =
        some [(0, 15), (12, 3)] ∧
      trigger_start [(0, 15), (12, 3)] = 12) ∧
    llama_grammar_apply_impl 10 noise_vocab (lower_active_session ".*BEGIN:(.+)")
        [⟨2, logit_t.finite 0⟩, ⟨4, logit_t.finite 0⟩, ⟨9, logit_t.finite 0⟩] =
      .ok [⟨2, logit_t.finite 0⟩, ⟨4, logit_t.neg_infinity⟩, ⟨9, logit_t.finite 0⟩] ∧
    accept_tokens 3 noise_vocab suffix_begin_match (lower_lazy_session ".*BEGIN:(.+)")
        ([0, 1] ++ [2]) =
      .ok (accept_outcome.done (lower_active_session ".*BEGIN:(.+)")) :=
  ⟨⟨Nat.le_refl 3, rfl,
      fun pre hpre hne => by
        obtain ⟨t, ht⟩ := hpre
        rcases pre with _ | ⟨a, _ | ⟨b, _ | ⟨c, pre⟩⟩⟩
        · exact absurd rfl hne
        · simp only [List.cons_append, List.nil_append, List.cons.injEq] at ht
          obtain ⟨rfl, _⟩ := ht
          rfl
        · simp only [List.cons_append, List.nil_append, List.cons.injEq] at ht
          obtain ⟨rfl, rfl, _⟩ := ht
          rfl
        · simp at ht,
      rfl, rfl⟩,
    rfl,
    (lazy_trigger_feeds_suffix ".*BEGIN:(.+)" 3 noise_vocab (fun _ => true)
      suffix_begin_match [0, 1] 2
      [(0, 15), (12, 3)] (Nat.le_refl 3) rfl
      (fun pre hpre hne => by
        obtain ⟨t, ht⟩ := hpre
        rcases pre with _ | ⟨a, _ | ⟨b, _ | ⟨c, pre⟩⟩⟩
        · exact absurd rfl hne
        · simp only [List.cons_append, List.nil_append, List.cons.injEq] at ht
          obtain ⟨rfl, _⟩ := ht
          rfl
        · simp only [List.cons_append, List.nil_append, List.cons.injEq] at ht
          obtain ⟨rfl, rfl, _⟩ := ht
          rfl
        · simp at ht)
      rfl rfl).2.1⟩

/-! ### The frontier holds no stack twice (C38) -/

theorem push_unique_extends (acc : llama_grammar_stacks) (stack : llama_grammar_stack) :
    acc <+: push_unique acc stack ∧ (acc.Nodup → (push_unique acc stack).Nodup) := by
  unfold push_unique
  split
  · exact ⟨List.prefix_refl _, fun h => h⟩
  · rename_i hmem
    refine ⟨List.prefix_append _ _, fun h => ?_⟩
    refine List.Nodup.append h (List.nodup_singleton _) ?_
    intro x hx hx1
    simp only [List.mem_singleton] at hx1
    exact hmem (hx1 ▸ hx)

theorem advance_stack_extends :
    ∀ (fuel : Nat) (rules : llama_grammar_rules) (stack : llama_grammar_stack)
      (acc res : llama_grammar_stacks),
      llama_grammar_advance_stack fuel rules stack acc = .ok res →
      acc <+: res ∧ (acc.Nodup → res.Nodup) := by
  intro fuel
  induction fuel with
  | zero => intro rules stack acc res h; simp [llama_grammar_advance_stack] at h
  | succ n ih =>
    intro rules stack acc res h
    unfold llama_grammar_advance_stack at h
    cases stack with
    | nil =>
      simp only [Except.ok.injEq] at h
      exact h ▸ push_unique_extends acc []
    | cons pos rest =>
      simp only at h
      split at h
      · have hfold : ∀ (l : List Nat) (acc1 res1 : llama_grammar_stacks),
            l.foldlM (fun a sub => llama_grammar_advance_stack n rules
              (push_unless_end rules ⟨(rules_at rules pos).value, sub⟩
                (push_unless_end rules (pos.add 1) rest)) a) acc1 = .ok res1 →
            acc1 <+: res1 ∧ (acc1.Nodup → res1.Nodup) := by
          intro l
          induction l with
          | nil =>
            intro acc1 res1 h1
            simp only [List.foldlM_nil, pure, Except.pure, Except.ok.injEq] at h1
            exact h1 ▸ ⟨List.prefix_refl _, fun h => h⟩
          | cons a as ihl =>
            intro acc1 res1 h1
            simp only [List.foldlM_cons, bind, Except.bind] at h1
            split at h1
            · cases h1
            · rename_i r1 hr1
              obtain ⟨p1, n1⟩ := ih rules _ acc1 r1 hr1
              obtain ⟨p2, n2⟩ := ihl r1 res1 h1
              exact ⟨p1.trans p2, fun h => n2 (n1 h)⟩
        exact hfold _ acc res h
      · simp only [Except.ok.injEq] at h
        exact h ▸ push_unique_extends acc _
      · simp only [Except.ok.injEq] at h
        exact h ▸ push_unique_extends acc _
      · simp only [Except.ok.injEq] at h
        exact h ▸ push_unique_extends acc _
      · cases h

theorem accept_stack_nodup (fuel : Nat) (rules : llama_grammar_rules) (chr : Nat)
    (acc : llama_grammar_stacks) (stack : llama_grammar_stack) (res : llama_grammar_stacks)
    (hacc : acc.Nodup) (h : accept_stack fuel rules chr acc stack = .ok res) : res.Nodup := by
  unfold accept_stack at h
  cases stack with
  | nil => simp only [Except.ok.injEq] at h; exact h ▸ hacc
  | cons top rest =>
    simp only at h
    split at h
    · cases h
    · split at h
      · exact (advance_stack_extends _ _ _ _ _ h).2 hacc
      · simp only [Except.ok.injEq] at h; exact h ▸ hacc

theorem accept_stacks_nodup (fuel : Nat) (rules : llama_grammar_rules)
    (ss : llama_grammar_stacks) (chr : Nat) (res : llama_grammar_stacks)
    (h : accept_stacks fuel rules ss chr = .ok res) : res.Nodup := by
  unfold accept_stacks at h
  exact foldlM_ok_inv (fun r : llama_grammar_stacks => r.Nodup) _ _ _ _
    (fun acc a r _ hP hr => accept_stack_nodup fuel rules chr acc a r hP hr)
    List.nodup_nil h

theorem init_stacks_nodup (fuel : Nat) (rules : llama_grammar_rules) (start : Nat)
    (res : llama_grammar_stacks) (h : init_stacks fuel rules start = .ok res) : res.Nodup := by
  unfold init_stacks at h
  exact foldlM_ok_inv (fun r : llama_grammar_stacks => r.Nodup) _ _ _ _
    (fun acc a r _ hP hr => (advance_stack_extends _ _ _ _ _ hr).2 hP)
    List.nodup_nil h

theorem feed_frontier_nodup (fuel : Nat) (rules : llama_grammar_rules) :
    ∀ (chrs : List Nat) (ss res : llama_grammar_stacks), ss.Nodup →
      feed_frontier fuel rules ss chrs = .ok res → res.Nodup := by
  intro chrs
  induction chrs with
  | nil =>
    intro ss res hss h
    simp only [feed_frontier, Except.ok.injEq] at h
    exact h ▸ hss
  | cons c cs ih =>
    intro ss res _ h
    simp only [feed_frontier] at h
    split at h
    · cases h
    · rename_i r hr
      exact ih r res (accept_stacks_nodup _ _ _ _ _ hr) h

theorem accept_str_nodup (fuel : Nat) (g : llama_grammar) (piece : List Nat)
    (o : accept_outcome) (hg : g.cur_stacks.Nodup)
    (h : llama_grammar_accept_str fuel g piece = .ok o) : o.grammar.cur_stacks.Nodup := by
  rw [accept_str_eq] at h
  split at h
  · cases h
  · rename_i frontier hf
    have h1 := feed_frontier_nodup fuel g.rules _ _ _ hg hf
    simp only [Except.ok.injEq] at h
    subst h
    split
    · exact h1
    · exact h1

theorem accept_impl_nodup (fuel : Nat) (vocab : llama_vocab)
    (regex_match : String → List Nat → Option (List (Nat × Nat)))
    (g : llama_grammar) (token : Nat)
    (o : accept_outcome) (hg : g.cur_stacks.Nodup)
    (h : llama_grammar_accept_impl fuel vocab regex_match g token = .ok o) :
    o.grammar.cur_stacks.Nodup := by
  unfold llama_grammar_accept_impl at h
  simp only at h
  split at h
  · split at h
    · exact accept_str_nodup fuel
        { g with awaiting_trigger := false, trigger_buffer := [] } _ o hg h
    · split at h
      · exact accept_str_nodup fuel
          { g with awaiting_trigger := false, trigger_buffer := [] } _ o hg h
      · simp only [Except.ok.injEq] at h; subst h; exact hg
  · split at h
    · split at h
      · simp only [Except.ok.injEq] at h; subst h; exact hg
      · cases h
    · exact accept_str_nodup fuel _ _ o hg h

theorem accept_nodup (fuel : Nat) (g g1 : llama_grammar) (chr : Nat)
    (h : llama_grammar_accept fuel g chr = .ok g1) : g1.cur_stacks.Nodup := by
  unfold llama_grammar_accept at h
  split at h
  · cases h
  · rename_i r hr
    simp only [Except.ok.injEq] at h
    subst h
    exact accept_stacks_nodup _ _ _ _ _ hr

/-- C38. The frontier never contains duplicates. A returning call of
`llama_grammar_advance_stack` gives the accumulator `new_stacks` followed by
the stacks it appends (the entries already there are untouched), and it appends
no stack equal to one already present: a duplicate-free accumulator stays
duplicate-free. Hence the stacks built by `llama_grammar_init_impl`, the stacks
after every `llama_grammar_accept`, and the stacks of every session a host can
reach contain no two equal stacks. -/
theorem frontier_has_no_duplicates :
    (∀ (fuel : Nat) (rules : llama_grammar_rules) (stack : llama_grammar_stack)
        (new_stacks res : llama_grammar_stacks),
      llama_grammar_advance_stack fuel rules stack new_stacks = .ok res →
      new_stacks <+: res ∧ (new_stacks.Nodup → res.Nodup)) ∧
    (∀ (fuel : Nat) (rules : llama_grammar_rules) (start_rule_index : Nat) (lazy : Bool)
        (trigger_tokens : List Nat) (trigger_patterns : List String) (g : llama_grammar),
      llama_grammar_init_impl fuel rules start_rule_index lazy trigger_tokens trigger_patterns =
        .ok (some g) → g.cur_stacks.Nodup) ∧
    (∀ (fuel : Nat) (g g1 : llama_grammar) (chr : Nat),
      llama_grammar_accept fuel g chr = .ok g1 → g1.cur_stacks.Nodup) ∧
    (∀ g, session_reachable g → g.cur_stacks.Nodup) := by
  have hinit : ∀ (fuel : Nat) (rules : llama_grammar_rules) (start_rule_index : Nat)
      (lazy : Bool) (trigger_tokens : List Nat) (trigger_patterns : List String)
      (g : llama_grammar),
      llama_grammar_init_impl fuel rules start_rule_index lazy trigger_tokens trigger_patterns =
        .ok (some g) → g.cur_stacks.Nodup := by
    intro fuel rules start lazy tt tp g h
    obtain ⟨_, hs, _, _⟩ := init_impl_some _ _ _ _ _ _ _ h
    exact init_stacks_nodup _ _ _ _ hs
  refine ⟨advance_stack_extends, hinit, accept_nodup, ?_⟩
  intro g h
  induction h with
  | init fuel rules start lazy tt tp g hi => exact hinit _ _ _ _ _ _ _ hi
  | accept fuel g g1 chr _ hacc _ => exact accept_nodup _ _ _ _ hacc
  | accept_str fuel g piece o _ hacc ih => exact accept_str_nodup _ _ _ _ ih hacc
  | accept_impl fuel vocab rm g token o _ hacc ih =>
    exact accept_impl_nodup _ _ _ _ _ _ ih hacc

theorem frontier_has_no_duplicates_witness :
    (llama_grammar_advance_stack 3 parens_rules [⟨0, 1⟩, ⟨0, 2⟩] [[⟨0, 0⟩, ⟨0, 2⟩, ⟨0, 2⟩]] =
        .ok [[⟨0, 0⟩, ⟨0, 2⟩, ⟨0, 2⟩], [⟨0, 2⟩, ⟨0, 2⟩]] ∧
      llama_grammar_advance_stack 3 parens_rules [⟨0, 1⟩, ⟨0, 2⟩]
          [[⟨0, 0⟩, ⟨0, 2⟩, ⟨0, 2⟩], [⟨0, 2⟩, ⟨0, 2⟩]] =
        .ok [[⟨0, 0⟩, ⟨0, 2⟩, ⟨0, 2⟩], [⟨0, 2⟩, ⟨0, 2⟩]] ∧
      llama_grammar_init_impl 4 parens_rules 0 false [] [] = .ok (some parens_session)) ∧
    ([[⟨0, 0⟩, ⟨0, 2⟩, ⟨0, 2⟩]] <+:
        ([[⟨0, 0⟩, ⟨0, 2⟩, ⟨0, 2⟩], [⟨0, 2⟩, ⟨0, 2⟩]] : llama_grammar_stacks) ∧
      parens_session.cur_stacks.Nodup) :=
  ⟨⟨rfl, rfl, parens_init⟩,
    (frontier_has_no_duplicates.1 3 parens_rules [⟨0, 1⟩, ⟨0, 2⟩] [[⟨0, 0⟩, ⟨0, 2⟩, ⟨0, 2⟩]]
      [[⟨0, 0⟩, ⟨0, 2⟩, ⟨0, 2⟩], [⟨0, 2⟩, ⟨0, 2⟩]] rfl).1,
    frontier_has_no_duplicates.2.1 4 parens_rules 0 false [] [] parens_session parens_init⟩

/-! ### The symbol table (C39) -/

theorem rule_name_no_underscore (name : List Nat) (h : is_rule_name name) : 0x5F ∉ name := by
  intro hm
  have := h.2 _ hm
  revert this
  decide

theorem reachable_symbols_ok (p : llama_grammar_parser_t) (h : symbol_table_reachable p) :
    symbols_ok p.symbol_ids ∧ p.rules.length ≤ p.symbol_ids.length := by
  induction h with
  | fresh => exact ⟨parser_ok_fresh.1, parser_ok_fresh.2.1⟩
  | get p name _ hname ih =>
    obtain ⟨g1, _, g3, g4⟩ := get_symbol_id_spec p name ih.1 (rule_name_no_underscore name hname)
    exact ⟨g1, by rw [g4]; exact le_trans ih.2 g3⟩
  | generate p base _ hbase ih =>
    obtain ⟨_, g2, g3, g4⟩ := generate_symbol_id_spec p base ih.1
      (rule_name_no_underscore base hbase)
    refine ⟨g3, ?_⟩
    rw [g4, g2, List.length_append]
    exact le_trans ih.2 (Nat.le_add_right _ _)
  | add p id rule _ hid ih =>
    refine ⟨ih.1, ?_⟩
    rw [add_rule_length, add_rule_symbol_ids]
    omega

/-- C39. Symbol-table invariant. After any sequence of `get_symbol_id` and
`generate_symbol_id` calls with names `parse_name` accepts, and `add_rule`
calls with ids of symbols: the names of the table are distinct, the ids are
`0 .. n-1` in the order of insertion (so distinct names have distinct ids),
and no rule has an index without a symbol. Consequently `generate_symbol_id`
returns the id `n`, which no symbol has, keeps every entry and adds one; the
rule table holds no rule at that index, and `add_rule` at that index changes
no other rule. -/
theorem symbol_table_invariant (p : llama_grammar_parser_t) (h : symbol_table_reachable p) :
    (p.symbol_ids.map Prod.fst).Nodup ∧
    p.symbol_ids.map Prod.snd = List.range p.symbol_ids.length ∧
    (∀ kv1 ∈ p.symbol_ids, ∀ kv2 ∈ p.symbol_ids, kv1.2 = kv2.2 → kv1.1 = kv2.1) ∧
    p.rules.length ≤ p.symbol_ids.length ∧
    ∀ base_name, is_rule_name base_name →
      (generate_symbol_id p base_name).1 = p.symbol_ids.length ∧
      (∀ kv ∈ p.symbol_ids, kv.2 ≠ (generate_symbol_id p base_name).1) ∧
      (generate_symbol_id p base_name).2.symbol_ids =
        p.symbol_ids ++
          [(base_name ++ [0x5F] ++ to_string p.symbol_ids.length, p.symbol_ids.length)] ∧
      base_name ++ [0x5F] ++ to_string p.symbol_ids.length ∉ p.symbol_ids.map Prod.fst ∧
      p.rules.getD (generate_symbol_id p base_name).1 [] = [] ∧
      ∀ rule x, x ≠ (generate_symbol_id p base_name).1 →
        (add_rule (generate_symbol_id p base_name).2 (generate_symbol_id p base_name).1
          rule).rules.getD x [] = p.rules.getD x [] := by
  obtain ⟨hs, hlen⟩ := reachable_symbols_ok p h
  refine ⟨hs.2.1, hs.1, ?_, hlen, ?_⟩
  · intro kv1 h1 kv2 h2 he
    obtain ⟨i1, hi1, e1⟩ := List.getElem_of_mem h1
    obtain ⟨i2, hi2, e2⟩ := List.getElem_of_mem h2
    have hsnd : ∀ i (hi : i < p.symbol_ids.length), (p.symbol_ids[i]).2 = i := by
      intro i hi
      have := congrArg (fun l => l[i]?) hs.1
      simp only [List.getElem?_map, List.getElem?_eq_getElem hi, Option.map_some',
        List.getElem?_range hi, Option.some.injEq] at this
      exact this
    have : i1 = i2 := by
      rw [← hsnd i1 hi1, ← hsnd i2 hi2, e1, e2]
      exact he
    subst this
    rw [← e1, ← e2]
  · intro base hbase
    obtain ⟨g1, g2, _, g4⟩ := generate_symbol_id_spec p base hs
      (rule_name_no_underscore base hbase)
    refine ⟨g1, ?_, g2, generated_key_fresh p.symbol_ids hs base
      (rule_name_no_underscore base hbase), ?_, ?_⟩
    · intro kv hkv
      rw [g1]
      exact Nat.ne_of_lt (symbols_ok_id_lt _ hs kv hkv)
    · rw [g1]
      exact List.getD_eq_default _ _ hlen
    · intro rule x hx
      rw [add_rule_getD_other _ _ _ x hx, g4]

theorem symbol_table_invariant_witness :
    symbol_table_reachable
        (add_rule (generate_symbol_id
          (get_symbol_id llama_grammar_parser_t.fresh (text_bytes "root")).2
          (text_bytes "root")).2 1 [⟨llama_gretype.END, 0⟩]) ∧
      (add_rule (generate_symbol_id
          (get_symbol_id llama_grammar_parser_t.fresh (text_bytes "root")).2
          (text_bytes "root")).2 1 [⟨llama_gretype.END, 0⟩]) =
        ⟨[(text_bytes "root", 0), (text_bytes "root_1", 1)], [[], [⟨llama_gretype.END, 0⟩]]⟩ ∧
      ((add_rule (generate_symbol_id
          (get_symbol_id llama_grammar_parser_t.fresh (text_bytes "root")).2
          (text_bytes "root")).2 1 [⟨llama_gretype.END, 0⟩]).symbol_ids.map Prod.fst).Nodup :=
  ⟨symbol_table_reachable.add _ 1 _
      (symbol_table_reachable.generate _ _
        (symbol_table_reachable.get _ _ symbol_table_reachable.fresh
          ⟨by decide, by decide⟩) ⟨by decide, by decide⟩) (by decide),
    rfl,
    (symbol_table_invariant _
      (symbol_table_reachable.add _ 1 _
        (symbol_table_reachable.generate _ _
          (symbol_table_reachable.get _ _ symbol_table_reachable.fresh
            ⟨by decide, by decide⟩) ⟨by decide, by decide⟩) (by decide))).1⟩

/-! ### A repetition whose upper bound is below its lower bound (C40) -/

theorem parse_repetition_counts_exact (m : Nat) (rest : List Nat) (is_nested : Bool)
    (hm : m < 2 ^ 31) :
    parse_repetition_counts (to_string m ++ 0x7D :: rest) is_nested =
      .ok ((m : Int), (m : Int), parse_space rest is_nested) := by
  obtain ⟨a1, a2, a3⟩ := parse_int_digits m 0x7D rest (by decide)
  have hsp3 : parse_space (0x7D :: rest) is_nested = 0x7D :: rest :=
    parse_space_not_blank _ _ _ (by decide) (by decide) (by decide) (by decide) (by decide)
  unfold parse_repetition_counts
  rw [a1]
  simp only [Bool.true_eq_false, if_false]
  rw [a2]
  simp only
  rw [a3, stoul_to_string m (by omega)]
  simp only
  rw [hsp3]
  have p2 : peek (0x7D :: rest) = 0x7D := rfl
  have d2 : List.drop 1 (0x7D :: rest) = rest := rfl
  rw [p2, d2, to_int_small m hm]
  simp only [if_true]

theorem handle_repetitions_no_tail (p : llama_grammar_parser_t) (rule_name : List Nat)
    (rule : llama_grammar_rule) (lss m n : Nat) (hlss : lss < rule.length) (hnm : n ≤ m) :
    handle_repetitions p rule_name rule lss (m : Int) (n : Int) =
      .ok (rule.take lss ++ (List.replicate m (rule.drop lss)).flatten, p) := by
  unfold handle_repetitions
  rw [if_neg (Nat.ne_of_lt hlss)]
  have hmax : ¬ ((n : Int) < 0) := by omega
  have hk : ((n : Int) - (m : Int)).toNat = 0 := by omega
  have hpos : ¬ ((n : Int) - (m : Int) > 0) := by omega
  simp only [hmax, if_false, hk, hpos, handle_repetitions_loop]
  rw [repeated_copies]

/-- C40 (as amended). A repetition whose upper bound is below its lower bound
is read as the repetition of the lower bound, for counts that fit the `int` the
code keeps them in. At an item `S` (the elements of the rule under construction
from `last_sym_start` on, at least one) followed by `{m,n}` with
`n < m < 2^31`, one iteration of `parse_sequence` goes on after the `}` with a
rule that holds exactly `m` copies of `S` in place of the item and nothing
after them, and with the parser object unchanged: no symbol and no rule is
created. It goes on exactly as it does at `{m}`. After an item that leaves no
element (`last_sym_start` is the length of the rule, as after the empty literal
`""` or the empty class `[]`) it throws `expecting preceding item`, as it does
at `{m}`. -/
theorem reversed_bounds_repeat_lower (fuel : Nat) (p : llama_grammar_parser_t)
    (rule_name rest : List Nat) (rule : llama_grammar_rule) (lss m n : Nat) (is_nested : Bool)
    (hlss : lss < rule.length) (hnm : n < m) (hm : m < 2 ^ 31) :
    parse_sequence (fuel + 1) (0x7B :: (to_string m ++ 0x2C :: (to_string n ++ 0x7D :: rest)))
        rule_name rule lss is_nested p =
      parse_sequence fuel (parse_space rest is_nested) rule_name
        (rule.take lss ++ (List.replicate m (rule.drop lss)).flatten) lss is_nested p ∧
    parse_sequence (fuel + 1) (0x7B :: (to_string m ++ 0x2C :: (to_string n ++ 0x7D :: rest)))
        rule_name rule lss is_nested p =
      parse_sequence (fuel + 1) (0x7B :: (to_string m ++ 0x7D :: rest))
        rule_name rule lss is_nested p ∧
    (∀ rule0 : llama_grammar_rule,
      parse_sequence (fuel + 1) (0x7B :: (to_string m ++ 0x2C :: (to_string n ++ 0x7D :: rest)))
          rule_name rule0 rule0.length is_nested p =
        .error (parse_fault.thrown parse_error.expecting_preceding_item, p) ∧
      parse_sequence (fuel + 1) (0x7B :: (to_string m ++ 0x7D :: rest))
          rule_name rule0 rule0.length is_nested p =
        .error (parse_fault.thrown parse_error.expecting_preceding_item, p)) := by
  have h1 : parse_sequence (fuel + 1)
      (0x7B :: (to_string m ++ 0x2C :: (to_string n ++ 0x7D :: rest)))
      rule_name rule lss is_nested p =
      parse_sequence fuel (parse_space rest is_nested) rule_name
        (rule.take lss ++ (List.replicate m (rule.drop lss)).flatten) lss is_nested p := by
    rw [parse_sequence_at_brace, parse_space_digits,
      parse_repetition_counts_range m n rest is_nested hm (by omega)]
    simp only
    rw [handle_repetitions_no_tail p rule_name rule lss m n hlss (by omega)]
  have h2 : parse_sequence (fuel + 1) (0x7B :: (to_string m ++ 0x7D :: rest))
      rule_name rule lss is_nested p =
      parse_sequence fuel (parse_space rest is_nested) rule_name
        (rule.take lss ++ (List.replicate m (rule.drop lss)).flatten) lss is_nested p := by
    rw [parse_sequence_at_brace, parse_space_digits,
      parse_repetition_counts_exact m rest is_nested hm]
    simp only
    rw [handle_repetitions_no_tail p rule_name rule lss m m hlss (Nat.le_refl _)]
  refine ⟨h1, h1.trans h2.symm, fun rule0 => ⟨?_, ?_⟩⟩
  · rw [parse_sequence_at_brace, parse_space_digits,
      parse_repetition_counts_range m n rest is_nested hm (by omega)]
    simp only
    rw [handle_repetitions_no_item]
  · rw [parse_sequence_at_brace, parse_space_digits,
      parse_repetition_counts_exact m rest is_nested hm]
    simp only
    rw [handle_repetitions_no_item]

/-- C40 (counterexample). The text `root ::= "a"{4294967296,4294967295}` has an
upper bound below its lower bound, yet the counts are read as the `int`s 0 and
-1: the rule `root` gets no copy of `"a"` and a `RULE_REF` to a fresh rule
`"a" <ref to itself> | (empty)`, the table of `root ::= "a"*`. And in
`root ::= "a"{4294967297,0}` the lower bound is read as 1: one copy of `"a"`. -/
theorem reversed_bounds_wrap :
    parse_repetition_counts (text_bytes "4294967296,4294967295\x7d") false =
        .ok (0, -1, []) ∧
      parse 77 llama_grammar_parser_t.fresh
          (text_bytes "root ::= \"a\"\x7b4294967296,4294967295\x7d") =
        .ok (true, ⟨[(text_bytes "root", 0), (text_bytes "root_1", 1)],
          [[⟨llama_gretype.RULE_REF, 1⟩, ⟨llama_gretype.END, 0⟩],
           [⟨llama_gretype.CHAR, 0x61⟩, ⟨llama_gretype.RULE_REF, 1⟩, ⟨llama_gretype.ALT, 0⟩,
            ⟨llama_gretype.END, 0⟩]]⟩) ∧
      parse 77 llama_grammar_parser_t.fresh
          (text_bytes "root ::= \"a\"\x7b4294967296,4294967295\x7d") =
        parse 77 llama_grammar_parser_t.fresh (text_bytes "root ::= \"a\"*") ∧
      parse 59 llama_grammar_parser_t.fresh (text_bytes "root ::= \"a\"\x7b4294967297,0\x7d") =
        .ok (true, ⟨[(text_bytes "root", 0)],
          [[⟨llama_gretype.CHAR, 0x61⟩, ⟨llama_gretype.END, 0⟩]]⟩) :=
  ⟨rfl, rfl, rfl, rfl⟩

theorem reversed_bounds_repeat_lower_witness :
    (0 < [(⟨llama_gretype.CHAR, 0x61⟩ : llama_grammar_element)].length ∧ 1 < 3 ∧ 3 < 2 ^ 31) ∧
    parse 39 llama_grammar_parser_t.fresh (text_bytes "root ::= \"a\"\x7b3,1\x7d") =
      .ok (true, ⟨[(text_bytes "root", 0)],
        [[⟨llama_gretype.CHAR, 0x61⟩, ⟨llama_gretype.CHAR, 0x61⟩, ⟨llama_gretype.CHAR, 0x61⟩,
          ⟨llama_gretype.END, 0⟩]]⟩) ∧
    parse 39 llama_grammar_parser_t.fresh (text_bytes "root ::= \"a\"\x7b3,1\x7d") =
      parse 39 llama_grammar_parser_t.fresh (text_bytes "root ::= \"a\"\x7b3\x7d") ∧
    (parse_sequence (5 + 1) (0x7B :: (to_string 3 ++ 0x2C :: (to_string 1 ++ 0x7D :: [])))
        (text_bytes "root") [⟨llama_gretype.CHAR, 0x61⟩] 0 false
        (get_symbol_id llama_grammar_parser_t.fresh (text_bytes "root")).2 =
      parse_sequence 5 (parse_space [] false) (text_bytes "root")
        (([⟨llama_gretype.CHAR, 0x61⟩] : llama_grammar_rule).take 0 ++
          (List.replicate 3 (([⟨llama_gretype.CHAR, 0x61⟩] : llama_grammar_rule).drop 0)).flatten)
        0 false (get_symbol_id llama_grammar_parser_t.fresh (text_bytes "root")).2 ∧
    parse_sequence (5 + 1) (0x7B :: (to_string 3 ++ 0x2C :: (to_string 1 ++ 0x7D :: [])))
        (text_bytes "root") [⟨llama_gretype.CHAR, 0x61⟩] 0 false
        (get_symbol_id llama_grammar_parser_t.fresh (text_bytes "root")).2 =
      parse_sequence (5 + 1) (0x7B :: (to_string 3 ++ 0x7D :: []))
        (text_bytes "root") [⟨llama_gretype.CHAR, 0x61⟩] 0 false
        (get_symbol_id llama_grammar_parser_t.fresh (text_bytes "root")).2 ∧
    (∀ rule0 : llama_grammar_rule,
      parse_sequence (5 + 1) (0x7B :: (to_string 3 ++ 0x2C :: (to_string 1 ++ 0x7D :: [])))
          (text_bytes "root") rule0 rule0.length false
          (get_symbol_id llama_grammar_parser_t.fresh (text_bytes "root")).2 =
        .error (parse_fault.thrown parse_error.expecting_preceding_item,
          (get_symbol_id llama_grammar_parser_t.fresh (text_bytes "root")).2) ∧
      parse_sequence (5 + 1) (0x7B :: (to_string 3 ++ 0x7D :: []))
          (text_bytes "root") rule0 rule0.length false
          (get_symbol_id llama_grammar_parser_t.fresh (text_bytes "root")).2 =
        .error (parse_fault.thrown parse_error.expecting_preceding_item,
          (get_symbol_id llama_grammar_parser_t.fresh (text_bytes "root")).2))) ∧
    parse 39 llama_grammar_parser_t.fresh (text_bytes "root ::= \"\"\x7b3,1\x7d") =
      .ok (false, ⟨[(text_bytes "root", 0)], []⟩) ∧
    parse 39 llama_grammar_parser_t.fresh (text_bytes "root ::= \"\"\x7b3\x7d") =
      .ok (false, ⟨[(text_bytes "root", 0)], []⟩) :=
  ⟨⟨by decide, by decide, by decide⟩, rfl, rfl,
    reversed_bounds_repeat_lower 5 (get_symbol_id llama_grammar_parser_t.fresh
      (text_bytes "root")).2 (text_bytes "root") [] [⟨llama_gretype.CHAR, 0x61⟩] 0 3 1 false
      (by decide) (by decide) (by decide),
    rfl, rfl⟩

/-! ### No contract violation on parser-produced grammars (C37) -/

theorem item_seq_append (a b : llama_grammar_rule) (ha : item_seq a) (hb : item_seq b) :
    item_seq (a ++ b) := by
  induction ha with
  | nil => exact hb
  | ref value l _ ih => exact item_seq.ref value _ ih
  | cls c l _ ih =>
    rw [List.append_assoc]
    exact item_seq.cls c _ ih

theorem alt_seq_append_items (a b : llama_grammar_rule) (ha : alt_seq a) (hb : item_seq b) :
    alt_seq (a ++ b) := by
  induction ha with
  | one l hl => exact alt_seq.one _ (item_seq_append l b hl hb)
  | more l1 l2 hl1 _ ih =>
    rw [List.append_assoc, List.cons_append]
    exact alt_seq.more l1 _ hl1 ih

theorem alt_seq_snoc_alt (a : llama_grammar_rule) (ha : alt_seq a) :
    alt_seq (a ++ [⟨llama_gretype.ALT, 0⟩]) := by
  induction ha with
  | one l hl => exact alt_seq.more l [] hl (alt_seq.one [] item_seq.nil)
  | more l1 l2 hl1 _ ih =>
    rw [List.append_assoc, List.cons_append]
    exact alt_seq.more l1 _ hl1 ih

theorem item_seq_single_ref (value : Nat) : item_seq [⟨llama_gretype.RULE_REF, value⟩] :=
  item_seq.ref value [] item_seq.nil

theorem item_seq_single_cls (c : char_class) : item_seq c.encode := by
  have := item_seq.cls c [] item_seq.nil
  rwa [List.append_nil] at this

theorem item_seq_replicate (l : llama_grammar_rule) (hl : item_seq l) :
    ∀ n : Nat, item_seq (List.replicate n l).flatten := by
  intro n
  induction n with
  | zero => exact item_seq.nil
  | succ n ih =>
    rw [List.replicate_succ, List.flatten_cons]
    exact item_seq_append _ _ hl ih

theorem open_rule_alt_seq (rule : llama_grammar_rule) (lss : Nat) (h : open_rule_ok rule lss) :
    alt_seq rule := by
  obtain ⟨a, b, hrule, _, ha, hb⟩ := h
  rw [hrule]
  exact alt_seq_append_items a b ha hb

theorem open_rule_at_end (rule : llama_grammar_rule) (h : alt_seq rule) :
    open_rule_ok rule rule.length :=
  ⟨rule, [], by rw [List.append_nil], rfl, h, item_seq.nil⟩

/-- An item appended to the rule under construction; the new symbol starts at
the old end. -/
theorem open_rule_push (rule part : llama_grammar_rule) (lss : Nat)
    (h : open_rule_ok rule lss) (hpart : item_seq part) :
    open_rule_ok (rule ++ part) rule.length :=
  ⟨rule, part, rfl, rfl, open_rule_alt_seq rule lss h, hpart⟩

theorem add_rule_table_ok (p : llama_grammar_parser_t) (id : Nat) (rule : llama_grammar_rule)
    (h : table_ok p.rules) (hrule : rule_ok rule) : table_ok (add_rule p id rule).rules := by
  intro r hr
  unfold add_rule at hr
  simp only at hr
  rcases List.mem_or_eq_of_mem_set hr with hr | hr
  · by_cases hle : p.rules.length ≤ id
    · simp only [hle, if_true, List.mem_append] at hr
      rcases hr with hr | hr
      · exact h r hr
      · rw [List.eq_of_mem_replicate hr]
        exact Or.inl rfl
    · simp only [hle, if_false] at hr
      exact h r hr
  · rw [hr]
    exact hrule

theorem get_symbol_id_rules (p : llama_grammar_parser_t) (name : List Nat) :
    (get_symbol_id p name).2.rules = p.rules := by
  unfold get_symbol_id
  cases p.symbol_ids.lookup name <;> rfl

theorem handle_repetitions_loop_table (rule_name : List Nat) (prev_rule : llama_grammar_rule)
    (max_times : Int) (hprev : item_seq prev_rule) :
    ∀ (k i : Nat) (p : llama_grammar_parser_t) (last : Nat), table_ok p.rules →
      table_ok (handle_repetitions_loop rule_name prev_rule max_times k i p last).1.rules := by
  intro k
  induction k with
  | zero => intro i p last h; exact h
  | succ k ih =>
    intro i p last h
    unfold handle_repetitions_loop
    simp only
    apply ih
    apply add_rule_table_ok
    · exact h
    · right
      refine ⟨(prev_rule ++
        (if i > 0 ∨ max_times < 0 then
          [⟨llama_gretype.RULE_REF,
            if max_times < 0 then (generate_symbol_id p rule_name).1 else last⟩]
        else [])) ++ [⟨llama_gretype.ALT, 0⟩], ?_, by simp⟩
      apply alt_seq_snoc_alt
      apply alt_seq.one
      apply item_seq_append _ _ hprev
      split
      · exact item_seq_single_ref _
      · exact item_seq.nil

theorem handle_repetitions_items (p : llama_grammar_parser_t) (rule_name : List Nat)
    (rule : llama_grammar_rule) (lss : Nat) (min_times max_times : Int)
    (hp : table_ok p.rules) (hr : open_rule_ok rule lss)
    (rule1 : llama_grammar_rule) (p1 : llama_grammar_parser_t)
    (h : handle_repetitions p rule_name rule lss min_times max_times = .ok (rule1, p1)) :
    table_ok p1.rules ∧ open_rule_ok rule1 lss := by
  obtain ⟨a, b, hrule, hlen, ha, hb⟩ := hr
  have htake : rule.take lss = a := by rw [hrule, ← hlen, List.take_left']; rfl
  have hdrop : rule.drop lss = b := by rw [hrule, ← hlen, List.drop_left']; rfl
  unfold handle_repetitions at h
  split at h
  · cases h
  · simp only [Except.ok.injEq, Prod.mk.injEq] at h
    obtain ⟨h1, h2⟩ := h
    rw [hdrop] at h1 h2
    rw [htake] at h1
    generalize (if max_times < 0 then (1 : Int) else max_times - min_times) = n_opt at h1 h2
    constructor
    · rw [← h2]
      exact handle_repetitions_loop_table rule_name b max_times hb _ 0 p 0 hp
    · have hcore : ∃ b1, item_seq b1 ∧
          (if min_times = 0 then a
            else rule ++ (List.replicate (min_times - 1).toNat b).flatten) = a ++ b1 := by
        split
        · exact ⟨[], item_seq.nil, by rw [List.append_nil]⟩
        · exact ⟨b ++ (List.replicate (min_times - 1).toNat b).flatten,
            item_seq_append _ _ hb (item_seq_replicate b hb _), by
              rw [hrule, List.append_assoc]⟩
      obtain ⟨b1, hb1, hcore⟩ := hcore
      rw [hcore] at h1
      by_cases hpos : n_opt > 0
      · rw [if_pos hpos] at h1
        rw [← h1]
        exact ⟨a, b1 ++ [_], by rw [List.append_assoc], hlen, ha,
          item_seq_append _ _ hb1 (item_seq_single_ref _)⟩
      · rw [if_neg hpos] at h1
        rw [← h1]
        exact ⟨a, b1, rfl, hlen, ha, hb1⟩

theorem parse_literal_items :
    ∀ (fuel : Nat) (pos : List Nat) (rule : llama_grammar_rule) (pos1 : List Nat)
      (rule1 : llama_grammar_rule),
      parse_literal fuel pos rule = .ok (pos1, rule1) →
      ∃ part, rule1 = rule ++ part ∧ item_seq part := by
  intro fuel
  induction fuel with
  | zero => intro pos rule pos1 rule1 h; simp [parse_literal] at h
  | succ fuel ih =>
    intro pos rule pos1 rule1 h
    rw [parse_literal] at h
    by_cases h1 : peek pos = 0x22
    · simp only [h1, if_true, Except.ok.injEq, Prod.mk.injEq] at h
      exact ⟨[], by rw [List.append_nil]; exact h.2.symm, item_seq.nil⟩
    · simp only [h1, if_false] at h
      by_cases h2 : peek pos = 0
      · simp only [h2, if_true] at h
        cases h
      · simp only [h2, if_false] at h
        cases hc : parse_char pos with
        | error e => rw [hc] at h; cases h
        | ok char_pair =>
          rw [hc] at h
          simp only at h
          obtain ⟨part, hpart, hitems⟩ := ih _ _ _ _ h
          refine ⟨[⟨llama_gretype.CHAR, char_pair.1⟩] ++ part, ?_, ?_⟩
          · rw [hpart, List.append_assoc]
          · exact item_seq.cls (char_class.positive (class_item.single char_pair.1) []) part
              hitems

theorem encode_alts_append (xs ys : List class_item) :
    encode_alts (xs ++ ys) = encode_alts xs ++ encode_alts ys := by
  induction xs with
  | nil => rfl
  | cons x xs ih =>
    show class_item.encode llama_gretype.CHAR_ALT x ++ encode_alts (xs ++ ys) =
      class_item.encode llama_gretype.CHAR_ALT x ++ encode_alts xs ++ encode_alts ys
    rw [ih, List.append_assoc]

theorem class_part_extend (start_type : llama_gretype) (part : llama_grammar_rule)
    (item : class_item) (h : class_part start_type part) :
    class_part start_type
      (part ++ class_item.encode (if part = [] then start_type else llama_gretype.CHAR_ALT)
        item) := by
  rcases h with h | ⟨first, others, h⟩
  · subst h
    right
    exact ⟨item, [], by simp [encode_alts]⟩
  · right
    refine ⟨first, others ++ [item], ?_⟩
    have hne : part ≠ [] := by
      rw [h]
      cases first <;> simp [class_item.encode]
    rw [if_neg hne, h, encode_alts_append, List.append_assoc]
    simp [encode_alts]

theorem parse_char_ranges_items (start_type : llama_gretype) (rule0 : llama_grammar_rule) :
    ∀ (fuel : Nat) (pos : List Nat) (part : llama_grammar_rule) (pos1 : List Nat)
      (rule1 : llama_grammar_rule), class_part start_type part →
      parse_char_ranges rule0.length start_type fuel pos (rule0 ++ part) = .ok (pos1, rule1) →
      ∃ part1, rule1 = rule0 ++ part1 ∧ class_part start_type part1 := by
  intro fuel
  induction fuel with
  | zero => intro pos part pos1 rule1 _ h; simp [parse_char_ranges] at h
  | succ fuel ih =>
    intro pos part pos1 rule1 hpart h
    rw [parse_char_ranges] at h
    by_cases h1 : peek pos = 0x5D
    · simp only [h1, if_true, Except.ok.injEq, Prod.mk.injEq] at h
      exact ⟨part, h.2.symm, hpart⟩
    · simp only [h1, if_false] at h
      by_cases h2 : peek pos = 0
      · simp only [h2, if_true] at h
        cases h
      · simp only [h2, if_false] at h
        cases hc : parse_char pos with
        | error e => rw [hc] at h; cases h
        | ok char_pair =>
          rw [hc] at h
          simp only at h
          have hty : (if rule0.length < (rule0 ++ part).length then llama_gretype.CHAR_ALT
              else start_type) = (if part = [] then start_type else llama_gretype.CHAR_ALT) := by
            by_cases hp : part = []
            · subst hp
              simp
            · have : 0 < part.length := List.length_pos.mpr hp
              have hlt : rule0.length < (rule0 ++ part).length := by
                rw [List.length_append]; omega
              rw [if_pos hlt, if_neg hp]
          rw [hty] at h
          by_cases h3 : peek_at char_pair.2 0 = 0x2D ∧ peek_at char_pair.2 1 ≠ 0x5D
          · rw [if_pos h3] at h
            by_cases h4 : peek_at char_pair.2 1 = 0
            · rw [if_pos h4] at h
              cases h
            · rw [if_neg h4] at h
              cases he : parse_char (char_pair.2.drop 1) with
              | error e => rw [he] at h; cases h
              | ok endchar_pair =>
                rw [he] at h
                simp only at h
                have hext := class_part_extend start_type part
                  (class_item.range char_pair.1 endchar_pair.1) hpart
                have e : rule0 ++ part ++
                    [⟨if part = [] then start_type else llama_gretype.CHAR_ALT, char_pair.1⟩] ++
                    [⟨llama_gretype.CHAR_RNG_UPPER, endchar_pair.1⟩] =
                    rule0 ++ (part ++ class_item.encode
                      (if part = [] then start_type else llama_gretype.CHAR_ALT)
                      (class_item.range char_pair.1 endchar_pair.1)) := by
                  simp [class_item.encode]
                rw [e] at h
                exact ih _ _ _ _ hext h
          · rw [if_neg h3] at h
            have hext := class_part_extend start_type part (class_item.single char_pair.1) hpart
            have e : rule0 ++ part ++
                [⟨if part = [] then start_type else llama_gretype.CHAR_ALT, char_pair.1⟩] =
                rule0 ++ (part ++ class_item.encode
                  (if part = [] then start_type else llama_gretype.CHAR_ALT)
                  (class_item.single char_pair.1)) := by
              simp [class_item.encode]
            rw [e] at h
            exact ih _ _ _ _ hext h

theorem class_part_items (start_type : llama_gretype) (part : llama_grammar_rule)
    (hst : start_type = llama_gretype.CHAR ∨ start_type = llama_gretype.CHAR_NOT)
    (h : class_part start_type part) : item_seq part := by
  rcases h with h | ⟨first, others, h⟩
  · rw [h]; exact item_seq.nil
  · rw [h]
    rcases hst with hst | hst <;> subst hst
    · exact item_seq_single_cls (char_class.positive first others)
    · exact item_seq_single_cls (char_class.negated first others)

theorem parse_sequence_items (fuel : Nat) (rule_name : List Nat) (is_nested : Bool)
    (ihs : ∀ (pos : List Nat) (rule : llama_grammar_rule) (lss : Nat)
      (p : llama_grammar_parser_t) (pos1 : List Nat) (rule1 : llama_grammar_rule)
      (p1 : llama_grammar_parser_t), table_ok p.rules → open_rule_ok rule lss →
      parse_sequence fuel pos rule_name rule lss is_nested p = .ok (pos1, rule1, p1) →
      table_ok p1.rules ∧ alt_seq rule1)
    (iha : ∀ (pos : List Nat) (rule_id : Nat) (p : llama_grammar_parser_t) (pos1 : List Nat)
      (p1 : llama_grammar_parser_t), table_ok p.rules →
      parse_alternates fuel pos rule_name rule_id true p = .ok (pos1, p1) → table_ok p1.rules)
    (pos : List Nat) (rule : llama_grammar_rule) (lss : Nat) (p : llama_grammar_parser_t)
    (pos1 : List Nat) (rule1 : llama_grammar_rule) (p1 : llama_grammar_parser_t)
    (hp : table_ok p.rules) (hr : open_rule_ok rule lss)
    (h : parse_sequence (fuel + 1) pos rule_name rule lss is_nested p = .ok (pos1, rule1, p1)) :
    table_ok p1.rules ∧ alt_seq rule1 := by
  have hstop : (Except.ok (pos, rule, p) : Parse _) = .ok (pos1, rule1, p1) →
      table_ok p1.rules ∧ alt_seq rule1 := by
    intro h0
    simp only [Except.ok.injEq, Prod.mk.injEq] at h0
    obtain ⟨_, h1, h2⟩ := h0
    rw [← h1, ← h2]
    exact ⟨hp, open_rule_alt_seq rule lss hr⟩
  rw [parse_sequence] at h
  simp only at h
  by_cases c0 : peek pos = 0
  · simp only [c0, if_true] at h
    exact hstop h
  simp only [c0, if_false] at h
  by_cases c1 : peek pos = 0x22
  · simp only [c1, if_true] at h
    cases hl : parse_literal fuel (pos.drop 1) rule with
    | error e => rw [hl] at h; cases h
    | ok r =>
      obtain ⟨pos2, rule2⟩ := r
      rw [hl] at h
      simp only at h
      obtain ⟨part, hpart, hitems⟩ := parse_literal_items fuel _ _ _ _ hl
      rw [hpart] at h
      exact ihs _ _ _ _ _ _ _ hp (open_rule_push rule part lss hr hitems) h
  simp only [c1, if_false] at h
  by_cases c2 : peek pos = 0x5B
  · simp only [c2, if_true] at h
    cases hl : parse_char_ranges rule.length
        (if decide (peek (pos.drop 1) = 0x5E) = true then llama_gretype.CHAR_NOT
          else llama_gretype.CHAR) fuel
        (if decide (peek (pos.drop 1) = 0x5E) = true then pos.drop 2 else pos.drop 1)
        rule with
    | error e => rw [hl] at h; cases h
    | ok r =>
      obtain ⟨pos2, rule2⟩ := r
      rw [hl] at h
      simp only at h
      have hl2 : parse_char_ranges rule.length
          (if decide (peek (pos.drop 1) = 0x5E) = true then llama_gretype.CHAR_NOT
            else llama_gretype.CHAR) fuel
          (if decide (peek (pos.drop 1) = 0x5E) = true then pos.drop 2 else pos.drop 1)
          (rule ++ []) = .ok (pos2, rule2) := by
        rw [List.append_nil]; exact hl
      obtain ⟨part, hpart, hcls⟩ := parse_char_ranges_items _ rule fuel _ [] _ _
        (Or.inl rfl) hl2
      have hitems : item_seq part := by
        refine class_part_items _ part ?_ hcls
        split
        · exact Or.inr rfl
        · exact Or.inl rfl
      rw [hpart] at h
      exact ihs _ _ _ _ _ _ _ hp (open_rule_push rule part lss hr hitems) h
  simp only [c2, if_false] at h
  by_cases c3 : is_word_char (peek pos) = true
  · simp only [c3, if_true] at h
    cases hn : parse_name pos with
    | error e => rw [hn] at h; cases h
    | ok name_end =>
      rw [hn] at h
      simp only at h
      refine ihs _ _ _ _ _ _ _ ?_ (open_rule_push rule _ lss hr (item_seq_single_ref _)) h
      rw [get_symbol_id_rules]
      exact hp
  simp only [c3, if_false] at h
  by_cases c4 : peek pos = 0x28
  · simp only [c4, if_true] at h
    cases ha : parse_alternates fuel (parse_space (pos.drop 1) true) rule_name
        (generate_symbol_id p rule_name).1 true (generate_symbol_id p rule_name).2 with
    | error e => rw [ha] at h; cases h
    | ok r =>
      obtain ⟨pos2, p2⟩ := r
      rw [ha] at h
      simp only at h
      have hp2 : table_ok p2.rules := iha _ _ (generate_symbol_id p rule_name).2 _ _ hp ha
      by_cases c5 : peek pos2 = 0x29
      · simp only [c5, ne_eq, not_true_eq_false, if_false] at h
        exact ihs _ _ _ _ _ _ _ hp2 (open_rule_push rule _ lss hr (item_seq_single_ref _)) h
      · simp only [c5, ne_eq, not_false_eq_true, if_true] at h
        cases h
  simp only [c4, if_false] at h
  by_cases c6 : peek pos = 0x2E
  · simp only [c6, if_true] at h
    exact ihs _ _ _ _ _ _ _ hp
      (open_rule_push rule _ lss hr (item_seq_single_cls (char_class.any 0))) h
  simp only [c6, if_false] at h
  have hrep : ∀ (min_times max_times : Int) (pos2 : List Nat),
      (match handle_repetitions p rule_name rule lss min_times max_times with
        | .error e => (.error (parse_fault.thrown e, p) : Parse _)
        | .ok (rule2, p2) => parse_sequence fuel pos2 rule_name rule2 lss is_nested p2) =
        .ok (pos1, rule1, p1) → table_ok p1.rules ∧ alt_seq rule1 := by
    intro min_times max_times pos2 h0
    cases hh : handle_repetitions p rule_name rule lss min_times max_times with
    | error e => rw [hh] at h0; cases h0
    | ok r =>
      obtain ⟨rule2, p2⟩ := r
      rw [hh] at h0
      simp only at h0
      obtain ⟨hp2, hr2⟩ := handle_repetitions_items p rule_name rule lss min_times max_times
        hp hr rule2 p2 hh
      exact ihs _ _ _ _ _ _ _ hp2 hr2 h0
  by_cases c7 : peek pos = 0x2A
  · simp only [c7, if_true] at h
    exact hrep 0 (-1) _ h
  simp only [c7, if_false] at h
  by_cases c8 : peek pos = 0x2B
  · simp only [c8, if_true] at h
    exact hrep 1 (-1) _ h
  simp only [c8, if_false] at h
  by_cases c9 : peek pos = 0x3F
  · simp only [c9, if_true] at h
    exact hrep 0 1 _ h
  simp only [c9, if_false] at h
  by_cases c10 : peek pos = 0x7B
  · simp only [c10, if_true] at h
    cases hc : parse_repetition_counts (parse_space (pos.drop 1) is_nested) is_nested with
    | error e => rw [hc] at h; cases h
    | ok r =>
      obtain ⟨min_times, max_times, pos2⟩ := r
      rw [hc] at h
      simp only at h
      exact hrep min_times max_times pos2 h
  simp only [c10, if_false] at h
  exact hstop h

/-- The rules `parse_sequence`, `parse_alternates` and the loop of
`parse_alternates` store have the shape `rule_ok`, whatever the budget. -/
theorem parse_family_items :
    ∀ (fuel : Nat),
      (∀ (rule_name : List Nat) (is_nested : Bool) (pos : List Nat) (rule : llama_grammar_rule)
          (lss : Nat) (p : llama_grammar_parser_t) (pos1 : List Nat)
          (rule1 : llama_grammar_rule) (p1 : llama_grammar_parser_t),
          table_ok p.rules → open_rule_ok rule lss →
          parse_sequence fuel pos rule_name rule lss is_nested p = .ok (pos1, rule1, p1) →
          table_ok p1.rules ∧ alt_seq rule1) ∧
      (∀ (rule_name : List Nat) (is_nested : Bool) (pos : List Nat) (rule_id : Nat)
          (p : llama_grammar_parser_t) (pos1 : List Nat) (p1 : llama_grammar_parser_t),
          table_ok p.rules →
          parse_alternates fuel pos rule_name rule_id is_nested p = .ok (pos1, p1) →
          table_ok p1.rules) ∧
      (∀ (rule_name : List Nat) (is_nested : Bool) (pos : List Nat) (rule_id : Nat)
          (rule : llama_grammar_rule) (p : llama_grammar_parser_t) (pos1 : List Nat)
          (p1 : llama_grammar_parser_t), table_ok p.rules → alt_seq rule →
          parse_alternates_loop fuel pos rule_name rule_id rule is_nested p = .ok (pos1, p1) →
          table_ok p1.rules) := by
  intro fuel
  induction fuel with
  | zero =>
    refine ⟨?_, ?_, ?_⟩
    · intro _ _ _ _ _ _ _ _ _ _ _ h
      simp [parse_sequence] at h
    · intro _ _ _ _ _ _ _ _ h
      simp [parse_alternates] at h
    · intro _ _ _ _ _ _ _ _ _ _ h
      simp [parse_alternates_loop] at h
  | succ fuel ih =>
    obtain ⟨ihs, iha, ihl⟩ := ih
    refine ⟨?_, ?_, ?_⟩
    · intro rule_name is_nested pos rule lss p pos1 rule1 p1 hp hr h
      exact parse_sequence_items fuel rule_name is_nested (ihs rule_name is_nested)
        (iha rule_name true) pos rule lss p pos1 rule1 p1 hp hr h
    · intro rule_name is_nested pos rule_id p pos1 p1 hp h
      rw [parse_alternates] at h
      cases hs : parse_sequence fuel pos rule_name [] 0 is_nested p with
      | error e => rw [hs] at h; cases h
      | ok r =>
        obtain ⟨pos2, rule2, p2⟩ := r
        rw [hs] at h
        simp only at h
        obtain ⟨hp2, hr2⟩ := ihs rule_name is_nested pos [] 0 p pos2 rule2 p2 hp
          (open_rule_at_end [] (alt_seq.one [] item_seq.nil)) hs
        exact ihl rule_name is_nested pos2 rule_id rule2 p2 pos1 p1 hp2 hr2 h
    · intro rule_name is_nested pos rule_id rule p pos1 p1 hp hr h
      rw [parse_alternates_loop] at h
      by_cases c : peek pos = 0x7C
      · simp only [c, if_true] at h
        cases hs : parse_sequence fuel (parse_space (pos.drop 1) true) rule_name
            (rule ++ [⟨llama_gretype.ALT, 0⟩])
            (rule ++ [(⟨llama_gretype.ALT, 0⟩ : llama_grammar_element)]).length is_nested p with
        | error e => rw [hs] at h; cases h
        | ok r =>
          obtain ⟨pos2, rule2, p2⟩ := r
          rw [hs] at h
          simp only at h
          obtain ⟨hp2, hr2⟩ := ihs rule_name is_nested _ _ _ p pos2 rule2 p2 hp
            (open_rule_at_end _ (alt_seq_snoc_alt rule hr)) hs
          exact ihl rule_name is_nested pos2 rule_id rule2 p2 pos1 p1 hp2 hr2 h
      · simp only [c, if_false, Except.ok.injEq, Prod.mk.injEq] at h
        rw [← h.2]
        exact add_rule_table_ok p rule_id _ hp (Or.inr ⟨rule, hr, rfl⟩)

theorem parse_rules_loop_items :
    ∀ (fuel : Nat) (pos : List Nat) (p p1 : llama_grammar_parser_t), table_ok p.rules →
      parse_rules_loop fuel pos p = .ok p1 → table_ok p1.rules := by
  intro fuel
  induction fuel with
  | zero => intro pos p p1 _ h; simp [parse_rules_loop] at h
  | succ fuel ih =>
    intro pos p p1 hp h
    rw [parse_rules_loop] at h
    by_cases c : peek pos = 0
    · simp only [c, if_true, Except.ok.injEq] at h
      rw [← h]
      exact hp
    · simp only [c, if_false] at h
      cases hr : parse_rule fuel pos p with
      | error e => rw [hr] at h; cases h
      | ok r =>
        obtain ⟨pos2, p2⟩ := r
        rw [hr] at h
        simp only at h
        refine ih pos2 p2 p1 ?_ h
        unfold parse_rule at hr
        cases hn : parse_name pos with
        | error e => rw [hn] at hr; cases hr
        | ok name_end =>
          rw [hn] at hr
          simp only at hr
          split at hr
          · cases hr
          · cases ha : parse_alternates fuel
                (parse_space ((parse_space name_end false).drop 3) true)
                (text_between pos name_end)
                (get_symbol_id p (text_between pos name_end)).1 false
                (get_symbol_id p (text_between pos name_end)).2 with
            | error e => rw [ha] at hr; cases hr
            | ok r2 =>
              obtain ⟨pos3, p3⟩ := r2
              rw [ha] at hr
              simp only at hr
              have hp3 : table_ok p3.rules :=
                (parse_family_items fuel).2.1 _ _ _ _ _ _ _
                  (by rw [get_symbol_id_rules]; exact hp) ha
              split at hr
              · simp only [Except.ok.injEq, Prod.mk.injEq] at hr
                rw [← hr.2]; exact hp3
              · split at hr
                · simp only [Except.ok.injEq, Prod.mk.injEq] at hr
                  rw [← hr.2]; exact hp3
                · split at hr
                  · cases hr
                  · simp only [Except.ok.injEq, Prod.mk.injEq] at hr
                    rw [← hr.2]; exact hp3

theorem class_item_encode_types (type : llama_gretype) (item : class_item) :
    ∀ e ∈ item.encode type, e.type = type ∨ e.type = llama_gretype.CHAR_RNG_UPPER := by
  intro e he
  cases item with
  | single c =>
    simp only [class_item.encode, List.mem_singleton] at he
    subst he
    exact Or.inl rfl
  | range lo hi =>
    simp only [class_item.encode, List.mem_cons, List.mem_singleton, List.not_mem_nil,
      or_false] at he
    rcases he with he | he <;> subst he
    · exact Or.inl rfl
    · exact Or.inr rfl

theorem encode_alts_types :
    ∀ (items : List class_item), ∀ e ∈ encode_alts items,
      e.type = llama_gretype.CHAR_ALT ∨ e.type = llama_gretype.CHAR_RNG_UPPER := by
  intro items
  induction items with
  | nil => intro e he; cases he
  | cons item items ih =>
    intro e he
    simp only [encode_alts, List.mem_append] at he
    rcases he with he | he
    · exact class_item_encode_types _ item e he
    · exact ih e he

theorem class_encode_not_end (c : char_class) :
    ∀ e ∈ c.encode, llama_grammar_is_end_of_sequence e = false := by
  intro e he
  have hty : e.type = llama_gretype.CHAR ∨ e.type = llama_gretype.CHAR_NOT ∨
      e.type = llama_gretype.CHAR_ANY ∨ e.type = llama_gretype.CHAR_ALT ∨
      e.type = llama_gretype.CHAR_RNG_UPPER := by
    cases c with
    | positive first others =>
      simp only [char_class.encode, List.mem_append] at he
      rcases he with he | he
      · rcases class_item_encode_types _ first e he with h | h
        · exact Or.inl h
        · exact Or.inr (Or.inr (Or.inr (Or.inr h)))
      · rcases encode_alts_types others e he with h | h
        · exact Or.inr (Or.inr (Or.inr (Or.inl h)))
        · exact Or.inr (Or.inr (Or.inr (Or.inr h)))
    | negated first others =>
      simp only [char_class.encode, List.mem_append] at he
      rcases he with he | he
      · rcases class_item_encode_types _ first e he with h | h
        · exact Or.inr (Or.inl h)
        · exact Or.inr (Or.inr (Or.inr (Or.inr h)))
      · rcases encode_alts_types others e he with h | h
        · exact Or.inr (Or.inr (Or.inr (Or.inl h)))
        · exact Or.inr (Or.inr (Or.inr (Or.inr h)))
    | any value =>
      simp only [char_class.encode, List.mem_singleton] at he
      subst he
      exact Or.inr (Or.inr (Or.inl rfl))
  unfold llama_grammar_is_end_of_sequence
  rcases hty with h | h | h | h | h <;> rw [h]

theorem item_seq_not_end (l : llama_grammar_rule) (h : item_seq l) :
    ∀ e ∈ l, llama_grammar_is_end_of_sequence e = false := by
  induction h with
  | nil => intro e he; cases he
  | ref value l _ ih =>
    intro e he
    rcases List.mem_cons.mp he with h0 | h0
    · subst h0; rfl
    · exact ih e h0
  | cls c l _ ih =>
    intro e he
    rcases List.mem_append.mp he with h0 | h0
    · exact class_encode_not_end c e h0
    · exact ih e h0

theorem alt_seq_no_end (l : llama_grammar_rule) (h : alt_seq l) :
    ∀ e ∈ l, e.type ≠ llama_gretype.END := by
  induction h with
  | one l hl =>
    intro e he hty
    have := item_seq_not_end l hl e he
    unfold llama_grammar_is_end_of_sequence at this
    rw [hty] at this
    cases this
  | more l1 l2 hl1 _ ih =>
    intro e he hty
    rcases List.mem_append.mp he with h0 | h0
    · have := item_seq_not_end l1 hl1 e h0
      unfold llama_grammar_is_end_of_sequence at this
      rw [hty] at this
      cases this
    · rcases List.mem_cons.mp h0 with h1 | h1
      · subst h1; cases hty
      · exact ih e h1 hty

theorem copy_rule_of_rule_ok (rule : llama_grammar_rule) (h : rule_ok rule) (hne : rule ≠ []) :
    copy_rule rule = rule := by
  rcases h with h | ⟨body, hbody, hrule⟩
  · exact absurd h hne
  · rw [hrule]
    unfold copy_rule
    have : (body ++ [(⟨llama_gretype.END, 0⟩ : llama_grammar_element)]).takeWhile
        (fun e => decide (e.type ≠ llama_gretype.END)) = body := by
      rw [List.takeWhile_append_of_pos]
      · simp
      · intro e he
        have := alt_seq_no_end body hbody e he
        simpa using this
    rw [this]

/-- The element that follows a sequence of items closed by `ALT` or `END`
continues no character class. -/
theorem item_seq_head (l post : llama_grammar_rule) (h : item_seq l)
    (hpost : llama_grammar_is_end_of_sequence (rule_at post 0) = true) :
    (rule_at (l ++ post) 0).type ≠ llama_gretype.CHAR_ALT ∧
      (rule_at (l ++ post) 0).type ≠ llama_gretype.CHAR_RNG_UPPER := by
  cases h with
  | nil =>
    rw [List.nil_append]
    unfold llama_grammar_is_end_of_sequence at hpost
    constructor <;> intro hty <;> rw [hty] at hpost <;> cases hpost
  | ref value l1 _ =>
    constructor <;> intro hty <;> simp [rule_at] at hty
  | cls c l1 _ =>
    rw [List.append_assoc]
    cases c with
    | positive first others =>
      simp only [char_class.encode, List.append_assoc]
      rw [class_item_encode_head]
      constructor <;> intro hty <;> cases hty
    | negated first others =>
      simp only [char_class.encode, List.append_assoc]
      rw [class_item_encode_head]
      constructor <;> intro hty <;> cases hty
    | any value =>
      constructor <;> intro hty <;> simp [char_class.encode, rule_at] at hty

theorem item_seq_wf (rules : llama_grammar_rules) (r : Nat) (l : llama_grammar_rule)
    (h : item_seq l) :
    ∀ (pre post : llama_grammar_rule), rules.getD r [] = pre ++ l ++ post →
      llama_grammar_is_end_of_sequence (rule_at post 0) = true →
      seq_wf rules ⟨r, pre.length⟩ := by
  induction h with
  | nil =>
    intro pre post hrule hpost
    apply seq_wf.done
    unfold rules_at
    simp only
    rw [hrule, List.append_nil, rule_at_append_zero]
    exact hpost
  | ref value l1 _ ih =>
    intro pre post hrule hpost
    have hat : rules_at rules ⟨r, pre.length⟩ = ⟨llama_gretype.RULE_REF, value⟩ := by
      unfold rules_at
      simp only
      rw [hrule, List.append_assoc, rule_at_append_zero]
      rfl
    refine seq_wf.ref _ (by rw [hat]) ?_
    have := ih (pre ++ [⟨llama_gretype.RULE_REF, value⟩]) post
      (by rw [hrule]; simp) hpost
    simpa [elem_ptr.add] using this
  | cls c l1 hl1 ih =>
    intro pre post hrule hpost
    have hcls : class_at rules ⟨r, pre.length⟩ c := by
      refine ⟨pre, l1 ++ post, ?_, rfl, ?_⟩
      · show rules.getD r [] = pre ++ c.encode ++ (l1 ++ post)
        rw [hrule]; simp
      · exact item_seq_head l1 post hl1 hpost
    refine seq_wf.char _ c hcls ?_
    have := ih (pre ++ c.encode) post (by rw [hrule]; simp) hpost
    simpa [elem_ptr.add] using this

theorem scan_alternates_items (l : llama_grammar_rule) (h : ∀ e ∈ l,
    llama_grammar_is_end_of_sequence e = false) :
    ∀ (rest : llama_grammar_rule) (i : Nat),
      scan_alternates (l ++ rest) i = scan_alternates rest (i + l.length) := by
  induction l with
  | nil => intro rest i; rfl
  | cons e es ih =>
    intro rest i
    have he := h e (List.mem_cons_self _ _)
    have hes := ih (fun x hx => h x (List.mem_cons_of_mem _ hx)) rest (i + 1)
    rw [List.cons_append, List.length_cons]
    have e1 : i + (es.length + 1) = i + 1 + es.length := by omega
    rw [e1, ← hes]
    unfold llama_grammar_is_end_of_sequence at he
    revert he
    cases hty : e.type <;> intro he <;>
      first | (rw [scan_alternates]; simp only [hty]; done) | cases he

theorem alt_seq_wf (rules : llama_grammar_rules) (r : Nat) (body : llama_grammar_rule)
    (h : alt_seq body) :
    ∀ (pre : llama_grammar_rule),
      rules.getD r [] = pre ++ body ++ [⟨llama_gretype.END, 0⟩] →
      seq_wf rules ⟨r, pre.length⟩ ∧
        ∀ sub ∈ scan_alternates (body ++ [⟨llama_gretype.END, 0⟩]) pre.length,
          seq_wf rules ⟨r, sub⟩ := by
  induction h with
  | one l hl =>
    intro pre hrule
    refine ⟨item_seq_wf rules r l hl pre _ hrule rfl, ?_⟩
    intro sub hsub
    rw [scan_alternates_items l (item_seq_not_end l hl)] at hsub
    simp [scan_alternates] at hsub
  | more l1 l2 hl1 _ ih =>
    intro pre hrule
    have hrule1 : rules.getD r [] = pre ++ l1 ++
        (⟨llama_gretype.ALT, 0⟩ :: (l2 ++ [⟨llama_gretype.END, 0⟩])) := by
      rw [hrule]; simp
    have hrule2 : rules.getD r [] = (pre ++ l1 ++ [⟨llama_gretype.ALT, 0⟩]) ++ l2 ++
        [⟨llama_gretype.END, 0⟩] := by
      rw [hrule]; simp
    obtain ⟨h1, h2⟩ := ih _ hrule2
    have hlen : (pre ++ l1 ++ [(⟨llama_gretype.ALT, 0⟩ : llama_grammar_element)]).length =
        pre.length + l1.length + 1 := by
      simp only [List.length_append, List.length_cons, List.length_nil]
    rw [hlen] at h1 h2
    refine ⟨item_seq_wf rules r l1 hl1 pre _ hrule1 rfl, ?_⟩
    intro sub hsub
    rw [List.append_assoc, List.cons_append,
      scan_alternates_items l1 (item_seq_not_end l1 hl1)] at hsub
    rw [scan_alternates] at hsub
    simp only [List.mem_cons] at hsub
    rcases hsub with hsub | hsub
    · rw [hsub]; exact h1
    · exact h2 sub hsub

/-- A table of rules of the shape `rule_ok` is a grammar of items. -/
theorem table_ok_grammar_wf (rules : llama_grammar_rules) (h : table_ok rules) :
    grammar_wf rules := by
  intro r sub hsub
  have hrule : rule_ok (rules.getD r []) := by
    by_cases hr : r < rules.length
    · exact h _ (rule_mem_of_lt rules r hr)
    · left
      exact List.getD_eq_default _ _ (Nat.le_of_not_lt hr)
  rcases hrule with hnil | ⟨body, hbody, hb⟩
  · rw [hnil] at hsub
    simp only [rule_alternates, scan_alternates, List.mem_singleton] at hsub
    subst hsub
    apply seq_wf.done
    unfold rules_at
    simp only
    rw [hnil]
    rfl
  · obtain ⟨h1, h2⟩ := alt_seq_wf rules r body hbody [] (by rw [hb]; simp)
    rw [hb] at hsub
    unfold rule_alternates at hsub
    rcases List.mem_cons.mp hsub with h0 | h0
    · subst h0; exact h1
    · exact h2 sub h0

theorem foldlM_no_abort {α β : Type} (f : β → α → Run β) :
    ∀ (l : List α) (acc : β), (∀ a ∈ l, ∀ acc, f acc a ≠ .error Fault.abort) →
      l.foldlM f acc ≠ .error Fault.abort := by
  intro l
  induction l with
  | nil => intro acc _ h; simp [List.foldlM_nil, pure, Except.pure] at h
  | cons a as ih =>
    intro acc hstep h
    simp only [List.foldlM_cons, bind, Except.bind] at h
    cases ha : f acc a with
    | error e =>
      rw [ha] at h
      simp only [Except.error.injEq] at h
      subst h
      exact hstep a (List.mem_cons_self _ _) acc ha
    | ok r =>
      rw [ha] at h
      exact ih r (fun b hb => hstep b (List.mem_cons_of_mem _ hb)) h

theorem stack_wf_top_type (rules : llama_grammar_rules) (pos : elem_ptr)
    (rest : llama_grammar_stack) (hst : stack_wf rules (pos :: rest)) :
    (rules_at rules pos).type = llama_gretype.RULE_REF ∨
      (rules_at rules pos).type = llama_gretype.CHAR ∨
      (rules_at rules pos).type = llama_gretype.CHAR_NOT ∨
      (rules_at rules pos).type = llama_gretype.CHAR_ANY := by
  obtain ⟨hseq, hne⟩ := hst pos (List.mem_cons_self _ _)
  cases hseq with
  | done _ hend => rw [hend] at hne; cases hne
  | char _ cls hcls _ => exact Or.inr (class_head_type rules pos cls hcls)
  | ref _ hty _ => exact Or.inl hty

/-- The fatal-error branch of `llama_grammar_advance_stack` is not reached
from a stack of item positions. -/
theorem advance_stack_no_abort (rules : llama_grammar_rules) (hg : grammar_wf rules) :
    ∀ (fuel : Nat) (stack : llama_grammar_stack) (acc : llama_grammar_stacks),
      stack_wf rules stack →
      llama_grammar_advance_stack fuel rules stack acc ≠ .error Fault.abort := by
  intro fuel
  induction fuel with
  | zero => intro stack acc _ h; simp [llama_grammar_advance_stack] at h
  | succ n ih =>
    intro stack acc hst h
    unfold llama_grammar_advance_stack at h
    cases stack with
    | nil => cases h
    | cons pos rest =>
      simp only at h
      rcases stack_wf_top_type rules pos rest hst with ht | ht | ht | ht
      · simp only [ht] at h
        refine foldlM_no_abort _ _ acc ?_ h
        intro sub hsub acc1
        exact ih _ acc1
          (push_unless_end_wf rules _ _ (hg _ sub hsub)
            (push_unless_end_wf rules _ _
              (seq_wf_after_ref rules pos ht (hst pos (List.mem_cons_self _ _)).1)
              (stack_wf_tail rules pos rest hst)))
      · simp only [ht] at h
        cases h
      · simp only [ht] at h
        cases h
      · simp only [ht] at h
        cases h

theorem accept_stack_no_abort (rules : llama_grammar_rules) (hg : grammar_wf rules)
    (fuel chr : Nat) (acc : llama_grammar_stacks) (stack : llama_grammar_stack)
    (hst : stack_wf rules stack) (htop : stack_top_ok rules stack = true) :
    accept_stack fuel rules chr acc stack ≠ .error Fault.abort := by
  intro h
  cases stack with
  | nil => cases h
  | cons top rest =>
    obtain ⟨cls, hc, hnext⟩ := stack_top_is_class rules top rest hst htop
    unfold accept_stack at h
    simp only [match_char_at_class rules top cls chr hc] at h
    split at h
    · exact advance_stack_no_abort rules hg fuel _ acc
        (push_unless_end_wf rules _ _ hnext (stack_wf_tail rules top rest hst)) h
    · cases h

theorem accept_stacks_no_abort (rules : llama_grammar_rules) (hg : grammar_wf rules)
    (fuel chr : Nat) (ss : llama_grammar_stacks) (hss : frontier_wf rules ss)
    (hok : frontier_ok rules ss) :
    accept_stacks fuel rules ss chr ≠ .error Fault.abort := by
  unfold accept_stacks
  exact foldlM_no_abort _ ss [] (fun s hs acc =>
    accept_stack_no_abort rules hg fuel chr acc s (hss s hs) (hok s hs))

theorem feed_frontier_no_abort (rules : llama_grammar_rules) (hg : grammar_wf rules)
    (fuel : Nat) :
    ∀ (chrs : List Nat) (ss : llama_grammar_stacks), frontier_wf rules ss →
      frontier_ok rules ss → feed_frontier fuel rules ss chrs ≠ .error Fault.abort := by
  intro chrs
  induction chrs with
  | nil => intro ss _ _ h; cases h
  | cons c cs ih =>
    intro ss hss hok h
    simp only [feed_frontier] at h
    cases ha : accept_stacks fuel rules ss c with
    | error e =>
      rw [ha] at h
      simp only [Except.error.injEq] at h
      subst h
      exact accept_stacks_no_abort rules hg fuel c ss hss hok ha
    | ok r =>
      rw [ha] at h
      exact ih r (accept_stacks_wf rules hg fuel ss c r hss ha)
        (accept_stacks_frontier_ok fuel rules ss c r ha) h

theorem detect_loop_no_abort (detect : Nat → lr_state → Run (Bool × lr_state))
    (hd : ∀ v st, detect v st ≠ .error Fault.abort) :
    ∀ (es : llama_grammar_rule) (flag : Bool) (st : lr_state),
      detect_loop detect es flag st ≠ .error Fault.abort := by
  intro es
  induction es with
  | nil => intro flag st h; cases h
  | cons e es ih =>
    intro flag st h
    unfold detect_loop at h
    split at h
    · cases hx : detect e.value st with
      | error err =>
        rw [hx] at h
        simp only [Except.error.injEq] at h
        subst h
        exact hd _ _ hx
      | ok r =>
        obtain ⟨b, st1⟩ := r
        rw [hx] at h
        cases b with
        | true => cases h
        | false =>
          simp only at h
          split at h
          · exact ih _ _ h
          · exact ih _ _ h
    · split at h
      · exact ih _ _ h
      · exact ih _ _ h

theorem detect_no_abort (rules : llama_grammar_rules) :
    ∀ (fuel idx : Nat) (st : lr_state),
      llama_grammar_detect_left_recursion fuel rules idx st ≠ .error Fault.abort := by
  intro fuel
  induction fuel with
  | zero => intro idx st h; simp [llama_grammar_detect_left_recursion] at h
  | succ n ih =>
    intro idx st h
    unfold llama_grammar_detect_left_recursion at h
    split at h
    · cases h
    · simp only at h
      generalize (if rule_has_empty_alternate (rules.getD idx []) true = true then
          ({ rules_visited := st.rules_visited,
             rules_in_progress := st.rules_in_progress.set idx true,
             rules_may_be_empty := st.rules_may_be_empty.set idx true } : lr_state)
        else
          { rules_visited := st.rules_visited,
            rules_in_progress := st.rules_in_progress.set idx true,
            rules_may_be_empty := st.rules_may_be_empty }) = st2 at h
      cases hl : detect_loop (llama_grammar_detect_left_recursion n rules) (rules.getD idx [])
          true st2 with
      | error err =>
        rw [hl] at h
        simp only [Except.error.injEq] at h
        subst h
        exact detect_loop_no_abort _ (fun v st => ih v st) _ _ _ hl
      | ok r =>
        obtain ⟨b, st3⟩ := r
        rw [hl] at h
        cases b <;> cases h

theorem check_no_abort (fuel : Nat) (rules : llama_grammar_rules) :
    ∀ (is : List Nat) (st : lr_state),
      check_left_recursion fuel rules is st ≠ .error Fault.abort := by
  intro is
  induction is with
  | nil => intro st h; cases h
  | cons i is ih =>
    intro st h
    unfold check_left_recursion at h
    split at h
    · exact ih st h
    · cases hd : llama_grammar_detect_left_recursion fuel rules i st with
      | error err =>
        rw [hd] at h
        simp only [Except.error.injEq] at h
        subst h
        exact detect_no_abort rules fuel i st hd
      | ok r =>
        obtain ⟨b, st1⟩ := r
        rw [hd] at h
        cases b with
        | true => cases h
        | false => exact ih st1 h

theorem init_stacks_no_abort (rules : llama_grammar_rules) (hg : grammar_wf rules)
    (fuel start : Nat) : init_stacks fuel rules start ≠ .error Fault.abort := by
  unfold init_stacks
  refine foldlM_no_abort _ _ [] ?_
  intro sub hsub acc
  exact advance_stack_no_abort rules hg fuel _ acc
    (push_unless_end_wf rules _ _ (hg _ sub hsub) (fun p hp => by cases hp))

theorem init_no_abort (rules : llama_grammar_rules) (hcopy : rules.map copy_rule = rules)
    (hg : grammar_wf rules) (fuel start : Nat) (lazy : Bool) (trigger_tokens : List Nat)
    (trigger_patterns : List String) :
    llama_grammar_init_impl fuel rules start lazy trigger_tokens trigger_patterns ≠
      .error Fault.abort := by
  intro h
  unfold llama_grammar_init_impl at h
  simp only [hcopy] at h
  cases hc : check_left_recursion fuel rules (List.range rules.length)
      (lr_state_init rules.length) with
  | error e =>
    rw [hc] at h
    simp only [Except.error.injEq] at h
    subst h
    exact check_no_abort fuel rules _ _ hc
  | ok b =>
    rw [hc] at h
    cases b with
    | true => cases h
    | false =>
      simp only at h
      cases hi : init_stacks fuel rules start with
      | error e =>
        rw [hi] at h
        simp only [Except.error.injEq] at h
        subst h
        exact init_stacks_no_abort rules hg fuel start hi
      | ok r =>
        rw [hi] at h
        cases h

theorem char_ok_of_top (rules : llama_grammar_rules) (pos : elem_ptr)
    (rest : llama_grammar_stack) (h : stack_top_ok rules (pos :: rest) = true) :
    char_ok rules pos = true := by
  unfold stack_top_ok at h
  unfold char_ok
  simp only at h
  generalize (rules_at rules pos).type = t at h
  cases t <;> first | rfl | cases h

/-- The assertions of `llama_grammar_match_char` and
`llama_grammar_match_partial_char` and the fatal-error branch of
`llama_grammar_advance_stack` are not reached by the candidate filter on
stacks of item positions whose top is a character class. -/
theorem reject_no_abort (rules : llama_grammar_rules) (hg : grammar_wf rules) :
    ∀ (f : Nat),
      (∀ (s : llama_grammar_stack) (C : llama_grammar_candidates), stack_wf rules s →
        stack_top_ok rules s = true →
        llama_grammar_reject_candidates_for_stack f rules s C ≠ .error Fault.abort) ∧
      (∀ (ss : llama_grammar_stacks) (C : llama_grammar_candidates), ss ≠ [] →
        frontier_wf rules ss → frontier_ok rules ss →
        llama_grammar_reject_candidates f rules ss C ≠ .error Fault.abort) := by
  intro f
  induction f with
  | zero =>
    constructor
    · intro s C _ _ h
      unfold llama_grammar_reject_candidates_for_stack at h
      cases h
    · intro ss C _ _ _ h
      unfold llama_grammar_reject_candidates at h
      cases h
  | succ f ih =>
    obtain ⟨ih1, ih2⟩ := ih
    constructor
    · intro s C hst htop h
      cases s with
      | nil => rw [reject_for_stack_nil] at h; cases h
      | cons pos rest =>
        obtain ⟨cls, hc, hseq⟩ := stack_top_is_class rules pos rest hst htop
        have hm := match_char_at_class rules pos cls 0 hc
        have hstk : stack_wf rules (push_unless_end rules (pos.add cls.encode.length) rest) :=
          push_unless_end_wf rules _ _ hseq (stack_wf_tail rules pos rest hst)
        unfold llama_grammar_reject_candidates_for_stack at h
        simp only at h
        rw [partition_candidates_eq rules pos (char_ok_of_top rules pos rest htop)] at h
        simp only [hm] at h
        cases ha : llama_grammar_advance_stack f rules
            (push_unless_end rules (pos.add cls.encode.length) rest) [] with
        | error e =>
          rw [ha] at h
          simp only [Except.error.injEq] at h
          subst h
          exact advance_stack_no_abort rules hg f _ [] hstk ha
        | ok ns =>
          rw [ha] at h
          simp only at h
          have hns_ne := advance_stack_ne_nil f rules _ [] ns ha
          have hns_wf := advance_stack_wf rules hg f _ [] ns (fun s hs => by cases hs) hstk ha
          have hns_ok := advance_stack_frontier_ok f rules _ [] ns (frontier_ok_nil rules) ha
          cases hr : llama_grammar_reject_candidates f rules ns
              ((C.filter (advances_here rules pos)).map llama_grammar_candidate.next) with
          | error e =>
            rw [hr] at h
            simp only [Except.error.injEq] at h
            subst h
            exact ih2 ns _ hns_ne hns_wf hns_ok hr
          | ok NR =>
            rw [hr] at h
            cases h
    · intro ss C hne hss hok h
      cases ss with
      | nil => exact absurd rfl hne
      | cons front others =>
        cases C with
        | nil => rw [reject_candidates_nil_batch] at h; cases h
        | cons tok toks =>
          rw [reject_candidates_cons_batch] at h
          cases hfront : llama_grammar_reject_candidates_for_stack f rules front
              (tok :: toks) with
          | error e =>
            rw [hfront] at h
            simp only [Except.error.injEq] at h
            subst h
            exact ih1 front _ (hss front (List.mem_cons_self _ _))
              (hok front (List.mem_cons_self _ _)) hfront
          | ok R0 =>
            rw [hfront] at h
            simp only at h
            exact foldlM_no_abort _ others R0 (fun s hs acc =>
              ih1 s acc (hss s (List.mem_cons_of_mem _ hs))
                (hok s (List.mem_cons_of_mem _ hs))) h

theorem parse_true_loop (fuel : Nat) (src : List Nat) (p : llama_grammar_parser_t)
    (h : parse fuel llama_grammar_parser_t.fresh src = .ok (true, p)) :
    parse_rules_loop fuel (parse_space src true) llama_grammar_parser_t.fresh = .ok p ∧
      validate_rules p p.rules = .ok () := by
  unfold parse at h
  cases hl : parse_rules_loop fuel (parse_space src true) llama_grammar_parser_t.fresh with
  | error e =>
    obtain ⟨f, p1⟩ := e
    rw [hl] at h
    cases f with
    | fuel => cases h
    | thrown e1 =>
      simp only [Except.ok.injEq, Prod.mk.injEq] at h
      exact absurd h.1 (by decide)
  | ok p1 =>
    rw [hl] at h
    simp only at h
    cases hv : validate_rules p1 p1.rules with
    | error e =>
      rw [hv] at h
      simp only [Except.ok.injEq, Prod.mk.injEq] at h
      exact absurd h.1 (by decide)
    | ok u =>
      rw [hv] at h
      simp only [Except.ok.injEq, Prod.mk.injEq, true_and] at h
      subst h
      exact ⟨rfl, hv⟩

/-- The table a successful `parse` leaves: every rule is a non-empty list of
alternatives of items closed by one `END`. -/
theorem parsed_table_ok (fuel : Nat) (src : List Nat) (p : llama_grammar_parser_t)
    (h : parse fuel llama_grammar_parser_t.fresh src = .ok (true, p)) :
    table_ok p.rules ∧ (∀ rule ∈ p.rules, rule ≠ []) := by
  obtain ⟨hl, hv⟩ := parse_true_loop fuel src p h
  refine ⟨parse_rules_loop_items fuel _ _ p ?_ hl, fun rule hr =>
    (validate_rules_ok p p.rules hv rule hr).1⟩
  intro rule hr
  cases hr

theorem parsed_table_copy (rules : llama_grammar_rules) (h : table_ok rules)
    (hne : ∀ rule ∈ rules, rule ≠ []) : rules.map copy_rule = rules := by
  induction rules with
  | nil => rfl
  | cons r rest ih =>
    rw [List.map_cons, copy_rule_of_rule_ok r (h r (List.mem_cons_self _ _))
      (hne r (List.mem_cons_self _ _)),
      ih (fun x hx => h x (List.mem_cons_of_mem _ hx))
        (fun x hx => hne x (List.mem_cons_of_mem _ hx))]

theorem parsed_table_rules_wf (fuel : Nat) (src : List Nat) (p : llama_grammar_parser_t)
    (hfuel : 2 * src.length + 3 ≤ fuel)
    (h : parse fuel llama_grammar_parser_t.fresh src = .ok (true, p)) : rules_wf p.rules := by
  obtain ⟨hl, hv⟩ := parse_true_loop fuel src p h
  obtain ⟨htab, hne⟩ := parsed_table_ok fuel src p h
  have hsp := parse_space_length src true
  have hp : parser_ok p := by
    rcases parse_rules_loop_spec fuel (parse_space src true) llama_grammar_parser_t.fresh
      (by omega) parser_ok_fresh with ⟨e, p1, he⟩ | ⟨p1, he, hp1⟩
    · rw [hl] at he
      cases he
    · rw [hl] at he
      simp only [Except.ok.injEq] at he
      rw [he]
      exact hp1
  intro rule hrule
  refine ⟨copy_rule_of_rule_ok rule (htab rule hrule) (hne rule hrule), fun e he ht => ?_⟩
  exact ((validate_rules_defined p hp hv rule hrule).2 e he ht).1

theorem accept_ok_stacks (fuel : Nat) (g g1 : llama_grammar) (chr : Nat)
    (h : llama_grammar_accept fuel g chr = .ok g1) :
    g1.rules = g.rules ∧ accept_stacks fuel g.rules g.cur_stacks chr = .ok g1.cur_stacks := by
  unfold llama_grammar_accept at h
  cases ha : accept_stacks fuel g.rules g.cur_stacks chr with
  | error e => rw [ha] at h; cases h
  | ok r =>
    rw [ha] at h
    simp only [Except.ok.injEq] at h
    subst h
    exact ⟨rfl, rfl⟩

theorem reached_by_accept_inv (rules : llama_grammar_rules) (hg : grammar_wf rules)
    (g0 : llama_grammar) (h0 : g0.rules = rules) (hwf0 : frontier_wf rules g0.cur_stacks)
    (hok0 : frontier_ok rules g0.cur_stacks) (g : llama_grammar)
    (hr : reached_by_accept g0 g) :
    g.rules = rules ∧ frontier_wf rules g.cur_stacks ∧ frontier_ok rules g.cur_stacks := by
  induction hr with
  | start => exact ⟨h0, hwf0, hok0⟩
  | accept fuel g g1 chr _ hacc ih =>
    obtain ⟨h1, h2, h3⟩ := ih
    obtain ⟨hr1, hs1⟩ := accept_ok_stacks fuel g g1 chr hacc
    rw [h1] at hs1
    exact ⟨hr1.trans h1, accept_stacks_wf rules hg fuel _ chr _ h2 hs1,
      accept_stacks_frontier_ok fuel rules _ chr _ hs1⟩

theorem accept_no_abort (g : llama_grammar) (hg : grammar_wf g.rules)
    (hwf : frontier_wf g.rules g.cur_stacks) (hok : frontier_ok g.rules g.cur_stacks)
    (fuel chr : Nat) : llama_grammar_accept fuel g chr ≠ .error Fault.abort := by
  intro h
  unfold llama_grammar_accept at h
  cases ha : accept_stacks fuel g.rules g.cur_stacks chr with
  | error e =>
    rw [ha] at h
    simp only [Except.error.injEq] at h
    subst h
    exact accept_stacks_no_abort g.rules hg fuel chr _ hwf hok ha
  | ok r => rw [ha] at h; cases h

theorem accept_code_points_no_abort (fuel : Nat) :
    ∀ (chrs : List Nat) (g : llama_grammar), grammar_wf g.rules →
      frontier_wf g.rules g.cur_stacks → frontier_ok g.rules g.cur_stacks →
      accept_code_points fuel g chrs ≠ .error Fault.abort := by
  intro chrs
  induction chrs with
  | nil => intro g _ _ _ h; cases h
  | cons c cs ih =>
    intro g hg hwf hok h
    simp only [accept_code_points] at h
    cases ha : llama_grammar_accept fuel g c with
    | error e =>
      rw [ha] at h
      simp only [Except.error.injEq] at h
      subst h
      exact accept_no_abort g hg hwf hok fuel c ha
    | ok g1 =>
      rw [ha] at h
      obtain ⟨hr1, hs1⟩ := accept_ok_stacks fuel g g1 c ha
      refine ih g1 (hr1 ▸ hg) ?_ ?_ h
      · rw [hr1]
        exact accept_stacks_wf g.rules hg fuel _ c _ hwf hs1
      · rw [hr1]
        exact accept_stacks_frontier_ok fuel g.rules _ c _ hs1

/-- C37. Contract violations are unreachable for parser-produced grammars. For
a rule table `p.rules` left by a `parse` that returned `true`: every alternative
of every rule is a sequence of items (`grammar_wf`); `llama_grammar_init_impl`
on the table never ends in the fatal error, with any start rule and any budget;
and when it returns a session (the left-recursion check passed), then in every
session reached from it by `llama_grammar_accept` calls with any code points,
every stack entry starts a sequence of items and is no `END` or `ALT`, every
stack top is a `CHAR`, `CHAR_NOT` or `CHAR_ANY` element, and neither a further
`llama_grammar_accept`, nor a run of them, nor the candidate filter on a stack
of the frontier or on the non-empty frontier ends in the fatal error, with any
budget. The fatal error of the model stands for the fatal-error branch of
`llama_grammar_advance_stack` and the class-head assertions of
`llama_grammar_match_char` and `llama_grammar_match_partial_char`. When the
budget of the parse covers the text and the table is not left-recursive, a
`llama_grammar_accept` call on such a session returns a session from some
budget on. -/
theorem parsed_grammar_never_aborts (fuel : Nat) (src : List Nat) (p : llama_grammar_parser_t)
    (hparse : parse fuel llama_grammar_parser_t.fresh src = .ok (true, p)) :
    grammar_wf p.rules ∧
    (∀ (fuel1 start : Nat) (lazy : Bool) (tt : List Nat) (tp : List String),
      llama_grammar_init_impl fuel1 p.rules start lazy tt tp ≠ .error Fault.abort) ∧
    (∀ (fuel1 start : Nat) (lazy : Bool) (tt : List Nat) (tp : List String)
      (g0 g : llama_grammar),
      llama_grammar_init_impl fuel1 p.rules start lazy tt tp = .ok (some g0) →
      reached_by_accept g0 g →
        g.rules = p.rules ∧
        frontier_wf g.rules g.cur_stacks ∧
        frontier_ok g.rules g.cur_stacks ∧
        (∀ (fuel2 chr : Nat), llama_grammar_accept fuel2 g chr ≠ .error Fault.abort) ∧
        (∀ (fuel2 : Nat) (chrs : List Nat),
          accept_code_points fuel2 g chrs ≠ .error Fault.abort) ∧
        (∀ (fuel2 : Nat) (C : llama_grammar_candidates), ∀ s ∈ g.cur_stacks,
          llama_grammar_reject_candidates_for_stack fuel2 g.rules s C ≠ .error Fault.abort) ∧
        (∀ (fuel2 : Nat) (C : llama_grammar_candidates), g.cur_stacks ≠ [] →
          llama_grammar_reject_candidates fuel2 g.rules g.cur_stacks C ≠
            .error Fault.abort) ∧
        (2 * src.length + 3 ≤ fuel → ¬ left_recursive p.rules → ∀ (chr : Nat),
          ∃ n, ∀ fuel2, n ≤ fuel2 → ∃ g1, llama_grammar_accept fuel2 g chr = .ok g1)) := by
  obtain ⟨htab, hne⟩ := parsed_table_ok fuel src p hparse
  have hg : grammar_wf p.rules := table_ok_grammar_wf p.rules htab
  have hcopy : p.rules.map copy_rule = p.rules := parsed_table_copy p.rules htab hne
  refine ⟨hg, fun fuel1 start lazy tt tp =>
    init_no_abort p.rules hcopy hg fuel1 start lazy tt tp, ?_⟩
  intro fuel1 start lazy tt tp g0 g hinit hreach
  obtain ⟨h0r, h0s, _, _⟩ := init_impl_some fuel1 p.rules start lazy tt tp g0 hinit
  rw [hcopy] at h0r h0s
  obtain ⟨hr, hwf, hok⟩ := reached_by_accept_inv p.rules hg g0 h0r
    (h0r ▸ init_stacks_wf p.rules hg fuel1 start _ h0s)
    (h0r ▸ init_stacks_frontier_ok fuel1 p.rules start _ h0s) g hreach
  have hg1 : grammar_wf g.rules := hr ▸ hg
  have hwf1 : frontier_wf g.rules g.cur_stacks := hr ▸ hwf
  have hok1 : frontier_ok g.rules g.cur_stacks := hr ▸ hok
  refine ⟨hr, hwf1, hok1, fun fuel2 chr => accept_no_abort g hg1 hwf1 hok1 fuel2 chr,
    fun fuel2 chrs => accept_code_points_no_abort fuel2 chrs g hg1 hwf1 hok1,
    fun fuel2 C s hs => (reject_no_abort g.rules hg1 fuel2).1 s C (hwf1 s hs) (hok1 s hs),
    fun fuel2 C hne1 => (reject_no_abort g.rules hg1 fuel2).2 _ C hne1 hwf1 hok1, ?_⟩
  intro hfuel hnlr chr
  have hrw : rules_wf p.rules := parsed_table_rules_wf fuel src p hfuel hparse
  obtain ⟨n, hn⟩ := accept_stacks_returns p.rules hrw hg hnlr chr g.cur_stacks hwf hok
  refine ⟨n, fun fuel2 hle => ?_⟩
  obtain ⟨res, hres⟩ := hn fuel2 hle
  refine ⟨{ g with cur_stacks := res }, ?_⟩
  unfold llama_grammar_accept
  rw [hr, hres]

theorem parsed_grammar_never_aborts_witness :
    parse 61 llama_grammar_parser_t.fresh (text_bytes "root ::= \"(\" root \")\" | \"\"") =
        .ok (true, ⟨[(text_bytes "root", 0)], parens_rules⟩) ∧
      grammar_wf parens_rules ∧
      llama_grammar_init_impl 4 parens_rules 0 false [] [] = .ok (some parens_session) ∧
      llama_grammar_accept 4 parens_session 0x29 =
        .ok { parens_session with cur_stacks := [] } ∧
      (∀ (fuel2 : Nat) (chrs : List Nat),
        accept_code_points fuel2 parens_session chrs ≠ .error Fault.abort) ∧
      (∀ (fuel2 : Nat),
        llama_grammar_reject_candidates fuel2 parens_rules parens_session.cur_stacks
          parens_candidates ≠ .error Fault.abort) ∧
      ∃ n, ∀ fuel2, n ≤ fuel2 → ∃ g1, llama_grammar_accept fuel2 parens_session 0x28 = .ok g1 :=
  have h := parsed_grammar_never_aborts 61
    (text_bytes "root ::= \"(\" root \")\" | \"\"") ⟨[(text_bytes "root", 0)], parens_rules⟩
    parens_rules_parsed
  have hs := h.2.2 4 0 false [] [] parens_session parens_session rfl reached_by_accept.start
  ⟨parens_rules_parsed, h.1, rfl, rfl, hs.2.2.2.2.1,
    fun fuel2 => hs.2.2.2.2.2.2.1 fuel2 parens_candidates (by decide),
    hs.2.2.2.2.2.2.2 (by decide) parens_not_left_recursive 0x28⟩

/-! ### End-of-generation tokens (C11) -/

/-- C11 (as amended). For an active session (not awaiting a trigger) and a
logit array: `llama_grammar_apply_impl` returns exactly when the candidate
filter returns on the candidates it collects; in the array it returns the entry
of every end-of-generation token has logit `-INFINITY` when no stack of the
frontier is empty and its previous logit when some stack is empty. On an empty
frontier the call returns no array, with any budget: it stops on the assertion
of `llama_grammar_reject_candidates`. On a non-empty frontier of stacks of a
well-formed table without left recursion it returns from some budget on. -/
theorem apply_eog_logit (fuel : Nat) (vocab : llama_vocab) (g : llama_grammar)
    (cur_p : List llama_token_data) (hact : g.awaiting_trigger = false) :
    ((∃ out, llama_grammar_apply_impl fuel vocab g cur_p = .ok out) ↔
      ∃ rejects, llama_grammar_reject_candidates fuel g.rules g.cur_stacks
        (apply_scan vocab g (g.cur_stacks.any List.isEmpty) cur_p 0).2 = .ok rejects) ∧
    (∀ out, llama_grammar_apply_impl fuel vocab g cur_p = .ok out →
      ∀ k d, cur_p.get? k = some d → vocab.is_eog d.id = true →
        out.get? k = some ⟨d.id,
          if g.cur_stacks.any List.isEmpty = true then d.logit
          else logit_t.neg_infinity⟩) ∧
    (g.cur_stacks = [] → ∀ out, llama_grammar_apply_impl fuel vocab g cur_p ≠ .ok out) ∧
    (rules_wf g.rules → grammar_wf g.rules → ¬ left_recursive g.rules → g.cur_stacks ≠ [] →
      frontier_wf g.rules g.cur_stacks → frontier_ok g.rules g.cur_stacks →
      ∃ n, ∀ fuel1, n ≤ fuel1 →
        ∃ out, llama_grammar_apply_impl fuel1 vocab g cur_p = .ok out) := by
  refine ⟨apply_returns_iff_filter fuel vocab g cur_p hact,
    fun out h k d hk heog => apply_eog_entries fuel vocab g cur_p hact out h k d hk heog,
    ?_, fun hwf hg hnlr hne hss hok => apply_returns g hwf hg hnlr hne hss hok hact vocab cur_p⟩
  intro hemp out h
  cases fuel with
  | zero =>
    rw [apply_active_eq 0 vocab g cur_p hact] at h
    unfold llama_grammar_reject_candidates at h
    cases h
  | succ n =>
    rw [apply_empty_frontier_aborts n vocab g cur_p hact hemp] at h
    cases h

/-- C11 (counterexample). Grammar `root ::= "a"`: after
`llama_grammar_accept_impl` has failed on the token "b" the session is active
and no stack of its frontier is empty (it has no stack at all), yet
`llama_grammar_apply_impl` sets no logit of the end-of-generation token 26: with
every budget it stops on the assertion of `llama_grammar_reject_candidates` and
returns no array. -/
theorem eog_logit_on_dead_session :
    llama_grammar_accept_impl 3 letters_vocab (fun _ _ => none) single_a_session 1 =
        .ok (accept_outcome.parse_error single_a_dead_session) ∧
      single_a_dead_session.awaiting_trigger = false ∧
      single_a_dead_session.cur_stacks.any List.isEmpty = false ∧
      letters_vocab.is_eog 26 = true ∧
      (∀ fuel, llama_grammar_apply_impl (fuel + 1) letters_vocab single_a_dead_session
        [⟨26, logit_t.finite 2⟩] = .error Fault.abort) ∧
      ¬ ∃ fuel out, llama_grammar_apply_impl fuel letters_vocab single_a_dead_session
        [⟨26, logit_t.finite 2⟩] = .ok out := by
  refine ⟨rfl, rfl, rfl, rfl, fun fuel => apply_empty_frontier_aborts fuel _ _ _ rfl rfl, ?_⟩
  rintro ⟨fuel, out, h⟩
  cases fuel with
  | zero => cases h
  | succ n =>
    rw [apply_empty_frontier_aborts n _ _ _ rfl rfl] at h
    cases h

theorem apply_eog_logit_witness :
    parens_session.awaiting_trigger = false ∧
      llama_grammar_apply_impl 6 letters_vocab parens_session
          [⟨0, logit_t.finite 1⟩, ⟨26, logit_t.finite 2⟩] =
        .ok [⟨0, logit_t.neg_infinity⟩, ⟨26, logit_t.finite 2⟩] ∧
      [(⟨0, logit_t.neg_infinity⟩ : llama_token_data), ⟨26, logit_t.finite 2⟩].get? 1 =
        some ⟨26, if parens_session.cur_stacks.any List.isEmpty = true then logit_t.finite 2
          else logit_t.neg_infinity⟩ ∧
      llama_grammar_apply_impl 6 letters_vocab single_a_session
          [⟨0, logit_t.finite 1⟩, ⟨26, logit_t.finite 2⟩] =
        .ok [⟨0, logit_t.finite 1⟩, ⟨26, logit_t.neg_infinity⟩] ∧
      [(⟨0, logit_t.finite 1⟩ : llama_token_data), ⟨26, logit_t.neg_infinity⟩].get? 1 =
        some ⟨26, if single_a_session.cur_stacks.any List.isEmpty = true then logit_t.finite 2
          else logit_t.neg_infinity⟩ :=
  ⟨rfl, rfl,
    (apply_eog_logit 6 letters_vocab parens_session
      [⟨0, logit_t.finite 1⟩, ⟨26, logit_t.finite 2⟩] rfl).2.1 _ rfl 1 ⟨26, logit_t.finite 2⟩
      rfl rfl,
    rfl,
    (apply_eog_logit 6 letters_vocab single_a_session
      [⟨0, logit_t.finite 1⟩, ⟨26, logit_t.finite 2⟩] rfl).2.1 _ rfl 1 ⟨26, logit_t.finite 2⟩
      rfl rfl⟩

/-! ### Cloning (C27) -/

theorem store_stack_injective (own : Nat) :
    Function.Injective (fun (stack : llama_grammar_stack) =>
      stack.map (fun p => (⟨own, p⟩ : elem_addr))) := by
  apply List.map_injective_iff.mpr
  intro a b h
  simp only [elem_addr.mk.injEq, true_and] at h
  exact h

theorem push_unless_end_obj_own (mem : grammar_memory) (own : Nat) (p : elem_ptr)
    (stack : llama_grammar_stack) :
    push_unless_end_obj mem ⟨own, p⟩ (stack.map (fun q => (⟨own, q⟩ : elem_addr))) =
      (push_unless_end (memory_rules mem own) p stack).map (fun q => (⟨own, q⟩ : elem_addr)) := by
  unfold push_unless_end_obj push_unless_end memory_at
  simp only
  split <;> rfl

theorem push_unique_obj_own (own : Nat) (ss : llama_grammar_stacks) (s : llama_grammar_stack) :
    push_unique_obj (ss.map (fun stack => stack.map (fun q => (⟨own, q⟩ : elem_addr))))
        (s.map (fun q => (⟨own, q⟩ : elem_addr))) =
      (push_unique ss s).map (fun stack => stack.map (fun q => (⟨own, q⟩ : elem_addr))) := by
  unfold push_unique_obj push_unique
  have hmem : (s.map (fun q => (⟨own, q⟩ : elem_addr)) ∈
      ss.map (fun stack => stack.map (fun q => (⟨own, q⟩ : elem_addr)))) ↔ s ∈ ss :=
    List.mem_map_of_injective (store_stack_injective own)
  by_cases h : s ∈ ss
  · rw [if_pos h, if_pos (hmem.mpr h)]
  · rw [if_neg h, if_neg (fun h1 => h (hmem.mp h1))]
    simp only [List.map_append, List.map_cons, List.map_nil]

theorem foldlM_map_sim {α β γ : Type} (L : β → γ) (f : β → α → Run β) (f1 : γ → α → Run γ) :
    ∀ (l : List α), (∀ a ∈ l, ∀ acc, f1 (L acc) a = (f acc a).map L) →
      ∀ acc, l.foldlM f1 (L acc) = (l.foldlM f acc).map L := by
  intro l
  induction l with
  | nil => intro _ acc; rfl
  | cons a as ih =>
    intro h acc
    simp only [List.foldlM_cons, bind, Except.bind]
    rw [h a (List.mem_cons_self _ _) acc]
    cases f acc a with
    | error e => rfl
    | ok r => exact ih (fun b hb => h b (List.mem_cons_of_mem _ hb)) r

/-- On stacks whose entries all point into the table of the object itself, the
evaluator on addresses does what the evaluator on positions does on that
table. -/
theorem advance_stack_obj_own (mem : grammar_memory) (own : Nat) :
    ∀ (fuel : Nat) (stack : llama_grammar_stack) (acc : llama_grammar_stacks),
      llama_grammar_advance_stack_obj fuel mem own
          (stack.map (fun q => (⟨own, q⟩ : elem_addr)))
          (acc.map (fun s => s.map (fun q => (⟨own, q⟩ : elem_addr)))) =
        (llama_grammar_advance_stack fuel (memory_rules mem own) stack acc).map
          (fun ss => ss.map (fun s => s.map (fun q => (⟨own, q⟩ : elem_addr)))) := by
  intro fuel
  induction fuel with
  | zero => intro stack acc; rfl
  | succ n ih =>
    intro stack acc
    cases stack with
    | nil =>
      unfold llama_grammar_advance_stack_obj llama_grammar_advance_stack
      simp only [List.map_nil]
      have := push_unique_obj_own own acc []
      simp only [List.map_nil] at this
      rw [this]
      rfl
    | cons pos rest =>
      have hpu := push_unique_obj_own own acc (pos :: rest)
      simp only [List.map_cons] at hpu
      unfold llama_grammar_advance_stack_obj llama_grammar_advance_stack
      simp only [List.map_cons]
      have hat : memory_at mem ⟨own, pos⟩ = rules_at (memory_rules mem own) pos := rfl
      rw [hat]
      cases hty : (rules_at (memory_rules mem own) pos).type with
      | RULE_REF =>
        simp only
        refine foldlM_map_sim
          (fun ss : llama_grammar_stacks =>
            ss.map (fun s => s.map (fun q => (⟨own, q⟩ : elem_addr)))) _ _ _ ?_ acc
        intro sub _ acc1
        have hadd : (⟨own, pos⟩ : elem_addr).add 1 = ⟨own, pos.add 1⟩ := rfl
        rw [hadd, push_unless_end_obj_own, push_unless_end_obj_own]
        exact ih _ acc1
      | CHAR => simp only; rw [hpu]; rfl
      | CHAR_NOT => simp only; rw [hpu]; rfl
      | CHAR_ANY => simp only; rw [hpu]; rfl
      | END => rfl
      | ALT => rfl
      | CHAR_RNG_UPPER => rfl
      | CHAR_ALT => rfl

theorem accept_stack_obj_own (mem : grammar_memory) (own : Nat) (fuel chr : Nat)
    (acc : llama_grammar_stacks) (stack : llama_grammar_stack) :
    accept_stack_obj fuel mem own chr
        (acc.map (fun s => s.map (fun q => (⟨own, q⟩ : elem_addr))))
        (stack.map (fun q => (⟨own, q⟩ : elem_addr))) =
      (accept_stack fuel (memory_rules mem own) chr acc stack).map
        (fun ss => ss.map (fun s => s.map (fun q => (⟨own, q⟩ : elem_addr)))) := by
  cases stack with
  | nil => rfl
  | cons top rest =>
    unfold accept_stack_obj accept_stack llama_grammar_match_char_obj
    simp only [List.map_cons]
    cases hm : llama_grammar_match_char (memory_rules mem own) top chr with
    | error e => rfl
    | ok m =>
      simp only
      cases hb : m.1 with
      | false => rfl
      | true =>
        simp only [if_true]
        rw [push_unless_end_obj_own]
        exact advance_stack_obj_own mem own fuel _ acc

theorem accept_stacks_obj_own (mem : grammar_memory) (own : Nat) (fuel chr : Nat)
    (ss : llama_grammar_stacks) :
    accept_stacks_obj fuel mem own
        (ss.map (fun s => s.map (fun q => (⟨own, q⟩ : elem_addr)))) chr =
      (accept_stacks fuel (memory_rules mem own) ss chr).map
        (fun ss => ss.map (fun s => s.map (fun q => (⟨own, q⟩ : elem_addr)))) := by
  unfold accept_stacks_obj accept_stacks
  rw [List.foldlM_map]
  exact foldlM_map_sim
    (fun ss : llama_grammar_stacks =>
      ss.map (fun s => s.map (fun q => (⟨own, q⟩ : elem_addr))))
    (accept_stack fuel (memory_rules mem own) chr)
    (fun acc s => accept_stack_obj fuel mem own chr acc
      (s.map (fun q => (⟨own, q⟩ : elem_addr)))) ss
    (fun s _ acc => accept_stack_obj_own mem own fuel chr acc s) []

theorem accept_obj_own (mem : grammar_memory) (own : Nat) (fuel chr : Nat) (g : llama_grammar)
    (hrules : memory_rules mem own = g.rules) :
    llama_grammar_accept_obj fuel mem own (store_session own g) chr =
      (llama_grammar_accept fuel g chr).map (store_session own) := by
  unfold llama_grammar_accept_obj llama_grammar_accept
  have h := accept_stacks_obj_own mem own fuel chr g.cur_stacks
  rw [hrules] at h
  have hs : (store_session own g).cur_stacks =
      g.cur_stacks.map (fun s => s.map (fun q => (⟨own, q⟩ : elem_addr))) := rfl
  rw [hs, h]
  cases accept_stacks fuel g.rules g.cur_stacks chr with
  | error e => rfl
  | ok r => rfl

theorem accept_code_points_obj_own (mem : grammar_memory) (own : Nat) (fuel : Nat) :
    ∀ (chrs : List Nat) (g : llama_grammar), memory_rules mem own = g.rules →
      accept_code_points_obj fuel mem own (store_session own g) chrs =
        (accept_code_points fuel g chrs).map (store_session own) := by
  intro chrs
  induction chrs with
  | nil => intro g _; rfl
  | cons c cs ih =>
    intro g hrules
    simp only [accept_code_points_obj, accept_code_points]
    rw [accept_obj_own mem own fuel c g hrules]
    cases ha : llama_grammar_accept fuel g c with
    | error e => rfl
    | ok g1 =>
      have hr : g1.rules = g.rules := (accept_ok_stacks fuel g g1 c ha).1
      exact ih g1 (hrules.trans hr.symm)

theorem accept_str_obj_own (mem : grammar_memory) (own : Nat) (fuel : Nat) (g : llama_grammar)
    (piece : List Nat) (hrules : memory_rules mem own = g.rules) :
    llama_grammar_accept_str_obj fuel mem own (store_session own g) piece =
      (llama_grammar_accept_str fuel g piece).map (store_outcome own) := by
  unfold llama_grammar_accept_str_obj llama_grammar_accept_str
  have hp : (store_session own g).partial_utf8 = g.partial_utf8 := rfl
  simp only [hp]
  rw [accept_code_points_obj_own mem own fuel _ g hrules]
  cases accept_code_points fuel g (decode_utf8 piece g.partial_utf8).1.dropLast with
  | error e => rfl
  | ok g1 =>
    simp only [Except.map]
    have he : (store_session own g1).cur_stacks.isEmpty = g1.cur_stacks.isEmpty := by
      unfold store_session
      simp only
      cases g1.cur_stacks <;> rfl
    cases hb : g1.cur_stacks.isEmpty with
    | true =>
      have hb1 : (store_session own g1).cur_stacks.isEmpty = true := he.trans hb
      simp only [hb1, hb, if_true]
      rfl
    | false =>
      have hb1 : (store_session own g1).cur_stacks.isEmpty = false := he.trans hb
      simp only [hb1, hb, Bool.false_eq_true, if_false]
      rfl

theorem accept_impl_obj_own (mem : grammar_memory) (own : Nat) (fuel : Nat)
    (vocab : llama_vocab) (regex_match : String → List Nat → Option (List (Nat × Nat)))
    (g : llama_grammar) (token : Nat) (hrules : memory_rules mem own = g.rules) :
    llama_grammar_accept_impl_obj fuel vocab regex_match mem own (store_session own g) token =
      (llama_grammar_accept_impl fuel vocab regex_match g token).map (store_outcome own) := by
  unfold llama_grammar_accept_impl_obj llama_grammar_accept_impl
  have h1 : (store_session own g).awaiting_trigger = g.awaiting_trigger := rfl
  have h2 : (store_session own g).trigger_tokens = g.trigger_tokens := rfl
  have h3 : (store_session own g).trigger_buffer = g.trigger_buffer := rfl
  have h4 : (store_session own g).trigger_patterns = g.trigger_patterns := rfl
  have h6 : (store_session own g).cur_stacks.any List.isEmpty =
      g.cur_stacks.any List.isEmpty := by
    show (g.cur_stacks.map (fun s => s.map (fun q => (⟨own, q⟩ : elem_addr)))).any
      List.isEmpty = _
    induction g.cur_stacks with
    | nil => rfl
    | cons s ss ih =>
      simp only [List.map_cons, List.any_cons, ih]
      cases s <;> rfl
  simp only [h1, h2, h3, h4, h6]
  by_cases ha : g.awaiting_trigger = true
  · simp only [ha, if_true]
    by_cases ht : token ∈ g.trigger_tokens
    · simp only [ht, if_true]
      exact accept_str_obj_own mem own fuel
        { g with awaiting_trigger := false, trigger_buffer := [] } _ hrules
    · simp only [ht, if_false]
      cases find_trigger regex_match (g.trigger_buffer ++ vocab.token_to_piece token)
          g.trigger_patterns with
      | some start =>
        exact accept_str_obj_own mem own fuel
          { g with awaiting_trigger := false, trigger_buffer := [] } _ hrules
      | none => rfl
  · simp only [ha, Bool.false_eq_true, if_false]
    by_cases he : vocab.is_eog token = true
    · simp only [he, if_true]
      cases g.cur_stacks.any List.isEmpty <;> rfl
    · simp only [he, Bool.false_eq_true, if_false]
      exact accept_str_obj_own mem own fuel g _ hrules

theorem clone_redirect_inner (entry : elem_addr) (src dst ir0 : Nat) :
    ∀ (l : List Nat) (acc : elem_addr),
      l.foldl (fun acc1 ir1 =>
          if entry = ⟨src, ⟨ir0, ir1⟩⟩ then (⟨dst, ⟨ir0, ir1⟩⟩ : elem_addr) else acc1) acc =
        if entry.owner = src ∧ entry.pos.rule = ir0 ∧ entry.pos.idx ∈ l then
          ⟨dst, entry.pos⟩ else acc := by
  intro l
  induction l with
  | nil =>
    intro acc
    simp only [List.foldl_nil, List.not_mem_nil, and_false, if_false]
  | cons a l ih =>
    intro acc
    rw [List.foldl_cons, ih]
    obtain ⟨o, r, i⟩ := entry
    simp only [elem_addr.mk.injEq, elem_ptr.mk.injEq, List.mem_cons]
    by_cases h3 : o = src ∧ r = ir0 ∧ i ∈ l
    · rw [if_pos h3, if_pos ⟨h3.1, h3.2.1, Or.inr h3.2.2⟩]
    · rw [if_neg h3]
      by_cases h4 : o = src ∧ r = ir0 ∧ i = a
      · rw [if_pos h4, if_pos ⟨h4.1, h4.2.1, Or.inl h4.2.2⟩]
        obtain ⟨_, h5, h6⟩ := h4
        rw [h5, h6]
      · rw [if_neg h4, if_neg]
        rintro ⟨h5, h6, h7 | h7⟩
        · exact h4 ⟨h5, h6, h7⟩
        · exact h3 ⟨h5, h6, h7⟩

theorem clone_redirect_outer (entry : elem_addr) (src dst : Nat) (rules : llama_grammar_rules) :
    ∀ (l : List Nat) (acc : elem_addr),
      l.foldl (fun acc ir0 =>
          (List.range (rules.getD ir0 []).length).foldl (fun acc1 ir1 =>
            if entry = ⟨src, ⟨ir0, ir1⟩⟩ then (⟨dst, ⟨ir0, ir1⟩⟩ : elem_addr) else acc1)
            acc) acc =
        if entry.owner = src ∧ entry.pos.rule ∈ l ∧
            entry.pos.idx < (rules.getD entry.pos.rule []).length then
          ⟨dst, entry.pos⟩ else acc := by
  intro l
  induction l with
  | nil =>
    intro acc
    simp only [List.foldl_nil, List.not_mem_nil, false_and, and_false, if_false]
  | cons a l ih =>
    intro acc
    rw [List.foldl_cons, ih, clone_redirect_inner]
    simp only [List.mem_range, List.mem_cons]
    by_cases h3 : entry.owner = src ∧ entry.pos.rule ∈ l ∧
        entry.pos.idx < (rules.getD entry.pos.rule []).length
    · rw [if_pos h3, if_pos ⟨h3.1, Or.inr h3.2.1, h3.2.2⟩]
    · rw [if_neg h3]
      by_cases h4 : entry.owner = src ∧ entry.pos.rule = a ∧
          entry.pos.idx < (rules.getD a []).length
      · rw [if_pos h4, if_pos]
        obtain ⟨h5, h6, h7⟩ := h4
        exact ⟨h5, Or.inl h6, by rw [h6]; exact h7⟩
      · rw [if_neg h4, if_neg]
        rintro ⟨h5, h6 | h6, h7⟩
        · exact h4 ⟨h5, h6, by rw [← h6]; exact h7⟩
        · exact h3 ⟨h5, h6, h7⟩

/-- What the redirection loops of `llama_grammar_clone_impl` do to one stack
entry: an entry that is the address of an element of the source's table becomes
the address of the element with the same indices of the copy's table; any
other entry is left as it is. -/
theorem clone_redirect_spec (src dst : Nat) (rules : llama_grammar_rules) (entry : elem_addr) :
    clone_redirect src rules dst entry =
      if entry.owner = src ∧ entry.pos.rule < rules.length ∧
          entry.pos.idx < (rules.getD entry.pos.rule []).length then
        ⟨dst, entry.pos⟩ else entry := by
  unfold clone_redirect
  rw [clone_redirect_outer]
  simp only [List.mem_range]

theorem memory_rules_stored (mem : grammar_memory) (own : Nat) (g : llama_grammar)
    (h : mem[own]? = some (store_session own g)) : memory_rules mem own = g.rules := by
  unfold memory_rules
  rw [h]
  rfl

/-- Cloning a session whose stack entries point at elements of its own table:
the copy is the same session laid out at the new address, with every stack
entry pointing into the copy's own table. -/
theorem clone_stored (mem : grammar_memory) (src : Nat) (g : llama_grammar)
    (hsrc : mem[src]? = some (store_session src g))
    (hent : frontier_entries_ok g.rules g.cur_stacks) :
    llama_grammar_clone_impl mem src =
      some (mem.length, mem ++ [store_session mem.length g]) := by
  unfold llama_grammar_clone_impl
  rw [hsrc]
  simp only [Option.some.injEq, Prod.mk.injEq, true_and]
  congr 2
  unfold store_session
  simp only [grammar_object.mk.injEq, and_true, true_and, List.map_map]
  apply List.map_congr_left
  intro stack hstack
  simp only [Function.comp, List.map_map]
  apply List.map_congr_left
  intro p hp
  simp only [Function.comp]
  rw [clone_redirect_spec]
  obtain ⟨h1, h2⟩ := entry_ok_in_table g.rules p (hent stack hstack p hp)
  rw [if_pos ⟨rfl, h1, h2⟩]

theorem store_outcome_object (own : Nat) (o : accept_outcome) :
    (store_outcome own o).object = store_session own o.grammar := by
  cases o <;> rfl

/-- A call of `llama_grammar_accept_impl` on a session whose stack entries
point into its own table does what the call on positions does, and leaves the
session laid out at the same address; it reads nothing but the object
itself. -/
theorem accept_impl_at_stored (fuel : Nat) (vocab : llama_vocab)
    (regex_match : String → List Nat → Option (List (Nat × Nat)))
    (mem : grammar_memory) (own : Nat) (g : llama_grammar) (token : Nat)
    (hown : mem[own]? = some (store_session own g)) :
    llama_grammar_accept_impl_at fuel vocab regex_match mem own token =
      (llama_grammar_accept_impl fuel vocab regex_match g token).map
        (fun o => (store_outcome own o, mem.set own (store_session own o.grammar))) := by
  unfold llama_grammar_accept_impl_at
  rw [hown]
  simp only
  rw [accept_impl_obj_own mem own fuel vocab regex_match g token
    (memory_rules_stored mem own g hown)]
  cases llama_grammar_accept_impl fuel vocab regex_match g token with
  | error e => rfl
  | ok o =>
    simp only [Except.map]
    rw [store_outcome_object]

theorem getElem?_snoc_cases {α : Type} (l : List α) (x y : α) (i : Nat)
    (h : (l ++ [x])[i]? = some y) : l[i]? = some y ∨ (i = l.length ∧ y = x) := by
  by_cases hi : i < l.length
  · rw [List.getElem?_append_left hi] at h
    exact Or.inl h
  · have hle : l.length ≤ i := Nat.le_of_not_lt hi
    rw [List.getElem?_append_right hle] at h
    have h0 : i - l.length = 0 := by
      by_contra hne
      have : ([x] : List α)[i - l.length]? = none := by
        apply List.getElem?_eq_none
        simp only [List.length_singleton]
        omega
      rw [this] at h
      cases h
    rw [h0] at h
    simp only [List.getElem?_cons_zero, Option.some.injEq] at h
    exact Or.inr ⟨by omega, h.symm⟩

/-- Every object of a memory a host can build is a session a host can reach,
laid out with every stack entry pointing into the object's own table. -/
theorem memory_reachable_stored (mem : grammar_memory) (h : memory_reachable mem) :
    ∀ (i : Nat) (obj : grammar_object), mem[i]? = some obj →
      ∃ g, session_reachable g ∧ obj = store_session i g := by
  induction h with
  | empty =>
    intro i obj hi
    simp only [List.getElem?_nil] at hi
    cases hi
  | init fuel mem rules start lazy tt tp dst mem1 _ hinit ih =>
    intro i obj hi
    unfold llama_grammar_init_impl_at at hinit
    cases hr : llama_grammar_init_impl fuel rules start lazy tt tp with
    | error e => rw [hr] at hinit; cases hinit
    | ok r =>
      rw [hr] at hinit
      cases r with
      | none => simp only [Except.ok.injEq] at hinit; cases hinit
      | some g =>
        simp only [Except.ok.injEq, Option.some.injEq, Prod.mk.injEq] at hinit
        obtain ⟨_, hm⟩ := hinit
        rw [← hm] at hi
        rcases getElem?_snoc_cases _ _ _ _ hi with h1 | ⟨h1, h2⟩
        · exact ih i obj h1
        · exact ⟨g, session_reachable.init fuel rules start lazy tt tp g hr, by rw [h2, h1]⟩
  | clone mem src dst mem1 _ hclone ih =>
    intro i obj hi
    cases hs : mem[src]? with
    | none =>
      unfold llama_grammar_clone_impl at hclone
      rw [hs] at hclone
      cases hclone
    | some objs =>
      obtain ⟨gs, hgs, hobjs⟩ := ih src objs hs
      rw [hobjs] at hs
      rw [clone_stored mem src gs hs (reachable_entries_ok gs hgs)] at hclone
      simp only [Option.some.injEq, Prod.mk.injEq] at hclone
      obtain ⟨_, hm⟩ := hclone
      rw [← hm] at hi
      rcases getElem?_snoc_cases _ _ _ _ hi with h1 | ⟨h1, h2⟩
      · exact ih i obj h1
      · exact ⟨gs, hgs, by rw [h2, h1]⟩
  | accept_impl fuel vocab regex_match mem own token o mem1 _ hacc ih =>
    intro i obj hi
    cases hs : mem[own]? with
    | none =>
      unfold llama_grammar_accept_impl_at at hacc
      rw [hs] at hacc
      cases hacc
    | some objo =>
      obtain ⟨g, hg, hobjo⟩ := ih own objo hs
      rw [hobjo] at hs
      rw [accept_impl_at_stored fuel vocab regex_match mem own g token hs] at hacc
      cases ha : llama_grammar_accept_impl fuel vocab regex_match g token with
      | error e => rw [ha] at hacc; cases hacc
      | ok o1 =>
        rw [ha] at hacc
        simp only [Except.map, Except.ok.injEq, Prod.mk.injEq] at hacc
        obtain ⟨_, hm⟩ := hacc
        rw [← hm, List.getElem?_set] at hi
        by_cases hio : own = i
        · rw [if_pos hio] at hi
          split at hi
          · simp only [Option.some.injEq] at hi
            exact ⟨o1.grammar,
              session_reachable.accept_impl fuel vocab regex_match g token o1 hg ha,
              by rw [← hi, hio]⟩
          · cases hi
        · rw [if_neg hio] at hi
          exact ih i obj hi

/-- C27. Cloning commutes with accepting. Let `mem` be a memory a host can
build, with a session object `obj` at the address `src`, on which
`llama_grammar_accept_impl` accepts the token and leaves the object `obj1`.
Then `obj` and `obj1` are sessions `s` and `s1` a host can reach, laid out with
every stack entry pointing into the object's own table; on positions the call
takes `s` to `s1`, and it writes no object but the one at `src`.
`llama_grammar_clone_impl` puts at the next free address the session `s` with
every stack entry redirected into the copy's own table. Accepting the token on
that clone leaves there the session `s1`, again with every stack entry in the
clone's own table: the object that cloning the source after its accept gives,
with the same rule table, the same stacks as sequences of (rule index, element
index) positions, the same partial UTF-8 tail and trigger state. The accept on
the clone leaves the source and every other object as they were, and it gives
the same result in any memory that holds the clone at its address, whatever
has become of the source. -/
theorem clone_commutes_with_accept (fuel : Nat) (vocab : llama_vocab)
    (regex_match : String → List Nat → Option (List (Nat × Nat)))
    (mem : grammar_memory) (src : Nat) (obj obj1 : grammar_object) (token : Nat)
    (mem1 : grammar_memory) (hmem : memory_reachable mem) (hsrc : mem[src]? = some obj)
    (hacc : llama_grammar_accept_impl_at fuel vocab regex_match mem src token =
      .ok (accept_outcome_obj.done obj1, mem1)) :
    ∃ s s1 : llama_grammar,
      (session_reachable s ∧ obj = store_session src s) ∧
      (session_reachable s1 ∧ obj1 = store_session src s1) ∧
      llama_grammar_accept_impl fuel vocab regex_match s token =
        .ok (accept_outcome.done s1) ∧
      mem1 = mem.set src obj1 ∧
      llama_grammar_clone_impl mem src =
        some (mem.length, mem ++ [store_session mem.length s]) ∧
      llama_grammar_accept_impl_at fuel vocab regex_match
          (mem ++ [store_session mem.length s]) mem.length token =
        .ok (accept_outcome_obj.done (store_session mem.length s1),
          mem ++ [store_session mem.length s1]) ∧
      llama_grammar_clone_impl mem1 src =
        some (mem.length, mem1 ++ [store_session mem.length s1]) ∧
      (∀ i, i < mem.length → (mem ++ [store_session mem.length s1])[i]? = mem[i]?) ∧
      (∀ mem2 : grammar_memory, mem2[mem.length]? = some (store_session mem.length s) →
        llama_grammar_accept_impl_at fuel vocab regex_match mem2 mem.length token =
          .ok (accept_outcome_obj.done (store_session mem.length s1),
            mem2.set mem.length (store_session mem.length s1))) := by
  obtain ⟨s, hs, hobj⟩ := memory_reachable_stored mem hmem src obj hsrc
  rw [hobj] at hsrc
  rw [accept_impl_at_stored fuel vocab regex_match mem src s token hsrc] at hacc
  cases ha : llama_grammar_accept_impl fuel vocab regex_match s token with
  | error e => rw [ha] at hacc; cases hacc
  | ok o =>
    rw [ha] at hacc
    simp only [Except.map, Except.ok.injEq, Prod.mk.injEq] at hacc
    obtain ⟨ho, hm⟩ := hacc
    cases o with
    | parse_error g1 => cases ho
    | done s1 =>
      simp only [store_outcome, accept_outcome_obj.done.injEq] at ho
      have hm1 : mem.set src (store_session src s1) = mem1 := hm
      have hs1 : session_reachable s1 :=
        session_reachable.accept_impl fuel vocab regex_match s token (accept_outcome.done s1)
          hs ha
      have hlt : src < mem.length := by
        by_contra hge
        rw [List.getElem?_eq_none (Nat.le_of_not_lt hge)] at hsrc
        cases hsrc
      have hon : ∀ (mem2 : grammar_memory),
          mem2[mem.length]? = some (store_session mem.length s) →
          llama_grammar_accept_impl_at fuel vocab regex_match mem2 mem.length token =
            .ok (accept_outcome_obj.done (store_session mem.length s1),
              mem2.set mem.length (store_session mem.length s1)) := by
        intro mem2 h2
        rw [accept_impl_at_stored fuel vocab regex_match mem2 mem.length s token h2, ha]
        rfl
      refine ⟨s, s1, ⟨hs, hobj⟩, ⟨hs1, ho.symm⟩, ha, ?_,
        clone_stored mem src s hsrc (reachable_entries_ok s hs), ?_, ?_,
        fun i hi => List.getElem?_append_left hi, hon⟩
      · rw [← ho]
        exact hm1.symm
      · rw [hon _ (List.getElem?_concat_length mem _),
          List.set_append_right _ _ (Nat.le_refl _), Nat.sub_self]
        rfl
      · have hlen : mem1.length = mem.length := by
          rw [← hm1, List.length_set]
        have h1 : mem1[src]? = some (store_session src s1) := by
          rw [← hm1]
          exact List.getElem?_set_self hlt
        rw [clone_stored mem1 src s1 h1 (reachable_entries_ok s1 hs1), hlen]

theorem clone_commutes_with_accept_witness :
    (memory_reachable [store_session 0 single_a_session] ∧
      ([store_session 0 single_a_session] : grammar_memory)[0]? =
        some (store_session 0 single_a_session) ∧
      llama_grammar_accept_impl_at 4 letters_vocab lookahead_match
          [store_session 0 single_a_session] 0 0 =
        .ok (accept_outcome_obj.done
            (store_session 0 ⟨single_a_rules, [[]], ⟨0x61, 0⟩, false, false, [], [], []⟩),
          [store_session 0 ⟨single_a_rules, [[]], ⟨0x61, 0⟩, false, false, [], [], []⟩])) ∧
    llama_grammar_clone_impl [store_session 0 single_a_session] 0 =
      some (1, [⟨single_a_rules, [[⟨0, ⟨0, 0⟩⟩]], ⟨0, 0⟩, false, false, [], [], []⟩,
        ⟨single_a_rules, [[⟨1, ⟨0, 0⟩⟩]], ⟨0, 0⟩, false, false, [], [], []⟩]) ∧
    llama_grammar_accept_impl_at 4 letters_vocab lookahead_match
        [⟨single_a_rules, [[⟨0, ⟨0, 0⟩⟩]], ⟨0, 0⟩, false, false, [], [], []⟩,
          ⟨single_a_rules, [[⟨1, ⟨0, 0⟩⟩]], ⟨0, 0⟩, false, false, [], [], []⟩] 1 0 =
      .ok (accept_outcome_obj.done ⟨single_a_rules, [[]], ⟨0x61, 0⟩, false, false, [], [], []⟩,
        [⟨single_a_rules, [[⟨0, ⟨0, 0⟩⟩]], ⟨0, 0⟩, false, false, [], [], []⟩,
          ⟨single_a_rules, [[]], ⟨0x61, 0⟩, false, false, [], [], []⟩]) ∧
    ∃ s s1 : llama_grammar,
      (session_reachable s ∧ store_session 0 single_a_session = store_session 0 s) ∧
      (session_reachable s1 ∧
        store_session 0 ⟨single_a_rules, [[]], ⟨0x61, 0⟩, false, false, [], [], []⟩ =
          store_session 0 s1) ∧
      llama_grammar_accept_impl 4 letters_vocab lookahead_match s 0 =
        .ok (accept_outcome.done s1) ∧
      [store_session 0 ⟨single_a_rules, [[]], ⟨0x61, 0⟩, false, false, [], [], []⟩] =
        ([store_session 0 single_a_session] : grammar_memory).set 0
          (store_session 0 ⟨single_a_rules, [[]], ⟨0x61, 0⟩, false, false, [], [], []⟩) ∧
      llama_grammar_clone_impl [store_session 0 single_a_session] 0 =
        some (([store_session 0 single_a_session] : grammar_memory).length,
          [store_session 0 single_a_session] ++
            [store_session ([store_session 0 single_a_session] : grammar_memory).length s]) ∧
      llama_grammar_accept_impl_at 4 letters_vocab lookahead_match
          ([store_session 0 single_a_session] ++
            [store_session ([store_session 0 single_a_session] : grammar_memory).length s])
          ([store_session 0 single_a_session] : grammar_memory).length 0 =
        .ok (accept_outcome_obj.done
            (store_session ([store_session 0 single_a_session] : grammar_memory).length s1),
          [store_session 0 single_a_session] ++
            [store_session ([store_session 0 single_a_session] : grammar_memory).length s1]) ∧
      llama_grammar_clone_impl
          [store_session 0 ⟨single_a_rules, [[]], ⟨0x61, 0⟩, false, false, [], [], []⟩] 0 =
        some (([store_session 0 single_a_session] : grammar_memory).length,
          [store_session 0 ⟨single_a_rules, [[]], ⟨0x61, 0⟩, false, false, [], [], []⟩] ++
            [store_session ([store_session 0 single_a_session] : grammar_memory).length s1]) ∧
      (∀ i, i < ([store_session 0 single_a_session] : grammar_memory).length →
        ([store_session 0 single_a_session] ++
          [store_session ([store_session 0 single_a_session] : grammar_memory).length s1])[i]? =
          ([store_session 0 single_a_session] : grammar_memory)[i]?) ∧
      (∀ mem2 : grammar_memory,
        mem2[([store_session 0 single_a_session] : grammar_memory).length]? =
          some (store_session ([store_session 0 single_a_session] : grammar_memory).length s) →
        llama_grammar_accept_impl_at 4 letters_vocab lookahead_match mem2
            ([store_session 0 single_a_session] : grammar_memory).length 0 =
          .ok (accept_outcome_obj.done
              (store_session ([store_session 0 single_a_session] : grammar_memory).length s1),
            mem2.set ([store_session 0 single_a_session] : grammar_memory).length
              (store_session ([store_session 0 single_a_session] : grammar_memory).length
                s1))) :=
  ⟨⟨memory_reachable.init 4 [] single_a_rules 0 false [] [] 0 _
      memory_reachable.empty rfl, rfl, rfl⟩,
    rfl, rfl,
    clone_commutes_with_accept 4 letters_vocab lookahead_match
      [store_session 0 single_a_session] 0 (store_session 0 single_a_session)
      (store_session 0 ⟨single_a_rules, [[]], ⟨0x61, 0⟩, false, false, [], [], []⟩) 0
      [store_session 0 ⟨single_a_rules, [[]], ⟨0x61, 0⟩, false, false, [], [], []⟩]
      (memory_reachable.init 4 [] single_a_rules 0 false [] [] 0 _
        memory_reachable.empty rfl) rfl rfl⟩

end LlamaGrammar
